import Mathlib

/-!
# Mail ingestion pipeline: spool and resolver

A shallow embedding of `internal/spool` (the atomic on-disk spool) and
`internal/resolver` (the domain/mailbox allowlist), with the properties of the
specification stated and settled over it.

Go strings are modelled as Lean strings (sequences of runes), Go maps as
duplicate-free association lists, and the standard-library routines the code
calls (`strings`, `bufio`, `io`, `os`, `path/filepath`, `time`) by definitions
that follow their documented behaviour.
-/

set_option autoImplicit false

/-! ## Package `strings` -/

namespace strings

/-- The rune map `unicode.ToLower`: ASCII capitals are shifted by `'a' - 'A'`,
other ASCII runes are kept, and runes above `MaxASCII` go through the Unicode
case table `uni`, which is a parameter of the development. -/
def toLowerRune (uni : Char → Char) (c : Char) : Char :=
  if c.toNat ≤ 127 then
    if 65 ≤ c.toNat ∧ c.toNat ≤ 90 then Char.ofNat (c.toNat + 32) else c
  else uni c

/-- The function `strings.ToLower`: every rune is mapped through `unicode.ToLower`. -/
def ToLower (uni : Char → Char) (s : String) : String :=
  ⟨s.data.map (toLowerRune uni)⟩

/-- The function `strings.HasSuffix`. -/
def HasSuffix (s suffix : String) : Bool :=
  decide (suffix.data <:+ s.data)

/-- The function `strings.TrimSuffix`: `s` without the trailing `suffix`, once,
or `s` itself when it does not end with it. -/
def TrimSuffix (s suffix : String) : String :=
  if HasSuffix s suffix then ⟨s.data.take (s.data.length - suffix.data.length)⟩ else s

/-- The function `strings.Index` on rune lists: the position of the first
occurrence of `sep`. -/
def indexAux (sep : List Char) : List Char → Option Nat
  | [] => if sep = [] then some 0 else none
  | c :: cs =>
    if sep <+: c :: cs then some 0
    else (indexAux sep cs).map (· + 1)

/-- The function `strings.Cut`: `s` around the first occurrence of `sep`, and
whether `sep` occurs; `(s, "", false)` when it does not. -/
def Cut (s sep : String) : String × String × Bool :=
  match indexAux sep.data s.data with
  | some i => (⟨s.data.take i⟩, ⟨s.data.drop (i + sep.data.length)⟩, true)
  | none => (s, "", false)

end strings

/-! ## Package `time` -/

namespace time

/-- A `time.Time`: the instant, as seconds since the Unix epoch (`t.Unix()`) and
nanoseconds within that second (`t.Nanosecond()`, below `10^9`), and the offset
of its location in seconds east of UTC. -/
structure Time where
  unix : Int
  nsec : Nat
  offset : Int
deriving DecidableEq, Repr

/-- The method `Time.IsZero`: the instant January 1, year 1, 00:00:00 UTC. -/
def Time.IsZero (t : Time) : Bool := t.unix == -62135596800 && t.nsec == 0

/-- The method `Time.UTC`: the same instant, located in UTC. -/
def Time.UTC (t : Time) : Time := { t with offset := 0 }

/-- The method `Time.Unix`. -/
def Time.Unix (t : Time) : Int := t.unix

/-- The method `Time.Nanosecond`. -/
def Time.Nanosecond (t : Time) : Nat := t.nsec

/-- The proleptic Gregorian date (year, month, day) of a day number counted from
1970-01-01. -/
def civil (days : Int) : Int × Int × Int :=
  let z := days + 719468
  let era := z / 146097
  let doe := z - era * 146097
  let yoe := (doe - doe / 1460 + doe / 36524 - doe / 146096) / 365
  let doy := doe - (365 * yoe + yoe / 4 - yoe / 100)
  let mp := (5 * doy + 2) / 153
  let d := doy - (153 * mp + 2) / 5 + 1
  let m := if mp < 10 then mp + 3 else mp - 9
  let y := yoe + era * 400 + (if m ≤ 2 then 1 else 0)
  (y, m, d)

/-- The decimal digits of `n`, zero-padded on the left to `width`. -/
def digits (width : Nat) (n : Nat) : List Char :=
  let ds := Nat.toDigits 10 n
  List.replicate (width - ds.length) '0' ++ ds

/-- The helper `appendInt` of package `time`: a sign for a negative number, then
its digits zero-padded to `width`. -/
def appendInt (x : Int) (width : Nat) : String :=
  if x < 0 then ⟨'-' :: digits width x.natAbs⟩ else ⟨digits width x.natAbs⟩

/-- The wall-clock seconds of `t` in its own location. -/
def Time.abs (t : Time) : Int := t.unix + t.offset

/-- The method `Time.Format` for the layouts `2006/01/02` and `2006-01-02`: year,
month and day in the location of `t`, joined by `sep`. -/
def Time.formatDate (t : Time) (sep : String) : String :=
  match civil (t.abs / 86400) with
  | (y, m, d) => appendInt y 4 ++ sep ++ appendInt m 2 ++ sep ++ appendInt d 2

/-- The digit string `ds` without its trailing zeros. -/
def trimZeros (ds : List Char) : List Char :=
  (ds.reverse.dropWhile (· == '0')).reverse

/-- The layout element `.999999999`: nothing for a whole second, else a dot and
the nanoseconds without trailing zeros. -/
def fracNano (nsec : Nat) : String :=
  if nsec = 0 then "" else ⟨'.' :: trimZeros (digits 9 nsec)⟩

/-- The layout element `Z07:00`: the letter Z for offset zero, else sign, hours
and minutes. -/
def zoneISO (offset : Int) : String :=
  if offset = 0 then "Z"
  else
    let zone := offset.natAbs / 60
    (if offset ≤ -60 then "-" else "+") ++ appendInt (zone / 60 : Nat) 2 ++ ":"
      ++ appendInt (zone % 60 : Nat) 2

/-- The method `Time.Format` for the layout `time.RFC3339Nano`,
`2006-01-02T15:04:05.999999999Z07:00`. -/
def Time.formatRFC3339Nano (t : Time) : String :=
  let s := t.abs % 86400
  t.formatDate "-" ++ "T" ++ appendInt (s / 3600) 2 ++ ":" ++ appendInt (s % 3600 / 60) 2 ++ ":"
    ++ appendInt (s % 60) 2 ++ fracNano t.nsec ++ zoneISO t.offset

end time

/-! ## Package `github.com/oklog/ulid/v2` -/

namespace ulid

/-- The constant `Encoding`, Crockford's base 32 alphabet. -/
def Encoding : List Char := "0123456789ABCDEFGHJKMNPQRSTVWXYZ".data

/-- The largest timestamp a ULID carries (`ulid.MaxTime()`): 48 bits of
milliseconds. -/
def maxTime : Nat := 2 ^ 48 - 1

/-- The function `ulid.Timestamp`:
`uint64(t.Unix())*1000 + uint64(t.Nanosecond()/int(time.Millisecond))`, in
`uint64` arithmetic. -/
def Timestamp (t : time.Time) : Nat :=
  ((t.Unix % 2 ^ 64).toNat * 1000 + t.Nanosecond / 1000000) % 2 ^ 64

/-- The method `ULID.String`: the 26 base 32 digits of the 128-bit identifier made
of the 48-bit timestamp `ms` and the 80 bits of `entropy`. -/
def encode (ms entropy : Nat) : String :=
  let v := ms * 2 ^ 80 + entropy % 2 ^ 80
  ⟨(List.range 26).map (fun i => Encoding.getD ((v / 2 ^ (5 * (25 - i))) % 32) '0')⟩

/-- The function `ulid.MustNew(ms, entropy).String()`: `ULID.SetTime` refuses a
timestamp above `maxTime` with `ErrBigTime`, on which `MustNew` panics (`none`). -/
def MustNew (ms entropy : Nat) : Option String :=
  if ms ≤ maxTime then some (encode ms entropy) else none

end ulid

/-! ## Package `path/filepath` (Unix) -/

namespace filepath

/-- The elements of a path between its separators, `strings.Split(path, "/")`. -/
def splitSlash : List Char → List (List Char)
  | [] => [[]]
  | c :: cs =>
    if c = '/' then [] :: splitSlash cs
    else (c :: (splitSlash cs).headD []) :: (splitSlash cs).tail

/-- The elements `names` written with a separator between them. -/
def joinSlash : List (List Char) → List Char
  | [] => []
  | [a] => a
  | a :: b :: rest => a ++ '/' :: joinSlash (b :: rest)

/-- One element of the path in `Clean`: an empty element and `.` are dropped, `..`
removes the element before it (or, in a relative path that has none left, is
kept), any other element is appended. -/
def cleanStep (rooted : Bool) (out : List (List Char)) (e : List Char) : List (List Char) :=
  if e = [] ∨ e = ['.'] then out
  else if e = ['.', '.'] then
    match out.getLast? with
    | none => if rooted then out else [e]
    | some last => if last = ['.', '.'] then out ++ [e] else out.dropLast
  else out ++ [e]

/-- The function `filepath.Clean`: the shortest path naming the same file by
purely lexical processing. -/
def Clean (path : String) : String :=
  if path.data = [] then "."
  else
    let rooted := path.data.head? = some '/'
    let out := (splitSlash path.data).foldl (cleanStep rooted) []
    if rooted then ⟨'/' :: joinSlash out⟩
    else if out = [] then "." else ⟨joinSlash out⟩

/-- The function `filepath.Join`: the elements from the first non-empty one on,
separated by slashes, then cleaned; the empty string when all are empty. -/
def Join (elem : List String) : String :=
  match elem.dropWhile (fun e => e.data.isEmpty) with
  | [] => ""
  | es => Clean ⟨joinSlash (es.map String.data)⟩

end filepath

/-! ## Package `encoding/hex` -/

namespace hex

/-- The constant `hextable`. -/
def hextable : List Char := "0123456789abcdef".data

/-- The function `hex.EncodeToString`: two digits of `hextable` for every byte. -/
def EncodeToString (src : List Nat) : String :=
  ⟨src.flatMap (fun v => [hextable.getD (v / 16 % 16) '0', hextable.getD (v % 16) '0'])⟩

end hex

/-! ## Go maps -/

/-- A Go `map[string]V`: its entries, with pairwise distinct keys. -/
abbrev GoMap (V : Type) := List (String × V)

namespace GoMap

variable {V : Type}

/-- The lookup `m[k]` with its presence flag. -/
def get? : GoMap V → String → Option V
  | [], _ => none
  | (k', v) :: m, k => if k' = k then some v else get? m k

/-- The assignment `m[k] = v`: replaces the entry of `k` or adds one. -/
def set : GoMap V → String → V → GoMap V
  | [], k, v => [(k, v)]
  | (k', v') :: m, k, v => if k' = k then (k, v) :: m else (k', v') :: set m k v

/-- The builtin `len(m)`. -/
def len (m : GoMap V) : Nat := m.length

end GoMap

/-! ## The file system

Files are looked up by path. A file holds either raw bytes (a message body) or a
metadata document; `json.MarshalIndent` and the file that carries its output are
kept as the document itself. The operations of package `os` that the spool checks
for an error fail when the run's `Faults` say so, and otherwise behave as on a
POSIX file system. -/

namespace os

/-- The metadata document `metaObj` of `FS.Store`, by its keys. -/
structure Meta where
  id : String
  trace_id : String
  received_at : String
  remote_ip : String
  mail_from : String
  rcpt_to : List String
  domain : String
  mailbox : String
  bytes : Int
  sha256 : String
deriving DecidableEq, Repr

/-- The content of a file. -/
inductive File where
  /-- Raw bytes. -/
  | raw (bytes : List Nat)
  /-- A completely written metadata document. -/
  | json (m : Meta)
  /-- The beginning of a metadata document, cut short by a failed write. -/
  | torn
deriving DecidableEq, Repr

/-- A state of the file system: the file at each path, if there is one. -/
abbrev Files := String → Option File

/-- The failures of one run of `FS.Store`, one entry for each operation whose error
the code checks. -/
structure Faults where
  /-- Whether `os.MkdirAll` fails. -/
  mkdirAll : Bool
  /-- Whether `os.OpenFile` fails on its own account (it always fails on an existing path). -/
  openFile : Bool
  /-- With `some (k, n)`, the write number `k` (from 0) to the open file fails after `n` bytes. -/
  write : Option (Nat × Nat)
  /-- Whether `f.Sync` fails. -/
  sync : Bool
  /-- Whether `f.Close` fails. -/
  close : Bool
  /-- With `some left`, `os.WriteFile` fails, and `left` tells whether it leaves a torn file. -/
  writeFile : Option Bool
  /-- Whether the rename of the body fails. -/
  renameEML : Bool
  /-- Whether the rename of the metadata fails. -/
  renameMeta : Bool
deriving DecidableEq, Repr

/-- The run in which nothing fails. -/
def Faults.none : Faults :=
  { mkdirAll := false, openFile := false, write := Option.none, sync := false, close := false,
    writeFile := Option.none, renameEML := false, renameMeta := false }

/-- The file system during a run: its current state, every state it has been
in since the run began (oldest first, the current one last), and the number of
writes made to the open file. -/
structure World where
  files : Files
  history : List Files
  writes : Nat

/-- The start of a run on the file system `fs`. -/
def World.start (fs : Files) : World := { files := fs, history := [fs], writes := 0 }

/-- A change of the file system: the new state becomes current and is recorded. -/
def World.update (w : World) (fs : Files) : World :=
  { w with files := fs, history := w.history ++ [fs] }

/-- The state `fs` with the file at `path` set to `f` (or removed, for `none`). -/
def Files.put (fs : Files) (path : String) (f : Option File) : Files :=
  fun p => if p = path then f else fs p

/-- The bytes of the file at `path` (none for a missing file or a document). -/
def Files.bytes (fs : Files) (path : String) : List Nat :=
  match fs path with
  | some (File.raw b) => b
  | _ => []

/-- The call `os.OpenFile(path, O_CREATE|O_EXCL|O_WRONLY, perm)`: creates an empty
file; fails (`none`) when the path exists. -/
def World.OpenFileExcl (w : World) (flt : Faults) (path : String) : Option World :=
  if flt.openFile ∨ (w.files path).isSome then Option.none
  else some (w.update (w.files.put path (some (File.raw []))))

/-- The bytes after which the write number `k` to the open file fails, if it does. -/
def Faults.writeFails (flt : Faults) (k : Nat) : Option Nat :=
  match flt.write with
  | some (k1, n) => if k1 = k then some n else Option.none
  | Option.none => Option.none

/-- The method `File.Write` on the file opened at `path`: appends `p`, or, on the
failing write, the first bytes of `p` only; returns the count and whether it failed. -/
def World.Write (w : World) (flt : Faults) (path : String) (p : List Nat) : World × Nat × Bool :=
  match flt.writeFails w.writes with
  | some n =>
    ({ w.update (w.files.put path (some (File.raw (w.files.bytes path ++ p.take n))))
        with writes := w.writes + 1 }, (p.take n).length, true)
  | Option.none =>
    ({ w.update (w.files.put path (some (File.raw (w.files.bytes path ++ p))))
        with writes := w.writes + 1 }, p.length, false)

/-- The call `os.Remove(path)`, its error discarded: the file is gone afterwards. -/
def World.Remove (w : World) (path : String) : World :=
  w.update (w.files.put path Option.none)

/-- The call `os.WriteFile(path, doc, perm)`: creates or truncates the file and
writes the document; returns whether it failed. -/
def World.WriteFile (w : World) (flt : Faults) (path : String) (doc : Meta) : World × Bool :=
  match flt.writeFile with
  | Option.none => (w.update (w.files.put path (some (File.json doc))), false)
  | some true => (w.update (w.files.put path (some File.torn)), true)
  | some false => (w, true)

/-- The call `os.Rename(old, new)`: the file moves to `new`, replacing what was
there; fails (`none`) when `failing` or when `old` does not exist. -/
def World.Rename (w : World) (failing : Bool) (old new : String) : Option World :=
  if failing ∨ (w.files old).isNone then Option.none
  else some (w.update ((w.files.put new (w.files old)).put old Option.none))

end os

/-! ## Package `bufio` -/

namespace bufio

/-- A `bufio.Writer` on the file opened at `path`: the bytes it holds back, its
size and whether a write has failed (`b.err`). -/
structure Writer where
  path : String
  size : Nat
  buf : List Nat
  err : Bool
deriving DecidableEq, Repr

/-- The function `bufio.NewWriterSize`. -/
def NewWriterSize (path : String) (size : Nat) : Writer :=
  { path := path, size := size, buf := [], err := false }

/-- The method `Writer.Available`. -/
def Writer.Available (b : Writer) : Nat := b.size - b.buf.length

/-- The method `Writer.Flush`: writes the buffer to the file; after a failure the
bytes that were not written stay, and the error sticks. Returns whether it failed. -/
def Writer.Flush (b : Writer) (w : os.World) (flt : os.Faults) : os.World × Writer × Bool :=
  if b.err then (w, b, true)
  else if b.buf.length = 0 then (w, b, false)
  else
    match w.Write flt b.path b.buf with
    | (w1, n, failed) =>
      if failed ∨ n < b.buf.length then (w1, { b with buf := b.buf.drop n, err := true }, true)
      else (w1, { b with buf := [] }, false)

/-- The loop of `Writer.Write`, `for len(p) > b.Available() && b.err == nil`: a
write to an empty buffer goes straight to the file, otherwise the buffer is
filled and flushed. Returns what is left of `p` and the count taken. -/
def Writer.writeLoop (flt : os.Faults) :
    Nat → os.World → Writer → List Nat → Nat → os.World × Writer × List Nat × Nat
  | 0, w, b, p, nn => (w, b, p, nn)
  | fuel + 1, w, b, p, nn =>
    if p.length > b.Available ∧ b.err = false then
      if b.buf.length = 0 then
        match w.Write flt b.path p with
        | (w1, n, failed) =>
          Writer.writeLoop flt fuel w1 { b with err := failed } (p.drop n) (nn + n)
      else
        let n := min b.Available p.length
        match ({ b with buf := b.buf ++ p.take n } : Writer).Flush w flt with
        | (w1, b1, _) => Writer.writeLoop flt fuel w1 b1 (p.drop n) (nn + n)
    else (w, b, p, nn)

/-- The method `Writer.Write`: returns the count taken and whether it failed. The
loop runs at most twice (a flush empties the buffer, a direct write takes all
of `p`), which `len(p) + 2` rounds cover. -/
def Writer.Write (b : Writer) (w : os.World) (flt : os.Faults) (p : List Nat) :
    os.World × Writer × Nat × Bool :=
  match Writer.writeLoop flt (p.length + 2) w b p 0 with
  | (w1, b1, p1, nn) =>
    if b1.err then (w1, b1, nn, true)
    else
      let n := min b1.Available p1.length
      (w1, { b1 with buf := b1.buf ++ p1.take n }, nn + n, false)

end bufio

/-! ## Package `io` -/

namespace io

/-- An error a `Read` returns. -/
inductive ReadError where
  /-- The error `io.EOF`. -/
  | EOF
  /-- The error `spool.ErrTooLarge`. -/
  | ErrTooLarge
  /-- Any other error, by its text. -/
  | other (text : String)
deriving DecidableEq, Repr

/-- An `io.Reader` that delivers a message body: the chunks it is still to hand out,
one per `Read` (a chunk larger than the buffer is handed out in pieces), the
error that ends the stream (`none` for `io.EOF`), and whether that error comes
together with the last bytes rather than on the next `Read`. -/
structure Reader where
  chunks : List (List Nat)
  final : Option String
  eager : Bool
deriving DecidableEq, Repr

/-- The bytes the reader is still to deliver. -/
def Reader.body (r : Reader) : List Nat := r.chunks.flatten

/-- The error that ends the stream. -/
def Reader.finalError (r : Reader) : ReadError :=
  match r.final with
  | none => ReadError.EOF
  | some text => ReadError.other text

/-- The method `Read(p)` with `len(p) = n`: the bytes delivered, the error and
the reader afterwards. -/
def Reader.Read (r : Reader) (n : Nat) : List Nat × Option ReadError × Reader :=
  match r.chunks with
  | [] => ([], some r.finalError, r)
  | c :: rest =>
    if c.length ≤ n then
      (c, if rest.isEmpty ∧ r.eager then some r.finalError else none, { r with chunks := rest })
    else (c.take n, none, { r with chunks := c.drop n :: rest })

end io

/-! ## Package `spool` (`internal/spool/fs_spool.go`, `internal/spool/ulid.go`) -/

namespace spool

/-- The struct `StoreRequest`. -/
structure StoreRequest where
  MaxBytes : Int
  RemoteIP : String
  MailFrom : String
  RcptTo : List String
  Domain : String
  Mailbox : String
  ReceivedAt : time.Time
  TraceID : String
deriving DecidableEq, Repr

/-- The struct `StoreResult`. -/
structure StoreResult where
  ID : String
  TraceID : String
  Bytes : Int
  SHA256 : String
  EMLPath : String
  MetaPath : String
deriving DecidableEq, Repr

/-- The struct `FS`. `Now` stands for the function `now` of `Store` (`s.Now` when
it is set, `time.Now` otherwise) by the time a call of it returns. -/
structure FS where
  BaseDir : String
  Now : time.Time
deriving DecidableEq, Repr

/-- What a run of `FS.Store` takes from outside the program: the digest function
of `crypto/sha256`, the 80 random bits that `ulid.Monotonic(rand.Reader, 0)`
supplies, and the operations that fail. -/
structure Env where
  sha256 : List Nat → List Nat
  entropy : Nat
  faults : os.Faults

/-- The function `NewULID`: `ulid.MustNew(ulid.Timestamp(t), entropy).String()`;
`none` when `MustNew` panics. -/
def NewULID (entropy : Nat) (t : time.Time) : Option String :=
  ulid.MustNew (ulid.Timestamp t) entropy

/-- The struct `limitedReader`. -/
structure limitedReader where
  R : io.Reader
  N : Int
deriving DecidableEq, Repr

/-- The method `limitedReader.Read`, called with `len(p) = n`. -/
def limitedReader.Read (l : limitedReader) (n : Nat) :
    List Nat × Option io.ReadError × limitedReader :=
  if l.N ≤ 0 then ([], some io.ReadError.ErrTooLarge, l)
  else
    let n1 := if (n : Int) > l.N then l.N.toNat else n
    match l.R.Read n1 with
    | (data, err, R1) => (data, err, { R := R1, N := l.N - (data.length : Int) })

/-- The error `io.Copy` returns in `Store`. -/
inductive CopyError where
  /-- The error of the source, `lr.Read`. -/
  | read (e : io.ReadError)
  /-- The error of the destination, the buffered writer. -/
  | write
deriving DecidableEq, Repr

/-- The state in which `io.Copy` returns: the file system, the buffered writer,
the bytes the hash has taken, the count `written` and the error. -/
structure Copied where
  w : os.World
  bw : bufio.Writer
  hashed : List Nat
  written : Int
  err : Option CopyError

/-- The method `Write` of `io.MultiWriter(bw, h)`: `bw` first, and the hash only
when `bw` took all of `p`. Returns the count and whether it failed. -/
def multiWrite (flt : os.Faults) (w : os.World) (bw : bufio.Writer) (h : List Nat)
    (p : List Nat) : os.World × bufio.Writer × List Nat × Nat × Bool :=
  match bw.Write w flt p with
  | (w1, bw1, n, failed) =>
    if failed ∨ n ≠ p.length then (w1, bw1, h, n, true)
    else (w1, bw1, h ++ p, p.length, false)

/-- The call `io.Copy(io.MultiWriter(bw, h), lr)`: the loop of `io.copyBuffer` with
its buffer of `32*1024` bytes. `none` when `fuel` rounds do not end it. -/
def ioCopy (flt : os.Faults) :
    Nat → os.World → bufio.Writer → List Nat → limitedReader → Int → Option Copied
  | 0, _, _, _, _, _ => none
  | fuel + 1, w, bw, h, lr, written =>
    match lr.Read (32 * 1024) with
    | (data, er, lr1) =>
      match (if data.length > 0 then multiWrite flt w bw h data else (w, bw, h, 0, false)) with
      | (w1, bw1, h1, nw, ew) =>
        if ew then
          some { w := w1, bw := bw1, hashed := h1, written := written + nw,
                 err := some CopyError.write }
        else
          match er with
          | some io.ReadError.EOF =>
            some { w := w1, bw := bw1, hashed := h1, written := written + nw, err := none }
          | some e =>
            some { w := w1, bw := bw1, hashed := h1, written := written + nw,
                   err := some (CopyError.read e) }
          | none => ioCopy flt fuel w1 bw1 h1 lr1 (written + nw)

/-- The errors `FS.Store` returns. -/
inductive StoreError where
  /-- The error `mkdir %s: %w`. -/
  | mkdir
  /-- The error `create tmp eml: %w`. -/
  | createTmp
  /-- The error `flush: %w`. -/
  | flush
  /-- The error `fsync: %w`. -/
  | fsync
  /-- The error `close: %w`. -/
  | close
  /-- The error `ErrTooLarge` itself. -/
  | ErrTooLarge
  /-- The error `copy: %w`. -/
  | copy (e : CopyError)
  /-- The error `write meta: %w`. -/
  | writeMeta
  /-- The error `rename eml: %w`. -/
  | renameEML
  /-- The error `rename meta: %w`. -/
  | renameMeta
deriving DecidableEq, Repr

/-- How a call of `FS.Store` ends. -/
inductive Return where
  /-- The return of a result and a nil error. -/
  | ok (res : StoreResult)
  /-- The return of `StoreResult{}` and an error. -/
  | error (e : StoreError)
  /-- A panic in `NewULID`. -/
  | panic
  /-- The copy loop not ending within its rounds (which does not happen). -/
  | unfinished
deriving DecidableEq, Repr

/-- A run of `FS.Store`: how it ends and what it did to the file system. -/
structure Run where
  ret : Return
  world : os.World

/-- The rounds that end the copy loop on the reader `r`: each round but the last
takes a chunk or at least a byte from it. -/
def copyFuel (r : io.Reader) : Nat := r.chunks.length + r.body.length + 1

/-- The method `FS.Store`, run on the file system `fs`. `json.MarshalIndent` does
not fail on a map of strings, string slices and integers, so that its error
branch is left out; the deferred `f.Close()` has no effect on the files. -/
def FS.Store (s : FS) (env : Env) (fs : os.Files) (req : StoreRequest) (r : io.Reader) : Run :=
  let w0 := os.World.start fs
  let ts := if req.ReceivedAt.IsZero then s.Now else req.ReceivedAt
  match NewULID env.entropy ts with
  | none => { ret := Return.panic, world := w0 }
  | some id =>
    let dateDir := filepath.Join [s.BaseDir, "incoming", ts.formatDate "/"]
    if env.faults.mkdirAll then { ret := Return.error StoreError.mkdir, world := w0 }
    else
      let tmpEML := filepath.Join [dateDir, id ++ ".eml.tmp"]
      let eml := filepath.Join [dateDir, id ++ ".eml"]
      let metaTmp := filepath.Join [dateDir, id ++ ".json.tmp"]
      let meta := filepath.Join [dateDir, id ++ ".json"]
      match w0.OpenFileExcl env.faults tmpEML with
      | none => { ret := Return.error StoreError.createTmp, world := w0 }
      | some w1 =>
        match ioCopy env.faults (copyFuel r) w1 (bufio.NewWriterSize tmpEML (32 * 1024)) []
            { R := r, N := req.MaxBytes } 0 with
        | none => { ret := Return.unfinished, world := w1 }
        | some c =>
          match c.bw.Flush c.w env.faults with
          | (w2, _, true) => { ret := Return.error StoreError.flush, world := w2.Remove tmpEML }
          | (w2, _, false) =>
            if env.faults.sync then
              { ret := Return.error StoreError.fsync, world := w2.Remove tmpEML }
            else if env.faults.close then
              { ret := Return.error StoreError.close, world := w2.Remove tmpEML }
            else
              match c.err with
              | some (CopyError.read io.ReadError.ErrTooLarge) =>
                { ret := Return.error StoreError.ErrTooLarge, world := w2.Remove tmpEML }
              | some e => { ret := Return.error (StoreError.copy e), world := w2.Remove tmpEML }
              | none =>
                let traceID := if req.TraceID = "" then id else req.TraceID
                let sum := hex.EncodeToString (env.sha256 c.hashed)
                let metaObj : os.Meta :=
                  { id := id, trace_id := traceID,
                    received_at := ts.UTC.formatRFC3339Nano,
                    remote_ip := req.RemoteIP, mail_from := req.MailFrom,
                    rcpt_to := req.RcptTo, domain := req.Domain, mailbox := req.Mailbox,
                    bytes := c.written, sha256 := sum }
                match w2.WriteFile env.faults metaTmp metaObj with
                | (w3, true) =>
                  { ret := Return.error StoreError.writeMeta, world := w3.Remove tmpEML }
                | (w3, false) =>
                  match w3.Rename env.faults.renameEML tmpEML eml with
                  | none =>
                    { ret := Return.error StoreError.renameEML,
                      world := (w3.Remove tmpEML).Remove metaTmp }
                  | some w4 =>
                    match w4.Rename env.faults.renameMeta metaTmp meta with
                    | none =>
                      { ret := Return.error StoreError.renameMeta, world := w4.Remove metaTmp }
                    | some w5 =>
                      { ret := Return.ok
                          { ID := id, TraceID := traceID, Bytes := c.written, SHA256 := sum,
                            EMLPath := eml, MetaPath := meta },
                        world := w5 }

end spool

/-! ## Package `resolver` (`internal/resolver/snapshot.go`) -/

namespace resolver

/-- The type `DomainMode`, a string. -/
abbrev DomainMode := String

/-- The constant `ModeAllowlist`. -/
def ModeAllowlist : DomainMode := "allowlist"

/-- The constant `ModeCatchAll`. -/
def ModeCatchAll : DomainMode := "catch_all"

/-- The struct `DomainConfig`. -/
structure DomainConfig where
  Mode : DomainMode
  PlusTag : Bool
  Mailboxes : List String
  Disabled : Bool
  MaxMsgBytes : Int
  MaxRcptCount : Int
deriving DecidableEq, Repr

/-- The struct `Snapshot`. `Domains` is a Go map: the list holds its entries in
the order in which the `range` loop of `BuildAllowlist` visits them, an order
the Go runtime chooses afresh on every loop. (`GeneratedAt` is never read.) -/
structure Snapshot where
  Domains : List (String × DomainConfig)
deriving DecidableEq, Repr

/-- The struct `ResolverStats`. -/
structure ResolverStats where
  Domains : Nat
  Mailboxes : Nat
deriving DecidableEq, Repr

/-- The struct `domainAllow`; `set` is a `map[string]struct{}`. -/
structure domainAllow where
  plusTag : Bool
  set : GoMap Unit
deriving DecidableEq, Repr

/-- The struct `allowlistResolver`. -/
structure allowlistResolver where
  domains : GoMap domainAllow
  stats : ResolverStats
deriving DecidableEq, Repr

/-- The error of `BuildAllowlist`: `domain %s: unsupported mode %q`. -/
structure BuildError where
  domain : String
  mode : DomainMode
deriving DecidableEq, Repr

/-- The key under which a domain is stored and looked up:
`strings.ToLower(strings.TrimSuffix(domain, "."))`. -/
def normDomain (uni : Char → Char) (domain : String) : String :=
  strings.ToLower uni (strings.TrimSuffix domain ".")

/-- The method `allowlistResolver.Allowed`. -/
def allowlistResolver.Allowed (uni : Char → Char) (r : allowlistResolver)
    (domain localPart : String) : Bool :=
  let d := strings.ToLower uni (strings.TrimSuffix domain ".")
  match r.domains.get? d with
  | none => false
  | some cfg =>
    if (cfg.set.get? localPart).isSome then true
    else if cfg.plusTag then
      match strings.Cut localPart "+" with
      | (base, _, true) => (cfg.set.get? base).isSome
      | (_, _, false) => false
    else false

/-- The method `allowlistResolver.Stats`. -/
def allowlistResolver.Stats (r : allowlistResolver) : ResolverStats := r.stats

/-- The inner loop of `BuildAllowlist`: the lower-cased mailboxes, as a set. -/
def mailboxSet (uni : Char → Char) (mailboxes : List String) : GoMap Unit :=
  mailboxes.foldl (fun set mb => GoMap.set set (strings.ToLower uni mb) ()) []

/-- The `range s.Domains` loop of `BuildAllowlist`, over the entries that are
still to be visited. -/
def buildLoop (uni : Char → Char) :
    List (String × DomainConfig) → GoMap domainAllow → ResolverStats →
      Except BuildError allowlistResolver
  | [], domains, stats => .ok { domains := domains, stats := stats }
  | (dom, cfg) :: rest, domains, stats =>
    let d := strings.ToLower uni (strings.TrimSuffix dom ".")
    if cfg.Disabled then buildLoop uni rest domains stats
    else if cfg.Mode ≠ "" ∧ cfg.Mode ≠ ModeAllowlist then
      .error { domain := dom, mode := cfg.Mode }
    else
      let set := mailboxSet uni cfg.Mailboxes
      buildLoop uni rest (GoMap.set domains d { plusTag := cfg.PlusTag, set := set })
        { Domains := stats.Domains + 1, Mailboxes := stats.Mailboxes + GoMap.len set }

/-- The function `BuildAllowlist`. -/
def BuildAllowlist (uni : Char → Char) (s : Snapshot) : Except BuildError allowlistResolver :=
  buildLoop uni s.Domains [] { Domains := 0, Mailboxes := 0 }

end resolver

/-! ## Package `time`: instants -/

namespace time

/-- The instant of `t` in nanoseconds since the Unix epoch. -/
def Time.instant (t : Time) : Int := t.unix * 1000000000 + (t.nsec : Int)

/-- The method `Time.Add`, for a `time.Duration` of `d` nanoseconds. -/
def Time.Add (t : Time) (d : Int) : Time :=
  { unix := (t.instant + d) / 1000000000, nsec := ((t.instant + d) % 1000000000).toNat,
    offset := t.offset }

/-- The method `Time.Before`. -/
def Time.Before (t u : Time) : Bool := decide (t.instant < u.instant)

/-- The zero `time.Time`, January 1, year 1, 00:00:00 UTC. -/
def Time.zero : Time := { unix := -62135596800, nsec := 0, offset := 0 }

end time

namespace GoMap

variable {V : Type}

/-- The builtin `delete(m, k)`. -/
def delete (m : GoMap V) (k : String) : GoMap V :=
  m.filter (fun e => decide (e.1 ≠ k))

end GoMap

/-! ## Package `resolver`: the loader -/

namespace resolver

/-- The struct `Loader`; `cur` is the atomic pointer, `none` for nil. -/
structure Loader where
  Path : String
  cur : Option allowlistResolver
deriving DecidableEq, Repr

/-- The errors of `Loader.Load`. -/
inductive LoadError where
  /-- The error `read snapshot: %w`. -/
  | read
  /-- The error `parse snapshot: %w`. -/
  | parse
  /-- The error of `BuildAllowlist`, returned as it is. -/
  | build (e : BuildError)
deriving DecidableEq, Repr

/-- The method `Loader.Current`. -/
def Loader.Current (l : Loader) : allowlistResolver :=
  match l.cur with
  | none => { domains := [], stats := { Domains := 0, Mailboxes := 0 } }
  | some p => p

/-- The method `Loader.Allowed`. -/
def Loader.Allowed (uni : Char → Char) (l : Loader) (domain localPart : String) : Bool :=
  l.Current.Allowed uni domain localPart

/-- The method `Loader.Stats`. -/
def Loader.Stats (l : Loader) : ResolverStats := l.Current.Stats

/-- The method `Loader.Load`. `file` is what `os.ReadFile(l.Path)` returns (`none`
for an error) and `unmarshal` stands for `json.Unmarshal` into a `Snapshot` (`none`
for an error). Returns the result and the loader afterwards. -/
def Loader.Load (uni : Char → Char) (l : Loader) (file : Option (List Nat))
    (unmarshal : List Nat → Option Snapshot) : Except LoadError allowlistResolver × Loader :=
  match file with
  | none => (.error LoadError.read, l)
  | some b =>
    match unmarshal b with
    | none => (.error LoadError.parse, l)
    | some snap =>
      match BuildAllowlist uni snap with
      | .error e => (.error (LoadError.build e), l)
      | .ok res => (.ok res, { l with cur := some res })

end resolver

/-! ## Package `ratelimit` (`internal/ratelimit/ip_cache.go`) -/

namespace ratelimit

/-- The struct `entry`. The limiter, a `*rate.Limiter`, is known by the number of
limiters that `newLimiter` had made before it. -/
structure entry where
  lim : Nat
  lastSeen : time.Time
deriving DecidableEq, Repr

/-- The struct `Cache`. `entries` is a Go map, listed in the order in which a
`range` loop visits it; `made` counts the calls of `newLimiter`. -/
structure Cache where
  entries : GoMap entry
  maxEntries : Int
  ttl : Int
  made : Nat
deriving DecidableEq, Repr

/-- The function `NewCache`. -/
def NewCache (maxEntries : Int) (ttl : Int) : Cache :=
  { entries := [],
    maxEntries := if maxEntries ≤ 0 then 10000 else maxEntries,
    ttl := if ttl ≤ 0 then 10 * 60 * 1000000000 else ttl,
    made := 0 }

/-- The method `Cache.sweepLocked`. -/
def Cache.sweepLocked (c : Cache) (now : time.Time) : Cache :=
  let cutoff := now.Add (-c.ttl)
  let swept := c.entries.foldl
    (fun m ie => if ie.2.lastSeen.Before cutoff then GoMap.delete m ie.1 else m) c.entries
  { c with entries := swept }

/-- The loop `for k, v := range c.entries` of `Cache.Get` that looks for the oldest
entry, on the entries still to visit and the variables `oldestIP`, `oldest` and
`first`. -/
def oldestLoop : List (String × entry) → String × time.Time × Bool → String × time.Time × Bool
  | [], st => st
  | (k, v) :: rest, (oldestIP, oldest, first) =>
    if first ∨ v.lastSeen.Before oldest then oldestLoop rest (k, v.lastSeen, false)
    else oldestLoop rest (oldestIP, oldest, first)

/-- The method `Cache.Get`: the limiter returned and the cache afterwards. -/
def Cache.Get (c : Cache) (ip : String) (now : time.Time) : Nat × Cache :=
  let c1 := c.sweepLocked now
  match c1.entries.get? ip with
  | some e => (e.lim, { c1 with entries := c1.entries.set ip { e with lastSeen := now } })
  | none =>
    let c2 : Cache :=
      if (GoMap.len c1.entries : Int) ≥ c1.maxEntries then
        { c1 with entries :=
            GoMap.delete c1.entries (oldestLoop c1.entries ("", time.Time.zero, true)).1 }
      else c1
    (c2.made, { c2 with entries := c2.entries.set ip { lim := c2.made, lastSeen := now },
                        made := c2.made + 1 })

/-- The method `Cache.Size`. -/
def Cache.Size (c : Cache) : Nat := GoMap.len c.entries

end ratelimit

/-! ## Package `smtp` (`internal/smtp/backend.go`, `internal/smtp/server.go`) -/

namespace smtp

/-- The struct `gosmtp.SMTPError`, by its code and message. -/
structure SMTPError where
  Code : Nat
  Message : String
deriving DecidableEq, Repr

/-- The struct `Config`, by the fields the session reads. -/
structure Config where
  MaxMsgBytes : Int
  MaxRcptCount : Int
deriving DecidableEq, Repr

/-- A call of a method of the interface `Metrics`. -/
inductive MetricsCall where
  /-- The call `IncAccepted(bytes)`. -/
  | IncAccepted (bytes : Int)
  /-- The call `IncRejected(reason)`. -/
  | IncRejected (reason : String)
  /-- The call `IncSpoolError()`. -/
  | IncSpoolError
  /-- The call `ConnOpen()`. -/
  | ConnOpen
deriving DecidableEq, Repr

/-- The struct `Deps`: the resolver by its method `Allowed`, the spool, and whether
`Metrics` and `Kafka` are set (not nil). -/
structure Deps where
  Resolver : String → String → Bool
  Spool : spool.FS
  Metrics : Bool
  Kafka : Bool

/-- The struct `backend`. -/
structure backend where
  cfg : Config
  deps : Deps

/-- The struct `IngestEvent`. -/
structure IngestEvent where
  ID : String
  TraceID : String
  ReceivedAt : String
  RemoteIP : String
  Domain : String
  Mailbox : String
  MailFrom : String
  RcptTo : List String
  Bytes : Int
  SHA256 : String
  MetaPath : String
  EMLPath : String
deriving DecidableEq, Repr

/-- The struct `session`, by the fields that change; its `backend` is passed to the
methods, and `onClose` tells whether the hook is set. -/
structure session where
  remoteIP : String
  mailFrom : String
  rcpt : List String
  domain : String
  mailbox : String
  onClose : Bool
deriving DecidableEq, Repr

/-- The library functions the session calls: the Unicode case table of
`strings.ToLower`, and `mail.ParseAddress` by the `Address` it returns (`none` for
an error). -/
structure Env where
  uni : Char → Char
  parseAddress : String → Option String

/-- What a session method returns: the error (`none` for nil), the session
afterwards and the calls made on `Metrics`. -/
structure Outcome where
  err : Option SMTPError
  sess : session
  metrics : List MetricsCall
deriving DecidableEq, Repr

/-- The calls made on `Metrics`: none when it is nil. -/
def Deps.record (d : Deps) (calls : List MetricsCall) : List MetricsCall :=
  if d.Metrics then calls else []

/-- The method `backend.NewSession` for the remote address `ip` at the time `now`,
with `allow` the answer of `lim.Allow()`: the error or the session, the cache
afterwards and the calls made on `Metrics`. -/
def backend.NewSession (b : backend) (cache : ratelimit.Cache) (ip : String) (now : time.Time)
    (allow : Bool) : Except SMTPError session × ratelimit.Cache × List MetricsCall :=
  match cache.Get ip now with
  | (_, cache1) =>
    if ¬ allow then (.error { Code := 421, Message := "rate limited" }, cache1, [])
    else
      (.ok { remoteIP := ip, mailFrom := "", rcpt := [], domain := "", mailbox := "",
             onClose := b.deps.Metrics },
        cache1, b.deps.record [MetricsCall.ConnOpen])

/-- The method `session.Reset`. -/
def session.Reset (s : session) : session :=
  { s with mailFrom := "", rcpt := [], domain := "", mailbox := "" }

/-- The method `session.Mail`. -/
def session.Mail (env : Env) (s : session) (sender : String) : Outcome :=
  if sender ≠ "" ∧ (env.parseAddress sender).isNone then
    { err := some { Code := 501, Message := "invalid MAIL FROM" }, sess := s, metrics := [] }
  else
    { err := none, sess := { s with mailFrom := strings.ToLower env.uni sender }, metrics := [] }

/-- The method `session.Rcpt`. -/
def session.Rcpt (env : Env) (b : backend) (s : session) (rcptTo : String) : Outcome :=
  if (s.rcpt.length : Int) ≥ b.cfg.MaxRcptCount then
    { err := some { Code := 452, Message := "too many recipients" }, sess := s, metrics := [] }
  else
    match env.parseAddress rcptTo with
    | none => { err := some { Code := 501, Message := "invalid RCPT TO" }, sess := s, metrics := [] }
    | some address =>
      match strings.Cut address "@" with
      | (_, _, false) =>
        { err := some { Code := 501, Message := "invalid RCPT TO" }, sess := s, metrics := [] }
      | (local0, domain0, true) =>
        let localPart := strings.ToLower env.uni local0
        let domain := strings.ToLower env.uni domain0
        if localPart = "" ∨ domain = "" then
          { err := some { Code := 501, Message := "invalid RCPT TO" }, sess := s, metrics := [] }
        else if ¬ b.deps.Resolver domain localPart then
          { err := some { Code := 550, Message := "mailbox not found" }, sess := s,
            metrics := b.deps.record [MetricsCall.IncRejected "mailbox_not_found"] }
        else
          { err := none,
            sess :=
              { s with domain := if s.domain = "" then domain else s.domain,
                       mailbox := if s.domain = "" then localPart else s.mailbox,
                       rcpt := s.rcpt ++ [strings.ToLower env.uni address] },
            metrics := [] }

/-- What a call of `session.Data` takes from outside: the times that the calls of
`time.Now` return for the trace identifier, for `ReceivedAt` and for the event, the
random bits of the trace identifier, and what the run of `Store` takes. -/
structure DataEnv where
  nowTrace : time.Time
  traceEntropy : Nat
  nowReceived : time.Time
  nowEvent : time.Time
  store : spool.Env
  files : os.Files

/-- How a call of `session.Data` ends. -/
inductive Reply where
  /-- The return of nil. -/
  | ok
  /-- The return of an error. -/
  | error (e : SMTPError)
  /-- A panic, in `NewULID` (or `Store` not returning, which does not happen). -/
  | panic
deriving DecidableEq, Repr

/-- What a call of `session.Data` does: how it ends, the calls made on `Metrics`,
the request handed to `Store` and the run of it, when it is called, and the event
handed to `Kafka.PublishIngest`, when there is one. -/
structure DataResult where
  reply : Reply
  metrics : List MetricsCall
  request : Option spool.StoreRequest
  run : Option spool.Run
  event : Option IngestEvent

/-- The method `session.Data`, reading the body from `r`. -/
def session.Data (b : backend) (s : session) (denv : DataEnv) (r : io.Reader) : DataResult :=
  if s.domain = "" ∨ s.mailbox = "" then
    { reply := Reply.error { Code := 503, Message := "need RCPT TO first" }, metrics := [],
      request := none, run := none, event := none }
  else
    match spool.NewULID denv.traceEntropy denv.nowTrace with
    | none => { reply := Reply.panic, metrics := [], request := none, run := none, event := none }
    | some traceID =>
      let req : spool.StoreRequest :=
        { MaxBytes := b.cfg.MaxMsgBytes, RemoteIP := s.remoteIP, MailFrom := s.mailFrom,
          RcptTo := s.rcpt, Domain := s.domain, Mailbox := s.mailbox,
          ReceivedAt := denv.nowReceived, TraceID := traceID }
      let run := b.deps.Spool.Store denv.store denv.files req r
      match run.ret with
      | spool.Return.error spool.StoreError.ErrTooLarge =>
        { reply := Reply.error { Code := 552, Message := "message too large" },
          metrics := b.deps.record [MetricsCall.IncRejected "too_large"],
          request := some req, run := some run, event := none }
      | spool.Return.error _ =>
        { reply := Reply.error { Code := 451, Message := "temporary failure" },
          metrics := b.deps.record [MetricsCall.IncSpoolError],
          request := some req, run := some run, event := none }
      | spool.Return.ok res =>
        { reply := Reply.ok,
          metrics := b.deps.record [MetricsCall.IncAccepted res.Bytes],
          request := some req, run := some run,
          event :=
            if b.deps.Kafka then
              some { ID := res.ID, TraceID := res.TraceID,
                     ReceivedAt := denv.nowEvent.UTC.formatRFC3339Nano,
                     RemoteIP := s.remoteIP, Domain := s.domain, Mailbox := s.mailbox,
                     MailFrom := s.mailFrom, RcptTo := s.rcpt, Bytes := res.Bytes,
                     SHA256 := res.SHA256, MetaPath := res.MetaPath, EMLPath := res.EMLPath }
            else none }
      | _ =>
        { reply := Reply.panic, metrics := [], request := some req, run := some run,
          event := none }

end smtp

/-! ## Package `kafka` (`internal/kafka/smtp_adapter.go`, `internal/kafka/smtp_integration.go`) -/

namespace kafka

/-- The struct `IngestEvent` of package `kafka`. -/
structure IngestEvent where
  ID : String
  TraceID : String
  ReceivedAt : String
  RemoteIP : String
  Domain : String
  Mailbox : String
  MailFrom : String
  RcptTo : List String
  Bytes : Int
  SHA256 : String
  MetaPath : String
  EMLPath : String
deriving DecidableEq, Repr

/-- The struct `SMTPAdapter`; `P` tells whether the producer is set (not nil). -/
structure SMTPAdapter where
  P : Bool
deriving DecidableEq, Repr

/-- The method `SMTPAdapter.PublishIngest`: the event it passes to
`SMTPProducer.Publish`, or `none` when there is no producer and it returns nil at
once. A field that the composite literal leaves out has the zero value. -/
def SMTPAdapter.PublishIngest (a : SMTPAdapter) (ev : smtp.IngestEvent) : Option IngestEvent :=
  if a.P = false then none
  else
    some { ID := ev.ID, TraceID := "", ReceivedAt := ev.ReceivedAt, RemoteIP := ev.RemoteIP,
           Domain := ev.Domain, Mailbox := ev.Mailbox, MailFrom := ev.MailFrom,
           RcptTo := ev.RcptTo, Bytes := ev.Bytes, SHA256 := ev.SHA256,
           MetaPath := ev.MetaPath, EMLPath := ev.EMLPath }

end kafka

/-! ## Package `metrics`: the listen address (`internal/metrics/listen.go`) -/

namespace strings

/-- The function `strings.IndexByte` (`bytealg.IndexByteString`) for an ASCII
character: the index of its first occurrence, `none` for -1. -/
def indexByte : List Char → Char → Option Nat
  | [], _ => none
  | a :: s, c => if a = c then some 0 else (indexByte s c).map (· + 1)

/-- The function `strings.LastIndexByte` (`bytealg.LastIndexByteString`) for an
ASCII character: the index of its last occurrence, `none` for -1. -/
def lastIndexByte : List Char → Char → Option Nat
  | [], _ => none
  | a :: s, c =>
    match lastIndexByte s c with
    | some i => some (i + 1)
    | none => if a = c then some 0 else none

/-- The function `strings.Trim`: `s` without the leading and trailing characters
that occur in `cutset`. -/
def Trim (s : String) (cutset : String) : String :=
  ⟨((s.data.dropWhile (fun c => decide (c ∈ cutset.data))).reverse.dropWhile
    (fun c => decide (c ∈ cutset.data))).reverse⟩

end strings

namespace net

/-- The `Err` of the `*net.AddrError` that `SplitHostPort` returns. -/
inductive AddrError where
  /-- The error `missing port in address`. -/
  | missingPort
  /-- The error `too many colons in address`. -/
  | tooManyColons
  /-- The error `missing ']' in address`. -/
  | missingBracket
  /-- The error `unexpected '[' in address`. -/
  | unexpectedOpen
  /-- The error `unexpected ']' in address`. -/
  | unexpectedClose
deriving DecidableEq, Repr

/-- The end of `net.SplitHostPort`: the checks for a stray bracket after the
positions `j` and `k`, and the port after the last colon, at `i`. -/
def splitFinish (s : List Char) (host : List Char) (j k i : Nat) :
    Except AddrError (String × String) :=
  if (strings.indexByte (s.drop j) '[').isSome then .error AddrError.unexpectedOpen
  else if (strings.indexByte (s.drop k) ']').isSome then .error AddrError.unexpectedClose
  else .ok (⟨host⟩, ⟨s.drop (i + 1)⟩)

/-- The function `net.SplitHostPort`. -/
def SplitHostPort (hostport : String) : Except AddrError (String × String) :=
  match strings.lastIndexByte hostport.data ':' with
  | none => .error AddrError.missingPort
  | some i =>
    if hostport.data.head? = some '[' then
      match strings.indexByte hostport.data ']' with
      | none => .error AddrError.missingBracket
      | some last =>
        if last + 1 = hostport.data.length then .error AddrError.missingPort
        else if last + 1 = i then
          splitFinish hostport.data ((hostport.data.take last).drop 1) 1 (last + 1) i
        else if hostport.data.get? (last + 1) = some ':' then .error AddrError.tooManyColons
        else .error AddrError.missingPort
    else
      if (strings.indexByte (hostport.data.take i) ':').isSome then
        .error AddrError.tooManyColons
      else splitFinish hostport.data (hostport.data.take i) 0 0 i

end net

namespace metrics

/-- The errors of `RequireLocalhost`. -/
inductive ListenError where
  /-- The error `invalid listen addr %q: %w`, around the error of `SplitHostPort`. -/
  | split (e : net.AddrError)
  /-- The error `invalid listen addr %q: host is empty`. -/
  | emptyHost
  /-- The error `invalid listen addr %q: host must be localhost/127.0.0.1/::1`. -/
  | notLocal
deriving DecidableEq, Repr

/-- The function `RequireLocalhost`; `none` is nil. -/
def RequireLocalhost (addr : String) : Option ListenError :=
  match net.SplitHostPort addr with
  | .error e => some (ListenError.split e)
  | .ok (host, _) =>
    if strings.Trim host "[]" = "" then some ListenError.emptyHost
    else if strings.Trim host "[]" = "localhost" ∨ strings.Trim host "[]" = "127.0.0.1" ∨
        strings.Trim host "[]" = "::1" then none
    else some ListenError.notLocal

end metrics

/-! ## Package `uploader`: the object key (`internal/uploader/uploader.go`) -/

namespace strings

/-- The bytes of a Go string: the UTF-8 encoding of its characters. -/
def bytes (s : String) : List Nat :=
  s.data.flatMap (fun c => (String.utf8EncodeChar c).map UInt8.toNat)

/-- The function `strings.Split` for a separator of one byte, on the bytes of the
string: the parts between the separators, one part more than there are
separators. -/
def Split : List Nat → Nat → List (List Nat)
  | [], _ => [[]]
  | b :: rest, sep =>
    if b = sep then [] :: Split rest sep
    else
      match Split rest sep with
      | [] => [[b]]
      | p :: ps => (b :: p) :: ps

end strings

namespace uploader

/-- The function `objectKey`, on the bytes of its arguments: `len(receivedAt)`
counts bytes and `receivedAt[:10]` is the first ten of them. The two calls of
`fmt.Sprintf` join their arguments with `/` and end in `.eml`. -/
def objectKey (domain mailbox receivedAt id : List Nat) : List Nat :=
  let date := if receivedAt.length ≥ 10 then receivedAt.take 10 else strings.bytes "unknown"
  let parts := strings.Split date 45
  if parts.length = 3 then
    domain ++ [47] ++ mailbox ++ [47] ++ parts.getD 0 [] ++ [47] ++ parts.getD 1 [] ++ [47]
      ++ parts.getD 2 [] ++ [47] ++ id ++ strings.bytes ".eml"
  else domain ++ [47] ++ mailbox ++ [47] ++ id ++ strings.bytes ".eml"

end uploader

/-! ## Directory trees (`io/fs`, `path/filepath.WalkDir`, `os`) -/

namespace fs

/-- What lies at a path: a directory, or a file with its bytes. -/
inductive Node where
  | dir
  | file (bytes : List Nat)
deriving DecidableEq, Repr

/-- The method `DirEntry.IsDir`. -/
def Node.IsDir : Node → Bool
  | Node.dir => true
  | Node.file _ => false

/-- The size that `os.Stat` reports for a file; `dirSize` for a directory. -/
def Node.Size (dirSize : Int) : Node → Int
  | Node.dir => dirSize
  | Node.file b => b.length

/-- What lies below a root directory: each path with what lies there, in the order
in which `filepath.WalkDir` visits them (the names of a directory in byte order, a
directory before what it holds). The root itself is not listed. -/
abbrev Tree := List (String × Node)

/-- The place of a path in the order of the walk: its elements between the
slashes. -/
def walkKey (p : String) : List (List Nat) := strings.Split (strings.bytes p) 47

namespace Tree

/-- What lies at the path `p`. -/
def lookup : Tree → String → Option Node
  | [], _ => none
  | (q, n) :: t, p => if q = p then some n else lookup t p

/-- The tree with `n` at the path `p`, which is listed. -/
def store (t : Tree) (p : String) (n : Node) : Tree :=
  t.map (fun e => if e.1 = p then (p, n) else e)

/-- The tree without the path `p`. -/
def remove (t : Tree) (p : String) : Tree :=
  t.filter (fun e => decide (e.1 ≠ p))

/-- The tree with the new entry `e`, at its place in the order of the walk. -/
def insert : Tree → String × Node → Tree
  | [], e => [e]
  | (q, n) :: t, e =>
    if walkKey e.1 < walkKey q then e :: (q, n) :: t else (q, n) :: insert t e

/-- The function `os.ReadFile`: the bytes of the file at `p`; it fails when
nothing or a directory lies there. -/
def ReadFile (t : Tree) (p : String) : Option (List Nat) :=
  match t.lookup p with
  | some (Node.file b) => some b
  | _ => none

/-- The function `os.Stat`: it fails when nothing lies at `p`. -/
def Stat (t : Tree) (p : String) : Option Node := t.lookup p

/-- The function `os.WriteFile`: `data` becomes the content of the file `name`,
which is created when it does not exist; it fails on a directory. -/
def WriteFile (t : Tree) (name : String) (data : List Nat) : Option Tree :=
  match t.lookup name with
  | some Node.dir => none
  | some (Node.file _) => some (t.store name (Node.file data))
  | none => some (t.insert (name, Node.file data))

/-- The function `os.Rename` for a file: the file `oldpath` takes the place of
what lay at `newpath`; it fails when `oldpath` is not a file and when `newpath` is a
directory. -/
def Rename (t : Tree) (oldpath newpath : String) : Option Tree :=
  match t.lookup oldpath with
  | some (Node.file b) =>
    match (t.remove oldpath).lookup newpath with
    | some Node.dir => none
    | some (Node.file _) => some ((t.remove oldpath).store newpath (Node.file b))
    | none => some ((t.remove oldpath).insert (newpath, Node.file b))
  | _ => none

end Tree

end fs

/-! ## Package `encoding/json`: documents read into `map[string]any` -/

namespace json

/-- A value of type `any` in a map that `json.Unmarshal` filled: a string, or a
value of another type, given by its JSON text. -/
inductive Value where
  | string (s : List Nat)
  | other (text : List Nat)
deriving DecidableEq, Repr

/-- What `json.Unmarshal(b, &raw)` makes of the bytes of a file for a
`raw map[string]any`: a map for a JSON object, the nil map (and no error) for the
JSON value `null`, and an error for everything else. -/
inductive Doc where
  | object (raw : GoMap Value)
  | null
  | invalid
deriving DecidableEq, Repr

end json

/-! ## Package `uploader` (`internal/uploader/uploader.go`) -/

namespace uploader

/-- The struct `Config`; `Now` is the answer of the clock function at its calls of a
run, `none` for nil. -/
structure Config where
  SpoolDir : String
  Now : Option (Nat → time.Time)

/-- The struct `Uploader`, without the object store, whose answers are in `Env`;
`Metrics` tells whether the metrics sink is set (not nil). -/
structure Uploader where
  Conf : Config
  Metrics : Bool

/-- The struct `meta`. -/
structure meta where
  ID : List Nat
  Domain : List Nat
  Mailbox : List Nat
  ReceivedAt : List Nat
  ObjectKey : List Nat
  UploadedAt : List Nat
deriving DecidableEq, Repr

/-- The errors that the callback of the walk returns: the error that
`filepath.WalkDir` hands to it, unchanged (`notExist` tells whether `os.IsNotExist`
holds of it), and the errors it makes with `fmt.Errorf`, of which `os.IsNotExist`
does not hold. -/
inductive Error where
  | walk (notExist : Bool)
  | readMeta (path : String)
  | parseMeta (path : String)
  | statEml (path : String)
  | openEml (path : String)
  | putObject (key : List Nat)
  | writeMetaTmp (path : String)
  | renameMeta (path : String)
deriving DecidableEq, Repr

/-- The operations that fail in a run for a reason outside the tree: the error that
`filepath.WalkDir` reports at a path, and whether `os.ReadFile`, `os.Stat`,
`os.Open`, `MinIO.Put`, `os.WriteFile` and `os.Rename` fail at a path or key. -/
structure Faults where
  walk : String → Option Bool
  readFile : String → Bool
  stat : String → Bool
  openFile : String → Bool
  put : List Nat → Bool
  writeFile : String → Bool
  rename : String → Bool

/-- A run in which nothing fails. -/
def Faults.none : Faults :=
  { walk := fun _ => Option.none, readFile := fun _ => false, stat := fun _ => false,
    openFile := fun _ => false, put := fun _ => false, writeFile := fun _ => false,
    rename := fun _ => false }

/-- What a run of `RunOnce` takes from outside the program: `json.Unmarshal` into a
`map[string]any`, `json.MarshalIndent` of such a map, the helper `str` of the
package, the clock `time.Now` at its calls of the run and at the end of the run, the
size that `os.Stat` reports for a directory, and the operations that fail. -/
structure Env where
  unmarshal : List Nat → json.Doc
  marshalIndent : GoMap json.Value → List Nat
  str : Option json.Value → List Nat
  timeNow : Nat → time.Time
  timeEnd : time.Time
  dirSize : Int
  faults : Faults

/-- A call of `MinIO.Put`: the key, the path of the file that is read and the
size. -/
structure Put where
  key : List Nat
  path : String
  size : Int
deriving DecidableEq, Repr

/-- The calls on the metrics sink. -/
inductive MetricsCall where
  | SetLastRunUnix (t : Int)
  | IncError
  | IncRun (scanned uploaded : Int)
deriving DecidableEq, Repr

/-- The variables of a run: the counters, the calls of `Put` so far and the tree
below `incoming`. -/
structure Run where
  scanned : Int
  uploaded : Int
  puts : List Put
  tree : fs.Tree
deriving DecidableEq, Repr

/-- How a call of the callback ends: it returns nil, it returns an error, or it
panics. -/
inductive Step where
  | next (r : Run)
  | fail (r : Run) (e : Error)
  | panic (r : Run)
deriving DecidableEq, Repr

/-- The test `if v, ok := raw["object_key"]; ok { if s, _ := v.(string); s != "" {`
of the callback: the map has a non-empty string under `object_key`. -/
def hasObjectKey (raw : GoMap json.Value) : Bool :=
  match raw.get? "object_key" with
  | some (json.Value.string s) => decide (s ≠ [])
  | _ => false

/-- The rewrite of the metadata `path` after the upload: `raw`, which is not nil,
gets `object_key` and `uploaded_at` and is written to `path + ".tmp"`, which is
renamed to `path`. -/
def rewrite (env : Env) (now : Nat → time.Time) (r : Run) (path : String) (raw : GoMap json.Value)
    (key : List Nat) : Step :=
  let raw1 := GoMap.set raw "object_key" (json.Value.string key)
  let raw2 := GoMap.set raw1 "uploaded_at"
    (json.Value.string (strings.bytes (now r.puts.length).UTC.formatRFC3339Nano))
  let out := env.marshalIndent raw2 ++ [10]
  let tmp := path ++ ".tmp"
  match (if env.faults.writeFile tmp then none else r.tree.WriteFile tmp out) with
  | none => Step.fail r (Error.writeMetaTmp tmp)
  | some t1 =>
    match (if env.faults.rename tmp then none else t1.Rename tmp path) with
    | none => Step.fail { r with tree := t1 } (Error.renameMeta path)
    | some t2 => Step.next { r with tree := t2 }

/-- The upload of the message of the metadata `path`, read as `doc`, which is an
object or null: the sibling `.eml` is put under the object key, and the metadata is
rewritten. The assignment `raw["object_key"] = key` panics on the nil map. -/
def upload (env : Env) (now : Nat → time.Time) (r : Run) (path : String) (doc : json.Doc)
    (raw : GoMap json.Value) : Step :=
  let m : meta :=
    { ID := env.str (raw.get? "id"), Domain := env.str (raw.get? "domain"),
      Mailbox := env.str (raw.get? "mailbox"), ReceivedAt := env.str (raw.get? "received_at"),
      ObjectKey := [], UploadedAt := [] }
  let emlPath := strings.TrimSuffix path ".json" ++ ".eml"
  match (if env.faults.stat emlPath then none else r.tree.Stat emlPath) with
  | none => Step.fail r (Error.statEml emlPath)
  | some fi =>
    if env.faults.openFile emlPath then Step.fail r (Error.openEml emlPath)
    else
      let key := objectKey m.Domain m.Mailbox m.ReceivedAt m.ID
      if env.faults.put key then Step.fail r (Error.putObject key)
      else
        let r1 : Run :=
          { r with puts := r.puts ++ [{ key := key, path := emlPath, size := fi.Size env.dirSize }],
                   uploaded := r.uploaded + 1 }
        match doc with
        | json.Doc.object _ => rewrite env now r1 path raw key
        | _ => Step.panic r1

/-- The callback that `RunOnce` passes to `filepath.WalkDir`, called for the path
`path` at which the walk found `d`. -/
def visit (env : Env) (now : Nat → time.Time) (r : Run) (path : String) (d : fs.Node) : Step :=
  match env.faults.walk path with
  | some notExist => Step.fail r (Error.walk notExist)
  | none =>
    if d.IsDir then Step.next r
    else if !strings.HasSuffix path ".json" then Step.next r
    else
      let r1 : Run := { r with scanned := r.scanned + 1 }
      match (if env.faults.readFile path then none else r1.tree.ReadFile path) with
      | none => Step.fail r1 (Error.readMeta path)
      | some b =>
        match env.unmarshal b with
        | json.Doc.invalid => Step.fail r1 (Error.parseMeta path)
        | json.Doc.null => upload env now r1 path json.Doc.null []
        | json.Doc.object raw =>
          if hasObjectKey raw then Step.next r1
          else upload env now r1 path (json.Doc.object raw) raw

/-- The function `filepath.WalkDir` with the callback of `RunOnce` over the entries
that the walk finds: it stops at the first call that does not return nil. -/
def walk (env : Env) (now : Nat → time.Time) : List (String × fs.Node) → Run → Step
  | [], r => Step.next r
  | (p, d) :: rest, r =>
    match visit env now r p d with
    | Step.next r1 => walk env now rest r1
    | s => s

/-- What a call of `RunOnce` returns and does: the results, whether it panicked, its
calls of `Put`, the tree below `incoming` that it leaves (`none` when the directory
does not exist), and its calls on the metrics sink. -/
structure Outcome where
  scanned : Int
  uploaded : Int
  err : Option Error
  panicked : Bool
  puts : List Put
  incoming : Option fs.Tree
  calls : List MetricsCall
deriving DecidableEq, Repr

/-- The deferred function of `RunOnce`, which runs with the named results when the
function returns and when it panics. -/
def deferred (u : Uploader) (env : Env) (scanned uploaded : Int) (err : Option Error) :
    List MetricsCall :=
  if u.Metrics then
    [MetricsCall.SetLastRunUnix env.timeEnd.Unix,
      if err.isSome then MetricsCall.IncError else MetricsCall.IncRun scanned uploaded]
  else []

/-- The method `Uploader.RunOnce` on the tree `incoming` below
`filepath.Join(u.Conf.SpoolDir, "incoming")`, where `none` stands for a directory
that does not exist: then `filepath.WalkDir` calls the callback once, with the error
of `os.Lstat`. -/
def Uploader.RunOnce (u : Uploader) (env : Env) (incoming : Option fs.Tree) : Outcome :=
  let root := filepath.Join [u.Conf.SpoolDir, "incoming"]
  let now := match u.Conf.Now with
    | some f => f
    | none => env.timeNow
  let step := match incoming with
    | none => Step.fail { scanned := 0, uploaded := 0, puts := [], tree := [] } (Error.walk true)
    | some t =>
      walk env now ((root, fs.Node.dir) :: t) { scanned := 0, uploaded := 0, puts := [], tree := t }
  let left := fun (r : Run) => incoming.map (fun _ => r.tree)
  match step with
  | Step.next r =>
    { scanned := r.scanned, uploaded := r.uploaded, err := none, panicked := false,
      puts := r.puts, incoming := left r, calls := deferred u env r.scanned r.uploaded none }
  | Step.fail r (Error.walk true) =>
    { scanned := 0, uploaded := 0, err := none, panicked := false,
      puts := r.puts, incoming := left r, calls := deferred u env 0 0 none }
  | Step.fail r e =>
    { scanned := r.scanned, uploaded := r.uploaded, err := some e, panicked := false,
      puts := r.puts, incoming := left r, calls := deferred u env r.scanned r.uploaded (some e) }
  | Step.panic r =>
    { scanned := r.scanned, uploaded := r.uploaded, err := none, panicked := true,
      puts := r.puts, incoming := left r, calls := deferred u env r.scanned r.uploaded none }

end uploader

/-! ## Package `index` (`internal/index/index.go`, `internal/index/events.go`) -/

namespace index

/-- The struct `MessageRow`. -/
structure MessageRow where
  ID : String
  TraceID : String
  ReceivedAt : String
  RemoteIP : String
  Domain : String
  Mailbox : String
  MailFrom : String
  RcptToJSON : String
  Bytes : Int
  SHA256 : String
  EMLPath : String
  MetaPath : String
  ObjectKey : String
deriving DecidableEq, Repr

/-- The struct `EventRow`; `Type_` is its field `Type`. -/
structure EventRow where
  Key : String
  TraceID : String
  MessageID : String
  Type_ : String
  OccurredAt : String
  PayloadJSON : String
deriving DecidableEq, Repr

/-- The tables `messages` and `events` of the database: the row under each value of
the primary key (`id`, `key`), if there is one. -/
structure DB where
  messages : String → Option MessageRow
  events : String → Option EventRow

/-- The method `DB.UpsertMessage` when the statement succeeds: `INSERT` of the row,
and `ON CONFLICT(id) DO UPDATE SET` of every other column to the value of the
row. -/
def DB.UpsertMessage (db : DB) (r : MessageRow) : DB :=
  { db with messages := fun id => if id = r.ID then some r else db.messages id }

/-- The method `DB.UpsertEvent` when the statement succeeds: `INSERT` of the row,
and `ON CONFLICT(key) DO UPDATE SET` of every other column to the value of the
row. -/
def DB.UpsertEvent (db : DB) (r : EventRow) : DB :=
  { db with events := fun key => if key = r.Key then some r else db.events key }

end index

/-! ## Package `indexer` (`internal/indexer/indexer.go`) -/

namespace indexer

/-- The struct `Config`. -/
structure Config where
  SpoolDir : String
deriving DecidableEq, Repr

/-- The struct `Indexer`, without the database, which is passed along; `Metrics`
tells whether the metrics sink is set (not nil). -/
structure Indexer where
  Conf : Config
  Metrics : Bool
deriving DecidableEq, Repr

/-- The struct `meta`; `RcptTo` is `none` for the nil slice. -/
structure meta where
  ID : String
  TraceID : String
  ReceivedAt : String
  RemoteIP : String
  Domain : String
  Mailbox : String
  MailFrom : String
  RcptTo : Option (List String)
  Bytes : Int
  SHA256 : String
  ObjectKey : String
deriving DecidableEq, Repr

/-- The errors that the callback of the walk returns: the error that
`filepath.WalkDir` hands to it, unchanged (`notExist` tells whether `os.IsNotExist`
holds of it), and the errors it makes with `fmt.Errorf`, of which `os.IsNotExist`
does not hold. -/
inductive Error where
  | walk (notExist : Bool)
  | readMeta (path : String)
  | parseMeta (path : String)
  | dbUpsert (path : String)
deriving DecidableEq, Repr

/-- The operations that fail in a run for a reason outside the tree: the error that
`filepath.WalkDir` reports at a path, and whether `os.ReadFile`, `DB.UpsertMessage`
and `DB.UpsertEvent` fail for the metadata at a path. -/
structure Faults where
  walk : String → Option Bool
  readFile : String → Bool
  upsertMessage : String → Bool
  upsertEvent : String → Bool

/-- A run in which nothing fails. -/
def Faults.none : Faults :=
  { walk := fun _ => Option.none, readFile := fun _ => false, upsertMessage := fun _ => false,
    upsertEvent := fun _ => false }

/-- What a run of `RunOnce` takes from outside the program: `json.Unmarshal` into a
`meta` (`none` for an error), `json.Marshal` of the recipients and of the payload
map with the values of `meta_path`, `eml_path` and `object_key`, the clock at the
end of the run, and the operations that fail. -/
structure Env where
  unmarshal : List Nat → Option meta
  marshalRcpt : Option (List String) → String
  marshalPayload : String → String → String → String
  timeEnd : time.Time
  faults : Faults

/-- The calls on the metrics sink. -/
inductive MetricsCall where
  | SetLastRunUnix (t : Int)
  | IncError
  | IncRun (scanned indexed : Int)
deriving DecidableEq, Repr

/-- The variables of a run: the counters and the database. -/
structure Run where
  scanned : Int
  indexed : Int
  db : index.DB

/-- How a call of the callback ends: it returns nil or an error. -/
inductive Step where
  | next (r : Run)
  | fail (r : Run) (e : Error)

/-- The row that the callback passes to `DB.UpsertMessage` for the metadata `m` read
from `path`. -/
def messageRow (env : Env) (path : String) (m : meta) : index.MessageRow :=
  { ID := m.ID, TraceID := m.TraceID, ReceivedAt := m.ReceivedAt, RemoteIP := m.RemoteIP,
    Domain := m.Domain, Mailbox := m.Mailbox, MailFrom := m.MailFrom,
    RcptToJSON := env.marshalRcpt m.RcptTo, Bytes := m.Bytes, SHA256 := m.SHA256,
    EMLPath := strings.TrimSuffix path ".json" ++ ".eml", MetaPath := path,
    ObjectKey := m.ObjectKey }

/-- The row that the callback passes to `DB.UpsertEvent` for the metadata `m` read
from `path`. -/
def eventRow (env : Env) (path : String) (m : meta) : index.EventRow :=
  { Key := "ingest.received:" ++ m.ID, TraceID := m.TraceID, MessageID := m.ID,
    Type_ := "ingest.received", OccurredAt := m.ReceivedAt,
    PayloadJSON :=
      env.marshalPayload path (strings.TrimSuffix path ".json" ++ ".eml") m.ObjectKey }

/-- The callback that `RunOnce` passes to `filepath.WalkDir`, called for the path
`path` at which the walk found `d`, over the tree `t`. The error of `UpsertEvent` is
dropped. -/
def visit (env : Env) (t : fs.Tree) (r : Run) (path : String) (d : fs.Node) : Step :=
  match env.faults.walk path with
  | some notExist => Step.fail r (Error.walk notExist)
  | none =>
    if d.IsDir then Step.next r
    else if !strings.HasSuffix path ".json" then Step.next r
    else
      let r1 : Run := { r with scanned := r.scanned + 1 }
      match (if env.faults.readFile path then none else t.ReadFile path) with
      | none => Step.fail r1 (Error.readMeta path)
      | some b =>
        match env.unmarshal b with
        | none => Step.fail r1 (Error.parseMeta path)
        | some m =>
          if env.faults.upsertMessage path then Step.fail r1 (Error.dbUpsert path)
          else
            let db1 := r1.db.UpsertMessage (messageRow env path m)
            let db2 := if env.faults.upsertEvent path then db1
              else db1.UpsertEvent (eventRow env path m)
            Step.next { r1 with db := db2, indexed := r1.indexed + 1 }

/-- The function `filepath.WalkDir` with the callback of `RunOnce` over the entries
that the walk finds: it stops at the first call that does not return nil. -/
def walk (env : Env) (t : fs.Tree) : List (String × fs.Node) → Run → Step
  | [], r => Step.next r
  | (p, d) :: rest, r =>
    match visit env t r p d with
    | Step.next r1 => walk env t rest r1
    | s => s

/-- What a call of `RunOnce` returns and does: the results, the database that it
leaves, and its calls on the metrics sink. -/
structure Outcome where
  scanned : Int
  indexed : Int
  err : Option Error
  db : index.DB
  calls : List MetricsCall

/-- The deferred function of `RunOnce`, which runs with the named results. -/
def deferred (ix : Indexer) (env : Env) (scanned indexed : Int) (err : Option Error) :
    List MetricsCall :=
  if ix.Metrics then
    [MetricsCall.SetLastRunUnix env.timeEnd.Unix,
      if err.isSome then MetricsCall.IncError else MetricsCall.IncRun scanned indexed]
  else []

/-- The method `Indexer.RunOnce` on the tree `incoming` below
`filepath.Join(ix.Conf.SpoolDir, "incoming")`, where `none` stands for a directory
that does not exist (then `filepath.WalkDir` calls the callback once, with the error
of `os.Lstat`), and on the database `db`. -/
def Indexer.RunOnce (ix : Indexer) (env : Env) (incoming : Option fs.Tree) (db : index.DB) :
    Outcome :=
  let root := filepath.Join [ix.Conf.SpoolDir, "incoming"]
  let step := match incoming with
    | none => Step.fail { scanned := 0, indexed := 0, db := db } (Error.walk true)
    | some t => walk env t ((root, fs.Node.dir) :: t) { scanned := 0, indexed := 0, db := db }
  match step with
  | Step.next r =>
    { scanned := r.scanned, indexed := r.indexed, err := none, db := r.db,
      calls := deferred ix env r.scanned r.indexed none }
  | Step.fail r (Error.walk true) =>
    { scanned := 0, indexed := 0, err := none, db := r.db, calls := deferred ix env 0 0 none }
  | Step.fail r e =>
    { scanned := r.scanned, indexed := r.indexed, err := some e, db := r.db,
      calls := deferred ix env r.scanned r.indexed (some e) }

end indexer

/-! ## Notions used in the statements and proofs -/

namespace filepath

/-- An ordinary file name: not empty, without a separator, and neither `.` nor `..`. -/
def Regular (n : List Char) : Prop :=
  n ≠ [] ∧ '/' ∉ n ∧ n ≠ ['.'] ∧ n ≠ ['.', '.']

/-- What `Join` puts in front of an ordinary file name joined to the directory `d`. -/
def joinPre (d : String) : List Char :=
  if d.data = [] then []
  else
    let rooted := d.data.head? = some '/'
    let out := (splitSlash d.data).foldl (cleanStep rooted) []
    (if rooted then ['/'] else []) ++ (if out = [] then [] else joinSlash out ++ ['/'])

end filepath

namespace os

/-- Outside `path`, the current state and every recorded state of `w` agree with
`fs0`; and `fs0` and the current state are among the recorded ones. -/
def World.Frame (w : World) (path : String) (fs0 : Files) : Prop :=
  (∀ p, p ≠ path → w.files p = fs0 p) ∧ (∀ st ∈ w.history, ∀ p, p ≠ path → st p = fs0 p) ∧
    fs0 ∈ w.history ∧ w.files ∈ w.history

/-- Every recorded state of `w` satisfies `P`. -/
def World.Always (w : World) (P : Files → Prop) : Prop :=
  ∀ st ∈ w.history, P st

/-- The spool invariant on a run that started in `fs0`: in every recorded state in
which the metadata file `meta` exists, the body file `eml` holds `body`; with
`fs0` and the current state among the recorded ones. -/
def World.Consistent (w : World) (fs0 : Files) (meta eml : String) (body : List Nat) : Prop :=
  fs0 ∈ w.history ∧ w.files ∈ w.history ∧
    w.Always (fun st => (st meta).isSome → st eml = some (File.raw body))

/-- The spool invariant, with the metadata file not yet there. -/
def World.Unpublished (w : World) (fs0 : Files) (meta eml : String) (body : List Nat) : Prop :=
  w.Consistent fs0 meta eml body ∧ w.files meta = none

end os

namespace bufio

/-- The file of the writer `b` is a raw file and, as long as no write has failed,
it and the buffer together hold exactly the bytes `acc`. -/
def Writer.Holds (b : Writer) (w : os.World) (acc : List Nat) : Prop :=
  ∃ disk, w.files b.path = some (os.File.raw disk) ∧ (b.err = false → disk ++ b.buf = acc)

end bufio

namespace spool

/-- The timestamp `ts` of `FS.Store`. -/
def storeTime (s : FS) (req : StoreRequest) : time.Time :=
  if req.ReceivedAt.IsZero then s.Now else req.ReceivedAt

/-- The path of the file `id ++ ext` in the date directory of `FS.Store`. -/
def storePath (s : FS) (req : StoreRequest) (id ext : String) : String :=
  filepath.Join
    [filepath.Join [s.BaseDir, "incoming", (storeTime s req).formatDate "/"], id ++ ext]

/-- The length of the buffer that `limitedReader.Read` hands to its reader when
`io.Copy` calls it with the limit `N` left. -/
def readLen (N : Int) : Nat :=
  if ((32 * 1024 : Nat) : Int) > N then N.toNat else 32 * 1024

/-- The bytes and the error with which the reads of `io.Copy` from `lr` end when
every write succeeds: the loop of `ioCopy` without its destination. -/
def drain : Nat → limitedReader → List Nat → Option (List Nat × io.ReadError)
  | 0, _, _ => none
  | fuel + 1, lr, acc =>
    match lr.Read (32 * 1024) with
    | (data, some e, _) => some (acc ++ data, e)
    | (data, none, lr1) => drain fuel lr1 (acc ++ data)

/-- The error of `io.Copy` for the error `e` that ended the reads. -/
def copyErrorOf (e : io.ReadError) : Option CopyError :=
  match e with
  | io.ReadError.EOF => none
  | e => some (CopyError.read e)

/-- The part of `FS.Store` after `io.Copy` has returned in the state `c`, from
`bw.Flush()` on, for the identifier `id` and the timestamp `ts`. -/
def storeFinish (env : Env) (req : StoreRequest) (ts : time.Time)
    (id tmpEML eml metaTmp meta : String) (c : Copied) : Run :=
  match c.bw.Flush c.w env.faults with
  | (w2, _, true) => { ret := Return.error StoreError.flush, world := w2.Remove tmpEML }
  | (w2, _, false) =>
    if env.faults.sync then
      { ret := Return.error StoreError.fsync, world := w2.Remove tmpEML }
    else if env.faults.close then
      { ret := Return.error StoreError.close, world := w2.Remove tmpEML }
    else
      match c.err with
      | some (CopyError.read io.ReadError.ErrTooLarge) =>
        { ret := Return.error StoreError.ErrTooLarge, world := w2.Remove tmpEML }
      | some e => { ret := Return.error (StoreError.copy e), world := w2.Remove tmpEML }
      | none =>
        let traceID := if req.TraceID = "" then id else req.TraceID
        let sum := hex.EncodeToString (env.sha256 c.hashed)
        let metaObj : os.Meta :=
          { id := id, trace_id := traceID,
            received_at := ts.UTC.formatRFC3339Nano,
            remote_ip := req.RemoteIP, mail_from := req.MailFrom,
            rcpt_to := req.RcptTo, domain := req.Domain, mailbox := req.Mailbox,
            bytes := c.written, sha256 := sum }
        match w2.WriteFile env.faults metaTmp metaObj with
        | (w3, true) =>
          { ret := Return.error StoreError.writeMeta, world := w3.Remove tmpEML }
        | (w3, false) =>
          match w3.Rename env.faults.renameEML tmpEML eml with
          | none =>
            { ret := Return.error StoreError.renameEML,
              world := (w3.Remove tmpEML).Remove metaTmp }
          | some w4 =>
            match w4.Rename env.faults.renameMeta metaTmp meta with
            | none =>
              { ret := Return.error StoreError.renameMeta, world := w4.Remove metaTmp }
            | some w5 =>
              { ret := Return.ok
                  { ID := id, TraceID := traceID, Bytes := c.written, SHA256 := sum,
                    EMLPath := eml, MetaPath := meta },
                world := w5 }

/-! ### Sample inputs -/

/-- A spool rooted at `/var/spool/mail`, with the clock at 2026-02-14T00:00:00Z. -/
def sampleFS : FS := { BaseDir := "/var/spool/mail", Now := ⟨1771027200, 0, 0⟩ }

/-- A run in which nothing fails; the digest function is a stand-in. -/
def sampleEnv : Env :=
  { sha256 := fun b => [b.length % 256, 171], entropy := 5, faults := os.Faults.none }

/-- The request of `TestFSStore_WritesEMLAndMeta`. -/
def sampleRequest : StoreRequest :=
  { MaxBytes := 1024, RemoteIP := "1.2.3.4", MailFrom := "from@example.com",
    RcptTo := ["to@example.com"], Domain := "example.com", Mailbox := "inbound",
    ReceivedAt := ⟨1771027200, 0, 0⟩, TraceID := "" }

/-- The request of `TestFSStore_TooLarge`. -/
def smallRequest : StoreRequest :=
  { MaxBytes := 5, RemoteIP := "", MailFrom := "", RcptTo := [], Domain := "", Mailbox := "",
    ReceivedAt := ⟨1771027200, 0, 0⟩, TraceID := "" }

/-- A request whose `ReceivedAt` is 1960-01-01T00:00:00Z. -/
def oldRequest : StoreRequest :=
  { sampleRequest with ReceivedAt := ⟨-315619200, 0, 0⟩ }

/-- A reader that delivers the six bytes `123456` in two chunks and then `io.EOF`. -/
def sampleReader : io.Reader :=
  { chunks := [[49, 50, 51], [52, 53, 54]], final := none, eager := false }

/-- The empty file system. -/
def noFiles : os.Files := fun _ => none

end spool

namespace strings

/-- A case table that maps no rune above `MaxASCII`: the stand-in for the Unicode
tables where the strings are ASCII, which `toLowerRune` never looks up in them. -/
def asciiOnly : Char → Char := fun c => c

end strings

namespace resolver

/-- The `domainAllow` that `BuildAllowlist` stores for the configuration `cfg`. -/
def allowOf (uni : Char → Char) (cfg : DomainConfig) : domainAllow :=
  { plusTag := cfg.PlusTag, set := mailboxSet uni cfg.Mailboxes }

/-- The configuration under which `BuildAllowlist` leaves the key `d`: that of the
entry visited last among the enabled ones whose normalised domain is `d`. -/
def lookupLast (uni : Char → Char) (d : String) :
    List (String × DomainConfig) → Option DomainConfig
  | [] => none
  | (dom, cfg) :: rest =>
    match lookupLast uni d rest with
    | some c => some c
    | none => if cfg.Disabled = false ∧ normDomain uni dom = d then some cfg else none

/-! ### Sample snapshots -/

/-- The snapshot of `TestSMTPD_AcceptsAndSpools`: `example.com` with mailbox
`inbound` and `plus_tag` set. -/
def sampleSnapshot : Snapshot :=
  { Domains := [("example.com",
      { Mode := "allowlist", PlusTag := true, Mailboxes := ["inbound"], Disabled := false,
        MaxMsgBytes := 0, MaxRcptCount := 0 })] }

/-- A configuration in mode `allowlist` with the given mailboxes. -/
def sampleConfig (plusTag : Bool) (mailboxes : List String) (disabled : Bool) : DomainConfig :=
  { Mode := "allowlist", PlusTag := plusTag, Mailboxes := mailboxes, Disabled := disabled,
    MaxMsgBytes := 0, MaxRcptCount := 0 }

/-- The resolver that `BuildAllowlist` returns, or the empty one on an error. -/
def built (uni : Char → Char) (s : Snapshot) : allowlistResolver :=
  match BuildAllowlist uni s with
  | .ok r => r
  | .error _ => { domains := [], stats := { Domains := 0, Mailboxes := 0 } }

end resolver

/-! ## Notions used in the statements about the loader, the cache and the session -/

namespace ratelimit

/-- The time-to-live `ttl` of the entry has elapsed at `now`:
`last_seen + ttl < now`. -/
def entry.expired (e : entry) (ttl : Int) (now : time.Time) : Bool :=
  decide (e.lastSeen.instant + ttl < now.instant)

/-- The cache after a sequence of calls of `Get`, each with its key and time. -/
def Cache.gets (c : Cache) : List (String × time.Time) → Cache
  | [] => c
  | (ip, now) :: rest => Cache.gets (c.Get ip now).2 rest

/-- The keys of a map are distinct, as they are in every Go map. -/
def Distinct (m : GoMap entry) : Prop := (m.map Prod.fst).Nodup

/-- What holds of every cache made by `NewCache` and used through `Get`. -/
structure Cache.Inv (c : Cache) : Prop where
  distinct : Distinct c.entries
  size : (c.Size : Int) ≤ c.maxEntries
  cap : 0 < c.maxEntries
  ttl : 0 < c.ttl
  lims : ∀ e ∈ c.entries, e.2.lim < c.made

/-- The entry of the key `k` whose time-to-live has not elapsed at `now`, if there
is one. -/
def Cache.live (c : Cache) (now : time.Time) (k : String) : Option entry :=
  match c.entries.get? k with
  | some e => if e.expired c.ttl now then none else some e
  | none => none

/-- The time `s` seconds and `ms` milliseconds after 2026-02-14T00:00:00Z. -/
def sampleTime (s ms : Nat) : time.Time :=
  { unix := 1771027200 + (s : Int), nsec := ms * 1000000, offset := 0 }

/-- A cache of at most two entries with a time-to-live of one second, after `b` was
looked up at 0 s and `a` at 0.5 s. -/
def sampleCache : Cache :=
  (NewCache 2 1000000000).gets [("b", sampleTime 0 0), ("a", sampleTime 0 500)]

end ratelimit

namespace smtp

/-- A command of the SMTP dialogue, as the method it calls on the session. -/
inductive Command where
  /-- The call `Mail(sender, _)`. -/
  | mail (sender : String)
  /-- The call `Rcpt(rcptTo, _)`. -/
  | rcpt (rcptTo : String)
  /-- The call `Reset()`. -/
  | reset
deriving DecidableEq, Repr

/-- The session after a command. -/
def session.step (env : Env) (b : backend) (s : session) : Command → session
  | Command.mail sender => (s.Mail env sender).sess
  | Command.rcpt rcptTo => (s.Rcpt env b rcptTo).sess
  | Command.reset => s.Reset

/-- The session after a sequence of commands. -/
def session.run (env : Env) (b : backend) (s : session) : List Command → session
  | [] => s
  | c :: rest => session.run env b (s.step env b c) rest

/-- The session that `NewSession` makes for the remote address `ip`. -/
def backend.fresh (b : backend) (ip : String) : session :=
  { remoteIP := ip, mailFrom := "", rcpt := [], domain := "", mailbox := "",
    onClose := b.deps.Metrics }

/-- The number of calls of `Rcpt` that returned nil since the session `s` was opened
or last reset, along the commands; `n` is the number so far. -/
def session.accepted (env : Env) (b : backend) (s : session) : List Command → Nat → Nat
  | [], n => n
  | Command.reset :: rest, _ => session.accepted env b s.Reset rest 0
  | Command.mail sender :: rest, n => session.accepted env b (s.Mail env sender).sess rest n
  | Command.rcpt rcptTo :: rest, n =>
    session.accepted env b (s.Rcpt env b rcptTo).sess rest
      (if (s.Rcpt env b rcptTo).err = none then n + 1 else n)

/-- The request that `Data` hands to `Store`, with the trace identifier made. -/
def session.storeRequest (b : backend) (s : session) (denv : DataEnv) (traceID : String) :
    spool.StoreRequest :=
  { MaxBytes := b.cfg.MaxMsgBytes, RemoteIP := s.remoteIP, MailFrom := s.mailFrom,
    RcptTo := s.rcpt, Domain := s.domain, Mailbox := s.mailbox,
    ReceivedAt := denv.nowReceived, TraceID := traceID }

/-- The session and the count of `session.accepted` agree: the recipient list has
`n` entries, and domain and mailbox are set exactly when it is not empty. -/
def session.Counts (s : session) (n : Nat) : Prop :=
  s.rcpt.length = n ∧ (s.rcpt = [] → s.domain = "" ∧ s.mailbox = "") ∧
    (s.rcpt ≠ [] → s.domain ≠ "" ∧ s.mailbox ≠ "")

/-! ### Sample inputs -/

/-- Library functions for the samples: the ASCII case table, and a stand-in for
`mail.ParseAddress` that takes a bare address with an `@` as it is. -/
def sampleEnv : Env :=
  { uni := strings.asciiOnly,
    parseAddress := fun a => if (strings.Cut a "@").2.2 then some a else none }

/-- A backend over the snapshot of `TestSMTPD_AcceptsAndSpools`, with messages of at
most `maxBytes` bytes and two recipients, with or without a metrics sink. -/
def sampleBackend (maxBytes : Int) (metricsSet : Bool) : backend :=
  { cfg := { MaxMsgBytes := maxBytes, MaxRcptCount := 2 },
    deps :=
      { Resolver := (resolver.built strings.asciiOnly resolver.sampleSnapshot).Allowed
          strings.asciiOnly,
        Spool := spool.sampleFS, Metrics := metricsSet, Kafka := false } }

/-- What a sample call of `Data` takes from outside; nothing fails. -/
def sampleDataEnv : DataEnv :=
  { nowTrace := ⟨1771027200, 0, 0⟩, traceEntropy := 7, nowReceived := ⟨1771027200, 0, 0⟩,
    nowEvent := ⟨1771027201, 0, 0⟩, store := spool.sampleEnv, files := spool.noFiles }

/-- The session of the sample backend after `RCPT TO:<inbound@example.com>`. -/
def sampleSession (metricsSet : Bool) : session :=
  ((sampleBackend 5 metricsSet).fresh "1.2.3.4").run sampleEnv (sampleBackend 5 metricsSet)
    [Command.mail "from@example.com", Command.rcpt "inbound@example.com"]

end smtp

/-! ## Notions used in the statements about the build order, the workers and the dates -/

namespace resolver

/-- The entries of the snapshot that `BuildAllowlist` does not skip. -/
def Snapshot.enabled (s : Snapshot) : List (String × DomainConfig) :=
  s.Domains.filter (fun e => !e.2.Disabled)

/-- No two enabled entries of the snapshot have the same domain after
normalisation. -/
def Snapshot.Separate (uni : Char → Char) (s : Snapshot) : Prop :=
  (s.enabled.map (fun e => normDomain uni e.1)).Nodup

/-- A snapshot with the keys `Example.com` and `example.com`, visited in this
order or, for `swapped`, in the other. -/
def collidingSnapshot (swapped : Bool) : Snapshot :=
  if swapped then
    { Domains := [("example.com", sampleConfig false ["b"] false),
                  ("Example.com", sampleConfig false ["a"] false)] }
  else
    { Domains := [("Example.com", sampleConfig false ["a"] false),
                  ("example.com", sampleConfig false ["b"] false)] }

end resolver

namespace time

/-- The method `Time.Year`: the year of `t` in its location. -/
def Time.Year (t : Time) : Int := (civil (t.abs / 86400)).1

/-- The method `Time.Month`, as a number. -/
def Time.Month (t : Time) : Int := (civil (t.abs / 86400)).2.1

/-- The method `Time.Day`. -/
def Time.Day (t : Time) : Int := (civil (t.abs / 86400)).2.2

/-- The bytes of the two decimal digits of a number below 100. -/
def dec2 (n : Nat) : List Nat := [48 + n / 10, 48 + n % 10]

/-- The bytes of the four decimal digits of a number below 10000. -/
def dec4 (n : Nat) : List Nat := [48 + n / 1000, 48 + n / 100 % 10, 48 + n / 10 % 10, 48 + n % 10]

/-- The bytes of the date `YYYY<sep>MM<sep>DD` of `t` in its location. -/
def Time.dateBytes (t : Time) (sep : Nat) : List Nat :=
  dec4 t.Year.toNat ++ [sep] ++ dec2 t.Month.toNat ++ [sep] ++ dec2 t.Day.toNat

/-- The bytes of the clock `hh:mm:ss` of `t` in its location. -/
def Time.clockBytes (t : Time) : List Nat :=
  dec2 (t.abs % 86400 / 3600).toNat ++ [58] ++ dec2 (t.abs % 86400 % 3600 / 60).toNat ++ [58]
    ++ dec2 (t.abs % 86400 % 60).toNat

end time

/-! ## Auxiliary definitions: the uploader and the indexer -/

namespace uploader

/-- Whether the metadata with the bytes `b` has a non-empty string under
`object_key`, so that the callback skips it. -/
def uploaded (env : Env) (b : List Nat) : Bool :=
  match env.unmarshal b with
  | json.Doc.object raw => hasObjectKey raw
  | _ => false

/-- The path of the body of the metadata `path`. -/
def emlPath (path : String) : String := strings.TrimSuffix path ".json" ++ ".eml"

/-- The metadata files of the tree that are not uploaded, in the order of the walk,
with their bytes. -/
def pending (env : Env) : fs.Tree → List (String × List Nat)
  | [] => []
  | (_, fs.Node.dir) :: t => pending env t
  | (p, fs.Node.file b) :: t =>
    if strings.HasSuffix p ".json" && !uploaded env b then (p, b) :: pending env t
    else pending env t

/-- The object key that the callback computes for the metadata with the bytes
`b`. -/
def keyOf (env : Env) (b : List Nat) : List Nat :=
  match env.unmarshal b with
  | json.Doc.object raw =>
    objectKey (env.str (raw.get? "domain")) (env.str (raw.get? "mailbox"))
      (env.str (raw.get? "received_at")) (env.str (raw.get? "id"))
  | _ => objectKey (env.str none) (env.str none) (env.str none) (env.str none)

/-- The call of `Put` for the metadata `path` with the bytes `b` in the tree `t`. -/
def putOf (env : Env) (t : fs.Tree) (e : String × List Nat) : Put :=
  { key := keyOf env e.2, path := emlPath e.1,
    size := match t.lookup (emlPath e.1) with
      | some n => n.Size env.dirSize
      | none => 0 }

/-- What is taken of `encoding/json`: a map with a non-empty string under
`object_key`, written with `json.MarshalIndent` and a newline, is read by
`json.Unmarshal` as a map with a non-empty string under `object_key`. -/
def Faithful (env : Env) : Prop :=
  ∀ raw, hasObjectKey raw = true → uploaded env (env.marshalIndent raw ++ [10]) = true

/-- A spool: each path is listed once, each metadata file holds a JSON object, and
each metadata file that is not uploaded has its body, and no directory in the place
of its temporary file. -/
def WellFormed (env : Env) (t : fs.Tree) : Prop :=
  (t.map Prod.fst).Nodup ∧
    ∀ p b, (p, fs.Node.file b) ∈ t → strings.HasSuffix p ".json" = true →
      (∃ raw, env.unmarshal b = json.Doc.object raw) ∧
      (uploaded env b = false →
        (∃ body, t.lookup (emlPath p) = some (fs.Node.file body)) ∧
          t.lookup (p ++ ".tmp") ≠ some fs.Node.dir)

/-- A stand-in for `encoding/json`: bytes that start with an opening brace are read
as an object with the rest, without its last byte, under `object_key`; other bytes
are read as a metadata object of the domain `example.com` with the bytes as `id`. -/
def sampleUnmarshal (b : List Nat) : json.Doc :=
  match b with
  | 123 :: rest => json.Doc.object [("object_key", json.Value.string rest.dropLast)]
  | _ =>
    json.Doc.object
      [("id", json.Value.string b), ("domain", json.Value.string (strings.bytes "example.com")),
        ("mailbox", json.Value.string (strings.bytes "inbound")),
        ("received_at", json.Value.string (strings.bytes "2026-02-14T00:00:00Z"))]

/-- The stand-in for `json.MarshalIndent`: an opening brace and the string under
`object_key`. -/
def sampleMarshal (raw : GoMap json.Value) : List Nat :=
  123 :: (match raw.get? "object_key" with
    | some (json.Value.string s) => s
    | _ => [])

/-- A helper `str` that returns the string of a string value and the empty string
otherwise. -/
def sampleStr (v : Option json.Value) : List Nat :=
  match v with
  | some (json.Value.string s) => s
  | _ => []

/-- A run in which nothing fails, at 2026-02-14T00:00:00Z. -/
def sampleEnv : Env :=
  { unmarshal := sampleUnmarshal, marshalIndent := sampleMarshal, str := sampleStr,
    timeNow := fun _ => ⟨1771027200, 0, 0⟩, timeEnd := ⟨1771027200, 0, 0⟩, dirSize := 4096,
    faults := Faults.none }

/-- A run in which every operation that can fail fails. -/
def brokenEnv : Env :=
  { sampleEnv with
    faults := { walk := fun _ => Option.none, readFile := fun _ => true, stat := fun _ => true,
                openFile := fun _ => true, put := fun _ => true, writeFile := fun _ => true,
                rename := fun _ => true } }

/-- A run in which every `os.Rename` fails and nothing else does: `Put` succeeds. -/
def renameFailsEnv : Env :=
  { sampleEnv with
    faults := { walk := fun _ => Option.none, readFile := fun _ => false, stat := fun _ => false,
                openFile := fun _ => false, put := fun _ => false, writeFile := fun _ => false,
                rename := fun _ => true } }

/-- An uploader without a clock of its own and without a metrics sink. -/
def sampleUploader : Uploader := { Conf := { SpoolDir := "/s", Now := none }, Metrics := false }

/-- A spool with the message `01A`, which is not uploaded, and the message `01B`,
which is. -/
def sampleTree : fs.Tree :=
  [("/s/incoming/d", fs.Node.dir),
    ("/s/incoming/d/01A.eml", fs.Node.file [49, 50, 51, 52, 53, 54]),
    ("/s/incoming/d/01A.json", fs.Node.file [48, 49, 65]),
    ("/s/incoming/d/01B.eml", fs.Node.file [55, 56]),
    ("/s/incoming/d/01B.json", fs.Node.file [123, 107, 10])]

/-- A spool in which the body of the message `01A` is missing; neither message is
uploaded. -/
def brokenTree : fs.Tree :=
  [("/s/incoming/d", fs.Node.dir),
    ("/s/incoming/d/01A.json", fs.Node.file [48, 49, 65]),
    ("/s/incoming/d/01B.eml", fs.Node.file [55, 56]),
    ("/s/incoming/d/01B.json", fs.Node.file [48, 49, 66])]

/-- Runs of `RunOnce` one after the other, each on the tree that the run before it
left, with nothing else changing the tree. -/
def Uploader.RunMany (u : Uploader) : List Env → Option fs.Tree → List Outcome
  | [], _ => []
  | env :: envs, incoming =>
    u.RunOnce env incoming :: Uploader.RunMany u envs (u.RunOnce env incoming).incoming

end uploader

namespace indexer

/-- The metadata files of the tree, in the order of the walk, with what
`json.Unmarshal` reads from them; a file that it cannot read is left out. -/
def metas (env : Env) : fs.Tree → List (String × meta)
  | [] => []
  | (_, fs.Node.dir) :: t => metas env t
  | (p, fs.Node.file b) :: t =>
    if strings.HasSuffix p ".json" then
      match env.unmarshal b with
      | some m => (p, m) :: metas env t
      | none => metas env t
    else metas env t

/-- A spool of parseable metadata files: each path is listed once and
`json.Unmarshal` succeeds on each metadata file. -/
def Parseable (env : Env) (t : fs.Tree) : Prop :=
  (t.map Prod.fst).Nodup ∧
    ∀ p b, (p, fs.Node.file b) ∈ t → strings.HasSuffix p ".json" = true →
      (env.unmarshal b).isSome = true

/-- The database after the upserts of the callback for a list of metadata with their
paths. -/
def upserts (env : Env) (db : index.DB) (ms : List (String × meta)) : index.DB :=
  ms.foldl
    (fun d pm => (d.UpsertMessage (messageRow env pm.1 pm.2)).UpsertEvent (eventRow env pm.1 pm.2))
    db

/-- The message row of the last metadata of the list with the id `id`. -/
def lastMessage (env : Env) : List (String × meta) → String → Option index.MessageRow
  | [], _ => none
  | (p, m) :: ms, id =>
    match lastMessage env ms id with
    | some r => some r
    | none => if id = m.ID then some (messageRow env p m) else none

/-- The event row of the last metadata of the list with the event key `key`. -/
def lastEvent (env : Env) : List (String × meta) → String → Option index.EventRow
  | [], _ => none
  | (p, m) :: ms, key =>
    match lastEvent env ms key with
    | some r => some r
    | none => if key = "ingest.received:" ++ m.ID then some (eventRow env p m) else none

/-- A stand-in for `encoding/json`: the bytes of a file are read as the id of a
message of the domain `example.com`. -/
def sampleEnv : Env :=
  { unmarshal := fun b =>
      some { ID := String.mk (b.map Char.ofNat), TraceID := "t", ReceivedAt := "2026-02-14T00:00:00Z",
             RemoteIP := "1.2.3.4", Domain := "example.com", Mailbox := "inbound",
             MailFrom := "from@example.com", RcptTo := some ["inbound@example.com"], Bytes := 6,
             SHA256 := "06ab", ObjectKey := "" },
    marshalRcpt := fun _ => "[]",
    marshalPayload := fun metaPath _ _ => metaPath,
    timeEnd := ⟨1771027200, 0, 0⟩,
    faults := Faults.none }

/-- A run in which `DB.UpsertEvent` fails for the metadata of the message `01A` and
nothing else fails. -/
def eventFailsEnv : Env :=
  { sampleEnv with
    faults := { walk := fun _ => Option.none, readFile := fun _ => false,
                upsertMessage := fun _ => false,
                upsertEvent := fun p => decide (p = "/s/incoming/d/01A.json") } }

/-- An indexer without a metrics sink. -/
def sampleIndexer : Indexer := { Conf := { SpoolDir := "/s" }, Metrics := false }

/-- A spool with the two messages `01A` and `01B`. -/
def sampleTree : fs.Tree :=
  [("/s/incoming/d", fs.Node.dir),
    ("/s/incoming/d/01A.eml", fs.Node.file [49, 50, 51, 52, 53, 54]),
    ("/s/incoming/d/01A.json", fs.Node.file [48, 49, 65]),
    ("/s/incoming/d/01B.eml", fs.Node.file [55, 56]),
    ("/s/incoming/d/01B.json", fs.Node.file [48, 49, 66])]

/-- The empty database. -/
def emptyDB : index.DB := { messages := fun _ => none, events := fun _ => none }

/-- The database after `n` runs of `RunOnce` over the same tree. -/
def Indexer.RunN (ix : Indexer) (env : Env) (incoming : Option fs.Tree) : Nat → index.DB → index.DB
  | 0, db => db
  | n + 1, db => Indexer.RunN ix env incoming n (ix.RunOnce env incoming db).db

end indexer

/-! ## Lemmas: paths -/

namespace filepath

theorem splitSlash_ne_nil (l : List Char) : splitSlash l ≠ [] := by
  cases l with
  | nil => simp [splitSlash]
  | cons c cs => unfold splitSlash; split <;> simp

theorem splitSlash_of_not_mem (n : List Char) (h : '/' ∉ n) : splitSlash n = [n] := by
  induction n with
  | nil => rfl
  | cons c cs ih =>
    have hc : c ≠ '/' := fun e => h (by simp [e])
    have hcs : '/' ∉ cs := fun e => h (by simp [e])
    simp [splitSlash, hc, ih hcs]

theorem splitSlash_append (d n : List Char) :
    splitSlash (d ++ '/' :: n) = splitSlash d ++ splitSlash n := by
  induction d with
  | nil => simp [splitSlash]
  | cons c cs ih =>
    by_cases hc : c = '/'
    · simp [splitSlash, hc, ih]
    · have hne := splitSlash_ne_nil cs
      cases hs : splitSlash cs with
      | nil => exact absurd hs hne
      | cons a as => simp [splitSlash, hc, ih, hs]

theorem joinSlash_append_singleton (out : List (List Char)) (n : List Char) :
    joinSlash (out ++ [n]) = (if out = [] then [] else joinSlash out ++ ['/']) ++ n := by
  induction out with
  | nil => simp [joinSlash]
  | cons a as ih =>
    cases as with
    | nil => simp [joinSlash]
    | cons b bs =>
      have : joinSlash (a :: b :: bs ++ [n]) = a ++ '/' :: joinSlash (b :: bs ++ [n]) := by
        simp [joinSlash]
      rw [this, ih]
      simp [joinSlash]

theorem cleanStep_regular (rooted : Bool) (out : List (List Char)) (n : List Char)
    (h : Regular n) : cleanStep rooted out n = out ++ [n] := by
  obtain ⟨h1, _, h3, h4⟩ := h
  simp [cleanStep, h1, h3, h4]

theorem Clean_append_regular (d n : List Char) (hd : d ≠ []) (h : Regular n) :
    Clean ⟨d ++ '/' :: n⟩ = ⟨joinPre ⟨d⟩ ++ n⟩ := by
  have hsplit : splitSlash (d ++ '/' :: n) = splitSlash d ++ [n] := by
    rw [splitSlash_append, splitSlash_of_not_mem n h.2.1]
  have hhead : (d ++ '/' :: n).head? = d.head? := by
    cases d with
    | nil => exact absurd rfl hd
    | cons c cs => rfl
  unfold Clean joinPre
  simp only [hsplit, hhead, List.foldl_append, List.foldl_cons, List.foldl_nil,
    cleanStep_regular _ _ n h, joinSlash_append_singleton]
  simp [hd]
  split <;> simp

theorem Clean_regular (n : List Char) (h : Regular n) : Clean ⟨n⟩ = ⟨n⟩ := by
  have hhead : n.head? ≠ some '/' := by
    cases n with
    | nil => simp
    | cons c cs =>
      have : c ≠ '/' := fun e => h.2.1 (by simp [e])
      simpa using this
  unfold Clean
  simp [h.1, hhead, splitSlash_of_not_mem n h.2.1, cleanStep_regular _ _ n h, joinSlash]

/-- Joining an ordinary file name to a directory puts a fixed text in front of it. -/
theorem Join_regular (d : String) (n : String) (h : Regular n.data) :
    Join [d, n] = ⟨joinPre d ++ n.data⟩ := by
  by_cases hd : d.data = []
  · have hn : n.data.isEmpty = false := by
      cases hnd : n.data with
      | nil => exact absurd hnd h.1
      | cons c cs => rfl
    simp [Join, hd, List.dropWhile, hn, joinSlash, joinPre]
    exact Clean_regular n.data h
  · have hde : d.data.isEmpty = false := by
      cases hdd : d.data with
      | nil => exact absurd hdd hd
      | cons c cs => rfl
    simp [Join, List.dropWhile, hde, joinSlash]
    exact Clean_append_regular d.data n.data hd h

end filepath

namespace ulid

theorem Encoding_getD_ne_slash (i : Nat) : Encoding.getD (i % 32) '0' ≠ '/' := by
  have h : i % 32 < 32 := Nat.mod_lt _ (by decide)
  generalize i % 32 = k at h
  interval_cases k <;> decide

theorem encode_length (ms e : Nat) : (encode ms e).data.length = 26 := by
  simp [encode]

theorem encode_no_slash (ms e : Nat) : '/' ∉ (encode ms e).data := by
  simp only [encode, List.mem_map, not_exists, not_and]
  intro i _ h
  exact Encoding_getD_ne_slash _ h

end ulid

namespace spool

theorem NewULID_length {entropy : Nat} {t : time.Time} {id : String}
    (h : NewULID entropy t = some id) : id.data.length = 26 := by
  unfold NewULID ulid.MustNew at h
  split at h
  · cases h; exact ulid.encode_length _ _
  · cases h

theorem NewULID_no_slash {entropy : Nat} {t : time.Time} {id : String}
    (h : NewULID entropy t = some id) : '/' ∉ id.data := by
  unfold NewULID ulid.MustNew at h
  split at h
  · cases h; exact ulid.encode_no_slash _ _
  · cases h

/-- The name of a spool file, an identifier followed by an extension, is an
ordinary file name. -/
theorem regular_name {entropy : Nat} {t : time.Time} {id : String}
    (h : NewULID entropy t = some id) (ext : String) (hext : '/' ∉ ext.data) :
    filepath.Regular (id ++ ext).data := by
  have hl := NewULID_length h
  have hs := NewULID_no_slash h
  refine ⟨?_, ?_, ?_, ?_⟩
  · intro e
    have := congrArg List.length e
    simp only [String.data_append, List.length_append, List.length_nil, List.length_cons,
      List.length_singleton] at this
    omega
  · simp [hs, hext]
  · intro e
    have := congrArg List.length e
    simp only [String.data_append, List.length_append, List.length_nil, List.length_cons,
      List.length_singleton] at this
    omega
  · intro e
    have := congrArg List.length e
    simp only [String.data_append, List.length_append, List.length_nil, List.length_cons,
      List.length_singleton] at this
    omega

/-- The path of a spool file is a fixed text followed by the identifier and the
extension. -/
theorem storePath_eq {entropy : Nat} {t : time.Time} {id : String}
    (h : NewULID entropy t = some id) (s : FS) (req : StoreRequest) (ext : String)
    (hext : '/' ∉ ext.data) :
    storePath s req id ext =
      ⟨filepath.joinPre (filepath.Join [s.BaseDir, "incoming", (storeTime s req).formatDate "/"])
        ++ (id.data ++ ext.data)⟩ := by
  unfold storePath
  rw [filepath.Join_regular _ _ (regular_name h ext hext)]
  simp

theorem storePath_ne {entropy : Nat} {t : time.Time} {id : String}
    (h : NewULID entropy t = some id) (s : FS) (req : StoreRequest) (e1 e2 : String)
    (h1 : '/' ∉ e1.data) (h2 : '/' ∉ e2.data) (hne : e1 ≠ e2) :
    storePath s req id e1 ≠ storePath s req id e2 := by
  rw [storePath_eq h s req e1 h1, storePath_eq h s req e2 h2]
  intro e
  have e' := congrArg String.data e
  simp at e'
  exact hne (String.ext e')

end spool

/-! ## Lemmas: files and the buffered writer -/

namespace os

theorem Files.put_same (fs : Files) (path : String) (f : Option File) :
    (fs.put path f) path = f := by
  simp [Files.put]

theorem Files.put_other (fs : Files) (path : String) (f : Option File) (p : String)
    (h : p ≠ path) : (fs.put path f) p = fs p := by
  simp [Files.put, h]

theorem Files.bytes_of_raw {fs : Files} {path : String} {disk : List Nat}
    (h : fs path = some (File.raw disk)) : fs.bytes path = disk := by
  simp [Files.bytes, h]

theorem World.Frame_update {w : World} {path : String} {fs0 fs : Files}
    (h : w.Frame path fs0) (hfs : ∀ p, p ≠ path → fs p = fs0 p) :
    (w.update fs).Frame path fs0 := by
  refine ⟨hfs, ?_, ?_, ?_⟩
  · intro st hst
    simp only [World.update, List.mem_append, List.mem_singleton] at hst
    rcases hst with hst | rfl
    · exact h.2.1 st hst
    · exact hfs
  · simp only [World.update, List.mem_append, List.mem_singleton]
    exact Or.inl h.2.2.1
  · simp [World.update]

theorem World.fileWrite_spec {w : World} {flt : Faults} {path : String} {p : List Nat}
    {fs0 : Files} (hF : w.Frame path fs0) :
    ∀ w1 n failed, w.Write flt path p = (w1, n, failed) →
      w1.Frame path fs0 ∧ n ≤ p.length ∧
      w1.files path = some (File.raw (w.files.bytes path ++ p.take n)) ∧
      (failed = false → n = p.length) ∧ (flt.write = none → failed = false) := by
  intro w1 n failed h
  have hput : ∀ q : List Nat, ∀ p1, p1 ≠ path →
      (w.files.put path (some (File.raw q))) p1 = fs0 p1 := by
    intro q p1 hp
    rw [Files.put_other _ _ _ _ hp]
    exact hF.1 p1 hp
  cases hk : flt.writeFails w.writes with
  | some k =>
    simp only [World.Write, hk, Prod.mk.injEq] at h
    obtain ⟨rfl, rfl, rfl⟩ := h
    refine ⟨?_, ?_, ?_, ?_, ?_⟩
    · have := World.Frame_update hF (hput (w.files.bytes path ++ p.take k))
      exact this
    · simp [List.length_take]
    · have : List.take (List.take k p).length p = List.take k p := by
        rw [List.length_take]
        rcases Nat.le_total k p.length with h | h
        · rw [Nat.min_eq_left h]
        · rw [Nat.min_eq_right h, List.take_of_length_le h, List.take_of_length_le (le_refl _)]
      simp [World.update, Files.put_same, this]
    · intro h; cases h
    · intro hw
      simp [Faults.writeFails, hw] at hk
  | none =>
    simp only [World.Write, hk, Prod.mk.injEq] at h
    obtain ⟨rfl, rfl, rfl⟩ := h
    refine ⟨?_, le_refl _, ?_, ?_, ?_⟩
    · have := World.Frame_update hF (hput (w.files.bytes path ++ p))
      exact this
    · simp [World.update, Files.put_same]
    · intro _; rfl
    · intro _; rfl

end os

namespace bufio

theorem Writer.Flush_spec (b : Writer) (w : os.World) (flt : os.Faults) (fs0 : os.Files)
    (acc : List Nat) (hF : w.Frame b.path fs0) (hH : b.Holds w acc) :
    ∀ w1 b1 failed, b.Flush w flt = (w1, b1, failed) →
      b1.path = b.path ∧ b1.size = b.size ∧ w1.Frame b.path fs0 ∧ b1.Holds w1 acc ∧
      failed = b1.err ∧ (failed = false → b1.buf = []) ∧
      (flt.write = none → b.err = false → failed = false) := by
  intro w1 b1 failed h
  obtain ⟨disk, hdisk, hacc⟩ := hH
  by_cases herr : b.err = true
  · simp only [Writer.Flush, herr, if_true, Prod.mk.injEq] at h
    obtain ⟨rfl, rfl, rfl⟩ := h
    refine ⟨rfl, rfl, hF, ⟨disk, hdisk, hacc⟩, herr.symm, ?_, ?_⟩
    · intro h; cases h
    · intro _ h; rw [h] at herr; cases herr
  · have herr1 : b.err = false := by simpa using herr
    by_cases hlen : b.buf.length = 0
    · simp only [Writer.Flush, herr1, hlen, if_true, Prod.mk.injEq] at h
      simp only [Bool.false_eq_true, if_false] at h
      obtain ⟨rfl, rfl, rfl⟩ := h
      refine ⟨rfl, rfl, hF, ⟨disk, hdisk, hacc⟩, herr1.symm, ?_, ?_⟩
      · intro _; exact List.length_eq_zero.mp hlen
      · intro _ _; rfl
    · rcases hw : w.Write flt b.path b.buf with ⟨w2, n, wfailed⟩
      obtain ⟨hF2, hn, hfile, hall, hnone⟩ := os.World.fileWrite_spec hF w2 n wfailed hw
      rw [os.Files.bytes_of_raw hdisk] at hfile
      simp only [Writer.Flush, herr1, hlen, hw, if_false, Bool.false_eq_true] at h
      by_cases hbad : wfailed = true ∨ n < b.buf.length
      · simp only [hbad, if_true, Prod.mk.injEq] at h
        obtain ⟨rfl, rfl, rfl⟩ := h
        refine ⟨rfl, rfl, hF2, ⟨_, hfile, ?_⟩, rfl, ?_, ?_⟩
        · intro h; cases h
        · intro h; cases h
        · intro hw1 _
          have h1 := hnone hw1
          have h2 := hall h1
          rcases hbad with hbad | hbad
          · rw [h1] at hbad; cases hbad
          · omega
      · simp only [hbad, if_false, Prod.mk.injEq] at h
        obtain ⟨rfl, rfl, rfl⟩ := h
        have hn1 : n = b.buf.length := by
          simp only [not_or, not_lt] at hbad
          omega
        refine ⟨rfl, rfl, hF2, ⟨_, hfile, ?_⟩, rfl, ?_, ?_⟩
        · intro _
          rw [hn1, List.take_length]
          simpa using hacc herr1
        · intro _; rfl
        · intro _ _; rfl

theorem Writer.writeLoop_spec (flt : os.Faults) (fs0 : os.Files) :
    ∀ (fuel : Nat) (w : os.World) (b : Writer) (p : List Nat) (nn : Nat) (acc : List Nat),
      w.Frame b.path fs0 → b.Holds w acc →
      ∀ w1 b1 p1 nn1, Writer.writeLoop flt fuel w b p nn = (w1, b1, p1, nn1) →
        b1.path = b.path ∧ b1.size = b.size ∧ w1.Frame b.path fs0 ∧
        (∃ disk, w1.files b.path = some (os.File.raw disk) ∧
          (b1.err = false → disk ++ b1.buf ++ p1 = acc ++ p ∧ nn1 + p1.length = nn + p.length)) ∧
        (b.err = true → b1.err = true) ∧
        (flt.write = none → b.err = false → b1.err = false) ∧
        ((p.length ≤ b.Available ∨ (1 ≤ fuel ∧ b.buf = []) ∨ 2 ≤ fuel) → b1.err = false →
          p1.length ≤ b1.Available) := by
  intro fuel
  induction fuel with
  | zero =>
    intro w b p nn acc hF hH w1 b1 p1 nn1 h
    simp only [Writer.writeLoop, Prod.mk.injEq] at h
    obtain ⟨rfl, rfl, rfl, rfl⟩ := h
    obtain ⟨disk, hdisk, hacc⟩ := hH
    refine ⟨rfl, rfl, hF, ⟨disk, hdisk, ?_⟩, id, fun _ h => h, ?_⟩
    · intro he
      rw [List.append_assoc, ← List.append_assoc, hacc he]
      exact ⟨by simp, rfl⟩
    · intro h _
      rcases h with h | ⟨h, _⟩ | h
      · exact h
      · omega
      · omega
  | succ fuel ih =>
    intro w b p nn acc hF hH w1 b1 p1 nn1 h
    obtain ⟨disk, hdisk, hacc⟩ := hH
    by_cases hc : p.length > b.Available ∧ b.err = false
    · obtain ⟨hgt, herr⟩ := hc
      by_cases hbuf : b.buf.length = 0
      · -- a write straight to the file
        have hb0 : b.buf = [] := List.length_eq_zero.mp hbuf
        rcases hw : w.Write flt b.path p with ⟨w2, n, wfailed⟩
        obtain ⟨hF2, hn, hfile, hall, hnone⟩ := os.World.fileWrite_spec hF w2 n wfailed hw
        rw [os.Files.bytes_of_raw hdisk] at hfile
        simp only [Writer.writeLoop, hgt, herr, hbuf, hw, and_self, if_true] at h
        have hH2 : ({ b with err := wfailed } : Writer).Holds w2 (acc ++ p.take n) := by
          refine ⟨_, hfile, ?_⟩
          intro _
          have := hacc herr
          rw [hb0] at this ⊢
          simp at this ⊢
          rw [this]
        obtain ⟨e1, e2, e3, ⟨disk2, hd2, hrel⟩, e5, e6, e7⟩ :=
          ih w2 { b with err := wfailed } (p.drop n) (nn + n) (acc ++ p.take n) hF2 hH2
            w1 b1 p1 nn1 h
        refine ⟨e1, e2, e3, ⟨disk2, hd2, ?_⟩, ?_, ?_, ?_⟩
        · intro he
          obtain ⟨r1, r2⟩ := hrel he
          refine ⟨?_, ?_⟩
          · rw [r1, List.append_assoc, List.take_append_drop]
          · rw [r2, List.length_drop]; omega
        · intro h1; rw [h1] at herr; cases herr
        · intro hw1 _
          exact e6 hw1 (hnone hw1)
        · intro _ he
          apply e7 _ he
          left
          have hwf : wfailed = false := by
            cases hwf : wfailed with
            | false => rfl
            | true =>
              have := e5 hwf
              rw [this] at he; cases he
          rw [hall hwf]
          simp
      · -- the buffer is filled and flushed
        have hbuf1 : ¬ b.buf = [] := fun e => hbuf (by rw [e]; rfl)
        obtain ⟨bpath, bsize, bbuf, berr⟩ := b
        simp only at herr hbuf hbuf1 hdisk hacc hF
        subst herr
        rcases hf : (Writer.mk bpath bsize
            (bbuf ++ p.take (min (Writer.mk bpath bsize bbuf false).Available p.length)) false).Flush
            w flt with ⟨w2, b2, ffailed⟩
        have hH1 : (Writer.mk bpath bsize
            (bbuf ++ p.take (min (Writer.mk bpath bsize bbuf false).Available p.length)) false).Holds w
            (acc ++ p.take (min (Writer.mk bpath bsize bbuf false).Available p.length)) := by
          refine ⟨disk, hdisk, ?_⟩
          intro _
          simp only
          rw [← List.append_assoc, hacc rfl]
        obtain ⟨f1, f2, f3, f4, f5, f6, f7⟩ :=
          Writer.Flush_spec _ w flt fs0 _ hF hH1 w2 b2 ffailed hf
        simp only at f1 f2 f3
        simp only [Writer.writeLoop, hgt, hbuf, hf, and_self, if_true, if_false] at h
        have hF3 : w2.Frame b2.path fs0 := by rw [f1]; exact f3
        obtain ⟨e1, e2, e3, ⟨disk2, hd2, hrel⟩, e5, e6, e7⟩ :=
          ih w2 b2 _ _ _ hF3 f4 w1 b1 p1 nn1 h
        rw [f1] at e1 e3 hd2
        rw [f2] at e2
        refine ⟨e1, e2, e3, ⟨disk2, hd2, ?_⟩, ?_, ?_, ?_⟩
        · intro he
          obtain ⟨r1, r2⟩ := hrel he
          refine ⟨?_, ?_⟩
          · rw [r1, List.append_assoc, List.take_append_drop]
          · rw [r2, List.length_drop]; omega
        · intro h1; cases h1
        · intro hw1 _
          apply e6 hw1
          rw [← f5]
          exact f7 hw1 rfl
        · intro hen he
          apply e7 _ he
          have hb2 : b2.err = false := by
            cases hb2 : b2.err with
            | false => rfl
            | true =>
              have := e5 hb2
              rw [this] at he; cases he
          right; left
          refine ⟨?_, f6 (by rw [f5]; exact hb2)⟩
          rcases hen with hen | ⟨_, hen⟩ | hen
          · omega
          · exact absurd hen hbuf1
          · omega
    · simp only [Writer.writeLoop, hc, if_false, Prod.mk.injEq] at h
      obtain ⟨rfl, rfl, rfl, rfl⟩ := h
      refine ⟨rfl, rfl, hF, ⟨disk, hdisk, ?_⟩, id, fun _ h => h, ?_⟩
      · intro he
        rw [List.append_assoc, ← List.append_assoc, hacc he]
        exact ⟨by simp, rfl⟩
      · intro _ he
        simp only [not_and, he, not_true_eq_false, imp_false, not_lt, gt_iff_lt] at hc
        exact hc

theorem Writer.bufWrite_spec {b : Writer} {w : os.World} {flt : os.Faults} {fs0 : os.Files}
    {acc p : List Nat} (hF : w.Frame b.path fs0) (hH : b.Holds w acc) :
    ∀ w1 b1 n failed, b.Write w flt p = (w1, b1, n, failed) →
      b1.path = b.path ∧ b1.size = b.size ∧ w1.Frame b.path fs0 ∧ b1.Holds w1 (acc ++ p) ∧
      failed = b1.err ∧ (failed = false → n = p.length) ∧
      (flt.write = none → b.err = false → failed = false) := by
  intro w1 b1 n failed h
  rcases hl : Writer.writeLoop flt (p.length + 2) w b p 0 with ⟨w2, b2, p2, nn2⟩
  obtain ⟨e1, e2, e3, ⟨disk2, hd2, hrel⟩, _, e6, e7⟩ :=
    Writer.writeLoop_spec flt fs0 (p.length + 2) w b p 0 acc hF hH w2 b2 p2 nn2 hl
  simp only [Writer.Write, hl] at h
  by_cases he : b2.err = true
  · simp only [he, if_true, Prod.mk.injEq] at h
    obtain ⟨rfl, rfl, rfl, rfl⟩ := h
    refine ⟨e1, e2, e3, ⟨disk2, by rw [e1]; exact hd2, ?_⟩, he.symm, ?_, ?_⟩
    · intro h; rw [he] at h; cases h
    · intro h; cases h
    · intro hw hb
      have := e6 hw hb
      rw [this] at he; cases he
  · have he1 : b2.err = false := by simpa using he
    simp only [he1, Bool.false_eq_true, if_false, Prod.mk.injEq] at h
    obtain ⟨rfl, rfl, rfl, rfl⟩ := h
    obtain ⟨r1, r2⟩ := hrel he1
    have hfit := e7 (Or.inr (Or.inr (by omega))) he1
    have hmin : min b2.Available p2.length = p2.length := Nat.min_eq_right hfit
    refine ⟨e1, e2, e3, ⟨disk2, by rw [e1]; exact hd2, ?_⟩, rfl, ?_, ?_⟩
    · intro _
      simp only [hmin, List.take_length]
      rw [← List.append_assoc]; exact r1
    · intro _
      rw [hmin]; omega
    · intro _ _; rfl

end bufio

/-! ## Lemmas: the reads and the copy loop -/

namespace io

theorem Reader.Read_nil (f : Option String) (e : Bool) (n : Nat) :
    (Reader.mk [] f e).Read n = ([], some (Reader.mk [] f e).finalError, Reader.mk [] f e) := rfl

theorem Reader.Read_whole (c : List Nat) (rest : List (List Nat)) (f : Option String) (e : Bool)
    (n : Nat) (h : c.length ≤ n) :
    (Reader.mk (c :: rest) f e).Read n =
      (c, (if rest.isEmpty ∧ e then some (Reader.mk (c :: rest) f e).finalError else none),
        Reader.mk rest f e) := by
  simp [Reader.Read, h]

theorem Reader.Read_piece (c : List Nat) (rest : List (List Nat)) (f : Option String) (e : Bool)
    (n : Nat) (h : ¬ c.length ≤ n) :
    (Reader.mk (c :: rest) f e).Read n = (c.take n, none, Reader.mk (c.drop n :: rest) f e) := by
  simp [Reader.Read, h]

end io

namespace spool

theorem readLen_pos {N : Int} (h : 0 < N) : 1 ≤ readLen N := by
  unfold readLen; split <;> omega

theorem readLen_le {N : Int} (h : 0 < N) : (readLen N : Int) ≤ N := by
  unfold readLen; split <;> omega

theorem limitedReader.Read_nonpos (R : io.Reader) (N : Int) (n : Nat) (h : N ≤ 0) :
    (limitedReader.mk R N).Read n = ([], some io.ReadError.ErrTooLarge, limitedReader.mk R N) := by
  simp [limitedReader.Read, h]

theorem limitedReader.Read_pos (R : io.Reader) (N : Int) (h : 0 < N) :
    (limitedReader.mk R N).Read (32 * 1024) =
      ((R.Read (readLen N)).1, (R.Read (readLen N)).2.1,
        limitedReader.mk (R.Read (readLen N)).2.2 (N - ((R.Read (readLen N)).1.length : Int))) := by
  have hN : ¬ N ≤ 0 := by omega
  simp only [limitedReader.Read, hN, if_false, readLen]

theorem drain_succ (fuel : Nat) (lr : limitedReader) (acc : List Nat) :
    drain (fuel + 1) lr acc =
      match lr.Read (32 * 1024) with
      | (data, some e, _) => some (acc ++ data, e)
      | (data, none, lr1) => drain fuel lr1 (acc ++ data) := rfl

theorem drain_transfer (pre body1 acc out : List Nat) (N : Int) (e fin : io.ReadError)
    (eager : Bool) (hpre : (pre.length : Int) ≤ N)
    (h1 : N - (pre.length : Int) < (body1.length : Int) →
      out = (acc ++ pre) ++ body1.take (N - (pre.length : Int)).toNat ∧
        e = io.ReadError.ErrTooLarge)
    (h2 : (body1.length : Int) < N - (pre.length : Int) → out = (acc ++ pre) ++ body1 ∧ e = fin)
    (h3 : (body1.length : Int) = N - (pre.length : Int) →
      out = (acc ++ pre) ++ body1 ∧ (e = io.ReadError.ErrTooLarge ∨ (eager = true ∧ e = fin))) :
    (N < ((pre ++ body1).length : Int) →
      out = acc ++ (pre ++ body1).take N.toNat ∧ e = io.ReadError.ErrTooLarge) ∧
    (((pre ++ body1).length : Int) < N → out = acc ++ (pre ++ body1) ∧ e = fin) ∧
    (((pre ++ body1).length : Int) = N →
      out = acc ++ (pre ++ body1) ∧ (e = io.ReadError.ErrTooLarge ∨ (eager = true ∧ e = fin))) := by
  simp only [List.length_append, Nat.cast_add]
  refine ⟨?_, ?_, ?_⟩
  · intro h
    obtain ⟨r1, r2⟩ := h1 (by omega)
    refine ⟨?_, r2⟩
    have hp : pre.length ≤ N.toNat := by omega
    have ht : (N - (pre.length : Int)).toNat = N.toNat - pre.length := by omega
    rw [r1, ht, List.take_append_eq_append_take, List.take_of_length_le hp, List.append_assoc]
  · intro h
    obtain ⟨r1, r2⟩ := h2 (by omega)
    exact ⟨by rw [r1, List.append_assoc], r2⟩
  · intro h
    obtain ⟨r1, r2⟩ := h3 (by omega)
    exact ⟨by rw [r1, List.append_assoc], r2⟩

/-- The reads end within `copyFuel` rounds, and how they end is decided by the
length of the body against the limit. -/
theorem drain_spec : ∀ (fuel : Nat) (lr : limitedReader) (acc : List Nat),
    lr.R.chunks.length + lr.R.body.length < fuel →
    ∃ out e, drain fuel lr acc = some (out, e) ∧
      (lr.N < (lr.R.body.length : Int) →
        out = acc ++ lr.R.body.take lr.N.toNat ∧ e = io.ReadError.ErrTooLarge) ∧
      ((lr.R.body.length : Int) < lr.N → out = acc ++ lr.R.body ∧ e = lr.R.finalError) ∧
      ((lr.R.body.length : Int) = lr.N →
        out = acc ++ lr.R.body ∧
          (e = io.ReadError.ErrTooLarge ∨ (lr.R.eager = true ∧ e = lr.R.finalError))) := by
  intro fuel
  induction fuel with
  | zero => intro lr acc h; omega
  | succ fuel ih =>
    intro lr acc hm
    obtain ⟨⟨chunks, final, eager⟩, N⟩ := lr
    simp only [io.Reader.body] at hm ⊢
    by_cases hN : N ≤ 0
    · refine ⟨acc, io.ReadError.ErrTooLarge, ?_, ?_, ?_, ?_⟩
      · rw [drain_succ, limitedReader.Read_nonpos _ _ _ hN]; simp
      · intro _
        have : N.toNat = 0 := by omega
        simp [this]
      · intro h; omega
      · intro h
        have : chunks.flatten.length = 0 := by omega
        have : chunks.flatten = [] := List.length_eq_zero.mp this
        simp [this]
    · have hN1 : 0 < N := by omega
      have hn1pos := readLen_pos hN1
      have hn1le := readLen_le hN1
      cases chunks with
      | nil =>
        refine ⟨acc, io.Reader.finalError ⟨[], final, eager⟩, ?_, ?_, ?_, ?_⟩
        · rw [drain_succ, limitedReader.Read_pos _ _ hN1, io.Reader.Read_nil]; simp
        · intro h; simp at h; omega
        · intro _; simp
        · intro h; simp at h; omega
      | cons c rest =>
        by_cases hcl : c.length ≤ readLen N
        · by_cases hlast : rest.isEmpty = true ∧ eager = true
          · have hrest : rest = [] := by simpa using hlast.1
            subst hrest
            refine ⟨acc ++ c, io.Reader.finalError ⟨[c], final, eager⟩, ?_, ?_, ?_, ?_⟩
            · rw [drain_succ, limitedReader.Read_pos _ _ hN1, io.Reader.Read_whole _ _ _ _ _ hcl]
              simp [hlast.2]
            · intro h; simp at h; omega
            · intro _; simp
            · intro _; simp [hlast.2]
          · have hm1 : rest.length + (io.Reader.body ⟨rest, final, eager⟩).length < fuel := by
              simp [io.Reader.body] at hm ⊢; omega
            obtain ⟨out, e, hd, h1, h2, h3⟩ :=
              ih ⟨⟨rest, final, eager⟩, N - (c.length : Int)⟩ (acc ++ c) hm1
            refine ⟨out, e, ?_, ?_⟩
            · rw [← hd, drain_succ, limitedReader.Read_pos _ _ hN1,
                io.Reader.Read_whole _ _ _ _ _ hcl]
              have hlast1 : ¬ (rest = [] ∧ eager = true) := by
                simpa using hlast
              simp [hlast1]
            · have := drain_transfer c rest.flatten acc out N e
                (io.Reader.finalError ⟨rest, final, eager⟩) eager (by omega) h1 h2 h3
              simpa [io.Reader.finalError] using this
        · have hlen : (c.take (readLen N)).length = readLen N := by
            rw [List.length_take]; omega
          have hm1 : (c.drop (readLen N) :: rest).length +
              (io.Reader.body ⟨c.drop (readLen N) :: rest, final, eager⟩).length < fuel := by
            simp [io.Reader.body] at hm ⊢; omega
          obtain ⟨out, e, hd, h1, h2, h3⟩ :=
            ih ⟨⟨c.drop (readLen N) :: rest, final, eager⟩,
              N - ((c.take (readLen N)).length : Int)⟩ (acc ++ c.take (readLen N)) hm1
          refine ⟨out, e, ?_, ?_⟩
          · rw [← hd, drain_succ, limitedReader.Read_pos _ _ hN1,
              io.Reader.Read_piece _ _ _ _ _ hcl]
          · have := drain_transfer (c.take (readLen N)) (c.drop (readLen N) ++ rest.flatten)
              acc out N e (io.Reader.finalError ⟨rest, final, eager⟩) eager (by omega)
              (by simpa [io.Reader.body] using h1) (by simpa [io.Reader.body] using h2)
              (by simpa [io.Reader.body, io.Reader.finalError] using h3)
            simpa [io.Reader.finalError, ← List.append_assoc] using this

theorem copyErrorOf_none_iff (e : io.ReadError) : copyErrorOf e = none ↔ e = io.ReadError.EOF := by
  cases e <;> simp [copyErrorOf]

theorem multiWrite_spec (flt : os.Faults) (fs0 : os.Files) (w : os.World) (bw : bufio.Writer)
    (h p : List Nat) (hF : w.Frame bw.path fs0) (hH : bw.Holds w h) :
    ∀ w1 bw1 h1 n failed, multiWrite flt w bw h p = (w1, bw1, h1, n, failed) →
      bw1.path = bw.path ∧ bw1.size = bw.size ∧ w1.Frame bw.path fs0 ∧ bw1.Holds w1 h1 ∧
      failed = bw1.err ∧ (failed = false → h1 = h ++ p ∧ n = p.length) ∧
      (flt.write = none → bw.err = false → failed = false) := by
  intro w1 bw1 h1 n failed hm
  rcases hw : bw.Write w flt p with ⟨w2, bw2, n2, f2⟩
  obtain ⟨e1, e2, e3, e4, e5, e6, e7⟩ := bufio.Writer.bufWrite_spec hF hH w2 bw2 n2 f2 hw
  simp only [multiWrite, hw] at hm
  by_cases hbad : f2 = true ∨ n2 ≠ p.length
  · simp only [hbad, if_true, Prod.mk.injEq] at hm
    obtain ⟨rfl, rfl, rfl, rfl, rfl⟩ := hm
    have hf2 : f2 = true := by
      rcases hbad with hbad | hbad
      · exact hbad
      · cases hf : f2 with
        | true => rfl
        | false => exact absurd (e6 hf) hbad
    have herr : bw2.err = true := by rw [← e5]; exact hf2
    obtain ⟨disk, hd, _⟩ := e4
    refine ⟨e1, e2, e3, ⟨disk, hd, ?_⟩, herr.symm, ?_, ?_⟩
    · intro h0; rw [herr] at h0; cases h0
    · intro h0; cases h0
    · intro hw1 hb
      have := e7 hw1 hb
      rw [this] at hf2; cases hf2
  · simp only [hbad, if_false, Prod.mk.injEq] at hm
    obtain ⟨rfl, rfl, rfl, rfl, rfl⟩ := hm
    have hf2 : f2 = false := by
      cases hf : f2 with
      | false => rfl
      | true => exact absurd (Or.inl hf) hbad
    refine ⟨e1, e2, e3, e4, ?_, ?_, ?_⟩
    · rw [← e5]; exact hf2.symm
    · intro _; exact ⟨rfl, rfl⟩
    · intro _ _; rfl

/-- The copy loop, whatever fails: it touches the temporary file only, and when
no write has failed it has copied exactly what the reads deliver. -/
theorem ioCopy_spec (flt : os.Faults) (fs0 : os.Files) :
    ∀ (fuel : Nat) (w : os.World) (bw : bufio.Writer) (h : List Nat) (lr : limitedReader)
      (written : Int), w.Frame bw.path fs0 → bw.Holds w h → bw.err = false →
      ∀ c, ioCopy flt fuel w bw h lr written = some c →
        c.bw.path = bw.path ∧ c.bw.size = bw.size ∧ c.w.Frame bw.path fs0 ∧
        c.bw.Holds c.w c.hashed ∧
        (c.bw.err = false → ∃ e, drain fuel lr h = some (c.hashed, e) ∧ c.err = copyErrorOf e ∧
          c.written = written + ((c.hashed.length : Int) - (h.length : Int))) ∧
        (flt.write = none → c.bw.err = false) := by
  intro fuel
  induction fuel with
  | zero => intro w bw h lr written _ _ _ c hc; simp [ioCopy] at hc
  | succ fuel ih =>
    intro w bw h lr written hF hH hE c hc
    rcases hr : lr.Read (32 * 1024) with ⟨data, er, lr1⟩
    rcases hT : (if data.length > 0 then multiWrite flt w bw h data else (w, bw, h, 0, false))
      with ⟨w1, bw1, h1, nw, ew⟩
    have hspec : bw1.path = bw.path ∧ bw1.size = bw.size ∧ w1.Frame bw.path fs0 ∧
        bw1.Holds w1 h1 ∧ ew = bw1.err ∧ (ew = false → h1 = h ++ data ∧ nw = data.length) ∧
        (flt.write = none → ew = false) := by
      by_cases hd : data.length > 0
      · simp only [hd, if_true] at hT
        obtain ⟨e1, e2, e3, e4, e5, e6, e7⟩ :=
          multiWrite_spec flt fs0 w bw h data hF hH w1 bw1 h1 nw ew hT
        exact ⟨e1, e2, e3, e4, e5, e6, fun hw => e7 hw hE⟩
      · simp only [hd, if_false, Prod.mk.injEq] at hT
        obtain ⟨rfl, rfl, rfl, rfl, rfl⟩ := hT
        have hd0 : data = [] := by
          apply List.length_eq_zero.mp; omega
        refine ⟨rfl, rfl, hF, hH, hE.symm, ?_, fun _ => rfl⟩
        intro _; simp [hd0]
    obtain ⟨s1, s2, s3, s4, s5, s6, s7⟩ := hspec
    simp only [ioCopy, hr, hT] at hc
    by_cases hew : ew = true
    · simp only [hew, if_true, Option.some.injEq] at hc
      subst hc
      refine ⟨s1, s2, s3, s4, ?_, ?_⟩
      · intro h0
        simp only at h0
        rw [← s5, hew] at h0; cases h0
      · intro hw
        have := s7 hw
        rw [this] at hew; cases hew
    · have hew1 : ew = false := by simpa using hew
      obtain ⟨t1, t2⟩ := s6 hew1
      have hb1 : bw1.err = false := by rw [← s5]; exact hew1
      simp only [hew1, Bool.false_eq_true, if_false] at hc
      have hdr : drain (fuel + 1) lr h =
          match er with
          | some e => some (h1, e)
          | none => drain fuel lr1 h1 := by
        rw [drain_succ]
        simp only [hr, t1]
        cases er <;> rfl
      cases er with
      | none =>
        simp only at hc hdr
        have hF1 : w1.Frame bw1.path fs0 := by rw [s1]; exact s3
        obtain ⟨i1, i2, i3, i4, i5, i6⟩ := ih w1 bw1 h1 lr1 (written + nw) hF1 s4 hb1 c hc
        rw [s1] at i1 i3
        rw [s2] at i2
        refine ⟨i1, i2, i3, i4, ?_, i6⟩
        intro h0
        obtain ⟨e, d1, d2, d3⟩ := i5 h0
        refine ⟨e, by rw [hdr]; exact d1, d2, ?_⟩
        rw [d3, t1, t2]
        simp only [List.length_append, Nat.cast_add]
        omega
      | some e =>
        have hc1 : c = ⟨w1, bw1, h1, written + (nw : Int), copyErrorOf e⟩ := by
          cases e <;> simp only [Option.some.injEq] at hc <;> rw [← hc] <;> rfl
        subst hc1
        refine ⟨s1, s2, s3, s4, ?_, fun _ => hb1⟩
        intro _
        refine ⟨e, by rw [hdr], rfl, ?_⟩
        simp only
        rw [t1, t2]
        simp only [List.length_append, Nat.cast_add]
        omega

/-- The copy loop ends whenever the reads do. -/
theorem ioCopy_isSome (flt : os.Faults) :
    ∀ (fuel : Nat) (w : os.World) (bw : bufio.Writer) (h acc : List Nat) (lr : limitedReader)
      (written : Int), (drain fuel lr acc).isSome →
      (ioCopy flt fuel w bw h lr written).isSome := by
  intro fuel
  induction fuel with
  | zero => intro w bw h acc lr written hd; simp [drain] at hd
  | succ fuel ih =>
    intro w bw h acc lr written hd
    rcases hr : lr.Read (32 * 1024) with ⟨data, er, lr1⟩
    rcases hT : (if data.length > 0 then multiWrite flt w bw h data else (w, bw, h, 0, false))
      with ⟨w1, bw1, h1, nw, ew⟩
    rw [drain_succ, hr] at hd
    simp only [ioCopy, hr, hT]
    by_cases hew : ew = true
    · simp [hew]
    · have hew1 : ew = false := by simpa using hew
      simp only [hew1, Bool.false_eq_true, if_false]
      cases er with
      | none => exact ih w1 bw1 h1 _ lr1 _ hd
      | some e => cases e <;> simp

end spool

/-! ## Lemmas: the run of `FS.Store` -/

namespace spool

theorem Store_eq (s : FS) (env : Env) (fs : os.Files) (req : StoreRequest) (r : io.Reader) :
    s.Store env fs req r =
      match NewULID env.entropy (storeTime s req) with
      | none => { ret := Return.panic, world := os.World.start fs }
      | some id =>
        if env.faults.mkdirAll then
          { ret := Return.error StoreError.mkdir, world := os.World.start fs }
        else
          match (os.World.start fs).OpenFileExcl env.faults (storePath s req id ".eml.tmp") with
          | none => { ret := Return.error StoreError.createTmp, world := os.World.start fs }
          | some w1 =>
            match ioCopy env.faults (copyFuel r) w1
                (bufio.NewWriterSize (storePath s req id ".eml.tmp") (32 * 1024)) []
                { R := r, N := req.MaxBytes } 0 with
            | none => { ret := Return.unfinished, world := w1 }
            | some c =>
              storeFinish env req (storeTime s req) id (storePath s req id ".eml.tmp")
                (storePath s req id ".eml") (storePath s req id ".json.tmp")
                (storePath s req id ".json") c := rfl

theorem slash_not_mem_emlTmp : '/' ∉ (".eml.tmp" : String).data := by decide

theorem slash_not_mem_eml : '/' ∉ (".eml" : String).data := by decide

theorem slash_not_mem_jsonTmp : '/' ∉ (".json.tmp" : String).data := by decide

theorem slash_not_mem_json : '/' ∉ (".json" : String).data := by decide

/-- The reads of `FS.Store` from the reader `r` under the limit `N`. -/
theorem drain_Store (r : io.Reader) (N : Int) :
    ∃ out e, drain (copyFuel r) { R := r, N := N } [] = some (out, e) ∧
      (N < (r.body.length : Int) → out = r.body.take N.toNat ∧ e = io.ReadError.ErrTooLarge) ∧
      ((r.body.length : Int) < N → out = r.body ∧ e = r.finalError) ∧
      ((r.body.length : Int) = N →
        out = r.body ∧ (e = io.ReadError.ErrTooLarge ∨ (r.eager = true ∧ e = r.finalError))) := by
  have := drain_spec (copyFuel r) { R := r, N := N } [] (by simp [copyFuel])
  simpa using this

/-- A run that reads to the end of the stream has read the whole body. -/
theorem drain_EOF (r : io.Reader) (N : Int) (out : List Nat)
    (h : drain (copyFuel r) { R := r, N := N } [] = some (out, io.ReadError.EOF)) :
    out = r.body := by
  obtain ⟨out1, e, hd, h1, h2, h3⟩ := drain_Store r N
  rw [hd] at h
  simp only [Option.some.injEq, Prod.mk.injEq] at h
  obtain ⟨rfl, rfl⟩ := h
  rcases lt_trichotomy N (r.body.length : Int) with hlt | heq | hgt
  · have := (h1 hlt).2
    cases this
  · exact (h3 heq.symm).1
  · exact (h2 hgt).1

/-- A run of `FS.Store` that gets an identifier, its directory and its temporary
file reaches the end of the copy, in a state `c` that the lemmas on the copy loop
describe. -/
theorem Store_reach (s : FS) (env : Env) (fs : os.Files) (req : StoreRequest) (r : io.Reader)
    (id : String) (hid : NewULID env.entropy (storeTime s req) = some id)
    (hmk : env.faults.mkdirAll = false) (hop : env.faults.openFile = false)
    (hfree : fs (storePath s req id ".eml.tmp") = none) :
    ∃ c, s.Store env fs req r =
        storeFinish env req (storeTime s req) id (storePath s req id ".eml.tmp")
          (storePath s req id ".eml") (storePath s req id ".json.tmp")
          (storePath s req id ".json") c ∧
      c.bw.path = storePath s req id ".eml.tmp" ∧
      c.w.Frame (storePath s req id ".eml.tmp") fs ∧
      c.bw.Holds c.w c.hashed ∧
      (c.bw.err = false → ∃ e, drain (copyFuel r) { R := r, N := req.MaxBytes } [] =
          some (c.hashed, e) ∧ c.err = copyErrorOf e ∧ c.written = (c.hashed.length : Int)) ∧
      (env.faults.write = none → c.bw.err = false) := by
  have hopen : (os.World.start fs).OpenFileExcl env.faults (storePath s req id ".eml.tmp") =
      some ((os.World.start fs).update
        (fs.put (storePath s req id ".eml.tmp") (some (os.File.raw [])))) := by
    simp [os.World.OpenFileExcl, hop, os.World.start, hfree]
  have hF : ((os.World.start fs).update
      (fs.put (storePath s req id ".eml.tmp") (some (os.File.raw [])))).Frame
      (bufio.NewWriterSize (storePath s req id ".eml.tmp") (32 * 1024)).path fs := by
    refine ⟨?_, ?_, ?_, ?_⟩
    · intro p hp
      exact os.Files.put_other _ _ _ _ hp
    · intro st hst p hp
      simp only [os.World.update, os.World.start, List.mem_append, List.mem_singleton,
        List.mem_cons, List.not_mem_nil, or_false] at hst
      rcases hst with rfl | rfl
      · rfl
      · exact os.Files.put_other _ _ _ _ hp
    · simp [os.World.update, os.World.start]
    · simp [os.World.update, os.World.start]
  have hH : (bufio.NewWriterSize (storePath s req id ".eml.tmp") (32 * 1024)).Holds
      ((os.World.start fs).update
        (fs.put (storePath s req id ".eml.tmp") (some (os.File.raw [])))) [] := by
    refine ⟨[], ?_, ?_⟩
    · simp [os.World.update, bufio.NewWriterSize, os.Files.put_same]
    · intro _; rfl
  obtain ⟨out, e, hd, _⟩ := drain_Store r req.MaxBytes
  have hsome := ioCopy_isSome env.faults (copyFuel r)
    ((os.World.start fs).update (fs.put (storePath s req id ".eml.tmp") (some (os.File.raw []))))
    (bufio.NewWriterSize (storePath s req id ".eml.tmp") (32 * 1024)) [] []
    { R := r, N := req.MaxBytes } 0 (by rw [hd]; rfl)
  obtain ⟨c, hc⟩ := Option.isSome_iff_exists.mp hsome
  obtain ⟨c1, _, c3, c4, c5, c6⟩ := ioCopy_spec env.faults fs (copyFuel r) _ _ [] _ 0 hF hH rfl c hc
  refine ⟨c, ?_, c1, c3, c4, ?_, c6⟩
  · rw [Store_eq, hid]
    simp only [hmk, Bool.false_eq_true, if_false, hopen, hc]
  · intro h0
    obtain ⟨e1, d1, d2, d3⟩ := c5 h0
    refine ⟨e1, d1, d2, ?_⟩
    rw [d3]; simp

theorem Flush_finish (c : Copied) (flt : os.Faults) (tmp : String) (fs : os.Files)
    (hp : c.bw.path = tmp) (hF : c.w.Frame tmp fs) (hH : c.bw.Holds c.w c.hashed) :
    ∀ w2 b2 failed, c.bw.Flush c.w flt = (w2, b2, failed) →
      w2.Frame tmp fs ∧
      (failed = false → c.bw.err = false ∧ w2.files tmp = some (os.File.raw c.hashed)) ∧
      (flt.write = none → c.bw.err = false → failed = false) := by
  intro w2 b2 failed h
  rw [← hp] at hF ⊢
  obtain ⟨f1, _, f3, ⟨disk, hd, hacc⟩, f5, f6, f7⟩ :=
    bufio.Writer.Flush_spec c.bw c.w flt fs c.hashed hF hH w2 b2 failed h
  refine ⟨f3, ?_, f7⟩
  intro hf
  have hb2 : b2.err = false := by rw [← f5]; exact hf
  have hbuf := f6 hf
  have hdisk := hacc hb2
  rw [hbuf, List.append_nil] at hdisk
  refine ⟨?_, ?_⟩
  · cases hce : c.bw.err with
    | false => rfl
    | true =>
      simp [bufio.Writer.Flush, hce] at h
      rw [h.2.2] at hf; cases hf
  · rw [← f1, hd, hdisk]

end spool

namespace os

theorem World.Unpublished_of_Frame {w : World} {tmp meta eml : String} {fs0 : Files}
    (body : List Nat) (hF : w.Frame tmp fs0) (hne : meta ≠ tmp) (hfresh : fs0 meta = none) :
    w.Unpublished fs0 meta eml body := by
  refine ⟨⟨hF.2.2.1, hF.2.2.2, ?_⟩, ?_⟩
  · intro st hst hsome
    rw [hF.2.1 st hst meta hne, hfresh] at hsome
    cases hsome
  · rw [hF.1 meta hne, hfresh]

theorem World.Unpublished_update {w : World} {meta eml : String} {fs0 fs1 : Files}
    {body : List Nat} (h : w.Unpublished fs0 meta eml body) (h1 : fs1 meta = none) :
    (w.update fs1).Unpublished fs0 meta eml body := by
  obtain ⟨⟨a1, _, a3⟩, _⟩ := h
  refine ⟨⟨?_, ?_, ?_⟩, h1⟩
  · simp only [World.update, List.mem_append, List.mem_singleton]
    exact Or.inl a1
  · simp [World.update]
  · intro st hst
    simp only [World.update, List.mem_append, List.mem_singleton] at hst
    rcases hst with hst | rfl
    · exact a3 st hst
    · intro hsome
      rw [h1] at hsome; cases hsome

theorem World.Unpublished_Remove {w : World} {meta eml : String} {fs0 : Files}
    {body : List Nat} (h : w.Unpublished fs0 meta eml body) (p : String) :
    (w.Remove p).Unpublished fs0 meta eml body := by
  apply World.Unpublished_update h
  by_cases hp : meta = p
  · rw [hp, Files.put_same]
  · rw [Files.put_other _ _ _ _ hp]; exact h.2

theorem World.Consistent_publish {w : World} {meta eml : String} {fs0 fs1 : Files}
    {body : List Nat} (h : w.Unpublished fs0 meta eml body)
    (h1 : fs1 eml = some (File.raw body)) :
    (w.update fs1).Consistent fs0 meta eml body := by
  obtain ⟨⟨a1, _, a3⟩, _⟩ := h
  refine ⟨?_, ?_, ?_⟩
  · simp only [World.update, List.mem_append, List.mem_singleton]
    exact Or.inl a1
  · simp [World.update]
  · intro st hst
    simp only [World.update, List.mem_append, List.mem_singleton] at hst
    rcases hst with hst | rfl
    · exact a3 st hst
    · intro _; exact h1

theorem World.WriteFile_spec {w : World} {flt : Faults} {p : String} {doc : Meta}
    {meta eml : String} {fs0 : Files} {body : List Nat}
    (h : w.Unpublished fs0 meta eml body) (hne : meta ≠ p) :
    ∀ w3 failed, w.WriteFile flt p doc = (w3, failed) →
      w3.Unpublished fs0 meta eml body ∧ (∀ q, q ≠ p → w3.files q = w.files q) ∧
      (failed = false → w3.files p = some (File.json doc) ∧ flt.writeFile = none) ∧
      (flt.writeFile = none → failed = false) := by
  intro w3 failed hw
  have hput : ∀ f, (w.files.put p f) meta = none := by
    intro f; rw [Files.put_other _ _ _ _ hne]; exact h.2
  unfold World.WriteFile at hw
  split at hw
  · rename_i hflt
    simp only [Prod.mk.injEq] at hw
    obtain ⟨rfl, rfl⟩ := hw
    refine ⟨World.Unpublished_update h (hput _), ?_, ?_, fun _ => rfl⟩
    · intro q hq; exact Files.put_other _ _ _ _ hq
    · intro _; exact ⟨Files.put_same _ _ _, hflt⟩
  · rename_i hflt
    simp only [Prod.mk.injEq] at hw
    obtain ⟨rfl, rfl⟩ := hw
    refine ⟨World.Unpublished_update h (hput _), ?_, ?_, ?_⟩
    · intro q hq; exact Files.put_other _ _ _ _ hq
    · intro h0; cases h0
    · intro h0; rw [h0] at hflt; cases hflt
  · rename_i hflt
    simp only [Prod.mk.injEq] at hw
    obtain ⟨rfl, rfl⟩ := hw
    refine ⟨h, fun _ _ => rfl, ?_, ?_⟩
    · intro h0; cases h0
    · intro h0; rw [h0] at hflt; cases hflt

theorem World.Rename_spec {w w4 : World} {failing : Bool} {old new : String}
    (h : w.Rename failing old new = some w4) :
    w4 = w.update ((w.files.put new (w.files old)).put old none) ∧ failing = false := by
  unfold World.Rename at h
  split at h
  · cases h
  · rename_i hc
    simp only [Option.some.injEq] at h
    refine ⟨h.symm, ?_⟩
    cases failing with
    | false => rfl
    | true => simp at hc

theorem World.Rename_ok (w : World) (old new : String) {f : File}
    (h : w.files old = some f) :
    w.Rename false old new = some (w.update ((w.files.put new (w.files old)).put old none)) := by
  simp [World.Rename, h]

end os

namespace spool

/-- The spool invariant holds through the part of `FS.Store` that follows the copy,
whatever fails in it. -/
theorem storeFinish_consistent (env : Env) (req : StoreRequest) (ts : time.Time)
    (id tmp eml metaTmp meta : String) (c : Copied) (fs : os.Files) (body : List Nat)
    (h1 : meta ≠ tmp) (h2 : meta ≠ metaTmp) (h3 : meta ≠ eml) (h4 : eml ≠ metaTmp)
    (h5 : tmp ≠ metaTmp) (h6 : eml ≠ tmp)
    (hp : c.bw.path = tmp) (hF : c.w.Frame tmp fs) (hH : c.bw.Holds c.w c.hashed)
    (hbody : c.bw.err = false → c.err = none → c.hashed = body)
    (hfresh : fs meta = none) :
    (storeFinish env req ts id tmp eml metaTmp meta c).world.Consistent fs meta eml body := by
  rcases hfl : c.bw.Flush c.w env.faults with ⟨w2, b2, failed⟩
  obtain ⟨g1, g2, _⟩ := Flush_finish c env.faults tmp fs hp hF hH w2 b2 failed hfl
  have U2 : w2.Unpublished fs meta eml body := os.World.Unpublished_of_Frame body g1 h1 hfresh
  unfold storeFinish
  rw [hfl]
  cases failed with
  | true => exact (os.World.Unpublished_Remove U2 tmp).1
  | false =>
    obtain ⟨hberr, htmp⟩ := g2 rfl
    simp only
    split
    · exact (os.World.Unpublished_Remove U2 tmp).1
    · split
      · exact (os.World.Unpublished_Remove U2 tmp).1
      · split
        · exact (os.World.Unpublished_Remove U2 tmp).1
        · exact (os.World.Unpublished_Remove U2 tmp).1
        · rename_i hce
          have hhash := hbody hberr hce
          split
          · rename_i w3 hwf
            obtain ⟨U3, _, _, _⟩ := os.World.WriteFile_spec U2 h2 w3 true hwf
            exact (os.World.Unpublished_Remove U3 tmp).1
          · rename_i w3 hwf
            obtain ⟨U3, k2, _, _⟩ := os.World.WriteFile_spec U2 h2 w3 false hwf
            have htmp3 : w3.files tmp = some (os.File.raw body) := by
              rw [k2 tmp h5, htmp, hhash]
            split
            · exact (os.World.Unpublished_Remove (os.World.Unpublished_Remove U3 tmp) metaTmp).1
            · rename_i w4 hre
              obtain ⟨rfl, _⟩ := os.World.Rename_spec hre
              have U4 : (w3.update ((w3.files.put eml (w3.files tmp)).put tmp none)).Unpublished
                  fs meta eml body := by
                apply os.World.Unpublished_update U3
                rw [os.Files.put_other _ _ _ _ h1, os.Files.put_other _ _ _ _ h3]
                exact U3.2
              split
              · exact (os.World.Unpublished_Remove U4 metaTmp).1
              · rename_i w5 hre2
                obtain ⟨rfl, _⟩ := os.World.Rename_spec hre2
                apply os.World.Consistent_publish U4
                simp only [os.World.update]
                rw [os.Files.put_other _ _ _ _ h4, os.Files.put_other _ _ _ _ (Ne.symm h3),
                  os.Files.put_other _ _ _ _ h6, os.Files.put_same, htmp3]

theorem drain_nonpos (r : io.Reader) (N : Int) (h : N ≤ 0) :
    drain (copyFuel r) { R := r, N := N } [] = some ([], io.ReadError.ErrTooLarge) := by
  unfold copyFuel
  rw [drain_succ, limitedReader.Read_nonpos _ _ _ h]
  rfl

theorem storePath_distinct {entropy : Nat} {t : time.Time} {id : String}
    (h : NewULID entropy t = some id) (s : FS) (req : StoreRequest) :
    storePath s req id ".json" ≠ storePath s req id ".eml.tmp" ∧
    storePath s req id ".json" ≠ storePath s req id ".json.tmp" ∧
    storePath s req id ".json" ≠ storePath s req id ".eml" ∧
    storePath s req id ".eml" ≠ storePath s req id ".json.tmp" ∧
    storePath s req id ".eml.tmp" ≠ storePath s req id ".json.tmp" ∧
    storePath s req id ".eml" ≠ storePath s req id ".eml.tmp" :=
  ⟨storePath_ne h s req _ _ slash_not_mem_json slash_not_mem_emlTmp (by decide),
   storePath_ne h s req _ _ slash_not_mem_json slash_not_mem_jsonTmp (by decide),
   storePath_ne h s req _ _ slash_not_mem_json slash_not_mem_eml (by decide),
   storePath_ne h s req _ _ slash_not_mem_eml slash_not_mem_jsonTmp (by decide),
   storePath_ne h s req _ _ slash_not_mem_emlTmp slash_not_mem_jsonTmp (by decide),
   storePath_ne h s req _ _ slash_not_mem_eml slash_not_mem_emlTmp (by decide)⟩

/-- The part of `FS.Store` after the copy when the body was too large and flush,
fsync and close succeed: `ErrTooLarge`, and the temporary file removed. -/
theorem storeFinish_tooLarge (env : Env) (req : StoreRequest) (ts : time.Time)
    (id tmp eml metaTmp meta : String) (c : Copied) (fs : os.Files)
    (hp : c.bw.path = tmp) (hF : c.w.Frame tmp fs) (hH : c.bw.Holds c.w c.hashed)
    (hw : env.faults.write = none) (hsync : env.faults.sync = false)
    (hclose : env.faults.close = false) (hberr : c.bw.err = false)
    (hce : c.err = some (CopyError.read io.ReadError.ErrTooLarge)) :
    (storeFinish env req ts id tmp eml metaTmp meta c).ret =
        Return.error StoreError.ErrTooLarge ∧
      (storeFinish env req ts id tmp eml metaTmp meta c).world.files tmp = none ∧
      ∀ p, p ≠ tmp → (storeFinish env req ts id tmp eml metaTmp meta c).world.files p = fs p := by
  rcases hfl : c.bw.Flush c.w env.faults with ⟨w2, b2, failed⟩
  obtain ⟨g1, _, g3⟩ := Flush_finish c env.faults tmp fs hp hF hH w2 b2 failed hfl
  have hf : failed = false := g3 hw hberr
  subst hf
  simp only [storeFinish, hfl, hsync, hclose, hce, Bool.false_eq_true, if_false]
  refine ⟨trivial, ?_, ?_⟩
  · simp [os.World.Remove, os.World.update, os.Files.put_same]
  · intro p hp1
    simp only [os.World.Remove, os.World.update]
    rw [os.Files.put_other _ _ _ _ hp1]
    exact g1.1 p hp1

/-- The part of `FS.Store` after the copy when the reader failed and flush, fsync
and close succeed: the error of the copy. -/
theorem storeFinish_readError (env : Env) (req : StoreRequest) (ts : time.Time)
    (id tmp eml metaTmp meta : String) (c : Copied) (fs : os.Files) (text : String)
    (hp : c.bw.path = tmp) (hF : c.w.Frame tmp fs) (hH : c.bw.Holds c.w c.hashed)
    (hw : env.faults.write = none) (hsync : env.faults.sync = false)
    (hclose : env.faults.close = false) (hberr : c.bw.err = false)
    (hce : c.err = some (CopyError.read (io.ReadError.other text))) :
    (storeFinish env req ts id tmp eml metaTmp meta c).ret =
        Return.error (StoreError.copy (CopyError.read (io.ReadError.other text))) := by
  rcases hfl : c.bw.Flush c.w env.faults with ⟨w2, b2, failed⟩
  obtain ⟨_, _, g3⟩ := Flush_finish c env.faults tmp fs hp hF hH w2 b2 failed hfl
  have hf : failed = false := g3 hw hberr
  subst hf
  simp only [storeFinish, hfl, hsync, hclose, hce, Bool.false_eq_true, if_false]

/-- The part of `FS.Store` after the copy when the copy succeeded and nothing
fails: the result, and the two files in place. -/
theorem storeFinish_ok (env : Env) (req : StoreRequest) (ts : time.Time)
    (id tmp eml metaTmp meta : String) (c : Copied) (fs : os.Files)
    (h2 : meta ≠ metaTmp) (h3 : meta ≠ eml) (h4 : eml ≠ metaTmp) (h5 : tmp ≠ metaTmp)
    (h6 : eml ≠ tmp)
    (hp : c.bw.path = tmp) (hF : c.w.Frame tmp fs) (hH : c.bw.Holds c.w c.hashed)
    (hflt : env.faults = os.Faults.none) (hberr : c.bw.err = false) (hce : c.err = none) :
    ∃ m : os.Meta,
      (storeFinish env req ts id tmp eml metaTmp meta c).ret =
        Return.ok ⟨id, if req.TraceID = "" then id else req.TraceID, c.written,
          hex.EncodeToString (env.sha256 c.hashed), eml, meta⟩ ∧
      (storeFinish env req ts id tmp eml metaTmp meta c).world.files eml =
        some (os.File.raw c.hashed) ∧
      (storeFinish env req ts id tmp eml metaTmp meta c).world.files meta =
        some (os.File.json m) ∧
      m.id = id ∧ m.trace_id = (if req.TraceID = "" then id else req.TraceID) ∧
      m.bytes = c.written ∧ m.sha256 = hex.EncodeToString (env.sha256 c.hashed) := by
  obtain ⟨sha, entropy, flt⟩ := env
  simp only at hflt
  subst hflt
  rcases hfl : c.bw.Flush c.w os.Faults.none with ⟨w2, b2, failed⟩
  obtain ⟨_, g2, g3⟩ := Flush_finish c os.Faults.none tmp fs hp hF hH w2 b2 failed hfl
  have hf : failed = false := g3 rfl hberr
  subst hf
  obtain ⟨_, htmp⟩ := g2 rfl
  generalize hdoc : (⟨id, if req.TraceID = "" then id else req.TraceID,
    ts.UTC.formatRFC3339Nano, req.RemoteIP, req.MailFrom, req.RcptTo, req.Domain, req.Mailbox,
    c.written, hex.EncodeToString (sha c.hashed)⟩ : os.Meta) = doc
  have hw3 : (w2.update (w2.files.put metaTmp (some (os.File.json doc)))).files tmp =
      some (os.File.raw c.hashed) := by
    simp only [os.World.update]
    rw [os.Files.put_other _ _ _ _ h5, htmp]
  have hr1 := os.World.Rename_ok _ tmp eml hw3
  rw [hw3] at hr1
  have hw4 : ((w2.update (w2.files.put metaTmp (some (os.File.json doc)))).update
      (((w2.update (w2.files.put metaTmp (some (os.File.json doc)))).files.put eml
        (some (os.File.raw c.hashed))).put tmp none)).files metaTmp =
      some (os.File.json doc) := by
    simp only [os.World.update]
    rw [os.Files.put_other _ _ _ _ h5.symm, os.Files.put_other _ _ _ _ h4.symm,
      os.Files.put_same]
  have hr2 := os.World.Rename_ok _ metaTmp meta hw4
  rw [hw4] at hr2
  have hrun : storeFinish ⟨sha, entropy, os.Faults.none⟩ req ts id tmp eml metaTmp meta c =
      { ret := Return.ok ⟨id, if req.TraceID = "" then id else req.TraceID, c.written,
          hex.EncodeToString (sha c.hashed), eml, meta⟩,
        world := (((w2.update (w2.files.put metaTmp (some (os.File.json doc)))).update
          (((w2.update (w2.files.put metaTmp (some (os.File.json doc)))).files.put eml
            (some (os.File.raw c.hashed))).put tmp none)).update
          (((((w2.update (w2.files.put metaTmp (some (os.File.json doc)))).update
            (((w2.update (w2.files.put metaTmp (some (os.File.json doc)))).files.put eml
              (some (os.File.raw c.hashed))).put tmp none)).files.put meta
                (some (os.File.json doc))).put metaTmp none))) } := by
    unfold storeFinish
    simp only [hfl]
    simp only [hce, os.Faults.none, Bool.false_eq_true, if_false, os.World.WriteFile, hdoc]
    rw [hr1]
    simp only
    rw [hr2]
  refine ⟨doc, ?_, ?_, ?_, ?_⟩
  · rw [hrun]
  · rw [hrun]
    simp only [os.World.update]
    rw [os.Files.put_other _ _ _ _ h4, os.Files.put_other _ _ _ _ h3.symm,
      os.Files.put_other _ _ _ _ h6, os.Files.put_same]
  · rw [hrun]
    simp only [os.World.update]
    rw [os.Files.put_other _ _ _ _ h2, os.Files.put_same]
  · subst hdoc
    exact ⟨rfl, rfl, rfl, rfl⟩

end spool

/-! ## The spool: claims C1 to C4 -/

namespace hex

theorem hextable_getD_mem (i : Nat) : hextable.getD (i % 16) '0' ∈ hextable := by
  have h : i % 16 < 16 := Nat.mod_lt _ (by decide)
  generalize i % 16 = k at h
  interval_cases k <;> decide

/-- The output of `hex.EncodeToString` is made of lower-case hexadecimal digits. -/
theorem EncodeToString_lower (src : List Nat) :
    ∀ ch ∈ (EncodeToString src).data, ch ∈ "0123456789abcdef".data := by
  intro ch hch
  simp only [EncodeToString, List.mem_flatMap, List.mem_cons, List.mem_singleton,
    List.not_mem_nil, or_false] at hch
  obtain ⟨v, _, rfl | rfl⟩ := hch
  · exact hextable_getD_mem _
  · exact hextable_getD_mem _

end hex

namespace spool

/-- C1 (as amended). For every request whose timestamp a ULID can carry (`NewULID`
returns an identifier `id`) and every body, read to `io.EOF`, that is shorter than
`MaxBytes`: when no file-system operation fails (no fault, and the temporary path
is free, so that the exclusive open succeeds), `FS.Store` succeeds; the result has
the non-empty `ID`, an `EMLPath` ending in `.eml` and a `MetaPath` that both exist
afterwards; `<id>.eml` holds exactly the body; and `Bytes` and `SHA256` of the
result and the `bytes` and `sha256` of `<id>.json` are the length of the body and
the lower-case hexadecimal SHA-256 of the body. -/
theorem Store_succeeds (s : FS) (env : Env) (fs : os.Files) (req : StoreRequest)
    (r : io.Reader) (id : String)
    (hid : NewULID env.entropy (storeTime s req) = some id)
    (hflt : env.faults = os.Faults.none)
    (hfree : fs (storePath s req id ".eml.tmp") = none)
    (heof : r.final = none)
    (hlen : (r.body.length : Int) < req.MaxBytes) :
    ∃ (res : StoreResult) (m : os.Meta),
      (s.Store env fs req r).ret = Return.ok res ∧
      res.ID = id ∧ res.ID ≠ "" ∧
      res.EMLPath = storePath s req id ".eml" ∧ res.MetaPath = storePath s req id ".json" ∧
      (".eml" : String).data <:+ res.EMLPath.data ∧
      (s.Store env fs req r).world.files res.EMLPath = some (os.File.raw r.body) ∧
      (s.Store env fs req r).world.files res.MetaPath = some (os.File.json m) ∧
      res.Bytes = (r.body.length : Int) ∧ m.bytes = (r.body.length : Int) ∧
      res.SHA256 = hex.EncodeToString (env.sha256 r.body) ∧
      m.sha256 = hex.EncodeToString (env.sha256 r.body) ∧
      ∀ ch ∈ res.SHA256.data, ch ∈ "0123456789abcdef".data := by
  have hmk : env.faults.mkdirAll = false := by rw [hflt]; rfl
  have hop : env.faults.openFile = false := by rw [hflt]; rfl
  have hw : env.faults.write = none := by rw [hflt]; rfl
  obtain ⟨c, hrun, c1, c2, c3, c4, c5⟩ := Store_reach s env fs req r id hid hmk hop hfree
  have hberr := c5 hw
  obtain ⟨e, d1, d2, d3⟩ := c4 hberr
  obtain ⟨out, e1, hd, _, k2, _⟩ := drain_Store r req.MaxBytes
  rw [hd] at d1
  simp only [Option.some.injEq, Prod.mk.injEq] at d1
  obtain ⟨rfl, rfl⟩ := d1
  obtain ⟨hbody, he⟩ := k2 hlen
  have hce : c.err = none := by
    rw [d2, he]; simp [io.Reader.finalError, heof, copyErrorOf]
  obtain ⟨p1, p2, p3, p4, p5, p6⟩ := storePath_distinct hid s req
  obtain ⟨m, q1, q2, q3, _, _, q6, q7⟩ :=
    storeFinish_ok env req (storeTime s req) id _ _ _ _ c fs p2 p3 p4 p5 p6 c1 c2 c3 hflt hberr hce
  rw [← hrun] at q1 q2 q3
  rw [hbody] at d3 q2 q7 q1
  rw [d3] at q6 q1
  refine ⟨_, m, q1, rfl, ?_, rfl, rfl, ?_, q2, q3, rfl, q6, rfl, q7, ?_⟩
  · intro h0
    have h1 : id = "" := h0
    have := NewULID_length hid
    rw [h1] at this
    cases this
  · simp only
    rw [storePath_eq hid s req ".eml" slash_not_mem_eml, ← List.append_assoc]
    exact List.suffix_append _ _
  · exact hex.EncodeToString_lower _

/-- C1, witness: the request of `TestFSStore_WritesEMLAndMeta` on an empty file
system. -/
theorem Store_succeeds_witness :
    ∃ (res : StoreResult) (m : os.Meta),
      (sampleFS.Store sampleEnv noFiles sampleRequest sampleReader).ret = Return.ok res ∧
      res.ID = "01KHCQ4Y000000000000000005" ∧ res.ID ≠ "" ∧
      res.EMLPath = storePath sampleFS sampleRequest "01KHCQ4Y000000000000000005" ".eml" ∧
      res.MetaPath = storePath sampleFS sampleRequest "01KHCQ4Y000000000000000005" ".json" ∧
      (".eml" : String).data <:+ res.EMLPath.data ∧
      (sampleFS.Store sampleEnv noFiles sampleRequest sampleReader).world.files res.EMLPath =
        some (os.File.raw sampleReader.body) ∧
      (sampleFS.Store sampleEnv noFiles sampleRequest sampleReader).world.files res.MetaPath =
        some (os.File.json m) ∧
      res.Bytes = (sampleReader.body.length : Int) ∧ m.bytes = (sampleReader.body.length : Int) ∧
      res.SHA256 = hex.EncodeToString (sampleEnv.sha256 sampleReader.body) ∧
      m.sha256 = hex.EncodeToString (sampleEnv.sha256 sampleReader.body) ∧
      ∀ ch ∈ res.SHA256.data, ch ∈ "0123456789abcdef".data :=
  Store_succeeds sampleFS sampleEnv noFiles sampleRequest sampleReader
    "01KHCQ4Y000000000000000005" (by decide) rfl rfl rfl (by decide)

/-- C1, counterexample: for a request received at 1960-01-01T00:00:00Z, with a body
of 6 bytes under a limit of 1024 and no failing file-system operation, `FS.Store`
does not succeed: `ulid.Timestamp` wraps the negative Unix time around in
`uint64`, `ULID.SetTime` refuses the result and `ulid.MustNew` panics. -/
theorem Store_panics_outside_ulid_range :
    (sampleReader.body.length : Int) < oldRequest.MaxBytes ∧
    sampleEnv.faults = os.Faults.none ∧
    (sampleFS.Store sampleEnv noFiles oldRequest sampleReader).ret = Return.panic := by
  decide

/-- C2. At every point of a run of `FS.Store`, whatever fails in it and however it
returns: the recorded states of the file system run from the initial one to the
final one, and in each of them, if `<id>.json` exists in the date directory then
`<id>.eml` exists there and holds the complete body. (The identifier is fresh:
there is no `<id>.json` before the run.) -/
theorem Store_metadata_implies_body (s : FS) (env : Env) (fs : os.Files) (req : StoreRequest)
    (r : io.Reader) (id : String)
    (hid : NewULID env.entropy (storeTime s req) = some id)
    (hfresh : fs (storePath s req id ".json") = none) :
    fs ∈ (s.Store env fs req r).world.history ∧
    (s.Store env fs req r).world.files ∈ (s.Store env fs req r).world.history ∧
    ∀ st ∈ (s.Store env fs req r).world.history,
      (st (storePath s req id ".json")).isSome →
        st (storePath s req id ".eml") = some (os.File.raw r.body) := by
  have hstart : (os.World.start fs).Consistent fs (storePath s req id ".json")
      (storePath s req id ".eml") r.body := by
    refine ⟨?_, ?_, ?_⟩
    · simp [os.World.start]
    · simp [os.World.start]
    · intro st hst hsome
      simp only [os.World.start, List.mem_singleton] at hst
      subst hst
      rw [hfresh] at hsome; cases hsome
  suffices h : (s.Store env fs req r).world.Consistent fs (storePath s req id ".json")
      (storePath s req id ".eml") r.body from h
  by_cases hmk : env.faults.mkdirAll = true
  · rw [Store_eq, hid]
    simp only [hmk, if_true]
    exact hstart
  · have hmk1 : env.faults.mkdirAll = false := by simpa using hmk
    by_cases hop : env.faults.openFile = true ∨
        (fs (storePath s req id ".eml.tmp")).isSome = true
    · rw [Store_eq, hid]
      have : (os.World.start fs).OpenFileExcl env.faults (storePath s req id ".eml.tmp") =
          none := by
        simp only [os.World.OpenFileExcl, os.World.start]
        rw [if_pos hop]
      simp only [hmk1, Bool.false_eq_true, if_false, this]
      exact hstart
    · simp only [not_or] at hop
      have hop1 : env.faults.openFile = false := by simpa using hop.1
      have hfree : fs (storePath s req id ".eml.tmp") = none := by simpa using hop.2
      obtain ⟨c, hrun, c1, c2, c3, c4, _⟩ := Store_reach s env fs req r id hid hmk1 hop1 hfree
      obtain ⟨p1, p2, p3, p4, p5, p6⟩ := storePath_distinct hid s req
      rw [hrun]
      apply storeFinish_consistent env req (storeTime s req) id _ _ _ _ c fs r.body
        p1 p2 p3 p4 p5 p6 c1 c2 c3 _ hfresh
      intro hberr hce
      obtain ⟨e, d1, d2, _⟩ := c4 hberr
      rw [hce] at d2
      have he := (copyErrorOf_none_iff e).mp d2.symm
      subst he
      exact drain_EOF r req.MaxBytes c.hashed d1

/-- C2, witness: the request of `TestFSStore_WritesEMLAndMeta` on an empty file
system, in a run in which nothing fails: `Store` returns its result, in the final
state `<id>.json` exists, and `<id>.eml` holds the six bytes of the body. -/
theorem Store_metadata_implies_body_witness :
    NewULID 5 (storeTime sampleFS sampleRequest) = some "01KHCQ4Y000000000000000005" ∧
    noFiles (storePath sampleFS sampleRequest "01KHCQ4Y000000000000000005" ".json") = none ∧
    (sampleFS.Store sampleEnv noFiles sampleRequest sampleReader).ret =
      Return.ok
        { ID := "01KHCQ4Y000000000000000005", TraceID := "01KHCQ4Y000000000000000005",
          Bytes := 6, SHA256 := "06ab",
          EMLPath := "/var/spool/mail/incoming/2026/02/14/01KHCQ4Y000000000000000005.eml",
          MetaPath := "/var/spool/mail/incoming/2026/02/14/01KHCQ4Y000000000000000005.json" } ∧
    ((sampleFS.Store sampleEnv noFiles sampleRequest sampleReader).world.files
      (storePath sampleFS sampleRequest "01KHCQ4Y000000000000000005" ".json")).isSome = true ∧
    (sampleFS.Store sampleEnv noFiles sampleRequest sampleReader).world.files
        (storePath sampleFS sampleRequest "01KHCQ4Y000000000000000005" ".eml") =
      some (os.File.raw [49, 50, 51, 52, 53, 54]) :=
  ⟨by decide, rfl, by decide, by decide,
    (Store_metadata_implies_body sampleFS sampleEnv noFiles sampleRequest sampleReader
      "01KHCQ4Y000000000000000005" (by decide) rfl).2.2 _
      (Store_metadata_implies_body sampleFS sampleEnv noFiles sampleRequest sampleReader
        "01KHCQ4Y000000000000000005" (by decide) rfl).2.1 (by decide)⟩

/-- C3. For every body longer than `MaxBytes`, in whatever chunks the reader
delivers it and however the reader would end: when flush, fsync and close succeed
(in a run that has its identifier, its directory and its temporary file, and in
which no write to that file fails), `FS.Store` returns exactly `ErrTooLarge`, and
afterwards none of `<id>.eml.tmp`, `<id>.eml`, `<id>.json.tmp` and `<id>.json` exists,
the identifier being fresh. -/
theorem Store_too_large (s : FS) (env : Env) (fs : os.Files) (req : StoreRequest)
    (r : io.Reader) (id : String)
    (hid : NewULID env.entropy (storeTime s req) = some id)
    (hmk : env.faults.mkdirAll = false) (hop : env.faults.openFile = false)
    (hw : env.faults.write = none) (hsync : env.faults.sync = false)
    (hclose : env.faults.close = false)
    (hfresh : ∀ ext ∈ [".eml.tmp", ".eml", ".json.tmp", ".json"],
      fs (storePath s req id ext) = none)
    (hlen : req.MaxBytes < (r.body.length : Int)) :
    (s.Store env fs req r).ret = Return.error StoreError.ErrTooLarge ∧
    ∀ ext ∈ [".eml.tmp", ".eml", ".json.tmp", ".json"],
      (s.Store env fs req r).world.files (storePath s req id ext) = none := by
  have hfree : fs (storePath s req id ".eml.tmp") = none := hfresh _ (by simp)
  obtain ⟨c, hrun, c1, c2, c3, c4, c5⟩ := Store_reach s env fs req r id hid hmk hop hfree
  have hberr := c5 hw
  obtain ⟨e, d1, d2, _⟩ := c4 hberr
  obtain ⟨out, e1, hd, k1, _, _⟩ := drain_Store r req.MaxBytes
  rw [hd] at d1
  simp only [Option.some.injEq, Prod.mk.injEq] at d1
  obtain ⟨rfl, rfl⟩ := d1
  have hce : c.err = some (CopyError.read io.ReadError.ErrTooLarge) := by
    rw [d2, (k1 hlen).2]; rfl
  obtain ⟨t1, t2, t3⟩ := storeFinish_tooLarge env req (storeTime s req) id
    (storePath s req id ".eml.tmp") (storePath s req id ".eml") (storePath s req id ".json.tmp")
    (storePath s req id ".json") c fs c1 c2 c3 hw hsync hclose hberr hce
  rw [← hrun] at t1 t2 t3
  refine ⟨t1, ?_⟩
  intro ext hext
  by_cases hp : storePath s req id ext = storePath s req id ".eml.tmp"
  · rw [hp]; exact t2
  · rw [t3 _ hp]; exact hfresh ext hext

/-- C3, witness: the run of `TestFSStore_TooLarge`, six bytes under a limit of five. -/
theorem Store_too_large_witness :
    smallRequest.MaxBytes < (sampleReader.body.length : Int) ∧
    (sampleFS.Store sampleEnv noFiles smallRequest sampleReader).ret =
      Return.error StoreError.ErrTooLarge ∧
    ∀ ext ∈ [".eml.tmp", ".eml", ".json.tmp", ".json"],
      (sampleFS.Store sampleEnv noFiles smallRequest sampleReader).world.files
        (storePath sampleFS smallRequest "01KHCQ4Y000000000000000005" ext) = none :=
  ⟨by decide,
    Store_too_large sampleFS sampleEnv noFiles smallRequest sampleReader
      "01KHCQ4Y000000000000000005" (by decide) rfl rfl rfl rfl rfl (fun _ _ => rfl) (by decide)⟩

/-- C4. The size limit is inclusive of the last byte. In a run in which no
file-system operation fails: for a reader that reports the end of the stream only
on a read after its final byte, `FS.Store` fails with `ErrTooLarge` if and only if
the body is at least `MaxBytes` long, so that a body of exactly `MaxBytes` bytes is
rejected; every body, the empty one included, is rejected when `MaxBytes ≤ 0`; and
an empty body read to `io.EOF` is accepted as a 0-byte `.eml` when `MaxBytes > 0`. -/
theorem Store_limit_inclusive (s : FS) (env : Env) (fs : os.Files) (req : StoreRequest)
    (r : io.Reader) (id : String)
    (hid : NewULID env.entropy (storeTime s req) = some id)
    (hflt : env.faults = os.Faults.none)
    (hfree : fs (storePath s req id ".eml.tmp") = none) :
    (r.eager = false →
      ((s.Store env fs req r).ret = Return.error StoreError.ErrTooLarge ↔
        req.MaxBytes ≤ (r.body.length : Int))) ∧
    (r.eager = false → (r.body.length : Int) = req.MaxBytes →
      (s.Store env fs req r).ret = Return.error StoreError.ErrTooLarge) ∧
    (req.MaxBytes ≤ 0 → (s.Store env fs req r).ret = Return.error StoreError.ErrTooLarge) ∧
    (r.body = [] → r.final = none → 0 < req.MaxBytes →
      ∃ res, (s.Store env fs req r).ret = Return.ok res ∧ res.Bytes = 0 ∧
        (s.Store env fs req r).world.files res.EMLPath = some (os.File.raw [])) := by
  have hmk : env.faults.mkdirAll = false := by rw [hflt]; rfl
  have hop : env.faults.openFile = false := by rw [hflt]; rfl
  have hw : env.faults.write = none := by rw [hflt]; rfl
  have hsync : env.faults.sync = false := by rw [hflt]; rfl
  have hclose : env.faults.close = false := by rw [hflt]; rfl
  obtain ⟨c, hrun, c1, c2, c3, c4, c5⟩ := Store_reach s env fs req r id hid hmk hop hfree
  have hberr := c5 hw
  obtain ⟨e, d1, d2, d3⟩ := c4 hberr
  obtain ⟨out, e1, hd, k1, k2, k3⟩ := drain_Store r req.MaxBytes
  rw [hd] at d1
  simp only [Option.some.injEq, Prod.mk.injEq] at d1
  obtain ⟨rfl, rfl⟩ := d1
  obtain ⟨p1, p2, p3, p4, p5, p6⟩ := storePath_distinct hid s req
  -- the three ways in which the reads end
  have htoo : e1 = io.ReadError.ErrTooLarge →
      (s.Store env fs req r).ret = Return.error StoreError.ErrTooLarge := by
    intro he
    have hce : c.err = some (CopyError.read io.ReadError.ErrTooLarge) := by
      rw [d2, he]; rfl
    rw [hrun]
    exact (storeFinish_tooLarge env req (storeTime s req) id _ _ _ _ c fs c1 c2 c3 hw hsync
      hclose hberr hce).1
  have hless : (r.body.length : Int) < req.MaxBytes →
      (s.Store env fs req r).ret ≠ Return.error StoreError.ErrTooLarge := by
    intro hlt
    obtain ⟨_, he⟩ := k2 hlt
    cases hfin : r.final with
    | none =>
      have hce : c.err = none := by
        rw [d2, he]; simp [io.Reader.finalError, hfin, copyErrorOf]
      obtain ⟨m, q1, _⟩ := storeFinish_ok env req (storeTime s req) id _ _ _ _ c fs
        p2 p3 p4 p5 p6 c1 c2 c3 hflt hberr hce
      rw [hrun, q1]
      intro h0; cases h0
    | some text =>
      have hce : c.err = some (CopyError.read (io.ReadError.other text)) := by
        rw [d2, he]; simp [io.Reader.finalError, hfin, copyErrorOf]
      rw [hrun, storeFinish_readError env req (storeTime s req) id _ _ _ _ c fs text c1 c2 c3
        hw hsync hclose hberr hce]
      intro h0; cases h0
  have hexact : r.eager = false → (r.body.length : Int) = req.MaxBytes →
      (s.Store env fs req r).ret = Return.error StoreError.ErrTooLarge := by
    intro hne heq
    rcases (k3 heq).2 with he | ⟨he, _⟩
    · exact htoo he
    · rw [hne] at he; cases he
  refine ⟨?_, hexact, ?_, ?_⟩
  · intro hne
    constructor
    · intro hret
      by_contra hlt
      exact hless (by omega) hret
    · intro hle
      rcases lt_or_eq_of_le hle with hlt | heq
      · exact htoo (k1 hlt).2
      · exact hexact hne heq.symm
  · intro hN
    have := drain_nonpos r req.MaxBytes hN
    rw [hd] at this
    simp only [Option.some.injEq, Prod.mk.injEq] at this
    exact htoo this.2
  · intro hbody hfin hpos
    have hlt : (r.body.length : Int) < req.MaxBytes := by rw [hbody]; simpa using hpos
    obtain ⟨hout, he⟩ := k2 hlt
    have hce : c.err = none := by
      rw [d2, he]; simp [io.Reader.finalError, hfin, copyErrorOf]
    obtain ⟨m, q1, q2, _⟩ := storeFinish_ok env req (storeTime s req) id _ _ _ _ c fs
      p2 p3 p4 p5 p6 c1 c2 c3 hflt hberr hce
    rw [← hrun] at q1 q2
    rw [hout, hbody] at q2 d3
    refine ⟨_, q1, ?_, q2⟩
    simp only
    rw [d3]; rfl

/-- C4, witness: five bytes under a limit of five are rejected. -/
theorem Store_limit_inclusive_witness :
    (({ chunks := [[49, 50, 51, 52, 53]], final := none, eager := false } : io.Reader).body.length
      : Int) = smallRequest.MaxBytes ∧
    (sampleFS.Store sampleEnv noFiles smallRequest
      { chunks := [[49, 50, 51, 52, 53]], final := none, eager := false }).ret =
      Return.error StoreError.ErrTooLarge :=
  ⟨by decide,
    (Store_limit_inclusive sampleFS sampleEnv noFiles smallRequest
      { chunks := [[49, 50, 51, 52, 53]], final := none, eager := false }
      "01KHCQ4Y000000000000000005" (by decide) rfl rfl).2.1 rfl (by decide)⟩

end spool

/-! ## Lemmas: strings and Go maps -/

namespace strings

theorem TrimSuffix_append_dot (d : String) : TrimSuffix (d ++ ".") "." = d := by
  have h : HasSuffix (d ++ ".") "." = true := by
    simp only [HasSuffix, decide_eq_true_eq, String.data_append]
    exact List.suffix_append _ _
  simp only [TrimSuffix, h, if_true, String.data_append]
  have : (".".data : List Char).length = 1 := rfl
  simp [this]

theorem TrimSuffix_of_not_suffix (d : String) (h : HasSuffix d "." = false) :
    TrimSuffix d "." = d := by
  simp [TrimSuffix, h]

theorem indexAux_plus (l t : List Char) (h : '+' ∉ l) :
    indexAux ['+'] (l ++ '+' :: t) = some l.length := by
  induction l with
  | nil => simp [indexAux]
  | cons c cs ih =>
    have hc : c ≠ '+' := fun e => h (by simp [e])
    have hcs : '+' ∉ cs := fun e => h (by simp [e])
    have hp : ¬ (['+'] <+: c :: (cs ++ '+' :: t)) := by
      intro hp
      obtain ⟨u, hu⟩ := hp
      simp only [List.singleton_append, List.cons.injEq] at hu
      exact hc hu.1.symm
    simp [indexAux, hp, ih hcs]

/-- Cutting `l + "+" + t` at the first plus sign gives `l` and `t` when `l` has none. -/
theorem Cut_plus (l t : String) (h : '+' ∉ l.data) :
    Cut (l ++ "+" ++ t) "+" = (l, t, true) := by
  have hd : (l ++ "+" ++ t).data = l.data ++ '+' :: t.data := by
    simp [String.data_append]
  have hs : ("+" : String).data = ['+'] := rfl
  have hi := indexAux_plus l.data t.data h
  unfold Cut
  rw [hd, hs, hi]
  have h1 : List.take l.data.length (l.data ++ '+' :: t.data) = l.data := List.take_left' rfl
  have h2 : List.drop (l.data.length + ['+'].length) (l.data ++ '+' :: t.data) = t.data := by
    have : l.data ++ '+' :: t.data = (l.data ++ ['+']) ++ t.data := by simp
    rw [this]
    exact List.drop_left' (by simp)
  simp only [h1, h2]

/-- On ASCII strings `ToLower` does not depend on the Unicode case table. -/
theorem ToLower_ascii (uni1 uni2 : Char → Char) (s : String)
    (h : ∀ c ∈ s.data, c.toNat ≤ 127) : ToLower uni1 s = ToLower uni2 s := by
  unfold ToLower
  congr 1
  apply List.map_congr_left
  intro c hc
  simp [toLowerRune, h c hc]

end strings

namespace GoMap

variable {V : Type}

theorem get?_set_self (m : GoMap V) (k : String) (v : V) : (m.set k v).get? k = some v := by
  induction m with
  | nil => simp [set, get?]
  | cons e m ih =>
    obtain ⟨k1, v1⟩ := e
    by_cases h : k1 = k
    · simp [set, get?, h]
    · simp [set, get?, h, ih]

theorem get?_set_other (m : GoMap V) (k k1 : String) (v : V) (h : k ≠ k1) :
    (m.set k v).get? k1 = m.get? k1 := by
  induction m with
  | nil => simp [set, get?, h]
  | cons e m ih =>
    obtain ⟨k2, v2⟩ := e
    by_cases h2 : k2 = k
    · subst h2
      simp [set, get?, h]
    · by_cases h3 : k2 = k1
      · subst h3
        simp [set, get?, h2]
      · simp [set, get?, h2, h3, ih]

end GoMap

/-! ## Lemmas: the resolver -/

namespace resolver

theorem mailboxSet_aux (uni : Char → Char) (mbs : List String) (acc : GoMap Unit) (k : String) :
    ((mbs.foldl (fun set mb => GoMap.set set (strings.ToLower uni mb) ()) acc).get? k).isSome =
      true ↔ (acc.get? k).isSome = true ∨ k ∈ mbs.map (strings.ToLower uni) := by
  induction mbs generalizing acc with
  | nil => simp
  | cons mb rest ih =>
    simp only [List.foldl_cons, List.map_cons, List.mem_cons]
    rw [ih]
    by_cases h : strings.ToLower uni mb = k
    · subst h
      simp [GoMap.get?_set_self]
    · rw [GoMap.get?_set_other _ _ _ _ h]
      constructor
      · rintro (h1 | h1)
        · exact Or.inl h1
        · exact Or.inr (Or.inr h1)
      · rintro (h1 | h1 | h1)
        · exact Or.inl h1
        · exact absurd h1.symm h
        · exact Or.inr h1

/-- The set built for a domain holds exactly the lower-cased mailboxes. -/
theorem mailboxSet_mem (uni : Char → Char) (mbs : List String) (k : String) :
    ((mailboxSet uni mbs).get? k).isSome = true ↔ k ∈ mbs.map (strings.ToLower uni) := by
  unfold mailboxSet
  rw [mailboxSet_aux]
  simp [GoMap.get?]

theorem buildLoop_disabled (uni : Char → Char) (dom : String) (cfg : DomainConfig)
    (rest : List (String × DomainConfig)) (dm : GoMap domainAllow) (st : ResolverStats)
    (hd : cfg.Disabled = true) :
    buildLoop uni ((dom, cfg) :: rest) dm st = buildLoop uni rest dm st := by
  simp [buildLoop, hd]

theorem buildLoop_unsupported (uni : Char → Char) (dom : String) (cfg : DomainConfig)
    (rest : List (String × DomainConfig)) (dm : GoMap domainAllow) (st : ResolverStats)
    (hd : cfg.Disabled = false) (hm : cfg.Mode ≠ "" ∧ cfg.Mode ≠ ModeAllowlist) :
    buildLoop uni ((dom, cfg) :: rest) dm st = .error { domain := dom, mode := cfg.Mode } := by
  unfold buildLoop
  simp only [hd, Bool.false_eq_true, if_false]
  rw [if_pos hm]

theorem buildLoop_enabled (uni : Char → Char) (dom : String) (cfg : DomainConfig)
    (rest : List (String × DomainConfig)) (dm : GoMap domainAllow) (st : ResolverStats)
    (hd : cfg.Disabled = false) (hm : ¬ (cfg.Mode ≠ "" ∧ cfg.Mode ≠ ModeAllowlist)) :
    buildLoop uni ((dom, cfg) :: rest) dm st =
      buildLoop uni rest (GoMap.set dm (normDomain uni dom) (allowOf uni cfg))
        { Domains := st.Domains + 1,
          Mailboxes := st.Mailboxes + GoMap.len (mailboxSet uni cfg.Mailboxes) } := by
  conv_lhs => rw [buildLoop]
  simp only [hd, Bool.false_eq_true, if_false]
  rw [if_neg hm]
  rfl

/-- The loop of `BuildAllowlist` fails exactly when it meets an enabled domain whose mode
is neither empty nor `allowlist`. -/
theorem buildLoop_error_iff (uni : Char → Char) :
    ∀ (l : List (String × DomainConfig)) (dm : GoMap domainAllow) (st : ResolverStats),
      (∃ err, buildLoop uni l dm st = .error err) ↔
        ∃ e ∈ l, e.2.Disabled = false ∧ e.2.Mode ≠ "" ∧ e.2.Mode ≠ ModeAllowlist := by
  intro l
  induction l with
  | nil => intro dm st; simp [buildLoop]
  | cons e rest ih =>
    intro dm st
    obtain ⟨dom, cfg⟩ := e
    by_cases hd : cfg.Disabled = true
    · rw [buildLoop_disabled uni dom cfg rest dm st hd, ih]
      constructor
      · rintro ⟨e, he, h⟩
        exact ⟨e, List.mem_cons_of_mem _ he, h⟩
      · rintro ⟨e, he, h⟩
        rcases List.mem_cons.mp he with rfl | he
        · rw [hd] at h; cases h.1
        · exact ⟨e, he, h⟩
    · have hd1 : cfg.Disabled = false := by simpa using hd
      by_cases hm : cfg.Mode ≠ "" ∧ cfg.Mode ≠ ModeAllowlist
      · rw [buildLoop_unsupported uni dom cfg rest dm st hd1 hm]
        constructor
        · intro _
          exact ⟨(dom, cfg), List.mem_cons_self _ _, hd1, hm.1, hm.2⟩
        · intro _
          exact ⟨_, rfl⟩
      · rw [buildLoop_enabled uni dom cfg rest dm st hd1 hm, ih]
        constructor
        · rintro ⟨e, he, h⟩
          exact ⟨e, List.mem_cons_of_mem _ he, h⟩
        · rintro ⟨e, he, h⟩
          rcases List.mem_cons.mp he with rfl | he
          · exact absurd h.2 hm
          · exact ⟨e, he, h⟩

/-- The domains of the resolver that the loop of `BuildAllowlist` returns. -/
theorem buildLoop_get (uni : Char → Char) :
    ∀ (l : List (String × DomainConfig)) (dm : GoMap domainAllow) (st : ResolverStats)
      (r : allowlistResolver), buildLoop uni l dm st = .ok r →
      ∀ d, r.domains.get? d =
        match lookupLast uni d l with
        | some cfg => some (allowOf uni cfg)
        | none => dm.get? d := by
  intro l
  induction l with
  | nil =>
    intro dm st r h d
    simp only [buildLoop, Except.ok.injEq] at h
    subst h
    simp [lookupLast]
  | cons e rest ih =>
    intro dm st r h d
    obtain ⟨dom, cfg⟩ := e
    by_cases hd : cfg.Disabled = true
    · rw [buildLoop_disabled uni dom cfg rest dm st hd] at h
      rw [ih dm st r h d]
      simp only [lookupLast, hd]
      cases lookupLast uni d rest <;> simp
    · have hd1 : cfg.Disabled = false := by simpa using hd
      by_cases hm : cfg.Mode ≠ "" ∧ cfg.Mode ≠ ModeAllowlist
      · rw [buildLoop_unsupported uni dom cfg rest dm st hd1 hm] at h
        cases h
      · rw [buildLoop_enabled uni dom cfg rest dm st hd1 hm] at h
        rw [ih _ _ r h d]
        simp only [lookupLast, hd1, true_and]
        cases lookupLast uni d rest with
        | some c => rfl
        | none =>
          by_cases hk : normDomain uni dom = d
          · simp only [hk, if_true]
            rw [GoMap.get?_set_self]
          · simp only [hk, if_false]
            rw [GoMap.get?_set_other _ _ _ _ hk]

/-- The domains of the resolver that `BuildAllowlist` returns. -/
theorem BuildAllowlist_get (uni : Char → Char) (s : Snapshot) (r : allowlistResolver)
    (h : BuildAllowlist uni s = .ok r) (d : String) :
    r.domains.get? d = (lookupLast uni d s.Domains).map (allowOf uni) := by
  rw [buildLoop_get uni s.Domains [] _ r h d]
  cases lookupLast uni d s.Domains <;> simp [GoMap.get?]

/-- No enabled entry for `d`: the key is left out. -/
theorem lookupLast_none (uni : Char → Char) (d : String) (l : List (String × DomainConfig))
    (h : ∀ e ∈ l, e.2.Disabled = false → normDomain uni e.1 ≠ d) : lookupLast uni d l = none := by
  induction l with
  | nil => rfl
  | cons e rest ih =>
    obtain ⟨dom, cfg⟩ := e
    have h1 := ih (fun e he => h e (List.mem_cons_of_mem _ he))
    have h2 := h (dom, cfg) (List.mem_cons_self _ _)
    simp only [lookupLast, h1]
    by_cases hd : cfg.Disabled = false
    · simp [hd, h2 hd]
    · simp [hd]

/-- All enabled entries for `d` carrying the configuration `cfg`, and there being
one: the key is left with `cfg`. -/
theorem lookupLast_unique (uni : Char → Char) (d : String) (l : List (String × DomainConfig))
    (cfg : DomainConfig)
    (hex : ∃ e ∈ l, e.2.Disabled = false ∧ normDomain uni e.1 = d)
    (hall : ∀ e ∈ l, e.2.Disabled = false → normDomain uni e.1 = d → e.2 = cfg) :
    lookupLast uni d l = some cfg := by
  induction l with
  | nil => obtain ⟨e, he, _⟩ := hex; cases he
  | cons e rest ih =>
    obtain ⟨dom, c⟩ := e
    have hall1 : ∀ e ∈ rest, e.2.Disabled = false → normDomain uni e.1 = d → e.2 = cfg :=
      fun e he => hall e (List.mem_cons_of_mem _ he)
    by_cases hrest : ∃ e ∈ rest, e.2.Disabled = false ∧ normDomain uni e.1 = d
    · simp [lookupLast, ih hrest hall1]
    · have hnone : lookupLast uni d rest = none := by
        apply lookupLast_none
        intro e he hd hk
        exact hrest ⟨e, he, hd, hk⟩
      obtain ⟨e, he, hd, hk⟩ := hex
      rcases List.mem_cons.mp he with heq | he
      · subst heq
        have hc := hall _ (List.mem_cons_self _ _) hd hk
        simp only at hc hd hk
        simp only [lookupLast, hnone]
        rw [if_pos ⟨hd, hk⟩, hc]
      · exact absurd ⟨e, he, hd, hk⟩ hrest

/-- The answer of `Allowed` from the entry of the domain. -/
theorem Allowed_eq (uni : Char → Char) (r : allowlistResolver) (domain localPart : String) :
    r.Allowed uni domain localPart =
      match r.domains.get? (normDomain uni domain) with
      | none => false
      | some cfg =>
        if (cfg.set.get? localPart).isSome then true
        else if cfg.plusTag then
          match strings.Cut localPart "+" with
          | (base, _, true) => (cfg.set.get? base).isSome
          | (_, _, false) => false
        else false := rfl

end resolver

/-! ## The resolver: claims C5 to C10 -/

namespace resolver

/-- C5, at the failing input. On the resolver built from the snapshot with domain
`example.com` and mailbox `inbound`, `Allowed("example.com", "INBOUND")` is false
although `Allowed(lower("example.com"), lower("INBOUND"))` is true: `Allowed`
lower-cases its domain but looks its local part up as it is given. -/
theorem Allowed_local_part_case :
    (BuildAllowlist strings.asciiOnly sampleSnapshot).isOk = true ∧
    (built strings.asciiOnly sampleSnapshot).Allowed strings.asciiOnly
      "example.com" "INBOUND" = false ∧
    (built strings.asciiOnly sampleSnapshot).Allowed strings.asciiOnly
      (strings.ToLower strings.asciiOnly "example.com")
      (strings.ToLower strings.asciiOnly "INBOUND") = true := by
  decide

/-- C6 (as amended). Plus-tag law, enabled case: for every snapshot in which an
enabled domain has `plus_tag=true` and a mailbox list containing `local`, where
`local` is in lower case and has no plus sign, and where no other enabled key
of the snapshot with the same normalised domain has another configuration: for
every tag `T`, the resolver built by `BuildAllowlist` returns
`Allowed(domain, local + "+" + T) = true`. -/
theorem Allowed_plus_tag (uni : Char → Char) (s : Snapshot) (r : allowlistResolver)
    (dom : String) (cfg : DomainConfig) (localPart tag : String)
    (hb : BuildAllowlist uni s = .ok r)
    (hmem : (dom, cfg) ∈ s.Domains) (hen : cfg.Disabled = false) (hplus : cfg.PlusTag = true)
    (hmb : localPart ∈ cfg.Mailboxes)
    (hlow : strings.ToLower uni localPart = localPart) (hnoplus : '+' ∉ localPart.data)
    (huniq : ∀ e ∈ s.Domains, e.2.Disabled = false →
      normDomain uni e.1 = normDomain uni dom → e.2 = cfg) :
    r.Allowed uni dom (localPart ++ "+" ++ tag) = true := by
  have hl : lookupLast uni (normDomain uni dom) s.Domains = some cfg :=
    lookupLast_unique uni _ _ cfg ⟨(dom, cfg), hmem, hen, rfl⟩ huniq
  have hbase : ((mailboxSet uni cfg.Mailboxes).get? localPart).isSome = true := by
    rw [mailboxSet_mem]
    exact List.mem_map.mpr ⟨localPart, hmb, hlow⟩
  rw [Allowed_eq, BuildAllowlist_get uni s r hb, hl]
  simp only [Option.map_some', allowOf, hplus, if_true, strings.Cut_plus _ _ hnoplus, hbase]
  split <;> rfl

/-- C6, witness: the snapshot of `TestSMTPD_AcceptsAndSpools` and the address
`inbound+123`. -/
theorem Allowed_plus_tag_witness :
    BuildAllowlist strings.asciiOnly sampleSnapshot =
      .ok (built strings.asciiOnly sampleSnapshot) ∧
    (built strings.asciiOnly sampleSnapshot).Allowed strings.asciiOnly "example.com"
      ("inbound" ++ "+" ++ "123") = true :=
  ⟨rfl,
    Allowed_plus_tag strings.asciiOnly sampleSnapshot (built strings.asciiOnly sampleSnapshot)
      "example.com" (sampleConfig true ["inbound"] false) "inbound" "123"
      rfl (by decide) rfl rfl (by decide) (by decide) (by decide) (by decide)⟩

/-- C6, counterexamples. With `plus_tag=true` and `local` in the mailbox list,
`Allowed(domain, local + "+" + T)` is false: when `local` itself has a plus sign
(the address is cut at the first one); when `local` has a capital letter (the set
holds it in lower case); and when a second key of the snapshot, visited later,
normalises to the same domain. -/
theorem Allowed_plus_tag_fails :
    ((BuildAllowlist strings.asciiOnly
        ⟨[("example.com", sampleConfig true ["a+b"] false)]⟩).isOk = true ∧
      (built strings.asciiOnly ⟨[("example.com", sampleConfig true ["a+b"] false)]⟩).Allowed
        strings.asciiOnly "example.com" ("a+b" ++ "+" ++ "x") = false) ∧
    ((BuildAllowlist strings.asciiOnly
        ⟨[("example.com", sampleConfig true ["Inbound"] false)]⟩).isOk = true ∧
      (built strings.asciiOnly ⟨[("example.com", sampleConfig true ["Inbound"] false)]⟩).Allowed
        strings.asciiOnly "example.com" ("Inbound" ++ "+" ++ "x") = false) ∧
    ((BuildAllowlist strings.asciiOnly
        ⟨[("example.com", sampleConfig true ["inbound"] false),
          ("EXAMPLE.COM", sampleConfig false ["other"] false)]⟩).isOk = true ∧
      (built strings.asciiOnly
        ⟨[("example.com", sampleConfig true ["inbound"] false),
          ("EXAMPLE.COM", sampleConfig false ["other"] false)]⟩).Allowed
        strings.asciiOnly "example.com" ("inbound" ++ "+" ++ "x") = false) := by
  decide

/-- C7 (as amended). Plus-tag law, disabled case: for every snapshot in which an
enabled domain has `plus_tag=false`, and no other enabled key with the same
normalised domain has another configuration: for every `local` and tag `T`,
`Allowed(domain, local + "+" + T)` is true if and only if the string
`local + "+" + T` is itself a member of the domain's mailbox set, the mailboxes in
lower case. -/
theorem Allowed_without_plus_tag (uni : Char → Char) (s : Snapshot) (r : allowlistResolver)
    (dom : String) (cfg : DomainConfig) (localPart tag : String)
    (hb : BuildAllowlist uni s = .ok r)
    (hmem : (dom, cfg) ∈ s.Domains) (hen : cfg.Disabled = false) (hplus : cfg.PlusTag = false)
    (huniq : ∀ e ∈ s.Domains, e.2.Disabled = false →
      normDomain uni e.1 = normDomain uni dom → e.2 = cfg) :
    r.Allowed uni dom (localPart ++ "+" ++ tag) = true ↔
      (localPart ++ "+" ++ tag) ∈ cfg.Mailboxes.map (strings.ToLower uni) := by
  have hl : lookupLast uni (normDomain uni dom) s.Domains = some cfg :=
    lookupLast_unique uni _ _ cfg ⟨(dom, cfg), hmem, hen, rfl⟩ huniq
  rw [Allowed_eq, BuildAllowlist_get uni s r hb, hl, ← mailboxSet_mem]
  simp only [Option.map_some', allowOf, hplus, Bool.false_eq_true, if_false]
  by_cases h : ((mailboxSet uni cfg.Mailboxes).get? (localPart ++ "+" ++ tag)).isSome = true
  · simp [h]
  · simp [h]

/-- C7, witness: the snapshot of the plus-tag scenario with `plus_tag=false`, and the
address `inbound+x`. -/
theorem Allowed_without_plus_tag_witness :
    BuildAllowlist strings.asciiOnly ⟨[("example.com", sampleConfig false ["inbound"] false)]⟩ =
      .ok (built strings.asciiOnly ⟨[("example.com", sampleConfig false ["inbound"] false)]⟩) ∧
    ((built strings.asciiOnly
        ⟨[("example.com", sampleConfig false ["inbound"] false)]⟩).Allowed strings.asciiOnly
        "example.com" ("inbound" ++ "+" ++ "x") = true ↔
      ("inbound" ++ "+" ++ "x") ∈
        (sampleConfig false ["inbound"] false).Mailboxes.map (strings.ToLower strings.asciiOnly)) :=
  ⟨rfl,
    Allowed_without_plus_tag strings.asciiOnly
      ⟨[("example.com", sampleConfig false ["inbound"] false)]⟩
      (built strings.asciiOnly ⟨[("example.com", sampleConfig false ["inbound"] false)]⟩)
      "example.com" (sampleConfig false ["inbound"] false) "inbound" "x"
      rfl (by decide) rfl rfl (by decide)⟩

/-- C7, counterexample. The snapshot has `example.com` with `plus_tag=false` and
mailbox `inbound`, and a second key `EXAMPLE.COM` with `plus_tag=true`, visited
later: `Allowed("example.com", "inbound+x")` is true although `inbound+x` is not in
the mailbox set of `example.com`. -/
theorem Allowed_without_plus_tag_fails :
    (BuildAllowlist strings.asciiOnly
      ⟨[("example.com", sampleConfig false ["inbound"] false),
        ("EXAMPLE.COM", sampleConfig true ["inbound"] false)]⟩).isOk = true ∧
    (built strings.asciiOnly
      ⟨[("example.com", sampleConfig false ["inbound"] false),
        ("EXAMPLE.COM", sampleConfig true ["inbound"] false)]⟩).Allowed
      strings.asciiOnly "example.com" ("inbound" ++ "+" ++ "x") = true ∧
    ("inbound" ++ "+" ++ "x") ∉
      (sampleConfig false ["inbound"] false).Mailboxes.map (strings.ToLower strings.asciiOnly) := by
  decide

/-- C8 (as amended). A trailing dot on the domain does not change the result: for
every resolver, every domain string `D` that does not itself end with a dot and
every local part `L`, `Allowed(D + ".", L)` equals `Allowed(D, L)`. -/
theorem Allowed_trailing_dot (uni : Char → Char) (r : allowlistResolver) (d l : String)
    (h : strings.HasSuffix d "." = false) :
    r.Allowed uni (d ++ ".") l = r.Allowed uni d l := by
  rw [Allowed_eq, Allowed_eq]
  simp only [normDomain, strings.TrimSuffix_append_dot, strings.TrimSuffix_of_not_suffix d h]

/-- C8, witness: `example.com.` against `example.com`. -/
theorem Allowed_trailing_dot_witness :
    strings.HasSuffix "example.com" "." = false ∧
    (built strings.asciiOnly sampleSnapshot).Allowed strings.asciiOnly
        ("example.com" ++ ".") "inbound" =
      (built strings.asciiOnly sampleSnapshot).Allowed strings.asciiOnly
        "example.com" "inbound" :=
  ⟨by decide,
    Allowed_trailing_dot strings.asciiOnly (built strings.asciiOnly sampleSnapshot)
      "example.com" "inbound" (by decide)⟩

/-- C8, counterexample. For `D = "example.com."`, `Allowed(D + ".", "inbound")` is
false and `Allowed(D, "inbound")` is true: `TrimSuffix` takes one dot off. -/
theorem Allowed_trailing_dot_fails :
    (built strings.asciiOnly sampleSnapshot).Allowed strings.asciiOnly
      ("example.com." ++ ".") "inbound" = false ∧
    (built strings.asciiOnly sampleSnapshot).Allowed strings.asciiOnly
      "example.com." "inbound" = true := by
  decide

/-- C9 (as amended). On every snapshot on which `BuildAllowlist` succeeds: for every
domain key whose configuration has `disabled=true`, when no enabled key has the
same normalised domain, `Allowed(that domain, L)` is false for every `L`;
likewise `Allowed(D, L)` is false for every domain `D` whose normalised form
(lower case, one trailing dot removed) is that of no enabled key. -/
theorem Allowed_disabled_or_absent (uni : Char → Char) (s : Snapshot) (r : allowlistResolver)
    (hb : BuildAllowlist uni s = .ok r) :
    (∀ dom cfg, (dom, cfg) ∈ s.Domains → cfg.Disabled = true →
      (∀ e ∈ s.Domains, e.2.Disabled = false → normDomain uni e.1 ≠ normDomain uni dom) →
      ∀ l, r.Allowed uni dom l = false) ∧
    (∀ d, (∀ e ∈ s.Domains, e.2.Disabled = false → normDomain uni e.1 ≠ normDomain uni d) →
      ∀ l, r.Allowed uni d l = false) := by
  have key : ∀ d, (∀ e ∈ s.Domains, e.2.Disabled = false →
      normDomain uni e.1 ≠ normDomain uni d) → ∀ l, r.Allowed uni d l = false := by
    intro d hd l
    rw [Allowed_eq, BuildAllowlist_get uni s r hb, lookupLast_none uni _ _ hd]
    rfl
  exact ⟨fun dom _ _ _ h => key dom h, key⟩

/-- C9, witness: a snapshot with `example.com` enabled and `example.org` disabled. -/
theorem Allowed_disabled_or_absent_witness :
    BuildAllowlist strings.asciiOnly
      ⟨[("example.com", sampleConfig true ["inbound"] false),
        ("example.org", sampleConfig true ["inbound"] true)]⟩ =
      .ok (built strings.asciiOnly
        ⟨[("example.com", sampleConfig true ["inbound"] false),
          ("example.org", sampleConfig true ["inbound"] true)]⟩) ∧
    (built strings.asciiOnly
      ⟨[("example.com", sampleConfig true ["inbound"] false),
        ("example.org", sampleConfig true ["inbound"] true)]⟩).Allowed
      strings.asciiOnly "example.org" "inbound" = false :=
  ⟨rfl,
    (Allowed_disabled_or_absent strings.asciiOnly
      ⟨[("example.com", sampleConfig true ["inbound"] false),
        ("example.org", sampleConfig true ["inbound"] true)]⟩ _ rfl).1
      "example.org" (sampleConfig true ["inbound"] true) (by decide) rfl (by decide) "inbound"⟩

/-- C9, counterexamples. The key `example.com` is disabled, and `Allowed` is true
for it, because the enabled key `EXAMPLE.COM` normalises to the same domain; and
`EXAMPLE.COM.` is not a key of the snapshot of `TestSMTPD_AcceptsAndSpools`, and
`Allowed` is true for it. -/
theorem Allowed_disabled_or_absent_fails :
    ((BuildAllowlist strings.asciiOnly
        ⟨[("example.com", sampleConfig true ["inbound"] true),
          ("EXAMPLE.COM", sampleConfig true ["inbound"] false)]⟩).isOk = true ∧
      (built strings.asciiOnly
        ⟨[("example.com", sampleConfig true ["inbound"] true),
          ("EXAMPLE.COM", sampleConfig true ["inbound"] false)]⟩).Allowed
        strings.asciiOnly "example.com" "inbound" = true) ∧
    ("EXAMPLE.COM." ∉ sampleSnapshot.Domains.map Prod.fst ∧
      (built strings.asciiOnly sampleSnapshot).Allowed strings.asciiOnly
        "EXAMPLE.COM." "inbound" = true) := by
  decide

/-- C10 (as amended). `BuildAllowlist` returns an error exactly for the snapshots in
which some domain that is not disabled has a mode other than the empty string and
`allowlist`; in particular it succeeds when every domain's mode is `allowlist`. -/
theorem BuildAllowlist_error_iff (uni : Char → Char) (s : Snapshot) :
    ((∃ err, BuildAllowlist uni s = .error err) ↔
      ∃ e ∈ s.Domains, e.2.Disabled = false ∧ e.2.Mode ≠ "" ∧ e.2.Mode ≠ ModeAllowlist) ∧
    ((∀ e ∈ s.Domains, e.2.Mode = ModeAllowlist) → ∃ r, BuildAllowlist uni s = .ok r) := by
  have h1 := buildLoop_error_iff uni s.Domains [] { Domains := 0, Mailboxes := 0 }
  refine ⟨h1, ?_⟩
  intro hall
  cases hb : BuildAllowlist uni s with
  | ok r => exact ⟨r, rfl⟩
  | error err =>
    obtain ⟨e, he, _, _, hm⟩ := h1.mp ⟨err, hb⟩
    exact absurd (hall e he) hm

/-- C10, counterexamples. `BuildAllowlist` succeeds on a snapshot whose only domain
has the empty mode, and on one whose only domain has mode `catch_all` and is
disabled. -/
theorem BuildAllowlist_accepts_other_modes :
    (BuildAllowlist strings.asciiOnly
      ⟨[("example.com", { sampleConfig true ["inbound"] false with Mode := "" })]⟩).isOk = true ∧
    (BuildAllowlist strings.asciiOnly
      ⟨[("example.com", { sampleConfig true ["inbound"] true with Mode := ModeCatchAll })]⟩).isOk
      = true := by
  decide

end resolver

/-! ## The loader -/

namespace resolver

/-- C11: `Loader.Load` returns an error exactly when the file cannot be read, does
not parse as a snapshot, or holds a snapshot that `BuildAllowlist` rejects. Whenever
it returns an error the loader is unchanged, so `Allowed` and `Stats` answer as
before the call. Whenever it succeeds it returns the resolver built from the snapshot
read, and `Allowed` and `Stats` answer from that resolver. -/
theorem Load_retains_or_replaces (uni : Char → Char) (l : Loader) (file : Option (List Nat))
    (unmarshal : List Nat → Option Snapshot) :
    ((∃ e, (l.Load uni file unmarshal).1 = .error e) ↔
        (file = none ∨ (∃ b, file = some b ∧ unmarshal b = none) ∨
          ∃ b snap e, file = some b ∧ unmarshal b = some snap ∧
            BuildAllowlist uni snap = .error e)) ∧
      (∀ e, (l.Load uni file unmarshal).1 = .error e →
        (l.Load uni file unmarshal).2 = l ∧
          (∀ d p, (l.Load uni file unmarshal).2.Allowed uni d p = l.Allowed uni d p) ∧
          (l.Load uni file unmarshal).2.Stats = l.Stats) ∧
      (∀ r, (l.Load uni file unmarshal).1 = .ok r →
        (∃ b snap, file = some b ∧ unmarshal b = some snap ∧ BuildAllowlist uni snap = .ok r) ∧
          (l.Load uni file unmarshal).2.cur = some r ∧
          (∀ d p, (l.Load uni file unmarshal).2.Allowed uni d p = r.Allowed uni d p) ∧
          (l.Load uni file unmarshal).2.Stats = r.Stats) := by
  cases file with
  | none =>
    refine ⟨⟨fun _ => Or.inl rfl, fun _ => ⟨LoadError.read, rfl⟩⟩, ?_, ?_⟩
    · intro e _
      exact ⟨rfl, fun _ _ => rfl, rfl⟩
    · intro r h
      cases h
  | some b =>
    cases hu : unmarshal b with
    | none =>
      have hl : l.Load uni (some b) unmarshal = (.error LoadError.parse, l) := by
        simp only [Loader.Load, hu]
      rw [hl]
      refine ⟨⟨fun _ => Or.inr (Or.inl ⟨b, rfl, hu⟩), fun _ => ⟨LoadError.parse, rfl⟩⟩, ?_, ?_⟩
      · intro e _
        exact ⟨rfl, fun _ _ => rfl, rfl⟩
      · intro r h
        cases h
    | some snap =>
      cases hb : BuildAllowlist uni snap with
      | error e0 =>
        have hl : l.Load uni (some b) unmarshal = (.error (LoadError.build e0), l) := by
          simp only [Loader.Load, hu, hb]
        rw [hl]
        refine ⟨⟨fun _ => Or.inr (Or.inr ⟨b, snap, e0, rfl, hu, hb⟩),
          fun _ => ⟨LoadError.build e0, rfl⟩⟩, ?_, ?_⟩
        · intro e _
          exact ⟨rfl, fun _ _ => rfl, rfl⟩
        · intro r h
          cases h
      | ok res =>
        have hl : l.Load uni (some b) unmarshal = (.ok res, { l with cur := some res }) := by
          simp only [Loader.Load, hu, hb]
        rw [hl]
        refine ⟨⟨?_, ?_⟩, ?_, ?_⟩
        · rintro ⟨e, he⟩
          cases he
        · rintro (h | ⟨b1, h1, h2⟩ | ⟨b1, snap1, e1, h1, h2, h3⟩)
          · cases h
          · cases h1
            rw [hu] at h2
            cases h2
          · cases h1
            rw [hu] at h2
            cases h2
            rw [hb] at h3
            cases h3
        · intro e h
          cases h
        · intro r h
          cases h
          exact ⟨⟨b, snap, rfl, hu, hb⟩, rfl, fun _ _ => rfl, rfl⟩

/-- A loader that holds the sample snapshot keeps answering from it when the file
cannot be read. -/
theorem Load_retains_or_replaces_witness :
    ((Loader.mk "snapshot.json" (some (built strings.asciiOnly sampleSnapshot))).Load
        strings.asciiOnly none (fun _ => none)).1 = .error LoadError.read ∧
      ((Loader.mk "snapshot.json" (some (built strings.asciiOnly sampleSnapshot))).Load
        strings.asciiOnly none (fun _ => none)).2.Allowed strings.asciiOnly "example.com"
        "inbound" = true :=
  ⟨rfl,
    (((Load_retains_or_replaces strings.asciiOnly
      (Loader.mk "snapshot.json" (some (built strings.asciiOnly sampleSnapshot))) none
      (fun _ => none)).2.1 LoadError.read rfl).2.1 "example.com" "inbound").trans (by decide)⟩

end resolver

/-! ## Lemmas: instants and Go maps -/

namespace time

theorem Time.instant_Add (t : Time) (d : Int) : (t.Add d).instant = t.instant + d := by
  unfold Time.Add
  simp only [Time.instant]
  omega

theorem Time.Before_iff (t u : Time) : t.Before u = true ↔ t.instant < u.instant := by
  simp [Time.Before]

end time

namespace GoMap

variable {V : Type}

theorem mem_delete (m : GoMap V) (k : String) (e : String × V) :
    e ∈ delete m k ↔ e ∈ m ∧ e.1 ≠ k := by
  simp [delete, List.mem_filter]

theorem length_delete_le (m : GoMap V) (k : String) : (delete m k).length ≤ m.length :=
  List.length_filter_le _ _

theorem length_delete_lt (m : GoMap V) (k : String) (v : V) (h : (k, v) ∈ m) :
    (delete m k).length < m.length := by
  induction m with
  | nil => cases h
  | cons e m ih =>
    by_cases he : e.1 = k
    · have : delete (e :: m) k = delete m k := by simp [delete, he]
      rw [this]
      exact Nat.lt_succ_of_le (length_delete_le m k)
    · have hm : (k, v) ∈ m := by
        rcases List.mem_cons.mp h with h1 | h1
        · exact absurd (by rw [← h1]) he
        · exact h1
      have : delete (e :: m) k = e :: delete m k := by simp [delete, he]
      rw [this]
      simpa using ih hm

theorem length_delete_ge (m : GoMap V) (hd : (m.map Prod.fst).Nodup) (k : String) :
    m.length ≤ (delete m k).length + 1 := by
  induction m with
  | nil => simp [delete]
  | cons e m ih =>
    simp only [List.map_cons, List.nodup_cons] at hd
    by_cases he : e.1 = k
    · have h1 : delete (e :: m) k = delete m k := by simp [delete, he]
      have h2 : delete m k = m := by
        apply List.filter_eq_self.mpr
        intro a ha
        have : a.1 ≠ k := by
          intro h
          apply hd.1
          rw [he, ← h]
          exact List.mem_map_of_mem Prod.fst ha
        simpa using this
      rw [h1, h2]
      simp
    · have h1 : delete (e :: m) k = e :: delete m k := by simp [delete, he]
      rw [h1]
      have := ih hd.2
      simp only [List.length_cons]
      omega

theorem get?_delete_self (m : GoMap V) (k : String) : (delete m k).get? k = none := by
  induction m with
  | nil => rfl
  | cons e m ih =>
    obtain ⟨k1, v1⟩ := e
    by_cases he : k1 = k
    · have : delete ((k1, v1) :: m) k = delete m k := by simp [delete, he]
      rw [this]; exact ih
    · have : delete ((k1, v1) :: m) k = (k1, v1) :: delete m k := by simp [delete, he]
      rw [this]; simp only [get?, he, if_false]; exact ih

theorem get?_delete_other (m : GoMap V) (k k1 : String) (h : k1 ≠ k) :
    (delete m k).get? k1 = m.get? k1 := by
  induction m with
  | nil => rfl
  | cons e m ih =>
    obtain ⟨k2, v2⟩ := e
    by_cases he : k2 = k
    · have : delete ((k2, v2) :: m) k = delete m k := by simp [delete, he]
      rw [this, ih]
      have : k2 ≠ k1 := by rw [he]; exact Ne.symm h
      simp only [get?, this, if_false]
    · have : delete ((k2, v2) :: m) k = (k2, v2) :: delete m k := by simp [delete, he]
      rw [this]
      simp only [get?, ih]

theorem mem_of_get? (m : GoMap V) (k : String) (v : V) (h : m.get? k = some v) :
    (k, v) ∈ m := by
  induction m with
  | nil => cases h
  | cons e m ih =>
    obtain ⟨k1, v1⟩ := e
    simp only [get?] at h
    split at h
    · next hk =>
      cases h; subst hk
      exact List.mem_cons_self _ _
    · exact List.mem_cons_of_mem _ (ih h)

theorem get?_eq_none (m : GoMap V) (k : String) : m.get? k = none ↔ ∀ e ∈ m, e.1 ≠ k := by
  induction m with
  | nil => simp [get?]
  | cons e m ih =>
    obtain ⟨k1, v1⟩ := e
    simp only [get?]
    split
    · next hk => simp [hk]
    · next hk => simp [ih, hk]

theorem get?_of_mem (m : GoMap V) (hd : (m.map Prod.fst).Nodup) (k : String) (v : V)
    (h : (k, v) ∈ m) : m.get? k = some v := by
  induction m with
  | nil => cases h
  | cons e m ih =>
    obtain ⟨k1, v1⟩ := e
    simp only [List.map_cons, List.nodup_cons] at hd
    simp only [get?]
    rcases List.mem_cons.mp h with h1 | h1
    · cases h1; simp
    · have : k1 ≠ k := by
        intro hk
        apply hd.1
        rw [hk]
        exact List.mem_map_of_mem Prod.fst h1
      simp only [this, if_false]
      exact ih hd.2 h1

theorem length_set (m : GoMap V) (k : String) (v : V) :
    (m.set k v).length = if (m.get? k).isNone then m.length + 1 else m.length := by
  induction m with
  | nil => simp [set, get?]
  | cons e m ih =>
    obtain ⟨k1, v1⟩ := e
    simp only [set, get?]
    split
    · simp
    · simp only [List.length_cons, ih]
      split <;> rfl

theorem length_set_le (m : GoMap V) (k : String) (v : V) :
    (m.set k v).length ≤ m.length + 1 := by
  rw [length_set]
  split <;> omega

theorem mem_set (m : GoMap V) (k : String) (v : V) (e : String × V) (h : e ∈ m.set k v) :
    e = (k, v) ∨ e ∈ m := by
  induction m with
  | nil => left; simpa [set] using h
  | cons e1 m ih =>
    obtain ⟨k1, v1⟩ := e1
    simp only [set] at h
    split at h
    · rcases List.mem_cons.mp h with h1 | h1
      · exact Or.inl h1
      · exact Or.inr (List.mem_cons_of_mem _ h1)
    · rcases List.mem_cons.mp h with h1 | h1
      · right; rw [h1]; exact List.mem_cons_self _ _
      · rcases ih h1 with h2 | h2
        · exact Or.inl h2
        · exact Or.inr (List.mem_cons_of_mem _ h2)

theorem keys_set (m : GoMap V) (k : String) (v : V) :
    (m.set k v).map Prod.fst =
      if (m.get? k).isNone then m.map Prod.fst ++ [k] else m.map Prod.fst := by
  induction m with
  | nil => simp [set, get?]
  | cons e m ih =>
    obtain ⟨k1, v1⟩ := e
    simp only [set, get?]
    split
    · next hk => simp [hk]
    · simp only [List.map_cons, ih]
      split <;> rfl

theorem nodup_set (m : GoMap V) (hd : (m.map Prod.fst).Nodup) (k : String) (v : V) :
    ((m.set k v).map Prod.fst).Nodup := by
  rw [keys_set]
  split
  · next hn =>
    rw [Option.isNone_iff_eq_none, get?_eq_none] at hn
    rw [List.nodup_append]
    refine ⟨hd, List.nodup_singleton _, ?_⟩
    intro a ha hb
    simp only [List.mem_singleton] at hb
    subst hb
    obtain ⟨e, he, rfl⟩ := List.mem_map.mp ha
    exact hn e he rfl
  · exact hd

theorem nodup_delete (m : GoMap V) (hd : (m.map Prod.fst).Nodup) (k : String) :
    ((delete m k).map Prod.fst).Nodup :=
  List.Nodup.sublist (List.Sublist.map _ (List.filter_sublist _)) hd

end GoMap

/-! ## Lemmas: the limiter cache -/

namespace ratelimit

theorem Before_cutoff (e : entry) (ttl : Int) (now : time.Time) :
    e.lastSeen.Before (now.Add (-ttl)) = e.expired ttl now := by
  unfold entry.expired time.Time.Before
  rw [time.Time.instant_Add, decide_eq_decide]
  omega

theorem foldl_sweep (cutoff : time.Time) (l m : GoMap entry) :
    l.foldl (fun m ie => if ie.2.lastSeen.Before cutoff then GoMap.delete m ie.1 else m) m =
      m.filter (fun e => !(l.any (fun ie => ie.2.lastSeen.Before cutoff && decide (ie.1 = e.1)))) := by
  induction l generalizing m with
  | nil => simp
  | cons ie l ih =>
    simp only [List.foldl_cons]
    rw [ih]
    cases hb : ie.2.lastSeen.Before cutoff
    · simp [hb]
    · simp only [if_true, GoMap.delete, List.filter_filter, List.any_cons, hb, Bool.true_and]
      congr 1
      funext e
      by_cases hk : ie.1 = e.1
      · simp [hk]
      · have hk1 : e.1 ≠ ie.1 := fun h => hk h.symm
        simp [hk, hk1]

theorem sweep_entries (c : Cache) (now : time.Time) :
    (c.sweepLocked now).entries =
      c.entries.filter (fun e =>
        !(c.entries.any (fun ie => ie.2.expired c.ttl now && decide (ie.1 = e.1)))) := by
  have h : (c.sweepLocked now).entries =
      c.entries.foldl (fun m ie =>
        if ie.2.lastSeen.Before (now.Add (-c.ttl)) then GoMap.delete m ie.1 else m) c.entries :=
    rfl
  rw [h, foldl_sweep]
  simp only [Before_cutoff]

theorem mem_sweep (c : Cache) (now : time.Time) (e : String × entry) :
    e ∈ (c.sweepLocked now).entries ↔
      e ∈ c.entries ∧ ∀ ie ∈ c.entries, ie.2.expired c.ttl now = true → ie.1 ≠ e.1 := by
  rw [sweep_entries, List.mem_filter]
  simp

theorem sweep_sublist (c : Cache) (now : time.Time) :
    List.Sublist (c.sweepLocked now).entries c.entries := by
  rw [sweep_entries]
  exact List.filter_sublist _

theorem sweep_distinct (c : Cache) (now : time.Time) (hd : Distinct c.entries) :
    Distinct (c.sweepLocked now).entries :=
  List.Nodup.sublist (List.Sublist.map _ (sweep_sublist c now)) hd

theorem sweep_length_le (c : Cache) (now : time.Time) :
    (c.sweepLocked now).entries.length ≤ c.entries.length :=
  List.Sublist.length_le (sweep_sublist c now)

theorem sweep_unexpired (c : Cache) (now : time.Time) (e : String × entry)
    (h : e ∈ (c.sweepLocked now).entries) : e.2.expired c.ttl now = false := by
  rw [mem_sweep] at h
  cases hx : e.2.expired c.ttl now
  · rfl
  · exact absurd rfl (h.2 e h.1 hx)

theorem sweep_get? (c : Cache) (now : time.Time) (hd : Distinct c.entries) (k : String) :
    (c.sweepLocked now).entries.get? k = c.live now k := by
  unfold Cache.live
  cases hg : c.entries.get? k with
  | none =>
    simp only
    rw [GoMap.get?_eq_none] at hg ⊢
    intro e he
    exact hg e ((mem_sweep c now e).mp he).1
  | some e =>
    simp only
    have hm := GoMap.mem_of_get? _ _ _ hg
    cases hx : e.expired c.ttl now
    · simp only [Bool.false_eq_true, if_false]
      apply GoMap.get?_of_mem _ (sweep_distinct c now hd)
      rw [mem_sweep]
      refine ⟨hm, ?_⟩
      intro ie hie hexp hk
      have h1 : c.entries.get? k = some ie.2 := by
        apply GoMap.get?_of_mem _ hd
        have hk1 : ie.1 = k := hk
        have : ie = (k, ie.2) := by rw [← hk1]
        rw [← this]; exact hie
      rw [hg] at h1
      cases h1
      rw [hx] at hexp
      cases hexp
    · simp only [if_true]
      rw [GoMap.get?_eq_none]
      intro e1 he1 hk
      exact ((mem_sweep c now e1).mp he1).2 (k, e) hm hx hk.symm

theorem Get_found (c : Cache) (ip : String) (now : time.Time) (e : entry)
    (h : (c.sweepLocked now).entries.get? ip = some e) :
    c.Get ip now =
      (e.lim, { entries := (c.sweepLocked now).entries.set ip { lim := e.lim, lastSeen := now },
                maxEntries := c.maxEntries, ttl := c.ttl, made := c.made }) := by
  unfold Cache.Get
  simp only [h]
  rfl

theorem Get_absent (c : Cache) (ip : String) (now : time.Time)
    (h : (c.sweepLocked now).entries.get? ip = none) :
    c.Get ip now =
      (c.made,
        { entries :=
            GoMap.set
              (if (GoMap.len (c.sweepLocked now).entries : Int) ≥ c.maxEntries then
                GoMap.delete (c.sweepLocked now).entries
                  (oldestLoop (c.sweepLocked now).entries ("", time.Time.zero, true)).1
              else (c.sweepLocked now).entries)
              ip { lim := c.made, lastSeen := now },
          maxEntries := c.maxEntries, ttl := c.ttl, made := c.made + 1 }) := by
  unfold Cache.Get
  simp only [h]
  by_cases hc : (GoMap.len (c.sweepLocked now).entries : Int) ≥ c.maxEntries
  · have hc1 : (GoMap.len (c.sweepLocked now).entries : Int) ≥ (c.sweepLocked now).maxEntries := hc
    simp only [hc, hc1, if_true]
    rfl
  · have hc1 : ¬ (GoMap.len (c.sweepLocked now).entries : Int) ≥ (c.sweepLocked now).maxEntries :=
      hc
    simp only [hc, hc1, if_false]
    rfl

theorem oldestLoop_later (l : List (String × entry)) (k : String) (t : time.Time) :
    (oldestLoop l (k, t, false)).2.1.instant ≤ t.instant ∧
      (∀ e ∈ l, (oldestLoop l (k, t, false)).2.1.instant ≤ e.2.lastSeen.instant) ∧
      (((oldestLoop l (k, t, false)).1 = k ∧ (oldestLoop l (k, t, false)).2.1 = t) ∨
        ∃ e ∈ l, e.1 = (oldestLoop l (k, t, false)).1 ∧
          e.2.lastSeen = (oldestLoop l (k, t, false)).2.1) := by
  induction l generalizing k t with
  | nil => simp [oldestLoop]
  | cons e l ih =>
    obtain ⟨k1, v1⟩ := e
    cases hb : v1.lastSeen.Before t
    · have hle : t.instant ≤ v1.lastSeen.instant := by
        have := (time.Time.Before_iff v1.lastSeen t).not.mp (by rw [hb]; simp)
        omega
      have hstep : oldestLoop ((k1, v1) :: l) (k, t, false) = oldestLoop l (k, t, false) := by
        simp [oldestLoop, hb]
      rw [hstep]
      obtain ⟨h1, h2, h3⟩ := ih k t
      refine ⟨h1, ?_, ?_⟩
      · intro e he
        rcases List.mem_cons.mp he with h | h
        · subst h; exact le_trans h1 hle
        · exact h2 e h
      · rcases h3 with h | ⟨e, he, h⟩
        · exact Or.inl h
        · exact Or.inr ⟨e, List.mem_cons_of_mem _ he, h⟩
    · have hlt : v1.lastSeen.instant < t.instant := (time.Time.Before_iff _ _).mp hb
      have hstep : oldestLoop ((k1, v1) :: l) (k, t, false) =
          oldestLoop l (k1, v1.lastSeen, false) := by
        simp [oldestLoop, hb]
      rw [hstep]
      obtain ⟨h1, h2, h3⟩ := ih k1 v1.lastSeen
      refine ⟨by omega, ?_, ?_⟩
      · intro e he
        rcases List.mem_cons.mp he with h | h
        · subst h; exact h1
        · exact h2 e h
      · right
        rcases h3 with h | ⟨e, he, h⟩
        · exact ⟨(k1, v1), List.mem_cons_self _ _, h.1.symm, h.2.symm⟩
        · exact ⟨e, List.mem_cons_of_mem _ he, h⟩

/-- On a map that is not empty the loop ends at an entry of the map that was seen
no later than any other. -/
theorem oldestLoop_spec (l : List (String × entry)) (hl : l ≠ []) :
    ∃ e ∈ l, e.1 = (oldestLoop l ("", time.Time.zero, true)).1 ∧
      ∀ e1 ∈ l, e.2.lastSeen.instant ≤ e1.2.lastSeen.instant := by
  cases l with
  | nil => exact absurd rfl hl
  | cons e l =>
    obtain ⟨k1, v1⟩ := e
    have hstep : oldestLoop ((k1, v1) :: l) ("", time.Time.zero, true) =
        oldestLoop l (k1, v1.lastSeen, false) := by
      simp [oldestLoop]
    rw [hstep]
    obtain ⟨h1, h2, h3⟩ := oldestLoop_later l k1 v1.lastSeen
    rcases h3 with h | ⟨e, he, h⟩
    · refine ⟨(k1, v1), List.mem_cons_self _ _, h.1.symm, ?_⟩
      intro e1 he1
      rcases List.mem_cons.mp he1 with h4 | h4
      · subst h4; exact le_refl _
      · have := h2 e1 h4
        rw [h.2] at this
        exact this
    · refine ⟨e, List.mem_cons_of_mem _ he, h.1, ?_⟩
      intro e1 he1
      rw [h.2]
      rcases List.mem_cons.mp he1 with h4 | h4
      · subst h4; exact h1
      · exact h2 e1 h4

end ratelimit

namespace ratelimit

theorem expired_iff (e : entry) (ttl : Int) (now : time.Time) :
    e.expired ttl now = true ↔ e.lastSeen.instant + ttl < now.instant := by
  simp [entry.expired]

theorem not_expired_iff (e : entry) (ttl : Int) (now : time.Time) :
    e.expired ttl now = false ↔ now.instant - ttl ≤ e.lastSeen.instant := by
  rw [← Bool.not_eq_true, expired_iff]
  omega

theorem live_eq_some (c : Cache) (now : time.Time) (k : String) (e : entry) :
    c.live now k = some e ↔ c.entries.get? k = some e ∧ e.expired c.ttl now = false := by
  unfold Cache.live
  cases hg : c.entries.get? k with
  | none => simp
  | some e1 =>
    cases hx : e1.expired c.ttl now
    · simp only [hx, Bool.false_eq_true, if_false, Option.some.injEq]
      constructor
      · intro h; subst h; exact ⟨rfl, hx⟩
      · intro h; exact h.1
    · simp only [hx, if_true, Option.some.injEq]
      constructor
      · intro h; cases h
      · intro h
        obtain ⟨h1, h2⟩ := h
        subst h1
        rw [hx] at h2
        cases h2

theorem Inv_NewCache (cap ttl : Int) : (NewCache cap ttl).Inv := by
  refine ⟨List.nodup_nil, ?_, ?_, ?_, ?_⟩
  · show ((0 : Nat) : Int) ≤ if cap ≤ 0 then 10000 else cap
    split <;> omega
  · show (0 : Int) < if cap ≤ 0 then 10000 else cap
    split <;> omega
  · show (0 : Int) < if ttl ≤ 0 then 10 * 60 * 1000000000 else ttl
    split <;> omega
  · intro e he
    cases he

theorem NewCache_maxEntries (cap ttl : Int) (h : 0 < cap) : (NewCache cap ttl).maxEntries = cap := by
  show (if cap ≤ 0 then 10000 else cap) = cap
  split <;> omega

theorem Get_maxEntries (c : Cache) (ip : String) (now : time.Time) :
    (c.Get ip now).2.maxEntries = c.maxEntries := by
  cases h : (c.sweepLocked now).entries.get? ip with
  | none => rw [Get_absent c ip now h]
  | some e => rw [Get_found c ip now e h]

theorem Get_ttl (c : Cache) (ip : String) (now : time.Time) : (c.Get ip now).2.ttl = c.ttl := by
  cases h : (c.sweepLocked now).entries.get? ip with
  | none => rw [Get_absent c ip now h]
  | some e => rw [Get_found c ip now e h]

theorem gets_maxEntries (c : Cache) (calls : List (String × time.Time)) :
    (c.gets calls).maxEntries = c.maxEntries := by
  induction calls generalizing c with
  | nil => rfl
  | cons a rest ih =>
    obtain ⟨ip, now⟩ := a
    show ((c.Get ip now).2.gets rest).maxEntries = _
    rw [ih, Get_maxEntries]

/-- The map from which `Get` starts to insert on a key that is absent after the
sweep is part of the swept map and leaves room for one entry. -/
theorem evict_room (c : Cache) (now : time.Time) (h : c.Inv) :
    ((if (GoMap.len (c.sweepLocked now).entries : Int) ≥ c.maxEntries then
        GoMap.delete (c.sweepLocked now).entries
          (oldestLoop (c.sweepLocked now).entries ("", time.Time.zero, true)).1
      else (c.sweepLocked now).entries).length : Int) + 1 ≤ c.maxEntries := by
  have hs := sweep_length_le c now
  have hsz : (c.entries.length : Int) ≤ c.maxEntries := h.size
  have hcap := h.cap
  split
  · next hc =>
    have hne : (c.sweepLocked now).entries ≠ [] := by
      intro h0
      rw [h0] at hc
      simp only [GoMap.len, List.length_nil] at hc
      omega
    obtain ⟨e, he, hk, _⟩ := oldestLoop_spec _ hne
    have := GoMap.length_delete_lt (c.sweepLocked now).entries e.1 e.2 he
    rw [hk] at this
    omega
  · next hc =>
    simp only [GoMap.len] at hc
    omega

theorem Inv_Get (c : Cache) (h : c.Inv) (ip : String) (now : time.Time) :
    (c.Get ip now).2.Inv := by
  have hs := sweep_length_le c now
  have hsz : (c.entries.length : Int) ≤ c.maxEntries := h.size
  cases hg : (c.sweepLocked now).entries.get? ip with
  | some e =>
    rw [Get_found c ip now e hg]
    refine ⟨GoMap.nodup_set _ (sweep_distinct c now h.distinct) _ _, ?_, h.cap, h.ttl, ?_⟩
    · show (((GoMap.set _ _ _).length : Nat) : Int) ≤ c.maxEntries
      rw [GoMap.length_set, hg]
      simp only [Option.isNone_some, Bool.false_eq_true, if_false]
      omega
    · intro e1 he1
      rcases GoMap.mem_set _ _ _ _ he1 with h1 | h1
      · rw [h1]
        exact h.lims (ip, e) ((sweep_sublist c now).subset (GoMap.mem_of_get? _ _ _ hg))
      · exact h.lims _ ((sweep_sublist c now).subset h1)
  | none =>
    rw [Get_absent c ip now hg]
    have hroom := evict_room c now h
    refine ⟨GoMap.nodup_set _ ?_ _ _, ?_, h.cap, h.ttl, ?_⟩
    · split
      · exact GoMap.nodup_delete _ (sweep_distinct c now h.distinct) _
      · exact sweep_distinct c now h.distinct
    · show (((GoMap.set _ _ _).length : Nat) : Int) ≤ c.maxEntries
      have := GoMap.length_set_le
        (if (GoMap.len (c.sweepLocked now).entries : Int) ≥ c.maxEntries then
          GoMap.delete (c.sweepLocked now).entries
            (oldestLoop (c.sweepLocked now).entries ("", time.Time.zero, true)).1
        else (c.sweepLocked now).entries) ip { lim := c.made, lastSeen := now }
      omega
    · intro e1 he1
      show e1.2.lim < c.made + 1
      rcases GoMap.mem_set _ _ _ _ he1 with h1 | h1
      · rw [h1]; exact Nat.lt_succ_self _
      · have h2 : e1 ∈ (c.sweepLocked now).entries := by
          split at h1
          · exact ((GoMap.mem_delete _ _ _).mp h1).1
          · exact h1
        exact Nat.lt_succ_of_lt (h.lims _ ((sweep_sublist c now).subset h2))

theorem Inv_gets (c : Cache) (h : c.Inv) (calls : List (String × time.Time)) :
    (c.gets calls).Inv := by
  induction calls generalizing c with
  | nil => exact h
  | cons a rest ih =>
    obtain ⟨ip, now⟩ := a
    exact ih _ (Inv_Get c h ip now)

theorem Get_get?_self (c : Cache) (ip : String) (now : time.Time) :
    (c.Get ip now).2.entries.get? ip = some { lim := (c.Get ip now).1, lastSeen := now } := by
  cases hg : (c.sweepLocked now).entries.get? ip with
  | some e => rw [Get_found c ip now e hg]; exact GoMap.get?_set_self _ _ _
  | none => rw [Get_absent c ip now hg]; exact GoMap.get?_set_self _ _ _

theorem Get_unexpired (c : Cache) (h : c.Inv) (ip : String) (now : time.Time)
    (e : String × entry) (he : e ∈ (c.Get ip now).2.entries) :
    now.instant - c.ttl ≤ e.2.lastSeen.instant := by
  have httl := h.ttl
  have hsw : ∀ e1 ∈ (c.sweepLocked now).entries, now.instant - c.ttl ≤ e1.2.lastSeen.instant :=
    fun e1 he1 => (not_expired_iff _ _ _).mp (sweep_unexpired c now e1 he1)
  cases hg : (c.sweepLocked now).entries.get? ip with
  | some e0 =>
    rw [Get_found c ip now e0 hg] at he
    rcases GoMap.mem_set _ _ _ _ he with h1 | h1
    · rw [h1]; show now.instant - c.ttl ≤ now.instant; omega
    · exact hsw e h1
  | none =>
    rw [Get_absent c ip now hg] at he
    rcases GoMap.mem_set _ _ _ _ he with h1 | h1
    · rw [h1]; show now.instant - c.ttl ≤ now.instant; omega
    · apply hsw
      split at h1
      · exact ((GoMap.mem_delete _ _ _).mp h1).1
      · exact h1

end ratelimit

/-! ## The limiter cache -/

namespace ratelimit

/-- C12: a cache made by `NewCache` with a capacity `cap > 0` holds at most `cap`
entries after every finite sequence of calls of `Get`, whatever the keys and the
times. -/
theorem Size_le_capacity (cap ttl : Int) (h : 0 < cap) (calls : List (String × time.Time)) :
    (((NewCache cap ttl).gets calls).Size : Int) ≤ cap := by
  have hi := (Inv_gets _ (Inv_NewCache cap ttl) calls).size
  rw [gets_maxEntries, NewCache_maxEntries cap ttl h] at hi
  exact hi

/-- Three addresses looked up in a cache of capacity two. -/
theorem Size_le_capacity_witness :
    (0 : Int) < 2 ∧
      (((NewCache 2 1000000000).gets
        [("a", sampleTime 0 0), ("b", sampleTime 0 100), ("c", sampleTime 0 200)]).Size : Int) ≤ 2 :=
  ⟨by decide, Size_le_capacity 2 1000000000 (by decide) _⟩

/-- C13: after a call `Get(ip, now)` on a cache made by `NewCache` and used through
`Get`, every entry left has `last_seen ≥ now − ttl`; an entry of another key whose
time-to-live has elapsed (`last_seen + ttl < now`) is absent; and when the entry of
`ip` itself has expired, the limiter returned is a new one, held by no entry before
the call, and is stored for `ip` with `last_seen = now`. -/
theorem Get_sweeps_expired (cap ttl : Int) (calls : List (String × time.Time)) (ip : String)
    (now : time.Time) :
    (∀ e ∈ (((NewCache cap ttl).gets calls).Get ip now).2.entries,
        now.instant - ((NewCache cap ttl).gets calls).ttl ≤ e.2.lastSeen.instant) ∧
      (∀ k e, ((NewCache cap ttl).gets calls).entries.get? k = some e →
        e.lastSeen.instant + ((NewCache cap ttl).gets calls).ttl < now.instant → k ≠ ip →
        (((NewCache cap ttl).gets calls).Get ip now).2.entries.get? k = none) ∧
      (∀ e, ((NewCache cap ttl).gets calls).entries.get? ip = some e →
        e.lastSeen.instant + ((NewCache cap ttl).gets calls).ttl < now.instant →
        (((NewCache cap ttl).gets calls).Get ip now).1 = ((NewCache cap ttl).gets calls).made ∧
          (∀ e1 ∈ ((NewCache cap ttl).gets calls).entries,
            e1.2.lim ≠ (((NewCache cap ttl).gets calls).Get ip now).1) ∧
          (((NewCache cap ttl).gets calls).Get ip now).2.entries.get? ip =
            some { lim := ((NewCache cap ttl).gets calls).made, lastSeen := now }) := by
  have hi := Inv_gets _ (Inv_NewCache cap ttl) calls
  generalize (NewCache cap ttl).gets calls = c at hi
  have hgone : ∀ k e, c.entries.get? k = some e → e.lastSeen.instant + c.ttl < now.instant →
      (c.sweepLocked now).entries.get? k = none := by
    intro k e hg hx
    rw [sweep_get? c now hi.distinct, Cache.live, hg]
    simp only [(expired_iff e c.ttl now).mpr hx, if_true]
  refine ⟨fun e he => Get_unexpired c hi ip now e he, ?_, ?_⟩
  · intro k e hg hx hk
    have hs := hgone k e hg hx
    cases hip : (c.sweepLocked now).entries.get? ip with
    | some e0 =>
      rw [Get_found c ip now e0 hip]
      show (GoMap.set _ _ _).get? k = none
      rw [GoMap.get?_set_other _ _ _ _ (Ne.symm hk)]
      exact hs
    | none =>
      rw [Get_absent c ip now hip]
      show (GoMap.set _ _ _).get? k = none
      rw [GoMap.get?_set_other _ _ _ _ (Ne.symm hk)]
      split
      · rw [GoMap.get?_eq_none] at hs ⊢
        intro e1 he1
        exact hs e1 ((GoMap.mem_delete _ _ _).mp he1).1
      · exact hs
  · intro e hg hx
    have hs := hgone ip e hg hx
    have h1 : (c.Get ip now).1 = c.made := by rw [Get_absent c ip now hs]
    refine ⟨h1, ?_, ?_⟩
    · intro e1 he1
      rw [h1]
      exact Nat.ne_of_lt (hi.lims e1 he1)
    · rw [Get_get?_self, h1]

/-- In the sample cache at 1.2 s the entry of `b` has expired: its lookup returns a
new limiter and leaves only entries seen within the last second. -/
theorem Get_sweeps_expired_witness :
    sampleCache.entries.get? "b" = some { lim := 0, lastSeen := sampleTime 0 0 } ∧
      (sampleCache.Get "b" (sampleTime 1 200)).1 = 2 ∧
      ∀ e ∈ (sampleCache.Get "b" (sampleTime 1 200)).2.entries,
        (sampleTime 1 200).instant - sampleCache.ttl ≤ e.2.lastSeen.instant :=
  have h := Get_sweeps_expired 2 1000000000 [("b", sampleTime 0 0), ("a", sampleTime 0 500)] "b"
    (sampleTime 1 200)
  ⟨by decide, (h.2.2 { lim := 0, lastSeen := sampleTime 0 0 } (by decide) (by decide)).1, h.1⟩

/-- C14, amended: on a cache made by `NewCache` and used through `Get`, a call
`Get(ip, now)` on a key whose entry has not expired returns the stored limiter and
sets its `last_seen` to `now`; every other key keeps its entry if it has not expired
and loses it if it has. On a key that is absent after the sweep, with the swept
cache at capacity, the call removes one entry, whose `last_seen` is not later than
that of any entry left by the sweep, and stores a new limiter for `ip` with
`last_seen = now`; the other keys keep their unexpired entries and the size is that
of the swept cache. -/
theorem Get_refreshes_or_evicts (cap ttl : Int) (calls : List (String × time.Time))
    (ip : String) (now : time.Time) :
    (∀ e, ((NewCache cap ttl).gets calls).live now ip = some e →
        (((NewCache cap ttl).gets calls).Get ip now).1 = e.lim ∧
          (((NewCache cap ttl).gets calls).Get ip now).2.entries.get? ip =
            some { lim := e.lim, lastSeen := now } ∧
          (∀ k, k ≠ ip → (((NewCache cap ttl).gets calls).Get ip now).2.entries.get? k =
            ((NewCache cap ttl).gets calls).live now k) ∧
          (((NewCache cap ttl).gets calls).Get ip now).2.made =
            ((NewCache cap ttl).gets calls).made) ∧
      (((NewCache cap ttl).gets calls).live now ip = none →
        ((((NewCache cap ttl).gets calls).sweepLocked now).Size : Int) ≥
          ((NewCache cap ttl).gets calls).maxEntries →
        ∃ k0 e0, ((NewCache cap ttl).gets calls).live now k0 = some e0 ∧
          (∀ k e, ((NewCache cap ttl).gets calls).live now k = some e →
            e0.lastSeen.instant ≤ e.lastSeen.instant) ∧
          (((NewCache cap ttl).gets calls).Get ip now).1 = ((NewCache cap ttl).gets calls).made ∧
          (∀ e1 ∈ ((NewCache cap ttl).gets calls).entries,
            e1.2.lim ≠ ((NewCache cap ttl).gets calls).made) ∧
          (((NewCache cap ttl).gets calls).Get ip now).2.entries.get? ip =
            some { lim := ((NewCache cap ttl).gets calls).made, lastSeen := now } ∧
          (((NewCache cap ttl).gets calls).Get ip now).2.entries.get? k0 = none ∧
          (∀ k, k ≠ ip → k ≠ k0 →
            (((NewCache cap ttl).gets calls).Get ip now).2.entries.get? k =
              ((NewCache cap ttl).gets calls).live now k) ∧
          (((NewCache cap ttl).gets calls).Get ip now).2.Size =
            (((NewCache cap ttl).gets calls).sweepLocked now).Size) := by
  have hi := Inv_gets _ (Inv_NewCache cap ttl) calls
  generalize (NewCache cap ttl).gets calls = c at hi
  have hsw := sweep_get? c now hi.distinct
  constructor
  · intro e hl
    have hip : (c.sweepLocked now).entries.get? ip = some e := by rw [hsw, hl]
    rw [Get_found c ip now e hip]
    refine ⟨rfl, GoMap.get?_set_self _ _ _, ?_, rfl⟩
    intro k hk
    show (GoMap.set _ _ _).get? k = _
    rw [GoMap.get?_set_other _ _ _ _ (Ne.symm hk), hsw]
  · intro hl hfull
    have hip : (c.sweepLocked now).entries.get? ip = none := by rw [hsw, hl]
    have hfull1 : (GoMap.len (c.sweepLocked now).entries : Int) ≥ c.maxEntries := hfull
    have hne : (c.sweepLocked now).entries ≠ [] := by
      intro h0
      have hcap := hi.cap
      rw [h0] at hfull1
      simp only [GoMap.len, List.length_nil] at hfull1
      omega
    obtain ⟨e0, he0, hk0, hmin⟩ := oldestLoop_spec _ hne
    have hg0 : (c.sweepLocked now).entries.get? e0.1 = some e0.2 :=
      GoMap.get?_of_mem _ (sweep_distinct c now hi.distinct) _ _ he0
    have hne0 : e0.1 ≠ ip := by
      intro h
      rw [h, hip] at hg0
      cases hg0
    rw [Get_absent c ip now hip, if_pos hfull1, ← hk0]
    refine ⟨e0.1, e0.2, ?_, ?_, rfl, ?_, GoMap.get?_set_self _ _ _, ?_, ?_, ?_⟩
    · rw [← hsw]; exact hg0
    · intro k e hk
      rw [← hsw] at hk
      exact hmin (k, e) (GoMap.mem_of_get? _ _ _ hk)
    · intro e1 he1
      exact Nat.ne_of_lt (hi.lims e1 he1)
    · show (GoMap.set _ _ _).get? e0.1 = none
      rw [GoMap.get?_set_other _ _ _ _ (Ne.symm hne0)]
      exact GoMap.get?_delete_self _ _
    · intro k hk hk1
      show (GoMap.set _ _ _).get? k = _
      rw [GoMap.get?_set_other _ _ _ _ (Ne.symm hk), GoMap.get?_delete_other _ _ _ hk1, hsw]
    · show (GoMap.set _ _ _).length = (c.sweepLocked now).entries.length
      have hnone : (GoMap.delete (c.sweepLocked now).entries e0.1).get? ip = none := by
        rw [GoMap.get?_delete_other _ _ _ (Ne.symm hne0)]; exact hip
      rw [GoMap.length_set, hnone]
      simp only [Option.isNone_none, if_true]
      have h1 := GoMap.length_delete_lt _ _ _ he0
      have h2 : (GoMap.delete (c.sweepLocked now).entries e0.1).length + 1 ≥
          (c.sweepLocked now).entries.length := by
        have := GoMap.length_delete_ge (c.sweepLocked now).entries
          (sweep_distinct c now hi.distinct) e0.1
        omega
      omega

/-- A lookup of `a`, present and unexpired, and one of `c`, absent with the cache at
capacity, in the sample cache. -/
theorem Get_refreshes_or_evicts_witness :
    sampleCache.live (sampleTime 0 600) "a" = some { lim := 1, lastSeen := sampleTime 0 500 } ∧
      (sampleCache.Get "a" (sampleTime 0 600)).1 = 1 ∧
      (sampleCache.Get "a" (sampleTime 0 600)).2.entries.get? "b" =
        sampleCache.live (sampleTime 0 600) "b" ∧
      sampleCache.live (sampleTime 0 600) "c" = none ∧
      (sampleCache.Get "c" (sampleTime 0 600)).2.entries.get? "b" = none :=
  have h := Get_refreshes_or_evicts 2 1000000000
    [("b", sampleTime 0 0), ("a", sampleTime 0 500)] "a" (sampleTime 0 600)
  ⟨by decide, (h.1 { lim := 1, lastSeen := sampleTime 0 500 } (by decide)).1,
    (h.1 { lim := 1, lastSeen := sampleTime 0 500 } (by decide)).2.2.1 "b" (by decide),
    by decide, by decide⟩

/-- The claim C14 fails where another entry has expired: in the sample cache at
1.2 s the entry of `a` has not expired and that of `b` has, and the lookup of `a`
removes the entry of `b`. -/
theorem Get_removes_other_entries :
    sampleCache.live (sampleTime 1 200) "a" = some { lim := 1, lastSeen := sampleTime 0 500 } ∧
      sampleCache.entries.get? "b" = some { lim := 0, lastSeen := sampleTime 0 0 } ∧
      (sampleCache.Get "a" (sampleTime 1 200)).1 = 1 ∧
      (sampleCache.Get "a" (sampleTime 1 200)).2.entries.get? "b" = none := by
  decide

end ratelimit

/-! ## Lemmas: the SMTP session -/

namespace smtp

/-- The two ways in which `Rcpt` ends: with an error and the session as it was, or
with nil and the address appended. -/
theorem Rcpt_cases (env : Env) (b : backend) (s : session) (rcptTo : String) :
    (∃ e m, s.Rcpt env b rcptTo = { err := some e, sess := s, metrics := m } ∧
        ((s.rcpt.length : Int) ≥ b.cfg.MaxRcptCount →
          e = { Code := 452, Message := "too many recipients" } ∧ m = [])) ∨
      (∃ address l d, env.parseAddress rcptTo = some address ∧
        strings.Cut address "@" = (l, d, true) ∧
        strings.ToLower env.uni l ≠ "" ∧ strings.ToLower env.uni d ≠ "" ∧
        b.deps.Resolver (strings.ToLower env.uni d) (strings.ToLower env.uni l) = true ∧
        (s.rcpt.length : Int) < b.cfg.MaxRcptCount ∧
        s.Rcpt env b rcptTo =
          { err := none,
            sess :=
              { s with domain := if s.domain = "" then strings.ToLower env.uni d else s.domain,
                       mailbox := if s.domain = "" then strings.ToLower env.uni l else s.mailbox,
                       rcpt := s.rcpt ++ [strings.ToLower env.uni address] },
            metrics := [] }) := by
  by_cases h1 : (s.rcpt.length : Int) ≥ b.cfg.MaxRcptCount
  · left
    refine ⟨{ Code := 452, Message := "too many recipients" }, [], ?_, fun _ => ⟨rfl, rfl⟩⟩
    simp only [session.Rcpt, h1, if_true]
  · cases h2 : env.parseAddress rcptTo with
    | none =>
      left
      refine ⟨{ Code := 501, Message := "invalid RCPT TO" }, [], ?_, fun h => absurd h h1⟩
      simp only [session.Rcpt, h1, h2, if_false]
    | some address =>
      rcases h3 : strings.Cut address "@" with ⟨l, d, ok⟩
      cases ok
      · left
        refine ⟨{ Code := 501, Message := "invalid RCPT TO" }, [], ?_, fun h => absurd h h1⟩
        simp only [session.Rcpt, h1, h2, h3, if_false]
      · by_cases h4 : strings.ToLower env.uni l = "" ∨ strings.ToLower env.uni d = ""
        · left
          refine ⟨{ Code := 501, Message := "invalid RCPT TO" }, [], ?_, fun h => absurd h h1⟩
          simp only [session.Rcpt, h1, h2, h3, h4, if_false, if_true]
        · cases h5 : b.deps.Resolver (strings.ToLower env.uni d) (strings.ToLower env.uni l)
          · left
            refine ⟨{ Code := 550, Message := "mailbox not found" },
              b.deps.record [MetricsCall.IncRejected "mailbox_not_found"], ?_,
              fun h => absurd h h1⟩
            simp only [session.Rcpt, h1, h2, h3, h4, h5, if_false, if_true, Bool.false_eq_true,
              not_false_eq_true]
          · right
            refine ⟨address, l, d, rfl, h3, fun h => h4 (Or.inl h), fun h => h4 (Or.inr h), h5,
              by omega, ?_⟩
            simp only [session.Rcpt, h1, h2, h3, h4, h5, if_false, not_true_eq_false]

theorem Rcpt_rejected (env : Env) (b : backend) (s : session) (rcptTo : String)
    (h : (s.Rcpt env b rcptTo).err ≠ none) : (s.Rcpt env b rcptTo).sess = s := by
  rcases Rcpt_cases env b s rcptTo with ⟨e, m, h1, _⟩ | ⟨address, l, d, _, _, _, _, _, _, h1⟩
  · rw [h1]
  · rw [h1] at h
    exact absurd rfl h

/-- A command other than `Reset` keeps the pair of domain and mailbox once it is
set. -/
theorem step_pinned (env : Env) (b : backend) (s : session) (c : Command)
    (hd : s.domain ≠ "") (hc : c ≠ Command.reset) :
    (s.step env b c).domain = s.domain ∧ (s.step env b c).mailbox = s.mailbox := by
  cases c with
  | reset => exact absurd rfl hc
  | mail sender =>
    show (s.Mail env sender).sess.domain = _ ∧ (s.Mail env sender).sess.mailbox = _
    unfold session.Mail
    split <;> exact ⟨rfl, rfl⟩
  | rcpt rcptTo =>
    show (s.Rcpt env b rcptTo).sess.domain = _ ∧ (s.Rcpt env b rcptTo).sess.mailbox = _
    rcases Rcpt_cases env b s rcptTo with ⟨e, m, h1, _⟩ | ⟨address, l, d, _, _, _, _, _, _, h1⟩
    · rw [h1]; exact ⟨rfl, rfl⟩
    · rw [h1]
      simp only [hd, if_false]
      exact ⟨trivial, trivial⟩

theorem run_pinned (env : Env) (b : backend) (s : session) (cmds : List Command)
    (hd : s.domain ≠ "") (hc : ∀ c ∈ cmds, c ≠ Command.reset) :
    (s.run env b cmds).domain = s.domain ∧ (s.run env b cmds).mailbox = s.mailbox := by
  induction cmds generalizing s with
  | nil => exact ⟨rfl, rfl⟩
  | cons c rest ih =>
    have h1 := step_pinned env b s c hd (hc c (List.mem_cons_self _ _))
    have h2 := ih (s.step env b c) (by rw [h1.1]; exact hd)
      (fun c1 hc1 => hc c1 (List.mem_cons_of_mem _ hc1))
    exact ⟨h2.1.trans h1.1, h2.2.trans h1.2⟩

theorem Mail_rcpt (env : Env) (s : session) (sender : String) :
    (s.Mail env sender).sess.rcpt = s.rcpt ∧ (s.Mail env sender).sess.domain = s.domain ∧
      (s.Mail env sender).sess.mailbox = s.mailbox := by
  unfold session.Mail
  split <;> exact ⟨rfl, rfl, rfl⟩

theorem step_count_le (env : Env) (b : backend) (s : session) (c : Command)
    (h0 : 0 ≤ b.cfg.MaxRcptCount) (h : (s.rcpt.length : Int) ≤ b.cfg.MaxRcptCount) :
    ((s.step env b c).rcpt.length : Int) ≤ b.cfg.MaxRcptCount := by
  cases c with
  | reset => exact h0
  | mail sender =>
    show ((s.Mail env sender).sess.rcpt.length : Int) ≤ _
    rw [(Mail_rcpt env s sender).1]
    exact h
  | rcpt rcptTo =>
    show ((s.Rcpt env b rcptTo).sess.rcpt.length : Int) ≤ _
    rcases Rcpt_cases env b s rcptTo with ⟨e, m, h1, _⟩ | ⟨address, l, d, _, _, _, _, _, h2, h1⟩
    · rw [h1]; exact h
    · rw [h1]
      simp only [List.length_append, List.length_singleton, Nat.cast_add, Nat.cast_one]
      omega

theorem run_count_le (env : Env) (b : backend) (s : session) (cmds : List Command)
    (h0 : 0 ≤ b.cfg.MaxRcptCount) (h : (s.rcpt.length : Int) ≤ b.cfg.MaxRcptCount) :
    ((s.run env b cmds).rcpt.length : Int) ≤ b.cfg.MaxRcptCount := by
  induction cmds generalizing s with
  | nil => exact h
  | cons c rest ih => exact ih _ (step_count_le env b s c h0 h)

theorem run_counts (env : Env) (b : backend) (s : session) (cmds : List Command) (n : Nat)
    (h : s.Counts n) : (s.run env b cmds).Counts (s.accepted env b cmds n) := by
  induction cmds generalizing s n with
  | nil => exact h
  | cons c rest ih =>
    cases c with
    | reset =>
      exact ih s.Reset 0 ⟨rfl, fun _ => ⟨rfl, rfl⟩, fun h1 => absurd rfl h1⟩
    | mail sender =>
      apply ih (s.Mail env sender).sess n
      obtain ⟨h1, h2, h3⟩ := Mail_rcpt env s sender
      unfold session.Counts
      rw [h1, h2, h3]
      exact h
    | rcpt rcptTo =>
      apply ih (s.Rcpt env b rcptTo).sess
      rcases Rcpt_cases env b s rcptTo with ⟨e, m, h1, _⟩ | ⟨address, l, d, _, _, hl, hd, _, _, h1⟩
      · rw [h1]
        simp only [reduceCtorEq, if_false]
        exact h
      · rw [h1]
        simp only [if_true]
        obtain ⟨c1, c2, c3⟩ := h
        refine ⟨by simp [c1], fun h2 => absurd h2 (by simp), fun _ => ?_⟩
        by_cases hdom : s.domain = ""
        · simp only [hdom, if_true]
          exact ⟨hd, hl⟩
        · simp only [hdom, if_false]
          have hne : s.rcpt ≠ [] := fun h3 => hdom (c2 h3).1
          exact c3 hne

theorem fresh_counts (b : backend) (ip : String) : (b.fresh ip).Counts 0 :=
  ⟨rfl, fun _ => ⟨rfl, rfl⟩, fun h => absurd rfl h⟩

end smtp

namespace smtp

theorem run_append (env : Env) (b : backend) (s : session) (c1 c2 : List Command) :
    s.run env b (c1 ++ c2) = (s.run env b c1).run env b c2 := by
  induction c1 generalizing s with
  | nil => rfl
  | cons c rest ih => exact ih _

theorem run_rejected (env : Env) (b : backend) (s : session) (rejected : List String)
    (h : ∀ r ∈ rejected, (s.Rcpt env b r).err ≠ none) :
    s.run env b (rejected.map Command.rcpt) = s := by
  induction rejected with
  | nil => rfl
  | cons r rest ih =>
    show ((s.Rcpt env b r).sess).run env b (rest.map Command.rcpt) = s
    rw [Rcpt_rejected env b s r (h r (List.mem_cons_self _ _))]
    exact ih (fun r1 hr1 => h r1 (List.mem_cons_of_mem _ hr1))

theorem Data_no_rcpt (b : backend) (s : session) (denv : DataEnv) (r : io.Reader)
    (h : s.domain = "" ∨ s.mailbox = "") :
    (s.Data b denv r).reply = Reply.error { Code := 503, Message := "need RCPT TO first" } ∧
      (s.Data b denv r).metrics = [] ∧ (s.Data b denv r).request = none ∧
      (s.Data b denv r).run = none ∧ (s.Data b denv r).event = none := by
  unfold session.Data
  simp only [h, if_true, and_self]

/-- With a recipient pinned and the trace identifier made, `Data` calls `Store` and
answers by how it returns. -/
theorem Data_stores (b : backend) (s : session) (denv : DataEnv) (r : io.Reader)
    (traceID : String) (hd : s.domain ≠ "") (hm : s.mailbox ≠ "")
    (ht : spool.NewULID denv.traceEntropy denv.nowTrace = some traceID) :
    (s.Data b denv r).request = some (s.storeRequest b denv traceID) ∧
      (s.Data b denv r).run =
        some (b.deps.Spool.Store denv.store denv.files (s.storeRequest b denv traceID) r) ∧
      ((b.deps.Spool.Store denv.store denv.files (s.storeRequest b denv traceID) r).ret =
          spool.Return.error spool.StoreError.ErrTooLarge →
        (s.Data b denv r).reply = Reply.error { Code := 552, Message := "message too large" } ∧
          (s.Data b denv r).metrics = b.deps.record [MetricsCall.IncRejected "too_large"]) ∧
      (∀ e, (b.deps.Spool.Store denv.store denv.files (s.storeRequest b denv traceID) r).ret =
          spool.Return.error e → e ≠ spool.StoreError.ErrTooLarge →
        (s.Data b denv r).reply = Reply.error { Code := 451, Message := "temporary failure" } ∧
          (s.Data b denv r).metrics = b.deps.record [MetricsCall.IncSpoolError]) ∧
      (∀ res, (b.deps.Spool.Store denv.store denv.files (s.storeRequest b denv traceID) r).ret =
          spool.Return.ok res →
        (s.Data b denv r).reply = Reply.ok ∧
          (s.Data b denv r).metrics = b.deps.record [MetricsCall.IncAccepted res.Bytes]) := by
  have hg : ¬ (s.domain = "" ∨ s.mailbox = "") := by
    rintro (h | h)
    · exact hd h
    · exact hm h
  unfold session.Data
  simp only [hg, if_false, ht, session.storeRequest]
  split
  · next heq =>
    refine ⟨rfl, rfl, fun _ => ⟨rfl, rfl⟩, ?_, ?_⟩
    · intro e he hne
      rw [heq] at he
      cases he
      exact absurd rfl hne
    · intro res he
      rw [heq] at he
      cases he
  · next e0 hne0 heq =>
    refine ⟨rfl, rfl, ?_, fun _ _ _ => ⟨rfl, rfl⟩, ?_⟩
    · intro he
      rw [heq] at he
      cases he
      exact absurd rfl (hne0)
    · intro res he
      rw [heq] at he
      cases he
  · next res0 heq =>
    refine ⟨rfl, rfl, ?_, ?_, ?_⟩
    · intro he
      rw [heq] at he
      cases he
    · intro e he
      rw [heq] at he
      cases he
    · intro res he
      rw [heq] at he
      cases he
      exact ⟨rfl, rfl⟩
  · next h1 h2 h3 =>
    refine ⟨rfl, rfl, ?_, ?_, ?_⟩
    · intro he
      exact absurd he (h1)
    · intro e he _
      exact absurd he (h2 e)
    · intro res he
      exact absurd he (h3 res)

theorem Data_503 (b : backend) (s : session) (denv : DataEnv) (r : io.Reader) :
    (∃ m, (s.Data b denv r).reply = Reply.error { Code := 503, Message := m }) ↔
      (s.domain = "" ∨ s.mailbox = "") := by
  constructor
  · rintro ⟨m, h⟩
    by_contra hg
    unfold session.Data at h
    simp only [hg, if_false] at h
    split at h
    · cases h
    · split at h <;> cases h
  · intro h
    exact ⟨_, (Data_no_rcpt b s denv r h).1⟩

end smtp

/-! ## The SMTP session -/

namespace smtp

/-- C15: a reset clears domain, mailbox and recipient list. A call of `Rcpt` that is
rejected leaves the session, and so the recipient list, unchanged; one that is
accepted appends exactly the lower-cased address to the recipient list, sets domain
and mailbox (to the lower-cased parts of the address around its first `@`) when none
is set, and leaves them unchanged when one is. So in every sequence of `Rcpt` calls
from a session without a pinned pair, domain and mailbox at the end are those set
by the first accepted call, whatever calls follow it. -/
theorem Rcpt_pins_first_accepted (env : Env) (b : backend) (s : session) :
    (s.Reset.domain = "" ∧ s.Reset.mailbox = "" ∧ s.Reset.rcpt = []) ∧
      (∀ rcptTo, (s.Rcpt env b rcptTo).err ≠ none → (s.Rcpt env b rcptTo).sess = s) ∧
      (∀ rcptTo, (s.Rcpt env b rcptTo).err = none →
        ∃ address l d, env.parseAddress rcptTo = some address ∧
          strings.Cut address "@" = (l, d, true) ∧
          (s.Rcpt env b rcptTo).sess.rcpt = s.rcpt ++ [strings.ToLower env.uni address] ∧
          (s.Rcpt env b rcptTo).sess.domain ≠ "" ∧
          (s.domain = "" →
            (s.Rcpt env b rcptTo).sess.domain = strings.ToLower env.uni d ∧
              (s.Rcpt env b rcptTo).sess.mailbox = strings.ToLower env.uni l) ∧
          (s.domain ≠ "" →
            (s.Rcpt env b rcptTo).sess.domain = s.domain ∧
              (s.Rcpt env b rcptTo).sess.mailbox = s.mailbox)) ∧
      (∀ (rejected : List String) (first : String) (later : List String), s.domain = "" →
        (∀ r ∈ rejected, (s.Rcpt env b r).err ≠ none) → (s.Rcpt env b first).err = none →
        (s.run env b ((rejected ++ first :: later).map Command.rcpt)).domain =
            (s.Rcpt env b first).sess.domain ∧
          (s.run env b ((rejected ++ first :: later).map Command.rcpt)).mailbox =
            (s.Rcpt env b first).sess.mailbox) := by
  have hacc : ∀ (s : session) rcptTo, (s.Rcpt env b rcptTo).err = none →
      ∃ address l d, env.parseAddress rcptTo = some address ∧
        strings.Cut address "@" = (l, d, true) ∧
        (s.Rcpt env b rcptTo).sess.rcpt = s.rcpt ++ [strings.ToLower env.uni address] ∧
        (s.Rcpt env b rcptTo).sess.domain ≠ "" ∧
        (s.domain = "" →
          (s.Rcpt env b rcptTo).sess.domain = strings.ToLower env.uni d ∧
            (s.Rcpt env b rcptTo).sess.mailbox = strings.ToLower env.uni l) ∧
        (s.domain ≠ "" →
          (s.Rcpt env b rcptTo).sess.domain = s.domain ∧
            (s.Rcpt env b rcptTo).sess.mailbox = s.mailbox) := by
    intro s rcptTo h
    rcases Rcpt_cases env b s rcptTo with ⟨e, m, h1, _⟩ | ⟨address, l, d, p1, p2, _, p4, _, _, h1⟩
    · rw [h1] at h
      cases h
    · refine ⟨address, l, d, p1, p2, ?_, ?_, ?_, ?_⟩
      · rw [h1]
      · rw [h1]
        by_cases hdom : s.domain = ""
        · simp only [hdom, if_true]
          exact p4
        · simp only [hdom, if_false]
          exact hdom
      · intro hdom
        rw [h1]
        simp only [hdom, if_true, and_self]
      · intro hdom
        rw [h1]
        simp only [hdom, if_false, and_self]
  refine ⟨⟨rfl, rfl, rfl⟩, fun rcptTo h => Rcpt_rejected env b s rcptTo h, hacc s, ?_⟩
  intro rejected first later _ hrej hfirst
  have hsplit : (rejected ++ first :: later).map Command.rcpt =
      rejected.map Command.rcpt ++ (Command.rcpt first :: later.map Command.rcpt) := by
    simp
  rw [hsplit, run_append, run_rejected env b s rejected hrej]
  show ((s.Rcpt env b first).sess.run env b (later.map Command.rcpt)).domain = _ ∧
    ((s.Rcpt env b first).sess.run env b (later.map Command.rcpt)).mailbox = _
  obtain ⟨_, _, _, _, _, _, hne, _, _⟩ := hacc s first hfirst
  apply run_pinned env b _ _ hne
  intro c hc
  obtain ⟨r, _, rfl⟩ := List.mem_map.mp hc
  exact fun h => Command.noConfusion h

/-- After a rejected address, the tagged address pins the pair and the one after it
does not change it. -/
theorem Rcpt_pins_first_accepted_witness :
    (((sampleBackend 50 false).fresh "1.2.3.4").run sampleEnv (sampleBackend 50 false)
        ((["nobody@example.com"] ++ "Inbound+123@Example.com" :: ["inbound@example.com"]).map
          Command.rcpt)).domain = "example.com" ∧
      (((sampleBackend 50 false).fresh "1.2.3.4").run sampleEnv (sampleBackend 50 false)
        ((["nobody@example.com"] ++ "Inbound+123@Example.com" :: ["inbound@example.com"]).map
          Command.rcpt)).rcpt = ["inbound+123@example.com", "inbound@example.com"] :=
  ⟨((Rcpt_pins_first_accepted sampleEnv (sampleBackend 50 false)
      ((sampleBackend 50 false).fresh "1.2.3.4")).2.2.2 ["nobody@example.com"]
      "Inbound+123@Example.com" ["inbound@example.com"] rfl (by decide) (by decide)).1.trans
      (by decide),
    by decide⟩

/-- C16, amended: when a call of `Rcpt` is accepted on a session without a pinned
pair, the pinned domain and mailbox are the lower-cased parts of the address
before and after its first `@`, the mailbox with its tag; the lower-cased address is
appended to the recipient list; the resolver allowed this pair; and, once the trace
identifier is made, `Data` hands `Store` a request with this domain, mailbox and
recipient list. Where the resolver is an allowlist, the pinned mailbox, or with
`plus_tag` its part before the first `+`, is a member of the mailbox set of the
normalised pinned domain. -/
theorem Rcpt_pins_local_part (env : Env) (b : backend) (s : session) (rcptTo : String)
    (denv : DataEnv) (r : io.Reader) (traceID : String)
    (hs : s.domain = "") (hacc : (s.Rcpt env b rcptTo).err = none)
    (ht : spool.NewULID denv.traceEntropy denv.nowTrace = some traceID) :
    ∃ address l d, env.parseAddress rcptTo = some address ∧
      strings.Cut address "@" = (l, d, true) ∧
      (s.Rcpt env b rcptTo).sess.domain = strings.ToLower env.uni d ∧
      (s.Rcpt env b rcptTo).sess.mailbox = strings.ToLower env.uni l ∧
      (s.Rcpt env b rcptTo).sess.rcpt = s.rcpt ++ [strings.ToLower env.uni address] ∧
      b.deps.Resolver (strings.ToLower env.uni d) (strings.ToLower env.uni l) = true ∧
      (∃ q, ((s.Rcpt env b rcptTo).sess.Data b denv r).request = some q ∧
        q.Domain = strings.ToLower env.uni d ∧ q.Mailbox = strings.ToLower env.uni l ∧
        q.RcptTo = s.rcpt ++ [strings.ToLower env.uni address]) ∧
      (∀ (uni : Char → Char) (res : resolver.allowlistResolver),
        b.deps.Resolver = res.Allowed uni →
        ∃ cfg, res.domains.get? (resolver.normDomain uni (strings.ToLower env.uni d)) = some cfg ∧
          ((cfg.set.get? (strings.ToLower env.uni l)).isSome = true ∨
            (cfg.plusTag = true ∧
              ∃ base tag, strings.Cut (strings.ToLower env.uni l) "+" = (base, tag, true) ∧
                (cfg.set.get? base).isSome = true))) := by
  rcases Rcpt_cases env b s rcptTo with ⟨e, m, h1, _⟩ | ⟨address, l, d, p1, p2, p3, p4, p5, _, h1⟩
  · rw [h1] at hacc
    cases hacc
  · refine ⟨address, l, d, p1, p2, ?_, ?_, ?_, p5, ?_, ?_⟩
    · rw [h1]; simp only [hs, if_true]
    · rw [h1]; simp only [hs, if_true]
    · rw [h1]
    · rw [h1]
      simp only [hs, if_true]
      refine ⟨_, (Data_stores b _ denv r traceID p4 p3 ht).1, rfl, rfl, rfl⟩
    · intro uni res hres
      rw [hres, resolver.Allowed_eq] at p5
      cases hg : res.domains.get? (resolver.normDomain uni (strings.ToLower env.uni d)) with
      | none =>
        rw [hg] at p5
        cases p5
      | some cfg =>
        rw [hg] at p5
        refine ⟨cfg, rfl, ?_⟩
        by_cases hmem : (cfg.set.get? (strings.ToLower env.uni l)).isSome = true
        · exact Or.inl hmem
        · right
          simp only [hmem, if_false] at p5
          cases hp : cfg.plusTag
          · simp [hp] at p5
          · simp only [hp, if_true] at p5
            rcases hc : strings.Cut (strings.ToLower env.uni l) "+" with ⟨base, tag, ok⟩
            rw [hc] at p5
            cases ok
            · cases p5
            · exact ⟨rfl, base, tag, rfl, p5⟩

/-- The tagged address of `TestSMTPD_AcceptsAndSpools`, on a new session. -/
theorem Rcpt_pins_local_part_witness :
    ∃ address l d, sampleEnv.parseAddress "inbound+123@example.com" = some address ∧
      strings.Cut address "@" = (l, d, true) ∧
      (((sampleBackend 50 false).fresh "1.2.3.4").Rcpt sampleEnv (sampleBackend 50 false)
        "inbound+123@example.com").sess.domain = strings.ToLower sampleEnv.uni d ∧
      (((sampleBackend 50 false).fresh "1.2.3.4").Rcpt sampleEnv (sampleBackend 50 false)
        "inbound+123@example.com").sess.mailbox = strings.ToLower sampleEnv.uni l ∧
      (((sampleBackend 50 false).fresh "1.2.3.4").Rcpt sampleEnv (sampleBackend 50 false)
        "inbound+123@example.com").sess.rcpt =
          ((sampleBackend 50 false).fresh "1.2.3.4").rcpt ++
            [strings.ToLower sampleEnv.uni address] ∧
      (sampleBackend 50 false).deps.Resolver (strings.ToLower sampleEnv.uni d)
        (strings.ToLower sampleEnv.uni l) = true ∧
      (∃ q, ((((sampleBackend 50 false).fresh "1.2.3.4").Rcpt sampleEnv (sampleBackend 50 false)
          "inbound+123@example.com").sess.Data (sampleBackend 50 false) sampleDataEnv
          spool.sampleReader).request = some q ∧
        q.Domain = strings.ToLower sampleEnv.uni d ∧ q.Mailbox = strings.ToLower sampleEnv.uni l ∧
        q.RcptTo = ((sampleBackend 50 false).fresh "1.2.3.4").rcpt ++
          [strings.ToLower sampleEnv.uni address]) ∧
      (∀ (uni : Char → Char) (res : resolver.allowlistResolver),
        (sampleBackend 50 false).deps.Resolver = res.Allowed uni →
        ∃ cfg, res.domains.get?
            (resolver.normDomain uni (strings.ToLower sampleEnv.uni d)) = some cfg ∧
          ((cfg.set.get? (strings.ToLower sampleEnv.uni l)).isSome = true ∨
            (cfg.plusTag = true ∧
              ∃ base tag, strings.Cut (strings.ToLower sampleEnv.uni l) "+" = (base, tag, true) ∧
                (cfg.set.get? base).isSome = true))) :=
  Rcpt_pins_local_part sampleEnv (sampleBackend 50 false) ((sampleBackend 50 false).fresh "1.2.3.4")
    "inbound+123@example.com" sampleDataEnv spool.sampleReader "01KHCQ4Y000000000000000007"
    rfl (by decide) (by decide)

/-- The claim C16 fails at its own example: against the snapshot with mailboxes
`[inbound]` and `plus_tag` set, `RCPT TO:<inbound+123@example.com>` on a new session
is accepted and pins the mailbox `inbound+123`, which is not `inbound` and not a
member of the mailbox set of `example.com`; `Data` hands `Store` a request with this
mailbox. -/
theorem Rcpt_pins_tagged_mailbox :
    ((sampleBackend 50 false).fresh "1.2.3.4").Rcpt sampleEnv (sampleBackend 50 false)
        "inbound+123@example.com" =
      { err := none,
        sess := { remoteIP := "1.2.3.4", mailFrom := "", rcpt := ["inbound+123@example.com"],
                  domain := "example.com", mailbox := "inbound+123", onClose := false },
        metrics := [] } ∧
      ("inbound+123" : String) ≠ "inbound" ∧
      ((resolver.built strings.asciiOnly resolver.sampleSnapshot).domains.get? "example.com").map
        (fun a => (a.plusTag, a.set)) = some (true, [("inbound", ())]) ∧
      ((((sampleBackend 50 false).fresh "1.2.3.4").Rcpt sampleEnv (sampleBackend 50 false)
        "inbound+123@example.com").sess.Data (sampleBackend 50 false) sampleDataEnv
        spool.sampleReader).request.map (fun q => (q.Domain, q.Mailbox, q.RcptTo)) =
        some ("example.com", "inbound+123", ["inbound+123@example.com"]) := by
  decide

/-- C17: for every `MaxRcptCount ≥ 0` and every sequence of `Mail`, `Rcpt` and
`Reset` calls on a new session, the recipient list holds at most `MaxRcptCount`
addresses, and a call of `Rcpt` when it holds `MaxRcptCount` is rejected with code 452
and leaves the session unchanged. -/
theorem Rcpt_count_bounded (env : Env) (b : backend) (h : 0 ≤ b.cfg.MaxRcptCount) (ip : String)
    (cmds : List Command) :
    (((b.fresh ip).run env b cmds).rcpt.length : Int) ≤ b.cfg.MaxRcptCount ∧
      ∀ rcptTo, (((b.fresh ip).run env b cmds).rcpt.length : Int) = b.cfg.MaxRcptCount →
        ((b.fresh ip).run env b cmds).Rcpt env b rcptTo =
          { err := some { Code := 452, Message := "too many recipients" },
            sess := (b.fresh ip).run env b cmds, metrics := [] } := by
  refine ⟨run_count_le env b _ cmds h h, ?_⟩
  intro rcptTo hfull
  rcases Rcpt_cases env b ((b.fresh ip).run env b cmds) rcptTo with
    ⟨e, m, h1, h2⟩ | ⟨_, _, _, _, _, _, _, _, hlt, _⟩
  · obtain ⟨rfl, rfl⟩ := h2 (by omega)
    exact h1
  · omega

/-- With two recipients allowed and two accepted, the third is refused. -/
theorem Rcpt_count_bounded_witness :
    (0 : Int) ≤ (sampleBackend 50 true).cfg.MaxRcptCount ∧
      ((((sampleBackend 50 true).fresh "1.2.3.4").run sampleEnv (sampleBackend 50 true)
        [Command.mail "a@example.net", Command.rcpt "inbound@example.com",
          Command.rcpt "inbound+1@example.com", Command.rcpt "inbound+2@example.com"]).rcpt.length :
            Int) ≤ (sampleBackend 50 true).cfg.MaxRcptCount :=
  ⟨by decide,
    (Rcpt_count_bounded sampleEnv (sampleBackend 50 true) (by decide) "1.2.3.4"
      [Command.mail "a@example.net", Command.rcpt "inbound@example.com",
        Command.rcpt "inbound+1@example.com", Command.rcpt "inbound+2@example.com"]).1⟩

/-- C18: after every sequence of `Mail`, `Rcpt` and `Reset` calls on a new session,
domain and mailbox are non-empty exactly when the recipient list is non-empty, the
list holds as many addresses as calls of `Rcpt` were accepted since the session was
opened or last reset, and `Data` returns code 503 if and only if that number is
zero, in which case it does not call `Store`. -/
theorem Data_needs_recipient (env : Env) (b : backend) (ip : String) (cmds : List Command)
    (denv : DataEnv) (r : io.Reader) :
    ((((b.fresh ip).run env b cmds).domain ≠ "" ∧ ((b.fresh ip).run env b cmds).mailbox ≠ "") ↔
        ((b.fresh ip).run env b cmds).rcpt ≠ []) ∧
      ((b.fresh ip).run env b cmds).rcpt.length = (b.fresh ip).accepted env b cmds 0 ∧
      ((∃ m, (((b.fresh ip).run env b cmds).Data b denv r).reply =
          Reply.error { Code := 503, Message := m }) ↔
        (b.fresh ip).accepted env b cmds 0 = 0) ∧
      ((b.fresh ip).accepted env b cmds 0 = 0 →
        (((b.fresh ip).run env b cmds).Data b denv r).run = none ∧
          (((b.fresh ip).run env b cmds).Data b denv r).request = none) := by
  obtain ⟨c1, c2, c3⟩ := run_counts env b (b.fresh ip) cmds 0 (fresh_counts b ip)
  have hzero : (b.fresh ip).accepted env b cmds 0 = 0 ↔
      (((b.fresh ip).run env b cmds).domain = "" ∨ ((b.fresh ip).run env b cmds).mailbox = "") := by
    rw [← c1, List.length_eq_zero]
    constructor
    · intro h
      exact Or.inl (c2 h).1
    · intro h
      by_contra hne
      rcases h with h | h
      · exact (c3 hne).1 h
      · exact (c3 hne).2 h
  refine ⟨⟨?_, c3⟩, c1, ?_, ?_⟩
  · intro h hnil
    exact h.1 (c2 hnil).1
  · rw [Data_503, hzero]
  · intro h
    have h1 := Data_no_rcpt b _ denv r (hzero.mp h)
    exact ⟨h1.2.2.2.1, h1.2.2.1⟩

/-- C19, amended: when `Data` has a pinned recipient and its trace identifier, it
calls `Store` and: if `Store` fails with `ErrTooLarge`, `Data` returns code 552 and,
when a metrics sink is set, calls `IncRejected("too_large")` once and nothing else
on it; if `Store` fails with another error, `Data` returns code 451 and, when a
metrics sink is set, calls `IncSpoolError` once and nothing else; if `Store`
succeeds, `Data` returns nil and, when a metrics sink is set, calls `IncAccepted`
once with the stored byte count and nothing else. When no metrics sink is set, no
call is made on it. -/
theorem Data_maps_outcome (b : backend) (s : session) (denv : DataEnv) (r : io.Reader)
    (traceID : String) (hd : s.domain ≠ "") (hm : s.mailbox ≠ "")
    (ht : spool.NewULID denv.traceEntropy denv.nowTrace = some traceID) :
    (s.Data b denv r).run =
        some (b.deps.Spool.Store denv.store denv.files (s.storeRequest b denv traceID) r) ∧
      ((b.deps.Spool.Store denv.store denv.files (s.storeRequest b denv traceID) r).ret =
          spool.Return.error spool.StoreError.ErrTooLarge →
        (s.Data b denv r).reply = Reply.error { Code := 552, Message := "message too large" } ∧
          (s.Data b denv r).metrics =
            if b.deps.Metrics then [MetricsCall.IncRejected "too_large"] else []) ∧
      (∀ e, (b.deps.Spool.Store denv.store denv.files (s.storeRequest b denv traceID) r).ret =
          spool.Return.error e → e ≠ spool.StoreError.ErrTooLarge →
        (s.Data b denv r).reply = Reply.error { Code := 451, Message := "temporary failure" } ∧
          (s.Data b denv r).metrics =
            if b.deps.Metrics then [MetricsCall.IncSpoolError] else []) ∧
      (∀ res, (b.deps.Spool.Store denv.store denv.files (s.storeRequest b denv traceID) r).ret =
          spool.Return.ok res →
        (s.Data b denv r).reply = Reply.ok ∧
          (s.Data b denv r).metrics =
            if b.deps.Metrics then [MetricsCall.IncAccepted res.Bytes] else []) := by
  obtain ⟨_, h2, h3, h4, h5⟩ := Data_stores b s denv r traceID hd hm ht
  exact ⟨h2, h3, h4, h5⟩

/-- A body of six bytes under a limit of five, with a metrics sink: code 552 and one
call of `IncRejected("too_large")`. -/
theorem Data_maps_outcome_witness :
    ((sampleSession true).Data (sampleBackend 5 true) sampleDataEnv spool.sampleReader).reply =
        Reply.error { Code := 552, Message := "message too large" } ∧
      ((sampleSession true).Data (sampleBackend 5 true) sampleDataEnv spool.sampleReader).metrics =
        [MetricsCall.IncRejected "too_large"] :=
  (Data_maps_outcome (sampleBackend 5 true) (sampleSession true) sampleDataEnv spool.sampleReader
    "01KHCQ4Y000000000000000007" (by decide) (by decide) (by decide)).2.1 (by decide)

/-- The claim C19 fails where no metrics sink is set, as in
`TestSMTPD_AcceptsAndSpools`: `Store` fails with `ErrTooLarge`, `Data` returns code
552, and no counter is incremented. -/
theorem Data_counts_nothing_without_sink :
    (sampleBackend 5 false).deps.Metrics = false ∧
      (((sampleSession false).Data (sampleBackend 5 false) sampleDataEnv spool.sampleReader).run.map
        (fun x => x.ret)) = some (spool.Return.error spool.StoreError.ErrTooLarge) ∧
      ((sampleSession false).Data (sampleBackend 5 false) sampleDataEnv spool.sampleReader).reply =
        Reply.error { Code := 552, Message := "message too large" } ∧
      ((sampleSession false).Data (sampleBackend 5 false) sampleDataEnv spool.sampleReader).metrics =
        [] := by
  decide

/-- C20: with a metrics sink set, a session refused by the rate limiter gets code
421 and a recipient beyond `MaxRcptCount` gets code 452, and in neither case is a
call made on the sink, whereas the recipient refused by the resolver (550) and the
message refused as too large (552) are counted by `IncRejected` with their
reasons. -/
theorem Rejections_not_all_counted :
    (match (sampleBackend 5 true).NewSession (ratelimit.NewCache 2 1000000000) "1.2.3.4"
        (ratelimit.sampleTime 0 0) false with
      | (.error e, _, calls) => e = { Code := 421, Message := "rate limited" } ∧ calls = []
      | (.ok _, _, _) => False) ∧
      ((sampleSession true).run sampleEnv (sampleBackend 5 true)
        [Command.rcpt "inbound+1@example.com"]).rcpt.length = 2 ∧
      ((sampleSession true).run sampleEnv (sampleBackend 5 true)
          [Command.rcpt "inbound+1@example.com"]).Rcpt sampleEnv (sampleBackend 5 true)
          "inbound+2@example.com" =
        { err := some { Code := 452, Message := "too many recipients" },
          sess := (sampleSession true).run sampleEnv (sampleBackend 5 true)
            [Command.rcpt "inbound+1@example.com"],
          metrics := [] } ∧
      (sampleSession true).Rcpt sampleEnv (sampleBackend 5 true) "nobody@example.com" =
        { err := some { Code := 550, Message := "mailbox not found" },
          sess := sampleSession true,
          metrics := [MetricsCall.IncRejected "mailbox_not_found"] } ∧
      ((sampleSession true).Data (sampleBackend 5 true) sampleDataEnv spool.sampleReader).reply =
        Reply.error { Code := 552, Message := "message too large" } ∧
      ((sampleSession true).Data (sampleBackend 5 true) sampleDataEnv spool.sampleReader).metrics =
        [MetricsCall.IncRejected "too_large"] := by
  refine ⟨?_, ?_, ?_, ?_, ?_, ?_⟩
  · exact ⟨rfl, rfl⟩
  · decide
  · decide
  · decide
  · decide
  · decide

end smtp

/-! ## Lemmas: a run of `FS.Store` that succeeds -/

namespace spool

/-- What a successful return of the part of `FS.Store` after the copy tells. -/
theorem storeFinish_ok_inv (env : Env) (req : StoreRequest) (ts : time.Time)
    (id tmp eml metaTmp meta : String) (c : Copied) (res : StoreResult)
    (h2 : meta ≠ metaTmp) (h4 : eml ≠ metaTmp) (h5 : tmp ≠ metaTmp)
    (h : (storeFinish env req ts id tmp eml metaTmp meta c).ret = Return.ok res) :
    res.ID = id ∧ res.TraceID = (if req.TraceID = "" then id else req.TraceID) ∧
      res.EMLPath = eml ∧ res.MetaPath = meta ∧ res.Bytes = c.written ∧
      res.SHA256 = hex.EncodeToString (env.sha256 c.hashed) ∧
      (storeFinish env req ts id tmp eml metaTmp meta c).world.files meta =
        some (os.File.json
          { id := id, trace_id := if req.TraceID = "" then id else req.TraceID,
            received_at := ts.UTC.formatRFC3339Nano,
            remote_ip := req.RemoteIP, mail_from := req.MailFrom,
            rcpt_to := req.RcptTo, domain := req.Domain, mailbox := req.Mailbox,
            bytes := c.written, sha256 := hex.EncodeToString (env.sha256 c.hashed) }) := by
  unfold storeFinish at h ⊢
  rcases hfl : c.bw.Flush c.w env.faults with ⟨w2, b2, failed⟩
  rw [hfl] at h
  cases failed with
  | true => cases h
  | false =>
    simp only at h ⊢
    cases hsync : env.faults.sync with
    | true =>
      simp only [hsync, if_true] at h
      cases h
    | false =>
      cases hclose : env.faults.close with
      | true =>
        simp only [hsync, hclose, if_true, Bool.false_eq_true, if_false] at h
        cases h
      | false =>
        simp only [hsync, hclose, Bool.false_eq_true, if_false] at h ⊢
        cases hce : c.err with
        | some e =>
          rw [hce] at h
          split at h
          · cases h
          · cases h
          · rename_i hnone
            cases hnone
        | none =>
          simp only [hce] at h ⊢
          rcases hw : w2.WriteFile env.faults metaTmp
              { id := id, trace_id := if req.TraceID = "" then id else req.TraceID,
                received_at := ts.UTC.formatRFC3339Nano,
                remote_ip := req.RemoteIP, mail_from := req.MailFrom,
                rcpt_to := req.RcptTo, domain := req.Domain, mailbox := req.Mailbox,
                bytes := c.written,
                sha256 := hex.EncodeToString (env.sha256 c.hashed) } with ⟨w3, wfail⟩
          rw [hw] at h
          cases wfail with
          | true => cases h
          | false =>
            simp only at h ⊢
            cases hr1 : w3.Rename env.faults.renameEML tmp eml with
            | none =>
              rw [hr1] at h
              cases h
            | some w4 =>
              simp only [hr1] at h ⊢
              cases hr2 : w4.Rename env.faults.renameMeta metaTmp meta with
              | none =>
                rw [hr2] at h
                cases h
              | some w5 =>
                simp only [hr2] at h ⊢
                simp only [Return.ok.injEq] at h
                subst h
                refine ⟨rfl, rfl, rfl, rfl, rfl, rfl, ?_⟩
                obtain ⟨e5, _⟩ := os.World.Rename_spec hr2
                obtain ⟨e4, _⟩ := os.World.Rename_spec hr1
                have e3 : w3.files metaTmp = some (os.File.json
                    { id := id, trace_id := if req.TraceID = "" then id else req.TraceID,
                      received_at := ts.UTC.formatRFC3339Nano,
                      remote_ip := req.RemoteIP, mail_from := req.MailFrom,
                      rcpt_to := req.RcptTo, domain := req.Domain, mailbox := req.Mailbox,
                      bytes := c.written,
                      sha256 := hex.EncodeToString (env.sha256 c.hashed) }) := by
                  unfold os.World.WriteFile at hw
                  split at hw
                  · simp only [Prod.mk.injEq] at hw
                    rw [← hw.1]
                    simp only [os.World.update, os.Files.put_same]
                  · simp at hw
                  · simp at hw
                rw [e5]
                simp only [os.World.update]
                rw [os.Files.put_other _ _ _ _ h2, os.Files.put_same, e4]
                simp only [os.World.update]
                rw [os.Files.put_other _ _ _ _ h5.symm, os.Files.put_other _ _ _ _ h4.symm, e3]

/-- What a successful return of `FS.Store` tells: the identifier is the one
allocated for the timestamp, the trace identifier is that of the request or, when
it has none, the identifier, and the metadata file holds them. -/
theorem Store_ok_inv (s : FS) (env : Env) (fs : os.Files) (req : StoreRequest) (r : io.Reader)
    (res : StoreResult) (h : (s.Store env fs req r).ret = Return.ok res) :
    NewULID env.entropy (storeTime s req) = some res.ID ∧
      res.TraceID = (if req.TraceID = "" then res.ID else req.TraceID) ∧
      res.EMLPath = storePath s req res.ID ".eml" ∧
      res.MetaPath = storePath s req res.ID ".json" ∧
      ∃ m : os.Meta, (s.Store env fs req r).world.files res.MetaPath = some (os.File.json m) ∧
        m.id = res.ID ∧ m.trace_id = res.TraceID ∧
        m.received_at = (storeTime s req).UTC.formatRFC3339Nano ∧
        m.domain = req.Domain ∧ m.mailbox = req.Mailbox ∧ m.rcpt_to = req.RcptTo ∧
        m.bytes = res.Bytes ∧ m.sha256 = res.SHA256 := by
  rw [Store_eq] at h ⊢
  cases hid : NewULID env.entropy (storeTime s req) with
  | none =>
    rw [hid] at h
    cases h
  | some id =>
    simp only [hid] at h ⊢
    obtain ⟨d1, d2, d3, d4, d5, d6⟩ := storePath_distinct hid s req
    cases hmk : env.faults.mkdirAll with
    | true =>
      simp only [hmk, if_true] at h
      cases h
    | false =>
      simp only [hmk, Bool.false_eq_true, if_false] at h ⊢
      cases hopen : (os.World.start fs).OpenFileExcl env.faults (storePath s req id ".eml.tmp") with
      | none =>
        simp only [hopen] at h
        cases h
      | some w1 =>
        simp only [hopen] at h ⊢
        cases hc : ioCopy env.faults (copyFuel r) w1
            (bufio.NewWriterSize (storePath s req id ".eml.tmp") (32 * 1024)) []
            { R := r, N := req.MaxBytes } 0 with
        | none =>
          simp only [hc] at h
          cases h
        | some c =>
          simp only [hc] at h ⊢
          obtain ⟨e1, e2, e3, e4, e5, e6, e7⟩ :=
            storeFinish_ok_inv env req (storeTime s req) id _ _ _ _ c res d2 d4 d5 h
          subst e1
          refine ⟨rfl, e2, e3, e4, ?_⟩
          rw [e4, e7]
          exact ⟨_, rfl, rfl, e2.symm, rfl, rfl, rfl, rfl, e5.symm, e6.symm⟩

end spool

/-! ## The trace identifier -/

namespace smtp

/-- A call of `Data` that returns nil had its trace identifier and a successful run
of `Store` on the request made with it. -/
theorem Data_ok_inv (b : backend) (s : session) (denv : DataEnv) (r : io.Reader)
    (h : (s.Data b denv r).reply = Reply.ok) :
    ∃ traceID res, spool.NewULID denv.traceEntropy denv.nowTrace = some traceID ∧
      (s.Data b denv r).run =
        some (b.deps.Spool.Store denv.store denv.files (s.storeRequest b denv traceID) r) ∧
      (s.Data b denv r).request = some (s.storeRequest b denv traceID) ∧
      (b.deps.Spool.Store denv.store denv.files (s.storeRequest b denv traceID) r).ret =
        spool.Return.ok res := by
  by_cases hg : s.domain = "" ∨ s.mailbox = ""
  · rw [(Data_no_rcpt b s denv r hg).1] at h
    cases h
  · have hd : s.domain ≠ "" := fun h1 => hg (Or.inl h1)
    have hm : s.mailbox ≠ "" := fun h1 => hg (Or.inr h1)
    cases ht : spool.NewULID denv.traceEntropy denv.nowTrace with
    | none =>
      unfold session.Data at h
      simp only [hg, if_false, ht] at h
      cases h
    | some traceID =>
      obtain ⟨h1, h2, _, _, _⟩ := Data_stores b s denv r traceID hd hm ht
      refine ⟨traceID, ?_⟩
      unfold session.Data at h
      simp only [hg, if_false, ht] at h
      split at h
      · cases h
      · cases h
      · rename_i res heq
        exact ⟨res, rfl, h2, h1, heq⟩
      · cases h

end smtp

namespace kafka

/-- C26: for every event `ev` of the SMTP session, the event that
`SMTPAdapter.PublishIngest` passes to the producer has the `id`, `received_at`,
`remote_ip`, `domain`, `mailbox`, `mail_from`, `rcpt_to`, `bytes`, `sha256`,
`meta_path` and `eml_path` of `ev` and an empty `trace_id`: for the event of a
message with the trace identifier `01KHCQ4Y000000000000000007` the trace identifier
passed on differs from it. -/
theorem PublishIngest_drops_trace_id :
    (∀ ev : smtp.IngestEvent,
      (SMTPAdapter.mk true).PublishIngest ev =
        some { ID := ev.ID, TraceID := "", ReceivedAt := ev.ReceivedAt,
               RemoteIP := ev.RemoteIP, Domain := ev.Domain, Mailbox := ev.Mailbox,
               MailFrom := ev.MailFrom, RcptTo := ev.RcptTo, Bytes := ev.Bytes,
               SHA256 := ev.SHA256, MetaPath := ev.MetaPath, EMLPath := ev.EMLPath }) ∧
      ((SMTPAdapter.mk true).PublishIngest
          { ID := "01KHCQ4Y000000000000000005", TraceID := "01KHCQ4Y000000000000000007",
            ReceivedAt := "2026-02-14T00:00:01Z", RemoteIP := "1.2.3.4",
            Domain := "example.com", Mailbox := "inbound", MailFrom := "from@example.com",
            RcptTo := ["inbound@example.com"], Bytes := 6, SHA256 := "06ab",
            MetaPath := "/var/spool/mail/incoming/2026/02/14/01KHCQ4Y000000000000000005.json",
            EMLPath := "/var/spool/mail/incoming/2026/02/14/01KHCQ4Y000000000000000005.eml" }).map
        (fun e => e.TraceID) = some "" := by
  refine ⟨fun ev => rfl, ?_⟩
  decide

end kafka

namespace smtp

/-- C27, amended: for every call of `Data` that returns nil, the trace identifier
returned in the `StoreResult` and written to the metadata is the one that `Data`
allocated with `NewULID` before it called `Store`, and the message identifier is
the one that `Store` allocated for the timestamp of the request, with random bits
of its own; and for every request with an empty `TraceID` on which `Store`
succeeds, the `TraceID` of the result and the `trace_id` of the metadata equal the
`ID`. -/
theorem Data_trace_id (b : backend) (s : session) (denv : DataEnv) (r : io.Reader) :
    ((s.Data b denv r).reply = Reply.ok →
      ∃ traceID run res m,
        spool.NewULID denv.traceEntropy denv.nowTrace = some traceID ∧
        (s.Data b denv r).run = some run ∧ run.ret = spool.Return.ok res ∧
        spool.NewULID denv.store.entropy
          (spool.storeTime b.deps.Spool (s.storeRequest b denv traceID)) = some res.ID ∧
        res.TraceID = traceID ∧
        run.world.files res.MetaPath = some (os.File.json m) ∧
        m.id = res.ID ∧ m.trace_id = traceID) ∧
      (∀ (fs : spool.FS) (env : spool.Env) (files : os.Files) (req : spool.StoreRequest)
        (rd : io.Reader) (res : spool.StoreResult), req.TraceID = "" →
        (fs.Store env files req rd).ret = spool.Return.ok res →
        res.TraceID = res.ID ∧
          ∃ m, (fs.Store env files req rd).world.files res.MetaPath = some (os.File.json m) ∧
            m.id = res.ID ∧ m.trace_id = res.ID) := by
  constructor
  · intro h
    obtain ⟨traceID, res, ht, hrun, _, hret⟩ := Data_ok_inv b s denv r h
    obtain ⟨k1, k2, _, _, m, k5, k6, k7, _⟩ := spool.Store_ok_inv _ _ _ _ _ res hret
    have hne : (s.storeRequest b denv traceID).TraceID ≠ "" := by
      show traceID ≠ ""
      intro h0
      have := spool.NewULID_length ht
      rw [h0] at this
      cases this
    rw [if_neg hne] at k2
    refine ⟨traceID, _, res, m, ht, hrun, hret, k1, k2, k5, k6, ?_⟩
    rw [k7, k2]
    rfl
  · intro fs env files req rd res hreq hret
    obtain ⟨_, k2, _, _, m, k5, k6, k7, _⟩ := spool.Store_ok_inv _ _ _ _ _ res hret
    rw [if_pos hreq] at k2
    exact ⟨k2, m, k5, k6, k7.trans k2⟩

/-- A message of six bytes under a limit of fifty: `Data` returns nil and the
result carries the trace identifier that `Data` allocated. -/
theorem Data_trace_id_witness :
    ((sampleSession false).Data (sampleBackend 50 false) sampleDataEnv spool.sampleReader).reply =
        Reply.ok ∧
      ∃ traceID run res m,
        spool.NewULID sampleDataEnv.traceEntropy sampleDataEnv.nowTrace = some traceID ∧
        ((sampleSession false).Data (sampleBackend 50 false) sampleDataEnv spool.sampleReader).run =
          some run ∧
        run.ret = spool.Return.ok res ∧
        spool.NewULID sampleDataEnv.store.entropy
          (spool.storeTime (sampleBackend 50 false).deps.Spool
            ((sampleSession false).storeRequest (sampleBackend 50 false) sampleDataEnv traceID)) =
          some res.ID ∧
        res.TraceID = traceID ∧
        run.world.files res.MetaPath = some (os.File.json m) ∧
        m.id = res.ID ∧ m.trace_id = traceID :=
  ⟨by decide,
    (Data_trace_id (sampleBackend 50 false) (sampleSession false) sampleDataEnv
      spool.sampleReader).1 (by decide)⟩

/-- The claim C27 fails on a single-message session: `Data` returns nil, the
message identifier that `Store` allocated ends in `5` and the trace identifier it
returns is the one that `Data` allocated, ending in `7`. -/
theorem Data_trace_id_differs :
    ((sampleSession false).Data (sampleBackend 50 false) sampleDataEnv spool.sampleReader).reply =
        Reply.ok ∧
      (((sampleSession false).Data (sampleBackend 50 false) sampleDataEnv
          spool.sampleReader).run.map (fun x => x.ret)) =
        some (spool.Return.ok
          { ID := "01KHCQ4Y000000000000000005", TraceID := "01KHCQ4Y000000000000000007",
            Bytes := 6, SHA256 := "06ab",
            EMLPath := "/var/spool/mail/incoming/2026/02/14/01KHCQ4Y000000000000000005.eml",
            MetaPath := "/var/spool/mail/incoming/2026/02/14/01KHCQ4Y000000000000000005.json" }) ∧
      ("01KHCQ4Y000000000000000007" : String) ≠ "01KHCQ4Y000000000000000005" := by
  decide

end smtp

/-! ## Lemmas: the order of the build -/

namespace resolver

theorem mem_enabled (s : Snapshot) (e : String × DomainConfig) :
    e ∈ s.enabled ↔ e ∈ s.Domains ∧ e.2.Disabled = false := by
  simp [Snapshot.enabled, List.mem_filter]

theorem lookupLast_separate (uni : Char → Char) (d : String) (s : Snapshot)
    (hsep : s.Separate uni) (l : List (String × DomainConfig))
    (hmem : ∀ e, e ∈ l ↔ e ∈ s.Domains) :
    lookupLast uni d l =
      (s.enabled.find? (fun e => decide (normDomain uni e.1 = d))).map Prod.snd := by
  cases hf : s.enabled.find? (fun e => decide (normDomain uni e.1 = d)) with
  | none =>
    apply lookupLast_none
    intro e he hen hd
    have := List.find?_eq_none.mp hf e ((mem_enabled s e).mpr ⟨(hmem e).mp he, hen⟩)
    simp [hd] at this
  | some e0 =>
    have h0 := List.mem_of_find?_eq_some hf
    have hk : normDomain uni e0.1 = d := by
      have := List.find?_some hf
      simpa using this
    apply lookupLast_unique
    · exact ⟨e0, (hmem e0).mpr ((mem_enabled s e0).mp h0).1, ((mem_enabled s e0).mp h0).2, hk⟩
    · intro e he hen hd
      have he1 : e ∈ s.enabled := (mem_enabled s e).mpr ⟨(hmem e).mp he, hen⟩
      have := List.inj_on_of_nodup_map hsep he1 h0 (by rw [hd, hk])
      rw [this]

theorem buildLoop_stats (uni : Char → Char) :
    ∀ (l : List (String × DomainConfig)) (dm : GoMap domainAllow) (st : ResolverStats)
      (r : allowlistResolver), buildLoop uni l dm st = .ok r →
      r.stats.Domains = st.Domains + (l.filter (fun e => !e.2.Disabled)).length ∧
        r.stats.Mailboxes = st.Mailboxes +
          ((l.filter (fun e => !e.2.Disabled)).map
            (fun e => GoMap.len (mailboxSet uni e.2.Mailboxes))).sum := by
  intro l
  induction l with
  | nil =>
    intro dm st r h
    simp only [buildLoop, Except.ok.injEq] at h
    subst h
    simp
  | cons e rest ih =>
    intro dm st r h
    obtain ⟨dom, cfg⟩ := e
    cases hd : cfg.Disabled with
    | true =>
      rw [buildLoop_disabled uni dom cfg rest dm st hd] at h
      have := ih dm st r h
      simpa [hd] using this
    | false =>
      by_cases hm : cfg.Mode ≠ "" ∧ cfg.Mode ≠ ModeAllowlist
      · rw [buildLoop_unsupported uni dom cfg rest dm st hd hm] at h
        cases h
      · rw [buildLoop_enabled uni dom cfg rest dm st hd hm] at h
        obtain ⟨h1, h2⟩ := ih _ _ r h
        simp only at h1 h2
        simp only [List.filter_cons, hd, Bool.not_false, if_true, List.length_cons, List.map_cons,
          List.sum_cons]
        constructor
        · rw [h1]; omega
        · rw [h2]; omega

theorem buildLoop_keys (uni : Char → Char) :
    ∀ (l : List (String × DomainConfig)) (dm : GoMap domainAllow) (st : ResolverStats)
      (r : allowlistResolver), buildLoop uni l dm st = .ok r →
      (dm.map Prod.fst ++
        (l.filter (fun e => !e.2.Disabled)).map (fun e => normDomain uni e.1)).Nodup →
      r.domains.map Prod.fst =
        dm.map Prod.fst ++ (l.filter (fun e => !e.2.Disabled)).map (fun e => normDomain uni e.1) := by
  intro l
  induction l with
  | nil =>
    intro dm st r h _
    simp only [buildLoop, Except.ok.injEq] at h
    subst h
    simp
  | cons e rest ih =>
    intro dm st r h hnd
    obtain ⟨dom, cfg⟩ := e
    cases hd : cfg.Disabled with
    | true =>
      rw [buildLoop_disabled uni dom cfg rest dm st hd] at h
      simp only [List.filter_cons, hd, Bool.not_true, Bool.false_eq_true, if_false] at hnd ⊢
      exact ih dm st r h hnd
    | false =>
      by_cases hm : cfg.Mode ≠ "" ∧ cfg.Mode ≠ ModeAllowlist
      · rw [buildLoop_unsupported uni dom cfg rest dm st hd hm] at h
        cases h
      · rw [buildLoop_enabled uni dom cfg rest dm st hd hm] at h
        simp only [List.filter_cons, hd, Bool.not_false, if_true, List.map_cons] at hnd ⊢
        have hfresh : (dm.get? (normDomain uni dom)).isNone = true := by
          rw [Option.isNone_iff_eq_none, GoMap.get?_eq_none]
          intro e he hk
          have h1 : normDomain uni dom ∈ dm.map Prod.fst := by
            rw [← hk]; exact List.mem_map_of_mem Prod.fst he
          have h2 := (List.nodup_append.mp hnd).2.2
          exact h2 h1 (List.mem_cons_self _ _)
        have hkeys : (GoMap.set dm (normDomain uni dom) (allowOf uni cfg)).map Prod.fst =
            dm.map Prod.fst ++ [normDomain uni dom] := by
          rw [GoMap.keys_set, if_pos hfresh]
        have := ih _ _ r h (by rw [hkeys]; simpa using hnd)
        rw [this, hkeys]
        simp

end resolver

namespace resolver

/-- C28, amended: for every snapshot in which no two enabled domain keys coincide
after normalisation (lower case, one trailing dot removed), and every order in
which the domain entries are visited, `BuildAllowlist` fails in one order exactly
when it fails in the other, and when it succeeds the two resolvers give the same
`Allowed` answers and the same `Stats`, and `Stats().Domains` is the number of
domains that the resolver holds. -/
theorem BuildAllowlist_order_independent (uni : Char → Char) (s1 s2 : Snapshot)
    (hperm : s1.Domains.Perm s2.Domains) (hsep : s1.Separate uni) :
    ((∃ e, BuildAllowlist uni s1 = .error e) ↔ (∃ e, BuildAllowlist uni s2 = .error e)) ∧
      ∀ r1, BuildAllowlist uni s1 = .ok r1 →
        r1.Stats.Domains = GoMap.len r1.domains ∧
          ∃ r2, BuildAllowlist uni s2 = .ok r2 ∧
            (∀ d l, r1.Allowed uni d l = r2.Allowed uni d l) ∧ r1.Stats = r2.Stats := by
  have herr : (∃ e, BuildAllowlist uni s1 = .error e) ↔ (∃ e, BuildAllowlist uni s2 = .error e) := by
    unfold BuildAllowlist
    rw [buildLoop_error_iff, buildLoop_error_iff]
    constructor
    · rintro ⟨e, he, h⟩
      exact ⟨e, hperm.mem_iff.mp he, h⟩
    · rintro ⟨e, he, h⟩
      exact ⟨e, hperm.mem_iff.mpr he, h⟩
  refine ⟨herr, ?_⟩
  intro r1 h1
  have hfp : (s1.Domains.filter (fun e => !e.2.Disabled)).Perm
      (s2.Domains.filter (fun e => !e.2.Disabled)) := hperm.filter _
  constructor
  · have hk := buildLoop_keys uni s1.Domains [] _ r1 h1 (by simpa using hsep)
    have hst := (buildLoop_stats uni s1.Domains [] _ r1 h1).1
    have hlen : r1.domains.length = (s1.Domains.filter (fun e => !e.2.Disabled)).length := by
      have := congrArg List.length hk
      simpa using this
    show r1.stats.Domains = r1.domains.length
    rw [hst, hlen]
    simp
  · cases h2 : BuildAllowlist uni s2 with
    | error e =>
      obtain ⟨e1, he1⟩ := herr.mpr ⟨e, h2⟩
      rw [h1] at he1
      cases he1
    | ok r2 =>
      refine ⟨r2, rfl, ?_, ?_⟩
      · intro d l
        rw [Allowed_eq, Allowed_eq, BuildAllowlist_get uni s1 r1 h1, BuildAllowlist_get uni s2 r2 h2,
          lookupLast_separate uni _ s1 hsep s1.Domains (fun _ => Iff.rfl),
          lookupLast_separate uni _ s1 hsep s2.Domains (fun _ => hperm.mem_iff.symm)]
      · obtain ⟨a1, a2⟩ := buildLoop_stats uni s1.Domains [] _ r1 h1
        obtain ⟨b1, b2⟩ := buildLoop_stats uni s2.Domains [] _ r2 h2
        have c1 : r1.stats.Domains = r2.stats.Domains := by
          rw [a1, b1, hfp.length_eq]
        have c2 : r1.stats.Mailboxes = r2.stats.Mailboxes := by
          rw [a2, b2, (hfp.map _).sum_eq]
        show r1.stats = r2.stats
        cases hr1 : r1.stats
        cases hr2 : r2.stats
        rw [hr1] at c1 c2
        rw [hr2] at c1 c2
        simp only at c1 c2
        rw [c1, c2]

/-- Two domains that stay apart, visited in either order. -/
theorem BuildAllowlist_order_independent_witness :
    (Snapshot.mk [("example.com", sampleConfig true ["inbound"] false),
        ("Example.org.", sampleConfig false ["a", "b"] false)]).Separate strings.asciiOnly ∧
      ∀ r1, BuildAllowlist strings.asciiOnly
          (Snapshot.mk [("example.com", sampleConfig true ["inbound"] false),
            ("Example.org.", sampleConfig false ["a", "b"] false)]) = .ok r1 →
        r1.Stats.Domains = GoMap.len r1.domains ∧
          ∃ r2, BuildAllowlist strings.asciiOnly
              (Snapshot.mk [("Example.org.", sampleConfig false ["a", "b"] false),
                ("example.com", sampleConfig true ["inbound"] false)]) = .ok r2 ∧
            (∀ d l, r1.Allowed strings.asciiOnly d l = r2.Allowed strings.asciiOnly d l) ∧
              r1.Stats = r2.Stats :=
  ⟨by unfold Snapshot.Separate Snapshot.enabled; decide,
    (BuildAllowlist_order_independent strings.asciiOnly
      (Snapshot.mk [("example.com", sampleConfig true ["inbound"] false),
        ("Example.org.", sampleConfig false ["a", "b"] false)])
      (Snapshot.mk [("Example.org.", sampleConfig false ["a", "b"] false),
        ("example.com", sampleConfig true ["inbound"] false)])
      (List.Perm.swap _ _ _) (by unfold Snapshot.Separate Snapshot.enabled; decide)).2⟩

/-- The claim C28 fails for a snapshot with the keys `Example.com` and
`example.com`: visited in one order the resolver allows `b@example.com` and not
`a@example.com`, in the other `a@example.com` and not `b@example.com`; and both
resolvers hold one domain and report two. -/
theorem BuildAllowlist_depends_on_order :
    (collidingSnapshot false).Domains.Perm (collidingSnapshot true).Domains ∧
      (BuildAllowlist strings.asciiOnly (collidingSnapshot false)).isOk = true ∧
      (BuildAllowlist strings.asciiOnly (collidingSnapshot true)).isOk = true ∧
      (built strings.asciiOnly (collidingSnapshot false)).Allowed strings.asciiOnly
        "example.com" "a" = false ∧
      (built strings.asciiOnly (collidingSnapshot true)).Allowed strings.asciiOnly
        "example.com" "a" = true ∧
      (built strings.asciiOnly (collidingSnapshot false)).Stats.Domains = 2 ∧
      GoMap.len (built strings.asciiOnly (collidingSnapshot false)).domains = 1 := by
  refine ⟨List.Perm.swap _ _ _, ?_, ?_, ?_, ?_, ?_, ?_⟩ <;> decide

end resolver

/-! ## Lemmas: host and port -/

namespace strings

theorem indexByte_none (s : List Char) (c : Char) : indexByte s c = none ↔ c ∉ s := by
  induction s with
  | nil => simp [indexByte]
  | cons a s ih =>
    simp only [indexByte]
    by_cases h : a = c
    · simp [h]
    · have hc : ¬ c = a := fun h1 => h h1.symm
      simp [h, hc, ih]

theorem indexByte_some (s : List Char) (c : Char) (i : Nat) (h : indexByte s c = some i) :
    c ∉ s.take i ∧ s.drop i = c :: s.drop (i + 1) := by
  induction s generalizing i with
  | nil => cases h
  | cons a s ih =>
    simp only [indexByte] at h
    by_cases hac : a = c
    · simp only [hac, if_true, Option.some.injEq] at h
      subst h
      simp [hac]
    · simp only [hac, if_false, Option.map_eq_some'] at h
      obtain ⟨k, hk, rfl⟩ := h
      obtain ⟨h1, h2⟩ := ih k hk
      have hc : ¬ c = a := fun h1 => hac h1.symm
      refine ⟨?_, ?_⟩
      · simp only [List.take_succ_cons, List.mem_cons, not_or]
        exact ⟨hc, h1⟩
      · simpa using h2

theorem indexByte_append (h t : List Char) (c : Char) (hc : c ∉ h) :
    indexByte (h ++ c :: t) c = some h.length := by
  induction h with
  | nil => simp [indexByte]
  | cons a h ih =>
    simp only [List.mem_cons, not_or] at hc
    have hac : ¬ a = c := fun h1 => hc.1 h1.symm
    simp [indexByte, hac, ih hc.2]

theorem lastIndexByte_none (s : List Char) (c : Char) : lastIndexByte s c = none ↔ c ∉ s := by
  induction s with
  | nil => simp [lastIndexByte]
  | cons a s ih =>
    simp only [lastIndexByte]
    cases hl : lastIndexByte s c with
    | some i =>
      have : ¬ c ∉ s := fun h => by rw [ih.mpr h] at hl; cases hl
      simp only [List.mem_cons, not_or]
      constructor
      · intro h; cases h
      · intro h; exact absurd h.2 this
    | none =>
      have hs := ih.mp hl
      by_cases h : a = c
      · simp [h]
      · have hc : ¬ c = a := fun h1 => h h1.symm
        simp [h, hc, hs]

theorem lastIndexByte_some (s : List Char) (c : Char) (i : Nat)
    (h : lastIndexByte s c = some i) :
    c ∉ s.drop (i + 1) ∧ s.drop i = c :: s.drop (i + 1) := by
  induction s generalizing i with
  | nil => cases h
  | cons a s ih =>
    simp only [lastIndexByte] at h
    cases hl : lastIndexByte s c with
    | some k =>
      rw [hl] at h
      simp only [Option.some.injEq] at h
      subst h
      obtain ⟨h1, h2⟩ := ih k hl
      exact ⟨by simpa using h1, by simpa using h2⟩
    | none =>
      rw [hl] at h
      have hs := (lastIndexByte_none s c).mp hl
      by_cases hac : a = c
      · simp only [hac, if_true, Option.some.injEq] at h
        subst h
        simp [hac, hs]
      · simp [hac] at h

theorem lastIndexByte_append (h t : List Char) (c : Char) (hc : c ∉ t) :
    lastIndexByte (h ++ c :: t) c = some h.length := by
  induction h with
  | nil => simp [lastIndexByte, (lastIndexByte_none t c).mpr hc]
  | cons a h ih => simp [lastIndexByte, ih]

theorem Trim_of_not_mem (s cutset : String) (h : ∀ c ∈ s.data, c ∉ cutset.data) :
    Trim s cutset = s := by
  have key : ∀ l : List Char, (∀ c ∈ l, c ∉ cutset.data) →
      l.dropWhile (fun c => decide (c ∈ cutset.data)) = l := by
    intro l hl
    cases l with
    | nil => rfl
    | cons a l =>
      have := hl a (List.mem_cons_self _ _)
      simp [List.dropWhile, this]
  unfold Trim
  rw [key s.data h, key s.data.reverse (fun c hc => h c (List.mem_reverse.mp hc)),
    List.reverse_reverse]

end strings

namespace net

/-- What a successful return of `SplitHostPort` tells of the address. -/
theorem SplitHostPort_ok (a host port : String) (h : SplitHostPort a = .ok (host, port)) :
    ('[' ∉ host.data ∧ ']' ∉ host.data ∧ ':' ∉ port.data ∧ '[' ∉ port.data ∧ ']' ∉ port.data) ∧
      ((a.data = host.data ++ ':' :: port.data ∧ ':' ∉ host.data) ∨
        a.data = '[' :: host.data ++ ']' :: ':' :: port.data) := by
  unfold SplitHostPort at h
  cases hl : strings.lastIndexByte a.data ':' with
  | none =>
    rw [hl] at h
    cases h
  | some i =>
    simp only [hl] at h
    obtain ⟨l1, l2⟩ := strings.lastIndexByte_some _ _ _ hl
    by_cases hb : a.data.head? = some '['
    · simp only [hb, if_true] at h
      cases hi : strings.indexByte a.data ']' with
      | none =>
        rw [hi] at h
        cases h
      | some last =>
        simp only [hi] at h
        obtain ⟨i1, i2⟩ := strings.indexByte_some _ _ _ hi
        by_cases h1 : last + 1 = a.data.length
        · rw [if_pos h1] at h
          cases h
        · by_cases h2 : last + 1 = i
          · rw [if_neg h1, if_pos h2] at h
            subst h2
            unfold splitFinish at h
            by_cases ho : (strings.indexByte (a.data.drop 1) '[').isSome = true
            · simp only [ho, if_true] at h
              cases h
            · by_cases hc : (strings.indexByte (a.data.drop (last + 1)) ']').isSome = true
              · simp only [ho, hc, if_true, if_false] at h
                cases h
              · simp only [ho, hc, if_false, Except.ok.injEq, Prod.mk.injEq] at h
                obtain ⟨rfl, rfl⟩ := h
                simp only [Bool.not_eq_true, Option.not_isSome, Option.isNone_iff_eq_none,
                  strings.indexByte_none] at ho hc
                obtain ⟨B, hB⟩ : ∃ B, a.data = '[' :: B := by
                  cases hd : a.data with
                  | nil => rw [hd] at hb; cases hb
                  | cons x B =>
                    rw [hd] at hb
                    simp only [List.head?_cons, Option.some.injEq] at hb
                    exact ⟨B, by rw [hb]⟩
                rw [hB] at i1 i2 l1 l2 ho hc ⊢
                cases last with
                | zero =>
                  simp at i2
                | succ n =>
                  simp only [List.drop_succ_cons, List.take_succ_cons, List.drop_zero,
                    List.mem_cons, not_or] at i1 i2 l1 l2 ho hc ⊢
                  have hB2 : B = B.take n ++ B.drop n := (List.take_append_drop n B).symm
                  rw [i2, l2] at hB2
                  rw [l2] at hc
                  simp only [List.mem_cons, not_or] at hc
                  have hsub : ∀ c, c ∈ B.drop (n + 1 + 1) → c ∈ B := fun c hc1 =>
                    List.mem_of_mem_drop hc1
                  have hsub1 : ∀ c, c ∈ B.take n → c ∈ B := fun c hc1 => List.mem_of_mem_take hc1
                  refine ⟨⟨fun h3 => ho (hsub1 _ h3), i1.2, l1, fun h3 => ho (hsub _ h3), hc.2⟩, ?_⟩
                  right
                  exact congrArg (List.cons '[') hB2
          · rw [if_neg h1, if_neg h2] at h
            split at h <;> cases h
    · simp only [hb, if_false] at h
      by_cases hcol : (strings.indexByte (a.data.take i) ':').isSome = true
      · simp only [hcol, if_true] at h
        cases h
      · unfold splitFinish at h
        by_cases ho : (strings.indexByte (a.data.drop 0) '[').isSome = true
        · simp only [hcol, ho, if_true, if_false] at h
          cases h
        · by_cases hc : (strings.indexByte (a.data.drop 0) ']').isSome = true
          · simp only [hcol, ho, hc, if_true, if_false] at h
            cases h
          · simp only [hcol, ho, hc, if_false, Except.ok.injEq, Prod.mk.injEq] at h
            obtain ⟨rfl, rfl⟩ := h
            simp only [Bool.not_eq_true, Option.not_isSome, Option.isNone_iff_eq_none,
              strings.indexByte_none, List.drop_zero] at ho hc hcol
            have hA : a.data = a.data.take i ++ ':' :: a.data.drop (i + 1) := by
              rw [← l2]; exact (List.take_append_drop i a.data).symm
            refine ⟨⟨fun h3 => ho (List.mem_of_mem_take h3), fun h3 => hc (List.mem_of_mem_take h3),
              l1, fun h3 => ho (List.mem_of_mem_drop h3), fun h3 => hc (List.mem_of_mem_drop h3)⟩, ?_⟩
            left
            exact ⟨hA, hcol⟩

/-- An address `host:port` without brackets, and without a colon in the host,
splits into its host and port. -/
theorem SplitHostPort_plain (host port : List Char)
    (h1 : ':' ∉ host) (h2 : '[' ∉ host) (h3 : ']' ∉ host)
    (p1 : ':' ∉ port) (p2 : '[' ∉ port) (p3 : ']' ∉ port) :
    SplitHostPort ⟨host ++ ':' :: port⟩ = .ok (⟨host⟩, ⟨port⟩) := by
  have hl := strings.lastIndexByte_append host port ':' p1
  have hhead : ¬ (host ++ ':' :: port).head? = some '[' := by
    cases host with
    | nil => simp
    | cons x t =>
      simp only [List.mem_cons, not_or] at h2
      simp only [List.cons_append, List.head?_cons, Option.some.injEq]
      exact fun h => h2.1 h.symm
  have htake : (host ++ ':' :: port).take host.length = host := by simp
  have hdrop : (host ++ ':' :: port).drop (host.length + 1) = port := by
    rw [← List.drop_drop]
    simp
  have hcol : ¬ (strings.indexByte host ':').isSome = true := by
    rw [(strings.indexByte_none host ':').mpr h1]; simp
  have ho : ¬ (strings.indexByte (host ++ ':' :: port) '[').isSome = true := by
    rw [(strings.indexByte_none _ '[').mpr (by simp [h2, p2])]; simp
  have hc : ¬ (strings.indexByte (host ++ ':' :: port) ']').isSome = true := by
    rw [(strings.indexByte_none _ ']').mpr (by simp [h3, p3])]; simp
  unfold SplitHostPort splitFinish
  simp only [hl, hhead, if_false, htake, hcol, List.drop_zero, ho, hc, hdrop]
  rfl

/-- An address `[host]:port` splits into its host and port. -/
theorem SplitHostPort_bracket (host port : List Char)
    (h2 : '[' ∉ host) (h3 : ']' ∉ host)
    (p1 : ':' ∉ port) (p2 : '[' ∉ port) (p3 : ']' ∉ port) :
    SplitHostPort ⟨'[' :: host ++ ']' :: ':' :: port⟩ = .ok (⟨host⟩, ⟨port⟩) := by
  have hl : strings.lastIndexByte ('[' :: host ++ ']' :: ':' :: port) ':' =
      some (host.length + 1 + 1) := by
    have := strings.lastIndexByte_append ('[' :: host ++ [']']) port ':' p1
    simpa using this
  have hi : strings.indexByte ('[' :: host ++ ']' :: ':' :: port) ']' = some (host.length + 1) := by
    have := strings.indexByte_append ('[' :: host) (':' :: port) ']' (by simp [h3])
    simpa using this
  have hlen : ¬ host.length + 1 + 1 = ('[' :: host ++ ']' :: ':' :: port).length := by
    simp only [List.cons_append, List.length_cons, List.length_append]
    omega
  have hhost : (('[' :: host ++ ']' :: ':' :: port).take (host.length + 1)).drop 1 = host := by
    simp
  have hport : ('[' :: host ++ ']' :: ':' :: port).drop (host.length + 1 + 1 + 1) = port := by
    have : '[' :: host ++ ']' :: ':' :: port = ('[' :: host ++ [']', ':']) ++ port := by simp
    rw [this]
    apply List.drop_left'
    simp
  have ho : ¬ (strings.indexByte (('[' :: host ++ ']' :: ':' :: port).drop 1) '[').isSome = true := by
    rw [(strings.indexByte_none _ '[').mpr (by simp [h2, p2])]; simp
  have hc : ¬ (strings.indexByte (('[' :: host ++ ']' :: ':' :: port).drop (host.length + 1 + 1))
      ']').isSome = true := by
    have : ('[' :: host ++ ']' :: ':' :: port).drop (host.length + 1 + 1) = ':' :: port := by
      have h0 : '[' :: host ++ ']' :: ':' :: port = ('[' :: host ++ [']']) ++ ':' :: port := by simp
      rw [h0]
      apply List.drop_left'
      simp
    rw [this, (strings.indexByte_none _ ']').mpr (by simp [p3])]; simp
  have hhead : ('[' :: host ++ ']' :: ':' :: port).head? = some '[' := rfl
  unfold SplitHostPort splitFinish
  simp only [hl, hi, hlen, if_false, if_true, hhost, hport, ho, hc, hhead]
  rfl

end net

/-! ## The listen address of the metrics server -/

namespace metrics

theorem RequireLocalhost_nil (addr : String) :
    RequireLocalhost addr = none ↔
      ∃ host port, net.SplitHostPort addr = .ok (host, port) ∧
        (strings.Trim host "[]" = "localhost" ∨ strings.Trim host "[]" = "127.0.0.1" ∨
          strings.Trim host "[]" = "::1") := by
  unfold RequireLocalhost
  cases hs : net.SplitHostPort addr with
  | error e =>
    simp only [reduceCtorEq, false_iff, not_exists, not_and]
    intro host port h
    cases h
  | ok p =>
    obtain ⟨host, port⟩ := p
    simp only
    by_cases h0 : strings.Trim host "[]" = ""
    · simp only [h0, if_true, reduceCtorEq, false_iff, not_exists, not_and]
      intro host1 port1 h1
      simp only [Except.ok.injEq, Prod.mk.injEq] at h1
      obtain ⟨rfl, rfl⟩ := h1
      rw [h0]
      decide
    · simp only [h0, if_false]
      by_cases h1 : strings.Trim host "[]" = "localhost" ∨ strings.Trim host "[]" = "127.0.0.1" ∨
          strings.Trim host "[]" = "::1"
      · simp only [h1, if_true, true_iff]
        exact ⟨host, port, rfl, h1⟩
      · simp only [h1, if_false, reduceCtorEq, false_iff, not_exists, not_and]
        intro host1 port1 h2
        simp only [Except.ok.injEq, Prod.mk.injEq] at h2
        obtain ⟨rfl, rfl⟩ := h2
        exact h1

theorem RequireLocalhost_shape (addr : String) :
    RequireLocalhost addr = none ↔
      ∃ port : List Char, ':' ∉ port ∧ '[' ∉ port ∧ ']' ∉ port ∧
        (addr.data = "localhost:".data ++ port ∨ addr.data = "127.0.0.1:".data ++ port ∨
          addr.data = "[localhost]:".data ++ port ∨ addr.data = "[127.0.0.1]:".data ++ port ∨
          addr.data = "[::1]:".data ++ port) := by
  rw [RequireLocalhost_nil]
  constructor
  · rintro ⟨host, port, hs, hh⟩
    obtain ⟨⟨b1, b2, p1, p2, p3⟩, hshape⟩ := net.SplitHostPort_ok addr host port hs
    have ht : strings.Trim host "[]" = host := by
      apply strings.Trim_of_not_mem
      intro c hc hcut
      have : c = '[' ∨ c = ']' := by simpa using hcut
      rcases this with rfl | rfl
      · exact b1 hc
      · exact b2 hc
    rw [ht] at hh
    refine ⟨port.data, p1, p2, p3, ?_⟩
    rcases hshape with ⟨ha, hcol⟩ | ha
    · rcases hh with rfl | rfl | rfl
      · exact Or.inl ha
      · exact Or.inr (Or.inl ha)
      · exact absurd (by decide) hcol
    · rcases hh with rfl | rfl | rfl
      · exact Or.inr (Or.inr (Or.inl ha))
      · exact Or.inr (Or.inr (Or.inr (Or.inl ha)))
      · exact Or.inr (Or.inr (Or.inr (Or.inr ha)))
  · rintro ⟨port, p1, p2, p3, h⟩
    have haddr : ∀ l : List Char, addr.data = l → addr = ⟨l⟩ := fun l hl => by
      rw [← hl]
    rcases h with h | h | h | h | h
    · refine ⟨"localhost", ⟨port⟩, ?_, Or.inl (by decide)⟩
      rw [haddr _ h]
      exact net.SplitHostPort_plain "localhost".data port (by decide) (by decide) (by decide)
        p1 p2 p3
    · refine ⟨"127.0.0.1", ⟨port⟩, ?_, Or.inr (Or.inl (by decide))⟩
      rw [haddr _ h]
      exact net.SplitHostPort_plain "127.0.0.1".data port (by decide) (by decide) (by decide)
        p1 p2 p3
    · refine ⟨"localhost", ⟨port⟩, ?_, Or.inl (by decide)⟩
      rw [haddr _ h]
      exact net.SplitHostPort_bracket "localhost".data port (by decide) (by decide) p1 p2 p3
    · refine ⟨"127.0.0.1", ⟨port⟩, ?_, Or.inr (Or.inl (by decide))⟩
      rw [haddr _ h]
      exact net.SplitHostPort_bracket "127.0.0.1".data port (by decide) (by decide) p1 p2 p3
    · refine ⟨"::1", ⟨port⟩, ?_, Or.inr (Or.inr (by decide))⟩
      rw [haddr _ h]
      exact net.SplitHostPort_bracket "::1".data port (by decide) (by decide) p1 p2 p3

/-- C25: `RequireLocalhost(addr)` returns nil if and only if `net.SplitHostPort`
splits `addr` into a host and a port and the host, trimmed of square brackets, is
`localhost`, `127.0.0.1` or `::1`; these are exactly the addresses `localhost:p`,
`127.0.0.1:p`, `[localhost]:p`, `[127.0.0.1]:p` and `[::1]:p` for a port `p` without
colon and bracket. Every other address gets an error, in particular `:p` and
`0.0.0.0:p` for every `p`. -/
theorem RequireLocalhost_iff (addr : String) :
    (RequireLocalhost addr = none ↔
        ∃ host port, net.SplitHostPort addr = .ok (host, port) ∧
          (strings.Trim host "[]" = "localhost" ∨ strings.Trim host "[]" = "127.0.0.1" ∨
            strings.Trim host "[]" = "::1")) ∧
      (RequireLocalhost addr = none ↔
        ∃ port : List Char, ':' ∉ port ∧ '[' ∉ port ∧ ']' ∉ port ∧
          (addr.data = "localhost:".data ++ port ∨ addr.data = "127.0.0.1:".data ++ port ∨
            addr.data = "[localhost]:".data ++ port ∨ addr.data = "[127.0.0.1]:".data ++ port ∨
            addr.data = "[::1]:".data ++ port)) ∧
      (∀ port : String,
        RequireLocalhost (":" ++ port) ≠ none ∧ RequireLocalhost ("0.0.0.0:" ++ port) ≠ none) := by
  refine ⟨RequireLocalhost_nil addr, RequireLocalhost_shape addr, ?_⟩
  intro port
  constructor
  · intro h
    obtain ⟨p, _, _, _, hp⟩ := (RequireLocalhost_shape _).mp h
    simp only [String.data_append] at hp
    rcases hp with hp | hp | hp | hp | hp <;>
      exact absurd (List.head_eq_of_cons_eq hp) (by decide)
  · intro h
    obtain ⟨p, _, _, _, hp⟩ := (RequireLocalhost_shape _).mp h
    simp only [String.data_append] at hp
    rcases hp with hp | hp | hp | hp | hp <;>
      exact absurd (List.head_eq_of_cons_eq hp) (by decide)

/-- The addresses of the usual configurations. -/
theorem RequireLocalhost_iff_witness :
    RequireLocalhost "127.0.0.1:9090" = none ∧ RequireLocalhost "[::1]:9090" = none ∧
      RequireLocalhost ":9090" ≠ none ∧ RequireLocalhost "0.0.0.0:9090" ≠ none :=
  ⟨(RequireLocalhost_iff "127.0.0.1:9090").2.1.mpr
      ⟨"9090".data, by decide, by decide, by decide, Or.inr (Or.inl (by decide))⟩,
    by decide,
    ((RequireLocalhost_iff "").2.2 "9090").1, ((RequireLocalhost_iff "").2.2 "9090").2⟩

end metrics

/-! ## Lemmas: digits and bytes -/

namespace time

theorem toDigitsCore_append (fuel : Nat) :
    ∀ (n : Nat) (ds : List Char),
      Nat.toDigitsCore 10 fuel n ds = Nat.toDigitsCore 10 fuel n [] ++ ds := by
  induction fuel with
  | zero => intro n ds; simp [Nat.toDigitsCore]
  | succ fuel ih =>
    intro n ds
    simp only [Nat.toDigitsCore]
    split
    · simp
    · rw [ih (n / 10) (Nat.digitChar (n % 10) :: ds), ih (n / 10) [Nat.digitChar (n % 10)]]
      simp

theorem toDigitsCore_fuel (fuel : Nat) :
    ∀ n, n < fuel → Nat.toDigitsCore 10 fuel n [] = Nat.toDigitsCore 10 (n + 1) n [] := by
  induction fuel using Nat.strong_induction_on with
  | _ fuel ih =>
    intro n hn
    cases fuel with
    | zero => omega
    | succ fuel =>
      simp only [Nat.toDigitsCore]
      by_cases h0 : n / 10 = 0
      · simp [h0]
      · simp only [h0, if_false]
        have hlt : n / 10 < n := by omega
        rw [toDigitsCore_append fuel, toDigitsCore_append n]
        congr 1
        rw [ih fuel (Nat.lt_succ_self _) (n / 10) (by omega)]
        by_cases hn0 : n = 0
        · omega
        · exact (ih n (by omega) (n / 10) hlt).symm

theorem toDigits_small (n : Nat) (h : n < 10) : Nat.toDigits 10 n = [Nat.digitChar n] := by
  have h0 : n / 10 = 0 := by omega
  have h1 : n % 10 = n := by omega
  simp [Nat.toDigits, Nat.toDigitsCore, h0, h1]

theorem toDigits_big (n : Nat) (h : 10 ≤ n) :
    Nat.toDigits 10 n = Nat.toDigits 10 (n / 10) ++ [Nat.digitChar (n % 10)] := by
  have h0 : ¬ n / 10 = 0 := by omega
  unfold Nat.toDigits
  rw [Nat.toDigitsCore]
  simp only [h0, if_false]
  rw [toDigitsCore_append n, toDigitsCore_fuel n (n / 10) (by omega)]

theorem digitChar_zero : Nat.digitChar 0 = '0' := rfl

theorem digits_two (n : Nat) (h : n < 100) :
    digits 2 n = [Nat.digitChar (n / 10), Nat.digitChar (n % 10)] := by
  unfold digits
  by_cases h1 : n < 10
  · have h0 : n / 10 = 0 := by omega
    have h2 : n % 10 = n := by omega
    simp [toDigits_small n h1, h0, h2, digitChar_zero]
  · rw [toDigits_big n (by omega), toDigits_small (n / 10) (by omega)]
    simp

theorem digits_four (n : Nat) (h : n < 10000) :
    digits 4 n = [Nat.digitChar (n / 1000), Nat.digitChar (n / 100 % 10),
      Nat.digitChar (n / 10 % 10), Nat.digitChar (n % 10)] := by
  unfold digits
  by_cases h1 : n < 10
  · have e1 : n / 1000 = 0 := by omega
    have e2 : n / 100 % 10 = 0 := by omega
    have e3 : n / 10 % 10 = 0 := by omega
    have e4 : n % 10 = n := by omega
    simp [toDigits_small n h1, e1, e2, e3, e4, digitChar_zero]
  · by_cases h2 : n < 100
    · have e1 : n / 1000 = 0 := by omega
      have e2 : n / 100 % 10 = 0 := by omega
      have e3 : n / 10 % 10 = n / 10 := by omega
      rw [toDigits_big n (by omega), toDigits_small (n / 10) (by omega)]
      simp [e1, e2, e3, digitChar_zero]
    · by_cases h3 : n < 1000
      · have e1 : n / 1000 = 0 := by omega
        have e2 : n / 100 % 10 = n / 10 / 10 := by omega
        rw [toDigits_big n (by omega), toDigits_big (n / 10) (by omega),
          toDigits_small (n / 10 / 10) (by omega)]
        simp [e1, e2, digitChar_zero]
      · have e1 : n / 1000 = n / 10 / 10 / 10 := by omega
        have e2 : n / 100 % 10 = n / 10 / 10 % 10 := by omega
        rw [toDigits_big n (by omega), toDigits_big (n / 10) (by omega),
          toDigits_big (n / 10 / 10) (by omega), toDigits_small (n / 10 / 10 / 10) (by omega)]
        simp [e1, e2]

theorem digitChar_toNat (n : Nat) (h : n < 10) : (Nat.digitChar n).toNat = 48 + n := by
  interval_cases n <;> rfl

end time

namespace strings

theorem bytes_append (a b : String) : bytes (a ++ b) = bytes a ++ bytes b := by
  simp [bytes, String.data_append]

theorem bytes_ascii (l : List Char) (h : ∀ c ∈ l, c.toNat < 128) :
    bytes ⟨l⟩ = l.map Char.toNat := by
  induction l with
  | nil => rfl
  | cons c l ih =>
    have hc := h c (List.mem_cons_self _ _)
    have hl := ih (fun x hx => h x (List.mem_cons_of_mem _ hx))
    simp only [bytes, List.flatMap_cons, List.map_cons] at hl ⊢
    rw [hl]
    have hv : c.val ≤ 0x7f := by
      have : c.val.toNat < 128 := hc
      rw [UInt32.le_def]
      show c.val.toNat ≤ 127
      omega
    have he : String.utf8EncodeChar c = [c.val.toUInt8] := by
      simp [String.utf8EncodeChar, hv]
    rw [he]
    simp only [List.map_cons, List.map_nil, List.singleton_append, List.cons.injEq, and_true]
    show (c.val.toNat.toUInt8).toNat = c.val.toNat
    have : c.val.toNat < 128 := hc
    simp [Nat.toUInt8, UInt8.ofNat, UInt8.toNat]
    omega

end strings

/-! ## Lemmas: the calendar -/

namespace time

/-- The year of the era that `civil` computes for the day `doe` of the era counts
the centuries as `doe / 36524 - doe / 146096` does. -/
theorem yoe_century (doe yoe : Int) (h0 : 0 ≤ doe) (h1 : doe ≤ 146096)
    (e1 : yoe = (doe - doe / 1460 + doe / 36524 - doe / 146096) / 365) :
    doe / 36524 - doe / 146096 = yoe / 100 := by
  have hc : doe / 36524 = 0 ∨ doe / 36524 = 1 ∨ doe / 36524 = 2 ∨ doe / 36524 = 3 ∨
      doe / 36524 = 4 := by
    omega
  rcases hc with hc | hc | hc | hc | hc <;> omega

theorem yoe_leap (doe yoe : Int) (h0 : 0 ≤ doe) (h1 : doe ≤ 146096)
    (e1 : yoe = (doe - doe / 1460 + doe / 36524 - doe / 146096) / 365) :
    yoe / 4 ≤ doe / 1460 ∧ doe / 1460 ≤ (yoe + 1) / 4 := by
  have hc : doe / 36524 = 0 ∨ doe / 36524 = 1 ∨ doe / 36524 = 2 ∨ doe / 36524 = 3 ∨
      doe / 36524 = 4 := by
    omega
  rcases hc with hc | hc | hc | hc | hc <;> constructor <;> omega

/-- The year of the era and the day of that year. -/
theorem yoe_spec (doe yoe : Int) (h0 : 0 ≤ doe) (h1 : doe ≤ 146096)
    (e1 : yoe = (doe - doe / 1460 + doe / 36524 - doe / 146096) / 365) :
    0 ≤ yoe ∧ yoe ≤ 399 ∧ 365 * yoe + yoe / 4 - yoe / 100 ≤ doe ∧
      doe < 365 * (yoe + 1) + (yoe + 1) / 4 - (yoe + 1) / 100 + (yoe + 1) / 400 := by
  have k1 := yoe_century doe yoe h0 h1 e1
  obtain ⟨k2, k3⟩ := yoe_leap doe yoe h0 h1 e1
  have f1 : 365 * yoe ≤ doe - doe / 1460 + doe / 36524 - doe / 146096 := by omega
  have f2 : doe - doe / 1460 + doe / 36524 - doe / 146096 ≤ 365 * yoe + 364 := by omega
  have hc : doe / 36524 = 0 ∨ doe / 36524 = 1 ∨ doe / 36524 = 2 ∨ doe / 36524 = 3 ∨
      doe / 36524 = 4 := by
    omega
  have b0 : 0 ≤ yoe := by omega
  have b1 : yoe ≤ 399 := by
    rcases hc with hc | hc | hc | hc | hc <;> omega
  refine ⟨b0, b1, by omega, ?_⟩
  by_cases hce : (yoe + 1) / 100 = yoe / 100
  · have : 0 ≤ (yoe + 1) / 400 := by omega
    omega
  · have h100 : yoe + 1 = 100 * (yoe / 100 + 1) := by omega
    have h4 : (yoe + 1) / 4 = 25 * (yoe / 100 + 1) := by omega
    have h400 : 0 ≤ (yoe + 1) / 400 := by omega
    have hcc : (yoe + 1) / 100 = yoe / 100 + 1 := by omega
    rcases hc with hc | hc | hc | hc | hc
    · omega
    · omega
    · omega
    · omega
    · have : doe = 146096 := by omega
      have : yoe = 399 := by omega
      subst this
      omega

end time

namespace time

/-- The date of `civil` by the year `Y` that starts on March 1, the day `doy` of
that year and its month `mp`, counted from March. -/
theorem civil_decomp (days : Int) :
    ∃ Y doy mp : Int,
      days + 719468 = 365 * Y + Y / 4 - Y / 100 + Y / 400 + doy ∧ 0 ≤ doy ∧
      365 * Y + Y / 4 - Y / 100 + Y / 400 + doy <
        365 * (Y + 1) + (Y + 1) / 4 - (Y + 1) / 100 + (Y + 1) / 400 ∧
      mp = (5 * doy + 2) / 153 ∧ 0 ≤ mp ∧ mp ≤ 11 ∧
      civil days = (Y + (if mp < 10 then 0 else 1), (if mp < 10 then mp + 3 else mp - 9),
        doy - (153 * mp + 2) / 5 + 1) := by
  generalize hz : days + 719468 = z
  generalize hera : z / 146097 = era
  generalize hdoe : z - era * 146097 = doe
  generalize hyoe : (doe - doe / 1460 + doe / 36524 - doe / 146096) / 365 = yoe
  generalize hdoy : doe - (365 * yoe + yoe / 4 - yoe / 100) = doy
  generalize hmp : (5 * doy + 2) / 153 = mp
  have hciv : civil days = (yoe + era * 400 + (if (if mp < 10 then mp + 3 else mp - 9) ≤ 2 then 1
      else 0), (if mp < 10 then mp + 3 else mp - 9), doy - (153 * mp + 2) / 5 + 1) := by
    unfold civil
    simp only [hz, hera, hdoe, hyoe, hdoy, hmp]
  have d0 : 0 ≤ doe := by omega
  have d1 : doe ≤ 146096 := by omega
  obtain ⟨y0, y1, y2, y3⟩ := yoe_spec doe yoe d0 d1 hyoe.symm
  have q400 : yoe / 400 = 0 := by omega
  have e4 : (yoe + era * 400) / 4 = yoe / 4 + era * 100 := by omega
  have e100 : (yoe + era * 400) / 100 = yoe / 100 + era * 4 := by omega
  have e400 : (yoe + era * 400) / 400 = era := by omega
  have f4 : (yoe + era * 400 + 1) / 4 = (yoe + 1) / 4 + era * 100 := by omega
  have f100 : (yoe + era * 400 + 1) / 100 = (yoe + 1) / 100 + era * 4 := by omega
  have f400 : (yoe + era * 400 + 1) / 400 = (yoe + 1) / 400 + era := by omega
  have m0 : 0 ≤ mp := by omega
  have m1 : mp ≤ 11 := by omega
  refine ⟨yoe + era * 400, doy, mp, by omega, by omega, by omega, hmp.symm, m0, m1, ?_⟩
  rw [hciv]
  by_cases h10 : mp < 10
  · have : ¬ mp + 3 ≤ 2 := by omega
    simp only [h10, if_true, this, if_false]
  · have : mp - 9 ≤ 2 := by omega
    simp only [h10, if_false, this, if_true]

/-- Month and day of `civil` are those of a calendar, and the date grows with the
day number. -/
theorem civil_bounds (days : Int) :
    1 ≤ (civil days).2.1 ∧ (civil days).2.1 ≤ 12 ∧ 1 ≤ (civil days).2.2 ∧
      (civil days).2.2 ≤ 31 := by
  obtain ⟨Y, doy, mp, h1, h2, h3, h4, h5, h6, h7⟩ := civil_decomp days
  rw [h7]
  simp only
  have hd : doy ≤ 365 := by omega
  split <;> omega

end time

namespace time

/-- The first day of a later year is not before the first day of an earlier one. -/
theorem yearStart_le (Y1 Y2 : Int) (h : Y1 ≤ Y2) :
    365 * Y1 + Y1 / 4 - Y1 / 100 + Y1 / 400 ≤ 365 * Y2 + Y2 / 4 - Y2 / 100 + Y2 / 400 := by
  have h4 : Y1 / 4 ≤ Y2 / 4 := Int.ediv_le_ediv (by decide) h
  have h400 : Y1 / 400 ≤ Y2 / 400 := Int.ediv_le_ediv (by decide) h
  have h100 : Y2 / 100 - Y1 / 100 ≤ Y2 - Y1 := by omega
  omega

/-- The month, counted from March, and the day in it grow with the day of the
year. -/
theorem month_day_lt (doy1 doy2 : Int) (h : doy1 < doy2) :
    (5 * doy1 + 2) / 153 < (5 * doy2 + 2) / 153 ∨
      ((5 * doy1 + 2) / 153 = (5 * doy2 + 2) / 153 ∧
        doy1 - (153 * ((5 * doy1 + 2) / 153) + 2) / 5 + 1 <
          doy2 - (153 * ((5 * doy2 + 2) / 153) + 2) / 5 + 1) := by
  have hle : (5 * doy1 + 2) / 153 ≤ (5 * doy2 + 2) / 153 :=
    Int.ediv_le_ediv (by decide) (by omega)
  by_cases he : (5 * doy1 + 2) / 153 = (5 * doy2 + 2) / 153
  · right
    refine ⟨he, ?_⟩
    rw [he]
    omega
  · left
    omega

/-- The date of `civil` grows with the day number, in the order of year, month
and day. -/
theorem civil_lt (a b : Int) (h : a < b) :
    (civil a).1 < (civil b).1 ∨
      ((civil a).1 = (civil b).1 ∧
        ((civil a).2.1 < (civil b).2.1 ∨
          ((civil a).2.1 = (civil b).2.1 ∧ (civil a).2.2 < (civil b).2.2))) := by
  obtain ⟨Y1, doy1, mp1, a1, a2, a3, a4, a5, a6, a7⟩ := civil_decomp a
  obtain ⟨Y2, doy2, mp2, b1, b2, b3, b4, b5, b6, b7⟩ := civil_decomp b
  rw [a7, b7]
  simp only
  have hY : Y1 ≤ Y2 := by
    by_contra hlt
    have hlt1 : Y2 + 1 ≤ Y1 := by omega
    have := yearStart_le (Y2 + 1) Y1 hlt1
    generalize 365 * (Y2 + 1) + (Y2 + 1) / 4 - (Y2 + 1) / 100 + (Y2 + 1) / 400 = s2 at this b3
    generalize 365 * Y1 + Y1 / 4 - Y1 / 100 + Y1 / 400 = s1 at this a1
    generalize 365 * Y2 + Y2 / 4 - Y2 / 100 + Y2 / 400 = s0 at b1 b3
    clear a3 a4 a5 a6 a7 b4 b5 b6 b7
    omega
  by_cases hYe : Y1 = Y2
  · subst hYe
    have hdoy : doy1 < doy2 := by
      generalize 365 * Y1 + Y1 / 4 - Y1 / 100 + Y1 / 400 = s1 at a1 b1
      clear a3 a4 a5 a6 a7 b3 b4 b5 b6 b7
      omega
    have hmd := month_day_lt doy1 doy2 hdoy
    rw [← a4, ← b4] at hmd
    clear a1 a3 b1 b3 a7 b7 a4 b4
    rcases hmd with hm | ⟨hm, hd⟩
    · by_cases c1 : mp1 < 10 <;> by_cases c2 : mp2 < 10 <;>
        simp only [c1, c2, if_true, if_false]
      · exact Or.inr ⟨trivial, Or.inl (by omega)⟩
      · exact Or.inl (by omega)
      · omega
      · exact Or.inr ⟨trivial, Or.inl (by omega)⟩
    · subst hm
      right
      refine ⟨rfl, Or.inr ⟨rfl, hd⟩⟩
  · have hYlt : Y1 < Y2 := by omega
    clear a1 a3 b1 b3 a7 b7 a4 b4 hY hYe
    by_cases c1 : mp1 < 10 <;> by_cases c2 : mp2 < 10 <;>
      simp only [c1, c2, if_true, if_false]
    · exact Or.inl (by omega)
    · exact Or.inl (by omega)
    · by_cases hY1 : Y1 + 1 = Y2
      · exact Or.inr ⟨by omega, Or.inl (by omega)⟩
      · exact Or.inl (by omega)
    · exact Or.inl (by omega)

end time

/-! ## Lemmas: the formatted time -/

namespace time

theorem digitChar_ascii (n : Nat) (h : n < 10) : (Nat.digitChar n).toNat < 128 := by
  rw [digitChar_toNat n h]; omega

theorem bytes_appendInt_two (x : Int) (h0 : 0 ≤ x) (h1 : x ≤ 99) :
    strings.bytes (appendInt x 2) = dec2 x.toNat := by
  have hx : ¬ x < 0 := by omega
  have hn : x.natAbs = x.toNat := by omega
  have hlt : x.toNat < 100 := by omega
  unfold appendInt
  rw [if_neg hx, hn, digits_two _ hlt, strings.bytes_ascii]
  · simp only [List.map_cons, List.map_nil, dec2]
    rw [digitChar_toNat _ (by omega), digitChar_toNat _ (by omega)]
  · intro c hc
    simp only [List.mem_cons, List.mem_singleton, List.not_mem_nil, or_false] at hc
    rcases hc with rfl | rfl
    · exact digitChar_ascii _ (by omega)
    · exact digitChar_ascii _ (by omega)

theorem bytes_appendInt_four (x : Int) (h0 : 0 ≤ x) (h1 : x ≤ 9999) :
    strings.bytes (appendInt x 4) = dec4 x.toNat := by
  have hx : ¬ x < 0 := by omega
  have hn : x.natAbs = x.toNat := by omega
  have hlt : x.toNat < 10000 := by omega
  unfold appendInt
  rw [if_neg hx, hn, digits_four _ hlt, strings.bytes_ascii]
  · simp only [List.map_cons, List.map_nil, dec4]
    rw [digitChar_toNat _ (by omega), digitChar_toNat _ (by omega),
      digitChar_toNat _ (by omega), digitChar_toNat _ (by omega)]
  · intro c hc
    simp only [List.mem_cons, List.mem_singleton, List.not_mem_nil, or_false] at hc
    rcases hc with rfl | rfl | rfl | rfl
    · exact digitChar_ascii _ (by omega)
    · exact digitChar_ascii _ (by omega)
    · exact digitChar_ascii _ (by omega)
    · exact digitChar_ascii _ (by omega)

/-- The bytes of a date in the years 0000 to 9999. -/
theorem bytes_formatDate (t : Time) (sep : String) (h0 : 0 ≤ t.Year) (h1 : t.Year ≤ 9999) :
    strings.bytes (t.formatDate sep) =
      dec4 t.Year.toNat ++ strings.bytes sep ++ dec2 t.Month.toNat ++ strings.bytes sep ++
        dec2 t.Day.toNat := by
  obtain ⟨m1, m2, d1, d2⟩ := civil_bounds (t.abs / 86400)
  unfold Time.formatDate
  unfold Time.Year at h0 h1
  rcases hc : civil (t.abs / 86400) with ⟨y, m, d⟩
  rw [hc] at h0 h1 m1 m2 d1 d2
  simp only at h0 h1 m1 m2 d1 d2 ⊢
  simp only [strings.bytes_append, Time.Year, Time.Month, Time.Day, hc]
  rw [bytes_appendInt_four y h0 h1, bytes_appendInt_two m (by omega) (by omega),
    bytes_appendInt_two d (by omega) (by omega)]

/-- The bytes of a time in RFC 3339 in the years 0000 to 9999: the date, the
letter `T`, the clock, then the fraction and the zone. -/
theorem bytes_formatRFC3339Nano (t : Time) (h0 : 0 ≤ t.Year) (h1 : t.Year ≤ 9999) :
    strings.bytes t.formatRFC3339Nano =
      t.dateBytes 45 ++ [84] ++ t.clockBytes ++
        (strings.bytes (fracNano t.nsec) ++ strings.bytes (zoneISO t.offset)) := by
  have s0 : 0 ≤ t.abs % 86400 := Int.emod_nonneg _ (by decide)
  have s1 : t.abs % 86400 < 86400 := Int.emod_lt_of_pos _ (by decide)
  unfold Time.formatRFC3339Nano
  simp only [strings.bytes_append]
  rw [bytes_formatDate t "-" h0 h1, bytes_appendInt_two _ (by omega) (by omega),
    bytes_appendInt_two _ (by omega) (by omega), bytes_appendInt_two _ (by omega) (by omega)]
  have e1 : strings.bytes "-" = [45] := by decide
  have e2 : strings.bytes "T" = [84] := by decide
  have e3 : strings.bytes ":" = [58] := by decide
  rw [e1, e2, e3]
  simp only [Time.dateBytes, Time.clockBytes, List.append_assoc]

end time

/-! ## Lemmas: the object key -/

namespace strings

theorem Split_ne_nil (s : List Nat) (sep : Nat) : Split s sep ≠ [] := by
  cases s with
  | nil => simp [Split]
  | cons b rest =>
    simp only [Split]
    split
    · simp
    · split <;> simp

theorem Split_of_not_mem (s : List Nat) (sep : Nat) (h : sep ∉ s) : Split s sep = [s] := by
  induction s with
  | nil => rfl
  | cons b rest ih =>
    simp only [List.mem_cons, not_or] at h
    have hb : ¬ b = sep := fun h1 => h.1 h1.symm
    simp only [Split, hb, if_false, ih h.2]

theorem Split_append (a rest : List Nat) (sep : Nat) (h : sep ∉ a) :
    Split (a ++ sep :: rest) sep = a :: Split rest sep := by
  induction a with
  | nil => simp [Split]
  | cons b a ih =>
    simp only [List.mem_cons, not_or] at h
    have hb : ¬ b = sep := fun h1 => h.1 h1.symm
    show Split (b :: (a ++ sep :: rest)) sep = (b :: a) :: Split rest sep
    simp only [Split, hb, if_false, ih h.2]

theorem Split_length (s : List Nat) (sep : Nat) : (Split s sep).length = s.count sep + 1 := by
  induction s with
  | nil => rfl
  | cons b rest ih =>
    simp only [Split]
    by_cases hb : b = sep
    · simp [hb, ih]
    · have hc : (b :: rest).count sep = rest.count sep := by
        rw [List.count_cons]
        simp [hb]
      rw [hc, ← ih]
      simp only [hb, if_false]
      cases hs : Split rest sep with
      | nil => exact absurd hs (Split_ne_nil rest sep)
      | cons p ps => rfl

/-- The parts of a split hold no separator, and joined by it they give the
string. -/
theorem Split_parts (s : List Nat) (sep : Nat) :
    (∀ p ∈ Split s sep, sep ∉ p) ∧ List.intercalate [sep] (Split s sep) = s := by
  induction s with
  | nil => simp [Split, List.intercalate]
  | cons b rest ih =>
    obtain ⟨ih1, ih2⟩ := ih
    simp only [Split]
    by_cases hb : b = sep
    · simp only [hb, if_true]
      refine ⟨?_, ?_⟩
      · intro p hp
        rcases List.mem_cons.mp hp with h | h
        · rw [h]; simp
        · exact ih1 p h
      · cases hs : Split rest sep with
        | nil => exact absurd hs (Split_ne_nil rest sep)
        | cons p ps =>
          rw [hs] at ih2
          simpa [List.intercalate] using ih2
    · simp only [hb, if_false]
      cases hs : Split rest sep with
      | nil => exact absurd hs (Split_ne_nil rest sep)
      | cons p ps =>
        rw [hs] at ih1 ih2
        refine ⟨?_, ?_⟩
        · intro q hq
          rcases List.mem_cons.mp hq with h | h
          · rw [h]
            simp only [List.mem_cons, not_or]
            exact ⟨fun h1 => hb h1.symm, ih1 p (List.mem_cons_self _ _)⟩
          · exact ih1 q (List.mem_cons_of_mem _ h)
        · rw [← ih2]
          cases ps with
          | nil => simp [List.intercalate]
          | cons p2 ps2 => simp [List.intercalate]

end strings

namespace uploader

theorem objectKey_three (domain mailbox receivedAt id p0 p1 p2 : List Nat)
    (hl : 10 ≤ receivedAt.length) (hs : strings.Split (receivedAt.take 10) 45 = [p0, p1, p2]) :
    objectKey domain mailbox receivedAt id =
      domain ++ [47] ++ mailbox ++ [47] ++ p0 ++ [47] ++ p1 ++ [47] ++ p2 ++ [47] ++ id ++
        strings.bytes ".eml" := by
  have hl1 : receivedAt.length ≥ 10 := hl
  unfold objectKey
  simp only [hl1, if_true, hs]
  rfl

theorem objectKey_other (domain mailbox receivedAt id : List Nat)
    (hs : (strings.Split (if receivedAt.length ≥ 10 then receivedAt.take 10
      else strings.bytes "unknown") 45).length ≠ 3) :
    objectKey domain mailbox receivedAt id =
      domain ++ [47] ++ mailbox ++ [47] ++ id ++ strings.bytes ".eml" := by
  unfold objectKey
  simp only [hs, if_false]

theorem dec2_digits (n : Nat) (h : n < 100) : ∀ b ∈ time.dec2 n, 48 ≤ b ∧ b ≤ 57 := by
  intro b hb
  simp only [time.dec2, List.mem_cons, List.mem_singleton, List.not_mem_nil, or_false] at hb
  rcases hb with rfl | rfl <;> omega

theorem dec4_digits (n : Nat) (h : n < 10000) : ∀ b ∈ time.dec4 n, 48 ≤ b ∧ b ≤ 57 := by
  intro b hb
  simp only [time.dec4, List.mem_cons, List.mem_singleton, List.not_mem_nil, or_false] at hb
  rcases hb with rfl | rfl | rfl | rfl <;> omega

/-- The key for a `received_at` that starts with a date. -/
theorem objectKey_of_date (domain mailbox id y m d rest : List Nat)
    (hy : y.length = 4) (hm : m.length = 2) (hd : d.length = 2)
    (hyd : ∀ b ∈ y, 48 ≤ b ∧ b ≤ 57) (hmd : ∀ b ∈ m, 48 ≤ b ∧ b ≤ 57)
    (hdd : ∀ b ∈ d, 48 ≤ b ∧ b ≤ 57) :
    objectKey domain mailbox (y ++ [45] ++ m ++ [45] ++ d ++ rest) id =
      domain ++ [47] ++ mailbox ++ [47] ++ y ++ [47] ++ m ++ [47] ++ d ++ [47] ++ id ++
        strings.bytes ".eml" := by
  have n1 : (45 : Nat) ∉ y := fun h => by have := hyd 45 h; omega
  have n2 : (45 : Nat) ∉ m := fun h => by have := hmd 45 h; omega
  have n3 : (45 : Nat) ∉ d := fun h => by have := hdd 45 h; omega
  have hlen : (y ++ [45] ++ m ++ [45] ++ d).length = 10 := by
    simp only [List.length_append, List.length_singleton, hy, hm, hd]
  apply objectKey_three
  · simp only [List.length_append, List.length_singleton, hy, hm, hd]
    omega
  · rw [List.take_left' hlen]
    have e : y ++ [45] ++ m ++ [45] ++ d = y ++ 45 :: (m ++ 45 :: d) := by simp
    rw [e, strings.Split_append _ _ _ n1, strings.Split_append _ _ _ n2,
      strings.Split_of_not_mem _ _ n3]

/-- The stamp of a time in the years 0000 to 9999 starts with its date. -/
theorem stamp_form (t : time.Time) (h0 : 0 ≤ t.Year) (h1 : t.Year ≤ 9999) :
    strings.bytes t.formatRFC3339Nano =
      time.dec4 t.Year.toNat ++ [45] ++ time.dec2 t.Month.toNat ++ [45] ++
        time.dec2 t.Day.toNat ++ ([84] ++ t.clockBytes ++
          (strings.bytes (time.fracNano t.nsec) ++ strings.bytes (time.zoneISO t.offset))) := by
  rw [time.bytes_formatRFC3339Nano t h0 h1]
  simp only [time.Time.dateBytes, List.append_assoc]

/-- The key for a `received_at` that is the stamp of a time in the years 0000 to
9999. -/
theorem objectKey_stamp (domain mailbox id : List Nat) (t : time.Time) (h0 : 0 ≤ t.Year)
    (h1 : t.Year ≤ 9999) :
    objectKey domain mailbox (strings.bytes t.formatRFC3339Nano) id =
      domain ++ [47] ++ mailbox ++ [47] ++ time.dec4 t.Year.toNat ++ [47] ++
        time.dec2 t.Month.toNat ++ [47] ++ time.dec2 t.Day.toNat ++ [47] ++ id ++
        strings.bytes ".eml" := by
  obtain ⟨m1, m2, d1, d2⟩ := time.civil_bounds (t.abs / 86400)
  rw [stamp_form t h0 h1]
  apply objectKey_of_date
  · rfl
  · rfl
  · rfl
  · exact dec4_digits _ (by omega)
  · apply dec2_digits
    have : t.Month ≤ 12 := m2
    omega
  · apply dec2_digits
    have : t.Day ≤ 31 := d2
    omega

/-- C22: for every `domain`, `mailbox` and `id` and every `received_at` of at least
ten bytes that starts with four digits, a hyphen, two digits, a hyphen and two
digits, `objectKey` returns `domain/mailbox/YYYY/MM/DD/id.eml`; and the
`received_at` of a time in the years 0000 to 9999, as `FS.Store` writes it (in UTC,
in the layout `time.RFC3339Nano`), is of this form, with the year, month and day of
the time in UTC. -/
theorem objectKey_date_components (domain mailbox id y m d rest : List Nat)
    (hy : y.length = 4) (hm : m.length = 2) (hd : d.length = 2)
    (hyd : ∀ b ∈ y, 48 ≤ b ∧ b ≤ 57) (hmd : ∀ b ∈ m, 48 ≤ b ∧ b ≤ 57)
    (hdd : ∀ b ∈ d, 48 ≤ b ∧ b ≤ 57) :
    objectKey domain mailbox (y ++ [45] ++ m ++ [45] ++ d ++ rest) id =
        domain ++ [47] ++ mailbox ++ [47] ++ y ++ [47] ++ m ++ [47] ++ d ++ [47] ++ id ++
          strings.bytes ".eml" ∧
      ∀ t : time.Time, 0 ≤ t.UTC.Year → t.UTC.Year ≤ 9999 →
        (∃ tail, strings.bytes t.UTC.formatRFC3339Nano =
          time.dec4 t.UTC.Year.toNat ++ [45] ++ time.dec2 t.UTC.Month.toNat ++ [45] ++
            time.dec2 t.UTC.Day.toNat ++ tail) ∧
        objectKey domain mailbox (strings.bytes t.UTC.formatRFC3339Nano) id =
          domain ++ [47] ++ mailbox ++ [47] ++ time.dec4 t.UTC.Year.toNat ++ [47] ++
            time.dec2 t.UTC.Month.toNat ++ [47] ++ time.dec2 t.UTC.Day.toNat ++ [47] ++ id ++
            strings.bytes ".eml" :=
  ⟨objectKey_of_date domain mailbox id y m d rest hy hm hd hyd hmd hdd, fun t h0 h1 =>
    ⟨⟨_, stamp_form t.UTC h0 h1⟩, objectKey_stamp domain mailbox id t.UTC h0 h1⟩⟩

/-- The key of the message of the integration test. -/
theorem objectKey_date_components_witness :
    objectKey (strings.bytes "example.com") (strings.bytes "inbound")
        (strings.bytes "2026" ++ [45] ++ strings.bytes "02" ++ [45] ++ strings.bytes "14" ++
          strings.bytes "T00:00:00Z") (strings.bytes "01KHCQ4Y000000000000000005") =
      strings.bytes "example.com" ++ [47] ++ strings.bytes "inbound" ++ [47] ++
        strings.bytes "2026" ++ [47] ++ strings.bytes "02" ++ [47] ++ strings.bytes "14" ++ [47] ++
        strings.bytes "01KHCQ4Y000000000000000005" ++ strings.bytes ".eml" :=
  (objectKey_date_components (strings.bytes "example.com") (strings.bytes "inbound")
    (strings.bytes "01KHCQ4Y000000000000000005") (strings.bytes "2026") (strings.bytes "02")
    (strings.bytes "14") (strings.bytes "T00:00:00Z") (by decide) (by decide) (by decide)
    (by decide) (by decide) (by decide)).1

/-- C23, amended: `objectKey` returns `domain/mailbox/id.eml` for every
`received_at` shorter than ten bytes, and for every longer one whose first ten bytes
hold a number of hyphens other than two; when they hold exactly two, it returns
`domain/mailbox/p0/p1/p2/id.eml` for the three parts `p0`, `p1` and `p2` between
the hyphens, whether or not they are the year, month and day of a date. -/
theorem objectKey_fallback (domain mailbox receivedAt id : List Nat) :
    (receivedAt.length < 10 →
        objectKey domain mailbox receivedAt id =
          domain ++ [47] ++ mailbox ++ [47] ++ id ++ strings.bytes ".eml") ∧
      (10 ≤ receivedAt.length → (receivedAt.take 10).count 45 ≠ 2 →
        objectKey domain mailbox receivedAt id =
          domain ++ [47] ++ mailbox ++ [47] ++ id ++ strings.bytes ".eml") ∧
      (10 ≤ receivedAt.length → (receivedAt.take 10).count 45 = 2 →
        ∃ p0 p1 p2, receivedAt.take 10 = p0 ++ [45] ++ p1 ++ [45] ++ p2 ∧
          45 ∉ p0 ∧ 45 ∉ p1 ∧ 45 ∉ p2 ∧
          objectKey domain mailbox receivedAt id =
            domain ++ [47] ++ mailbox ++ [47] ++ p0 ++ [47] ++ p1 ++ [47] ++ p2 ++ [47] ++ id ++
              strings.bytes ".eml") := by
  refine ⟨?_, ?_, ?_⟩
  · intro h
    apply objectKey_other
    have : ¬ receivedAt.length ≥ 10 := by omega
    rw [if_neg this]
    decide
  · intro h hc
    apply objectKey_other
    have : receivedAt.length ≥ 10 := h
    rw [if_pos this, strings.Split_length]
    omega
  · intro h hc
    have hlen := strings.Split_length (receivedAt.take 10) 45
    rw [hc] at hlen
    obtain ⟨hp, hj⟩ := strings.Split_parts (receivedAt.take 10) 45
    rcases hs : strings.Split (receivedAt.take 10) 45 with _ | ⟨p0, _ | ⟨p1, _ | ⟨p2, _ | ⟨p3, ps⟩⟩⟩⟩
    · rw [hs] at hlen; simp at hlen
    · rw [hs] at hlen; simp at hlen
    · rw [hs] at hlen; simp at hlen
    · rw [hs] at hp hj
      refine ⟨p0, p1, p2, ?_, hp p0 (by simp), hp p1 (by simp), hp p2 (by simp),
        objectKey_three domain mailbox receivedAt id p0 p1 p2 h hs⟩
      rw [← hj]
      simp [List.intercalate]
    · rw [hs] at hlen; simp at hlen

/-- A `received_at` shorter than ten bytes, and one that starts with a date. -/
theorem objectKey_fallback_witness :
    objectKey (strings.bytes "example.com") (strings.bytes "inbound") (strings.bytes "2026-02")
        (strings.bytes "01ABC") =
      strings.bytes "example.com/inbound/01ABC.eml" :=
  ((objectKey_fallback (strings.bytes "example.com") (strings.bytes "inbound")
    (strings.bytes "2026-02") (strings.bytes "01ABC")).1 (by decide)).trans (by decide)

/-- The claim C23 fails for a `received_at` whose first ten characters are not a
calendar date: for `2026-99-99T00:00:00Z` the key has the components `2026`, `99` and
`99`, and for `ab-cd-efgh` the components `ab`, `cd` and `efgh`. -/
theorem objectKey_takes_any_parts :
    objectKey (strings.bytes "example.com") (strings.bytes "inbound")
        (strings.bytes "2026-99-99T00:00:00Z") (strings.bytes "01ABC") =
      strings.bytes "example.com/inbound/2026/99/99/01ABC.eml" ∧
      objectKey (strings.bytes "example.com") (strings.bytes "inbound")
        (strings.bytes "ab-cd-efgh") (strings.bytes "01ABC") =
      strings.bytes "example.com/inbound/ab/cd/efgh/01ABC.eml" := by
  decide

end uploader

/-! ### The byte-wise order of time stamps -/

namespace strings

theorem lt_append_of_lt (a b x y : List Nat) (h : a < b) (hl : a.length = b.length) :
    a ++ x < b ++ y := by
  induction a generalizing b with
  | nil =>
    cases b with
    | nil => exact absurd h (by intro h; cases h)
    | cons c cs => simp at hl
  | cons c cs ih =>
    cases b with
    | nil => simp at hl
    | cons e es =>
      have hl2 : cs.length = es.length := by simpa using hl
      cases h with
      | rel hlt => exact List.Lex.rel hlt
      | cons h3 => exact List.Lex.cons (ih es h3 hl2)

theorem lt_append_left (a x y : List Nat) (h : x < y) : a ++ x < a ++ y := by
  induction a with
  | nil => exact h
  | cons c cs ih => exact List.Lex.cons ih

end strings

namespace time

theorem dec2_lt (n m : Nat) (h : n < m) (_hm : m < 100) : dec2 n < dec2 m := by
  unfold dec2
  by_cases h1 : n / 10 < m / 10
  · exact List.Lex.rel (by omega)
  · have e : n / 10 = m / 10 := by omega
    rw [e]
    exact List.Lex.cons (List.Lex.rel (by omega))

theorem dec4_lt (n m : Nat) (h : n < m) (hm : m < 10000) : dec4 n < dec4 m := by
  unfold dec4
  by_cases h1 : n / 1000 < m / 1000
  · exact List.Lex.rel (by omega)
  · have e1 : n / 1000 = m / 1000 := by omega
    rw [e1]
    refine List.Lex.cons ?_
    by_cases h2 : n / 100 % 10 < m / 100 % 10
    · exact List.Lex.rel (by omega)
    · have e2 : n / 100 % 10 = m / 100 % 10 := by omega
      rw [e2]
      refine List.Lex.cons ?_
      by_cases h3 : n / 10 % 10 < m / 10 % 10
      · exact List.Lex.rel (by omega)
      · have e3 : n / 10 % 10 = m / 10 % 10 := by omega
        rw [e3]
        exact List.Lex.cons (List.Lex.rel (by omega))

/-- The first nineteen bytes `YYYY-MM-DDThh:mm:ss` of a time stamp. -/
theorem stamp_nested (t : Time) :
    t.dateBytes 45 ++ [84] ++ t.clockBytes =
      dec4 t.Year.toNat ++ ([45] ++ (dec2 t.Month.toNat ++ ([45] ++ (dec2 t.Day.toNat ++ ([84] ++
        (dec2 (t.abs % 86400 / 3600).toNat ++ ([58] ++
          (dec2 (t.abs % 86400 % 3600 / 60).toNat ++ ([58] ++
            dec2 (t.abs % 86400 % 60).toNat))))))))) := by
  simp only [Time.dateBytes, Time.clockBytes, List.append_assoc]

theorem stamp_length (t : Time) : (t.dateBytes 45 ++ [84] ++ t.clockBytes).length = 19 := by
  simp only [Time.dateBytes, Time.clockBytes, dec4, dec2, List.length_append, List.length_cons,
    List.length_nil]

theorem dec2_length (n : Nat) : (dec2 n).length = 2 := rfl

theorem dec4_length (n : Nat) : (dec4 n).length = 4 := rfl

/-- The first nineteen bytes of the stamp grow with the second of the time line, for
the years 0000 to 9999. -/
theorem stamp_lt (t1 t2 : Time) (h : t1.abs < t2.abs) (h0 : 0 ≤ t1.Year) (h1 : t2.Year ≤ 9999) :
    t1.dateBytes 45 ++ [84] ++ t1.clockBytes < t2.dateBytes 45 ++ [84] ++ t2.clockBytes := by
  rw [stamp_nested, stamp_nested]
  obtain ⟨ma1, ma2, da1, da2⟩ := civil_bounds (t1.abs / 86400)
  obtain ⟨mb1, mb2, db1, db2⟩ := civil_bounds (t2.abs / 86400)
  have hday : t1.abs / 86400 < t2.abs / 86400 ∨
      (t1.abs / 86400 = t2.abs / 86400 ∧ t1.abs % 86400 < t2.abs % 86400) := by omega
  have s0 : 0 ≤ t1.abs % 86400 := Int.emod_nonneg _ (by decide)
  have s1 : t2.abs % 86400 < 86400 := Int.emod_lt_of_pos _ (by decide)
  have s2 : 0 ≤ t2.abs % 86400 := Int.emod_nonneg _ (by decide)
  have s3 : t1.abs % 86400 < 86400 := Int.emod_lt_of_pos _ (by decide)
  rcases hday with hd | ⟨hd, hs⟩
  · have hc := civil_lt _ _ hd
    change t1.Year < t2.Year ∨ (t1.Year = t2.Year ∧ (t1.Month < t2.Month ∨
      (t1.Month = t2.Month ∧ t1.Day < t2.Day))) at hc
    change 1 ≤ t1.Month at ma1
    change t1.Month ≤ 12 at ma2
    change 1 ≤ t1.Day at da1
    change t1.Day ≤ 31 at da2
    change 1 ≤ t2.Month at mb1
    change t2.Month ≤ 12 at mb2
    change 1 ≤ t2.Day at db1
    change t2.Day ≤ 31 at db2
    rcases hc with hy | ⟨hy, hm | ⟨hm, hdd⟩⟩
    · exact strings.lt_append_of_lt _ _ _ _ (dec4_lt _ _ (by omega) (by omega)) rfl
    · rw [hy]
      refine strings.lt_append_left _ _ _ (strings.lt_append_left _ _ _ ?_)
      exact strings.lt_append_of_lt _ _ _ _ (dec2_lt _ _ (by omega) (by omega)) rfl
    · rw [hy, hm]
      refine strings.lt_append_left _ _ _ (strings.lt_append_left _ _ _
        (strings.lt_append_left _ _ _ (strings.lt_append_left _ _ _ ?_)))
      exact strings.lt_append_of_lt _ _ _ _ (dec2_lt _ _ (by omega) (by omega)) rfl
  · have ey : t1.Year = t2.Year := by unfold Time.Year; rw [hd]
    have em : t1.Month = t2.Month := by unfold Time.Month; rw [hd]
    have ed : t1.Day = t2.Day := by unfold Time.Day; rw [hd]
    rw [ey, em, ed]
    refine strings.lt_append_left _ _ _ (strings.lt_append_left _ _ _
      (strings.lt_append_left _ _ _ (strings.lt_append_left _ _ _
        (strings.lt_append_left _ _ _ (strings.lt_append_left _ _ _ ?_)))))
    generalize t1.abs % 86400 = a at *
    generalize t2.abs % 86400 = b at *
    have hc : a / 3600 < b / 3600 ∨ (a / 3600 = b / 3600 ∧ (a % 3600 / 60 < b % 3600 / 60 ∨
        (a % 3600 / 60 = b % 3600 / 60 ∧ a % 60 < b % 60))) := by omega
    rcases hc with hh | ⟨hh, hm | ⟨hm, hss⟩⟩
    · exact strings.lt_append_of_lt _ _ _ _ (dec2_lt _ _ (by omega) (by omega)) rfl
    · rw [hh]
      refine strings.lt_append_left _ _ _ (strings.lt_append_left _ _ _ ?_)
      exact strings.lt_append_of_lt _ _ _ _ (dec2_lt _ _ (by omega) (by omega)) rfl
    · rw [hh, hm]
      refine strings.lt_append_left _ _ _ (strings.lt_append_left _ _ _
        (strings.lt_append_left _ _ _ (strings.lt_append_left _ _ _ ?_)))
      exact dec2_lt _ _ (by omega) (by omega)

/-- The dates of two times are equal exactly when their day numbers are. -/
theorem dateBytes_eq_iff (t1 t2 : Time) (sep : Nat) (h0 : 0 ≤ t1.Year) (h1 : t1.Year ≤ 9999)
    (u0 : 0 ≤ t2.Year) (u1 : t2.Year ≤ 9999) :
    t1.dateBytes sep = t2.dateBytes sep ↔ t1.abs / 86400 = t2.abs / 86400 := by
  constructor
  · intro h
    obtain ⟨ma1, ma2, da1, da2⟩ := civil_bounds (t1.abs / 86400)
    obtain ⟨mb1, mb2, db1, db2⟩ := civil_bounds (t2.abs / 86400)
    change 1 ≤ t1.Month at ma1
    change t1.Month ≤ 12 at ma2
    change 1 ≤ t1.Day at da1
    change t1.Day ≤ 31 at da2
    change 1 ≤ t2.Month at mb1
    change t2.Month ≤ 12 at mb2
    change 1 ≤ t2.Day at db1
    change t2.Day ≤ 31 at db2
    simp only [Time.dateBytes, dec4, dec2, List.cons_append, List.nil_append, List.cons.injEq,
      and_true] at h
    obtain ⟨y1, y2, y3, y4, -, m1, m2, -, d1, d2⟩ := h
    have ey : t1.Year = t2.Year := by omega
    have em : t1.Month = t2.Month := by omega
    have ed : t1.Day = t2.Day := by omega
    rcases lt_trichotomy (t1.abs / 86400) (t2.abs / 86400) with hlt | heq | hgt
    · have hc := civil_lt _ _ hlt
      change t1.Year < t2.Year ∨ (t1.Year = t2.Year ∧ (t1.Month < t2.Month ∨
        (t1.Month = t2.Month ∧ t1.Day < t2.Day))) at hc
      omega
    · exact heq
    · have hc := civil_lt _ _ hgt
      change t2.Year < t1.Year ∨ (t2.Year = t1.Year ∧ (t2.Month < t1.Month ∨
        (t2.Month = t1.Month ∧ t2.Day < t1.Day))) at hc
      omega
  · intro h
    unfold Time.dateBytes Time.Year Time.Month Time.Day
    rw [h]

end time

namespace time

/-- The year does not decrease along the time line. -/
theorem Year_mono (t1 t2 : Time) (h : t1.abs ≤ t2.abs) : t1.Year ≤ t2.Year := by
  have hd : t1.abs / 86400 ≤ t2.abs / 86400 := Int.ediv_le_ediv (by decide) h
  rcases lt_or_eq_of_le hd with hlt | heq
  · have hc := civil_lt _ _ hlt
    change t1.Year < t2.Year ∨ (t1.Year = t2.Year ∧ _) at hc
    omega
  · unfold Time.Year
    rw [heq]

/-- The stamps of two times in the years 0000 to 9999 that differ in the second are
in the order of the times. -/
theorem formatRFC3339Nano_lt (t1 t2 : Time) (h : t1.unix < t2.unix) (h0 : 0 ≤ t1.UTC.Year)
    (h1 : t2.UTC.Year ≤ 9999) :
    strings.bytes t1.UTC.formatRFC3339Nano < strings.bytes t2.UTC.formatRFC3339Nano := by
  have habs : t1.UTC.abs < t2.UTC.abs := by
    simp only [Time.abs, Time.UTC]
    omega
  have hy := Year_mono t1.UTC t2.UTC (le_of_lt habs)
  rw [bytes_formatRFC3339Nano t1.UTC h0 (by omega), bytes_formatRFC3339Nano t2.UTC (by omega) h1]
  exact strings.lt_append_of_lt _ _ _ _ (stamp_lt _ _ habs h0 h1)
    ((stamp_length _).trans (stamp_length _).symm)

end time

namespace spool

/-- C29, amended: the stored `received_at` sorts chronologically to the second. For
two successful calls of `FS.Store` whose timestamps lie in the years 0000 to 9999
of UTC and differ in the Unix second, the `received_at` strings of the two metadata
files are in the byte-wise order of the timestamps. (Within one second the order of
the strings is not that of the nanoseconds.) -/
theorem Store_received_at_sorted (s1 s2 : FS) (env1 env2 : Env) (fs1 fs2 : os.Files)
    (req1 req2 : StoreRequest) (r1 r2 : io.Reader) (res1 res2 : StoreResult)
    (h1 : (s1.Store env1 fs1 req1 r1).ret = Return.ok res1)
    (h2 : (s2.Store env2 fs2 req2 r2).ret = Return.ok res2)
    (y0 : 0 ≤ (storeTime s1 req1).UTC.Year) (y1 : (storeTime s2 req2).UTC.Year ≤ 9999)
    (hlt : (storeTime s1 req1).unix < (storeTime s2 req2).unix) :
    ∃ m1 m2 : os.Meta,
      (s1.Store env1 fs1 req1 r1).world.files res1.MetaPath = some (os.File.json m1) ∧
      (s2.Store env2 fs2 req2 r2).world.files res2.MetaPath = some (os.File.json m2) ∧
      strings.bytes m1.received_at < strings.bytes m2.received_at := by
  obtain ⟨-, -, -, -, m1, f1, -, -, e1, -⟩ := Store_ok_inv s1 env1 fs1 req1 r1 res1 h1
  obtain ⟨-, -, -, -, m2, f2, -, -, e2, -⟩ := Store_ok_inv s2 env2 fs2 req2 r2 res2 h2
  refine ⟨m1, m2, f1, f2, ?_⟩
  rw [e1, e2]
  exact time.formatRFC3339Nano_lt _ _ hlt y0 y1

/-- Two messages stored one second apart. -/
theorem Store_received_at_sorted_witness :
    ∃ m1 m2 : os.Meta,
      (sampleFS.Store sampleEnv noFiles sampleRequest sampleReader).world.files
          "/var/spool/mail/incoming/2026/02/14/01KHCQ4Y000000000000000005.json" =
        some (os.File.json m1) ∧
      (sampleFS.Store sampleEnv noFiles
          { sampleRequest with ReceivedAt := ⟨1771027201, 0, 0⟩ } sampleReader).world.files
          "/var/spool/mail/incoming/2026/02/14/01KHCQ4YZ80000000000000005.json" =
        some (os.File.json m2) ∧
      strings.bytes m1.received_at < strings.bytes m2.received_at :=
  Store_received_at_sorted sampleFS sampleFS sampleEnv sampleEnv noFiles noFiles sampleRequest
    { sampleRequest with ReceivedAt := ⟨1771027201, 0, 0⟩ } sampleReader sampleReader
    { ID := "01KHCQ4Y000000000000000005", TraceID := "01KHCQ4Y000000000000000005",
      Bytes := 6, SHA256 := "06ab",
      EMLPath := "/var/spool/mail/incoming/2026/02/14/01KHCQ4Y000000000000000005.eml",
      MetaPath := "/var/spool/mail/incoming/2026/02/14/01KHCQ4Y000000000000000005.json" }
    { ID := "01KHCQ4YZ80000000000000005", TraceID := "01KHCQ4YZ80000000000000005",
      Bytes := 6, SHA256 := "06ab",
      EMLPath := "/var/spool/mail/incoming/2026/02/14/01KHCQ4YZ80000000000000005.eml",
      MetaPath := "/var/spool/mail/incoming/2026/02/14/01KHCQ4YZ80000000000000005.json" }
    (by decide) (by decide) (by decide) (by decide) (by decide)

/-- The claim C29 fails within a second: of two messages stored at
2026-02-14T00:00:00Z and half a second later, the first has the `received_at`
`2026-02-14T00:00:00Z` and the second `2026-02-14T00:00:00.5Z`, which is the smaller
string, since the byte `.` is below the byte `Z`. -/
theorem Store_received_at_unsorted :
    (storeTime sampleFS sampleRequest).unix =
        (storeTime sampleFS { sampleRequest with ReceivedAt := ⟨1771027200, 500000000, 0⟩ }).unix ∧
      (storeTime sampleFS sampleRequest).nsec <
        (storeTime sampleFS { sampleRequest with ReceivedAt := ⟨1771027200, 500000000, 0⟩ }).nsec ∧
      ∃ m1 m2 : os.Meta,
        (sampleFS.Store sampleEnv noFiles sampleRequest sampleReader).world.files
            "/var/spool/mail/incoming/2026/02/14/01KHCQ4Y000000000000000005.json" =
          some (os.File.json m1) ∧
        (sampleFS.Store sampleEnv noFiles
            { sampleRequest with ReceivedAt := ⟨1771027200, 500000000, 0⟩ }
            sampleReader).world.files
            "/var/spool/mail/incoming/2026/02/14/01KHCQ4YFM0000000000000005.json" =
          some (os.File.json m2) ∧
        m1.received_at = "2026-02-14T00:00:00Z" ∧ m2.received_at = "2026-02-14T00:00:00.5Z" ∧
        strings.bytes m2.received_at < strings.bytes m1.received_at :=
  ⟨by decide, by decide,
    { id := "01KHCQ4Y000000000000000005", trace_id := "01KHCQ4Y000000000000000005",
      received_at := "2026-02-14T00:00:00Z", remote_ip := "1.2.3.4",
      mail_from := "from@example.com", rcpt_to := ["to@example.com"], domain := "example.com",
      mailbox := "inbound", bytes := 6, sha256 := "06ab" },
    { id := "01KHCQ4YFM0000000000000005", trace_id := "01KHCQ4YFM0000000000000005",
      received_at := "2026-02-14T00:00:00.5Z", remote_ip := "1.2.3.4",
      mail_from := "from@example.com", rcpt_to := ["to@example.com"], domain := "example.com",
      mailbox := "inbound", bytes := 6, sha256 := "06ab" },
    by decide, by decide, rfl, rfl, by decide⟩

/-- C30, amended: the spool date directory holds the date of the timestamp in its
own time zone and the metadata the date in UTC. For every successful `FS.Store`
whose timestamp lies in the years 0000 to 9999 both in its zone and in UTC, the
files are written under `incoming/YYYY/MM/DD` for the date of the timestamp in its
zone, the first 10 bytes of `received_at` are the date `YYYY-MM-DD` in UTC, which
are the date components of `objectKey`, and the two dates are equal exactly when the
day of the timestamp in its zone is its day in UTC, as it is for a timestamp in
UTC. -/
theorem Store_date_directory (s : FS) (env : Env) (fs : os.Files) (req : StoreRequest)
    (r : io.Reader) (res : StoreResult) (h : (s.Store env fs req r).ret = Return.ok res)
    (h0 : 0 ≤ (storeTime s req).Year) (h1 : (storeTime s req).Year ≤ 9999)
    (u0 : 0 ≤ (storeTime s req).UTC.Year) (u1 : (storeTime s req).UTC.Year ≤ 9999) :
    res.EMLPath = filepath.Join
        [filepath.Join [s.BaseDir, "incoming", (storeTime s req).formatDate "/"],
          res.ID ++ ".eml"] ∧
      res.MetaPath = filepath.Join
        [filepath.Join [s.BaseDir, "incoming", (storeTime s req).formatDate "/"],
          res.ID ++ ".json"] ∧
      strings.bytes ((storeTime s req).formatDate "/") = (storeTime s req).dateBytes 47 ∧
      (∃ m : os.Meta, (s.Store env fs req r).world.files res.MetaPath = some (os.File.json m) ∧
        (strings.bytes m.received_at).take 10 = (storeTime s req).UTC.dateBytes 45 ∧
        ∀ domain mailbox id : List Nat,
          uploader.objectKey domain mailbox (strings.bytes m.received_at) id =
            domain ++ [47] ++ mailbox ++ [47] ++ (storeTime s req).UTC.dateBytes 47 ++ [47] ++ id ++
              strings.bytes ".eml") ∧
      ((storeTime s req).dateBytes 47 = (storeTime s req).UTC.dateBytes 47 ↔
        ((storeTime s req).unix + (storeTime s req).offset) / 86400 =
          (storeTime s req).unix / 86400) ∧
      ((storeTime s req).offset = 0 →
        (storeTime s req).dateBytes 47 = (storeTime s req).UTC.dateBytes 47) := by
  obtain ⟨-, -, p1, p2, m, f, -, -, e, -⟩ := Store_ok_inv s env fs req r res h
  have hiff := time.dateBytes_eq_iff (storeTime s req) (storeTime s req).UTC 47 h0 h1 u0 u1
  have habs : (storeTime s req).UTC.abs = (storeTime s req).unix := by
    simp only [time.Time.abs, time.Time.UTC, add_zero]
  rw [habs] at hiff
  have hb := time.bytes_formatRFC3339Nano (storeTime s req).UTC u0 u1
  refine ⟨p1, p2, ?_, ⟨m, f, ?_, ?_⟩, hiff, ?_⟩
  · rw [time.bytes_formatDate _ _ h0 h1]
    rfl
  · rw [e, hb, List.append_assoc, List.append_assoc]
    exact List.take_left' (by simp [time.Time.dateBytes, time.dec4, time.dec2])
  · intro domain mailbox id
    rw [e]
    have := uploader.objectKey_stamp domain mailbox id (storeTime s req).UTC u0 u1
    rw [this]
    simp only [time.Time.dateBytes, List.append_assoc]
  · intro h
    apply hiff.2
    show ((storeTime s req).unix + (storeTime s req).offset) / 86400 = _
    rw [h, add_zero]

/-- The message of `TestFSStore_WritesEMLAndMeta`, stored with a timestamp in UTC:
the directory and the metadata hold the same date. -/
theorem Store_date_directory_witness :
    (sampleFS.Store sampleEnv noFiles sampleRequest sampleReader).ret =
        Return.ok
          { ID := "01KHCQ4Y000000000000000005", TraceID := "01KHCQ4Y000000000000000005",
            Bytes := 6, SHA256 := "06ab",
            EMLPath := "/var/spool/mail/incoming/2026/02/14/01KHCQ4Y000000000000000005.eml",
            MetaPath := "/var/spool/mail/incoming/2026/02/14/01KHCQ4Y000000000000000005.json" } ∧
      (storeTime sampleFS sampleRequest).dateBytes 47 =
        (storeTime sampleFS sampleRequest).UTC.dateBytes 47 :=
  ⟨by decide,
    (Store_date_directory sampleFS sampleEnv noFiles sampleRequest sampleReader
      { ID := "01KHCQ4Y000000000000000005", TraceID := "01KHCQ4Y000000000000000005",
        Bytes := 6, SHA256 := "06ab",
        EMLPath := "/var/spool/mail/incoming/2026/02/14/01KHCQ4Y000000000000000005.eml",
        MetaPath := "/var/spool/mail/incoming/2026/02/14/01KHCQ4Y000000000000000005.json" }
      (by decide) (by decide) (by decide) (by decide) (by decide)).2.2.2.2.2 (by decide)⟩

/-- The claim C30 fails for a timestamp that is not in UTC: a message received at
23:30 on 14 February 2026 in the zone `-05:00`, which is 04:30 on 15 February in
UTC, is written under `incoming/2026/02/14`, its `received_at` is
`2026-02-15T04:30:00Z`, and its object key has the components `2026/02/15`. -/
theorem Store_date_directory_differs :
    (sampleFS.Store sampleEnv noFiles { sampleRequest with ReceivedAt := ⟨1771129800, 0, -18000⟩ }
        sampleReader).ret =
        Return.ok
          { ID := "01KHFS01A00000000000000005", TraceID := "01KHFS01A00000000000000005",
            Bytes := 6, SHA256 := "06ab",
            EMLPath := "/var/spool/mail/incoming/2026/02/14/01KHFS01A00000000000000005.eml",
            MetaPath := "/var/spool/mail/incoming/2026/02/14/01KHFS01A00000000000000005.json" } ∧
      ∃ m : os.Meta,
        (sampleFS.Store sampleEnv noFiles
            { sampleRequest with ReceivedAt := ⟨1771129800, 0, -18000⟩ } sampleReader).world.files
            "/var/spool/mail/incoming/2026/02/14/01KHFS01A00000000000000005.json" =
          some (os.File.json m) ∧
        m.received_at = "2026-02-15T04:30:00Z" ∧
        uploader.objectKey (strings.bytes "example.com") (strings.bytes "inbound")
            (strings.bytes m.received_at) (strings.bytes "01KHFS01A00000000000000005") =
          strings.bytes "example.com/inbound/2026/02/15/01KHFS01A00000000000000005.eml" :=
  ⟨by decide,
    { id := "01KHFS01A00000000000000005", trace_id := "01KHFS01A00000000000000005",
      received_at := "2026-02-15T04:30:00Z", remote_ip := "1.2.3.4",
      mail_from := "from@example.com", rcpt_to := ["to@example.com"], domain := "example.com",
      mailbox := "inbound", bytes := 6, sha256 := "06ab" },
    by decide, rfl, by decide⟩

end spool

/-! ### Directory trees -/

namespace fs

namespace Tree

theorem lookup_of_mem (t : Tree) (hd : (t.map Prod.fst).Nodup) (p : String) (n : Node)
    (h : (p, n) ∈ t) : Tree.lookup t p = some n := by
  induction t with
  | nil => cases h
  | cons e t ih =>
    obtain ⟨q, m⟩ := e
    simp only [List.map_cons, List.nodup_cons] at hd
    rcases List.mem_cons.1 h with h1 | h1
    · cases h1
      simp only [lookup, if_true]
    · have hne : q ≠ p := by
        intro hq
        apply hd.1
        rw [hq]
        exact List.mem_map_of_mem Prod.fst h1
      simp only [lookup, if_neg hne]
      exact ih hd.2 h1

theorem mem_of_lookup (t : Tree) (p : String) (n : Node) (h : Tree.lookup t p = some n) :
    (p, n) ∈ t := by
  induction t with
  | nil => cases h
  | cons e t ih =>
    obtain ⟨q, m⟩ := e
    by_cases hq : q = p
    · simp only [lookup, if_pos hq] at h
      cases h
      rw [hq]
      exact List.mem_cons_self _ _
    · simp only [lookup, if_neg hq] at h
      exact List.mem_cons_of_mem _ (ih h)

theorem lookup_cons (x : String) (m : Node) (t : Tree) (q : String) :
    Tree.lookup ((x, m) :: t) q = if x = q then some m else Tree.lookup t q := rfl

theorem store_cons (x : String) (m : Node) (t : Tree) (p : String) (n : Node) :
    Tree.store ((x, m) :: t) p n = (if x = p then (p, n) else (x, m)) :: Tree.store t p n := rfl

theorem remove_cons (x : String) (m : Node) (t : Tree) (p : String) :
    Tree.remove ((x, m) :: t) p = if x = p then Tree.remove t p else (x, m) :: Tree.remove t p := by
  by_cases hx : x = p
  · simp [Tree.remove, hx]
  · simp [Tree.remove, hx]

theorem insert_cons (x : String) (m : Node) (t : Tree) (e : String × Node) :
    Tree.insert ((x, m) :: t) e =
      if walkKey e.1 < walkKey x then e :: (x, m) :: t else (x, m) :: Tree.insert t e := rfl

theorem lookup_store (t : Tree) (p : String) (n : Node) (q : String) :
    Tree.lookup (Tree.store t p n) q =
      if q = p then (Tree.lookup t p).map (fun _ => n) else Tree.lookup t q := by
  induction t with
  | nil => simp [Tree.store, Tree.lookup]
  | cons e t ih =>
    obtain ⟨x, m⟩ := e
    rw [store_cons]
    by_cases hx : x = p
    · subst hx
      rw [if_pos rfl, lookup_cons, lookup_cons, lookup_cons, ih]
      by_cases hq : q = x
      · subst hq
        simp
      · have hxq : ¬ x = q := fun h => hq h.symm
        simp [hq, hxq]
    · rw [if_neg hx, lookup_cons, lookup_cons, lookup_cons, ih, if_neg hx]
      by_cases hq : q = p
      · subst hq
        simp [hx]
      · simp [hq]

theorem lookup_remove (t : Tree) (p q : String) :
    Tree.lookup (Tree.remove t p) q = if q = p then none else Tree.lookup t q := by
  induction t with
  | nil => simp [Tree.remove, Tree.lookup]
  | cons e t ih =>
    obtain ⟨x, m⟩ := e
    rw [remove_cons]
    by_cases hx : x = p
    · subst hx
      rw [if_pos rfl, ih, lookup_cons]
      by_cases hq : q = x
      · simp [hq]
      · have hxq : ¬ x = q := fun h => hq h.symm
        simp [hq, hxq]
    · rw [if_neg hx, lookup_cons, lookup_cons, ih]
      by_cases hxq : x = q
      · subst hxq
        simp [hx]
      · simp [hxq]

theorem lookup_insert (t : Tree) (e : String × Node) (q : String)
    (h : Tree.lookup t e.1 = none) :
    Tree.lookup (Tree.insert t e) q = if q = e.1 then some e.2 else Tree.lookup t q := by
  induction t with
  | nil =>
    obtain ⟨y, k⟩ := e
    by_cases hq : q = y
    · subst hq
      simp [Tree.insert, Tree.lookup]
    · have : ¬ y = q := fun h => hq h.symm
      simp [Tree.insert, Tree.lookup, hq, this]
  | cons a t ih =>
    obtain ⟨x, m⟩ := a
    obtain ⟨y, k⟩ := e
    rw [lookup_cons] at h
    have hx : ¬ x = y := by
      intro hx
      rw [if_pos hx] at h
      cases h
    rw [if_neg hx] at h
    rw [insert_cons]
    by_cases hlt : walkKey y < walkKey x
    · rw [if_pos hlt, lookup_cons, lookup_cons]
      by_cases hq : q = y
      · subst hq
        simp
      · have : ¬ y = q := fun h => hq h.symm
        simp [hq, this]
    · rw [if_neg hlt, lookup_cons, lookup_cons, ih h]
      by_cases hxq : x = q
      · subst hxq
        simp [hx]
      · simp [hxq]

end Tree

end fs

/-! ### Suffixes of paths -/

namespace strings

theorem HasSuffix_append (s suffix : String) : HasSuffix (s ++ suffix) suffix = true := by
  simp only [HasSuffix, String.data_append, decide_eq_true_eq]
  exact List.suffix_append _ _

theorem HasSuffix_exclusive (s a b : String) (h : a.data.length ≤ b.data.length)
    (hab : ¬ a.data <:+ b.data) (hb : HasSuffix s b = true) : HasSuffix s a = false := by
  simp only [HasSuffix, decide_eq_true_eq] at hb
  simp only [HasSuffix, decide_eq_false_iff_not]
  intro ha
  exact hab (List.suffix_of_suffix_length_le ha hb h)

theorem TrimSuffix_append (s suffix : String) (h : HasSuffix s suffix = true) :
    TrimSuffix s suffix ++ suffix = s := by
  simp only [HasSuffix, decide_eq_true_eq] at h
  obtain ⟨pre, hpre⟩ := h
  have hs : HasSuffix s suffix = true := by
    simp only [HasSuffix, decide_eq_true_eq]
    exact ⟨pre, hpre⟩
  apply String.ext
  simp only [TrimSuffix, hs, if_true, String.data_append]
  rw [← hpre]
  simp

end strings

/-! ### The indexer -/

namespace indexer

/-- The two upserts of the callback for one metadata file. -/
theorem visit_ok (env : Env) (t : fs.Tree) (r : Run) (p : String) (b : List Nat) (m : meta)
    (hf : env.faults = Faults.none) (hs : strings.HasSuffix p ".json" = true)
    (hr : fs.Tree.lookup t p = some (fs.Node.file b)) (hm : env.unmarshal b = some m) :
    visit env t r p (fs.Node.file b) =
      Step.next { scanned := r.scanned + 1, indexed := r.indexed + 1,
                  db := (r.db.UpsertMessage (messageRow env p m)).UpsertEvent (eventRow env p m) } := by
  simp only [visit, hf, Faults.none, fs.Node.IsDir, hs, Bool.false_eq_true, if_false, Bool.not_true,
    fs.Tree.ReadFile, hr, hm]

theorem visit_other (env : Env) (t : fs.Tree) (r : Run) (p : String) (b : List Nat)
    (hf : env.faults = Faults.none) (hs : strings.HasSuffix p ".json" = false) :
    visit env t r p (fs.Node.file b) = Step.next r := by
  simp only [visit, hf, Faults.none, fs.Node.IsDir, hs, Bool.false_eq_true, if_false,
    Bool.not_false, if_true]

theorem visit_directory (env : Env) (t : fs.Tree) (r : Run) (p : String)
    (hf : env.faults = Faults.none) : visit env t r p fs.Node.dir = Step.next r := by
  simp only [visit, hf, Faults.none, fs.Node.IsDir, if_true]

theorem upserts_cons (env : Env) (db : index.DB) (pm : String × meta) (ms : List (String × meta)) :
    upserts env db (pm :: ms) =
      upserts env ((db.UpsertMessage (messageRow env pm.1 pm.2)).UpsertEvent
        (eventRow env pm.1 pm.2)) ms := rfl

/-- The walk over a part of a spool of parseable metadata files, without failures:
it returns nil after the upserts for every metadata file of the part. -/
theorem walk_ok (env : Env) (t : fs.Tree) (hf : env.faults = Faults.none) (hp : Parseable env t)
    (rest : fs.Tree) (hsub : ∀ e ∈ rest, e ∈ t) (r : Run) :
    walk env t rest r =
      Step.next { scanned := r.scanned + (metas env rest).length,
                  indexed := r.indexed + (metas env rest).length,
                  db := upserts env r.db (metas env rest) } := by
  induction rest generalizing r with
  | nil =>
    simp only [walk, metas, List.length_nil, Nat.cast_zero, add_zero, upserts, List.foldl_nil]
  | cons e rest ih =>
    obtain ⟨p, d⟩ := e
    have hsub1 : ∀ e ∈ rest, e ∈ t := fun e he => hsub e (List.mem_cons_of_mem _ he)
    cases d with
    | dir =>
      simp only [walk, visit_directory env t r p hf, metas]
      exact ih hsub1 r
    | file b =>
      cases hs : strings.HasSuffix p ".json" with
      | false =>
        simp only [walk, visit_other env t r p b hf hs, metas, hs, Bool.false_eq_true, if_false]
        exact ih hsub1 r
      | true =>
        have hmem : (p, fs.Node.file b) ∈ t := hsub _ (List.mem_cons_self _ _)
        have hr := fs.Tree.lookup_of_mem t hp.1 p _ hmem
        have hsome := hp.2 p b hmem hs
        cases hm : env.unmarshal b with
        | none =>
          rw [hm] at hsome
          cases hsome
        | some m =>
          simp only [walk, visit_ok env t r p b m hf hs hr hm, metas, hs, if_true, hm]
          rw [ih hsub1, upserts_cons]
          simp only [List.length_cons, Nat.cast_add, Nat.cast_one]
          congr 1
          congr 1 <;> omega

theorem upserts_messages (env : Env) (ms : List (String × meta)) (db : index.DB) (id : String) :
    (upserts env db ms).messages id =
      match lastMessage env ms id with
      | some r => some r
      | none => db.messages id := by
  induction ms generalizing db with
  | nil => rfl
  | cons pm ms ih =>
    obtain ⟨p, m⟩ := pm
    rw [upserts_cons, ih]
    simp only [lastMessage]
    cases lastMessage env ms id with
    | some r => rfl
    | none =>
      simp only [index.DB.UpsertEvent, index.DB.UpsertMessage, messageRow]
      by_cases h : id = m.ID
      · simp only [if_pos h]
      · simp only [if_neg h]

theorem upserts_events (env : Env) (ms : List (String × meta)) (db : index.DB) (key : String) :
    (upserts env db ms).events key =
      match lastEvent env ms key with
      | some r => some r
      | none => db.events key := by
  induction ms generalizing db with
  | nil => rfl
  | cons pm ms ih =>
    obtain ⟨p, m⟩ := pm
    rw [upserts_cons, ih]
    simp only [lastEvent]
    cases lastEvent env ms key with
    | some r => rfl
    | none =>
      simp only [index.DB.UpsertEvent, index.DB.UpsertMessage, eventRow]
      by_cases h : key = "ingest.received:" ++ m.ID
      · simp only [if_pos h]
      · simp only [if_neg h]

/-- The upserts for a list of metadata, done again, change nothing. -/
theorem upserts_idem (env : Env) (ms : List (String × meta)) (db : index.DB) :
    upserts env (upserts env db ms) ms = upserts env db ms := by
  have hm : (upserts env (upserts env db ms) ms).messages = (upserts env db ms).messages := by
    funext id
    rw [upserts_messages env ms (upserts env db ms), upserts_messages env ms db]
    cases lastMessage env ms id <;> rfl
  have he : (upserts env (upserts env db ms) ms).events = (upserts env db ms).events := by
    funext key
    rw [upserts_events env ms (upserts env db ms), upserts_events env ms db]
    cases lastEvent env ms key <;> rfl
  cases h1 : upserts env (upserts env db ms) ms with
  | mk a b =>
    cases h2 : upserts env db ms with
    | mk c d =>
      rw [h1, h2] at hm he
      simp only at hm he
      rw [hm, he]

theorem lastMessage_of_mem (env : Env) (ms : List (String × meta)) (p : String) (m : meta)
    (h : (p, m) ∈ ms) :
    ∃ p1 m1, (p1, m1) ∈ ms ∧ m1.ID = m.ID ∧
      lastMessage env ms m.ID = some (messageRow env p1 m1) := by
  induction ms with
  | nil => cases h
  | cons pm ms ih =>
    obtain ⟨q, k⟩ := pm
    simp only [lastMessage]
    cases hl : lastMessage env ms m.ID with
    | some r =>
      have hex : ∃ p1 m1, (p1, m1) ∈ ms ∧ m1.ID = m.ID ∧ r = messageRow env p1 m1 := by
        clear ih h
        induction ms with
        | nil => cases hl
        | cons pm ms ih2 =>
          obtain ⟨q2, k2⟩ := pm
          simp only [lastMessage] at hl
          cases hl2 : lastMessage env ms m.ID with
          | some r2 =>
            rw [hl2] at hl
            cases hl
            obtain ⟨p1, m1, a1, a2, a3⟩ := ih2 hl2
            exact ⟨p1, m1, List.mem_cons_of_mem _ a1, a2, a3⟩
          | none =>
            rw [hl2] at hl
            by_cases hid : m.ID = k2.ID
            · simp only [if_pos hid] at hl
              cases hl
              exact ⟨q2, k2, List.mem_cons_self _ _, hid.symm, rfl⟩
            · simp only [if_neg hid] at hl
              cases hl
      obtain ⟨p1, m1, a1, a2, a3⟩ := hex
      exact ⟨p1, m1, List.mem_cons_of_mem _ a1, a2, by rw [a3]⟩
    | none =>
      rcases List.mem_cons.1 h with h1 | h1
      · cases h1
        exact ⟨p, m, List.mem_cons_self _ _, rfl, by simp only [if_true]⟩
      · obtain ⟨p1, m1, a1, a2, a3⟩ := ih h1
        rw [hl] at a3
        cases a3

theorem append_left_cancel (a b c : String) (h : a ++ b = a ++ c) : b = c := by
  apply String.ext
  have := congrArg String.data h
  simpa only [String.data_append, List.append_cancel_left_eq] using this

theorem lastEvent_of_mem (env : Env) (ms : List (String × meta)) (p : String) (m : meta)
    (h : (p, m) ∈ ms) :
    ∃ p1 m1, (p1, m1) ∈ ms ∧ m1.ID = m.ID ∧
      lastEvent env ms ("ingest.received:" ++ m.ID) = some (eventRow env p1 m1) := by
  induction ms with
  | nil => cases h
  | cons pm ms ih =>
    obtain ⟨q, k⟩ := pm
    simp only [lastEvent]
    cases hl : lastEvent env ms ("ingest.received:" ++ m.ID) with
    | some r =>
      have hex : ∃ p1 m1, (p1, m1) ∈ ms ∧ m1.ID = m.ID ∧ r = eventRow env p1 m1 := by
        clear ih h
        induction ms with
        | nil => cases hl
        | cons pm ms ih2 =>
          obtain ⟨q2, k2⟩ := pm
          simp only [lastEvent] at hl
          cases hl2 : lastEvent env ms ("ingest.received:" ++ m.ID) with
          | some r2 =>
            rw [hl2] at hl
            cases hl
            obtain ⟨p1, m1, a1, a2, a3⟩ := ih2 hl2
            exact ⟨p1, m1, List.mem_cons_of_mem _ a1, a2, a3⟩
          | none =>
            rw [hl2] at hl
            by_cases hid : "ingest.received:" ++ m.ID = "ingest.received:" ++ k2.ID
            · simp only [if_pos hid] at hl
              cases hl
              exact ⟨q2, k2, List.mem_cons_self _ _, (append_left_cancel _ _ _ hid).symm, rfl⟩
            · simp only [if_neg hid] at hl
              cases hl
      obtain ⟨p1, m1, a1, a2, a3⟩ := hex
      exact ⟨p1, m1, List.mem_cons_of_mem _ a1, a2, by rw [a3]⟩
    | none =>
      rcases List.mem_cons.1 h with h1 | h1
      · cases h1
        exact ⟨p, m, List.mem_cons_self _ _, rfl, by simp only [if_true]⟩
      · obtain ⟨p1, m1, a1, a2, a3⟩ := ih h1
        rw [hl] at a3
        cases a3

theorem lastMessage_none (env : Env) (ms : List (String × meta)) (id : String)
    (h : ∀ pm ∈ ms, pm.2.ID ≠ id) : lastMessage env ms id = none := by
  induction ms with
  | nil => rfl
  | cons pm ms ih =>
    obtain ⟨q, k⟩ := pm
    have hk : ¬ id = k.ID := fun e => h (q, k) (List.mem_cons_self _ _) e.symm
    simp only [lastMessage, ih (fun pm hpm => h pm (List.mem_cons_of_mem _ hpm)), if_neg hk]

theorem mem_metas (env : Env) (t : fs.Tree) (p : String) (b : List Nat) (m : meta)
    (h : (p, fs.Node.file b) ∈ t) (hs : strings.HasSuffix p ".json" = true)
    (hm : env.unmarshal b = some m) : (p, m) ∈ metas env t := by
  induction t with
  | nil => cases h
  | cons e t ih =>
    obtain ⟨q, d⟩ := e
    rcases List.mem_cons.1 h with h1 | h1
    · cases h1
      simp only [metas, hs, if_true, hm]
      exact List.mem_cons_self _ _
    · have := ih h1
      cases d with
      | dir => exact this
      | file c =>
        simp only [metas]
        split
        · split
          · exact List.mem_cons_of_mem _ this
          · exact this
        · exact this

/-- One run over a spool of parseable metadata files, without failures. -/
theorem RunOnce_ok (ix : Indexer) (env : Env) (t : fs.Tree) (db : index.DB)
    (hf : env.faults = Faults.none) (hp : Parseable env t) :
    (ix.RunOnce env (some t) db).err = none ∧
      (ix.RunOnce env (some t) db).scanned = (metas env t).length ∧
      (ix.RunOnce env (some t) db).indexed = (metas env t).length ∧
      (ix.RunOnce env (some t) db).db = upserts env db (metas env t) := by
  have hw := walk_ok env t hf hp t (fun e he => he) { scanned := 0, indexed := 0, db := db }
  have hroot : walk env t ((filepath.Join [ix.Conf.SpoolDir, "incoming"], fs.Node.dir) :: t)
      { scanned := 0, indexed := 0, db := db } =
      walk env t t { scanned := 0, indexed := 0, db := db } := by
    simp only [walk, visit_directory env t _ _ hf]
  simp only [Indexer.RunOnce, hroot, hw, zero_add]
  exact ⟨trivial, trivial, trivial, trivial⟩

theorem RunN_ok (ix : Indexer) (env : Env) (t : fs.Tree) (hf : env.faults = Faults.none)
    (hp : Parseable env t) (n : Nat) (db : index.DB) :
    ix.RunN env (some t) (n + 1) db = upserts env db (metas env t) := by
  induction n generalizing db with
  | zero =>
    simp only [Indexer.RunN]
    exact (RunOnce_ok ix env t db hf hp).2.2.2
  | succ n ih =>
    rw [Indexer.RunN, (RunOnce_ok ix env t db hf hp).2.2.2, ih, upserts_idem]

end indexer

namespace indexer

/-- C24, amended: indexing is idempotent when no operation fails. For every spool of
parseable metadata files, every starting database and every `N ≥ 1`, when no file
or database operation fails, `UpsertEvent` included, whose error `RunOnce` drops:
`RunOnce` returns no error, and `N` runs of `RunOnce` over the unchanged spool leave
the same tables `messages` and `events` as one run. After it, for every metadata
file, the table `messages` has under the `id` of the file the row of that `id` made
from a metadata file of the spool with that `id`, and the table `events` has under
the key `"ingest.received:" + id` the row made from such a file (from the file
itself, when no other file has its `id`: the last one in the order of the walk wins);
a row under another `id` is as it was. -/
theorem RunOnce_idempotent (ix : Indexer) (env : Env) (t : fs.Tree) (db : index.DB) (N : Nat)
    (hN : 1 ≤ N) (hf : env.faults = Faults.none) (hp : Parseable env t) :
    (ix.RunOnce env (some t) db).err = none ∧
      ix.RunN env (some t) N db = (ix.RunOnce env (some t) db).db ∧
      (∀ p b, (p, fs.Node.file b) ∈ t → strings.HasSuffix p ".json" = true →
        ∃ m, env.unmarshal b = some m ∧
          (∃ r, (ix.RunOnce env (some t) db).db.messages m.ID = some r ∧ r.ID = m.ID ∧
            ∃ p1 m1, (p1, m1) ∈ metas env t ∧ m1.ID = m.ID ∧ r = messageRow env p1 m1) ∧
          (∃ e, (ix.RunOnce env (some t) db).db.events ("ingest.received:" ++ m.ID) = some e ∧
            e.Key = "ingest.received:" ++ m.ID ∧ e.MessageID = m.ID ∧
            ∃ p1 m1, (p1, m1) ∈ metas env t ∧ m1.ID = m.ID ∧ e = eventRow env p1 m1)) ∧
      (∀ p m, (p, m) ∈ metas env t → (∀ pm ∈ metas env t, pm.2.ID = m.ID → pm = (p, m)) →
        (ix.RunOnce env (some t) db).db.messages m.ID = some (messageRow env p m) ∧
        (ix.RunOnce env (some t) db).db.events ("ingest.received:" ++ m.ID) =
          some (eventRow env p m)) ∧
      (∀ id, (∀ pm ∈ metas env t, pm.2.ID ≠ id) →
        (ix.RunOnce env (some t) db).db.messages id = db.messages id) := by
  obtain ⟨h1, -, -, h4⟩ := RunOnce_ok ix env t db hf hp
  obtain ⟨n, rfl⟩ : ∃ n, N = n + 1 := ⟨N - 1, by omega⟩
  refine ⟨h1, ?_, ?_, ?_, ?_⟩
  · rw [RunN_ok ix env t hf hp, h4]
  · intro p b hmem hs
    have hsome := hp.2 p b hmem hs
    cases hm : env.unmarshal b with
    | none =>
      rw [hm] at hsome
      cases hsome
    | some m =>
      have hin := mem_metas env t p b m hmem hs hm
      obtain ⟨p1, m1, a1, a2, a3⟩ := lastMessage_of_mem env (metas env t) p m hin
      obtain ⟨p2, m2, b1, b2, b3⟩ := lastEvent_of_mem env (metas env t) p m hin
      refine ⟨m, rfl, ⟨messageRow env p1 m1, ?_, a2, p1, m1, a1, a2, rfl⟩,
        ⟨eventRow env p2 m2, ?_, ?_, b2, p2, m2, b1, b2, rfl⟩⟩
      · rw [h4, upserts_messages, a3]
      · rw [h4, upserts_events, b3]
      · show "ingest.received:" ++ m2.ID = "ingest.received:" ++ m.ID
        rw [b2]
  · intro p m hin huniq
    obtain ⟨p1, m1, a1, a2, a3⟩ := lastMessage_of_mem env (metas env t) p m hin
    obtain ⟨p2, m2, b1, b2, b3⟩ := lastEvent_of_mem env (metas env t) p m hin
    have e1 := huniq (p1, m1) a1 a2
    have e2 := huniq (p2, m2) b1 b2
    cases e1
    cases e2
    constructor
    · rw [h4, upserts_messages, a3]
    · rw [h4, upserts_events, b3]
  · intro id hid
    rw [h4, upserts_messages, lastMessage_none env _ id hid]

/-- Three runs over the sample spool leave what one run leaves: the rows of the two
messages. -/
theorem RunOnce_idempotent_witness :
    sampleIndexer.RunN sampleEnv (some sampleTree) 3 emptyDB =
        (sampleIndexer.RunOnce sampleEnv (some sampleTree) emptyDB).db ∧
      ((sampleIndexer.RunOnce sampleEnv (some sampleTree) emptyDB).db.messages "01A").map
          (fun r => r.MetaPath) = some "/s/incoming/d/01A.json" ∧
      ((sampleIndexer.RunOnce sampleEnv (some sampleTree) emptyDB).db.events
          "ingest.received:01B").map (fun r => r.MessageID) = some "01B" :=
  ⟨(RunOnce_idempotent sampleIndexer sampleEnv sampleTree emptyDB 3 (by decide) rfl
      ⟨by decide, fun _ _ _ _ => rfl⟩).2.1, by decide, by decide⟩

/-- The claim C24 fails when `UpsertEvent` fails: over the sample spool, with the
upsert of the event of the message `01A` failing, `RunOnce` returns no error and
reports two files indexed, the table `messages` has the row of `01A` and the table
`events` has no row under `ingest.received:01A`; a second run over the unchanged
spool, in which nothing fails, adds that row. -/
theorem RunOnce_drops_event_error :
    (sampleIndexer.RunOnce eventFailsEnv (some sampleTree) emptyDB).err = none ∧
      (sampleIndexer.RunOnce eventFailsEnv (some sampleTree) emptyDB).indexed = 2 ∧
      ((sampleIndexer.RunOnce eventFailsEnv (some sampleTree) emptyDB).db.messages "01A").map
          (fun r => r.MetaPath) = some "/s/incoming/d/01A.json" ∧
      (sampleIndexer.RunOnce eventFailsEnv (some sampleTree) emptyDB).db.events
          "ingest.received:01A" = none ∧
      ((sampleIndexer.RunOnce eventFailsEnv (some sampleTree) emptyDB).db.events
          "ingest.received:01B").map (fun r => r.MessageID) = some "01B" ∧
      (sampleIndexer.RunOnce sampleEnv (some sampleTree)
          (sampleIndexer.RunOnce eventFailsEnv (some sampleTree) emptyDB).db).err = none ∧
      ((sampleIndexer.RunOnce sampleEnv (some sampleTree)
          (sampleIndexer.RunOnce eventFailsEnv (some sampleTree) emptyDB).db).db.events
          "ingest.received:01A").map (fun r => r.MessageID) = some "01A" := by
  decide

end indexer

/-! ### The uploader -/

namespace strings

theorem HasSuffix_disjoint (s a b : String) (hab : ¬ a.data <:+ b.data) (hba : ¬ b.data <:+ a.data)
    (hb : HasSuffix s b = true) : HasSuffix s a = false := by
  simp only [HasSuffix, decide_eq_true_eq] at hb
  simp only [HasSuffix, decide_eq_false_iff_not]
  intro ha
  rcases List.suffix_or_suffix_of_suffix ha hb with h | h
  · exact hab h
  · exact hba h

theorem json_not_tmp (q : String) : HasSuffix (q ++ ".tmp") ".json" = false :=
  HasSuffix_disjoint _ _ _ (by decide) (by decide) (HasSuffix_append q ".tmp")

theorem eml_not_tmp (q : String) : HasSuffix (q ++ ".tmp") ".eml" = false :=
  HasSuffix_disjoint _ _ _ (by decide) (by decide) (HasSuffix_append q ".tmp")

theorem eml_not_json (s : String) (h : HasSuffix s ".json" = true) : HasSuffix s ".eml" = false :=
  HasSuffix_disjoint _ _ _ (by decide) (by decide) h

end strings

namespace uploader

theorem objectKey_ne_nil (domain mailbox receivedAt id : List Nat) :
    objectKey domain mailbox receivedAt id ≠ [] := by
  unfold objectKey
  simp only
  split <;> split <;> simp

theorem hasObjectKey_rewritten (raw : GoMap json.Value) (key : List Nat) (v : json.Value)
    (h : key ≠ []) :
    hasObjectKey (GoMap.set (GoMap.set raw "object_key" (json.Value.string key)) "uploaded_at" v) =
      true := by
  unfold hasObjectKey
  rw [GoMap.get?_set_other _ _ _ _ (by decide), GoMap.get?_set_self]
  simpa using h

theorem emlPath_suffix (p : String) : strings.HasSuffix (emlPath p) ".eml" = true :=
  strings.HasSuffix_append _ _

theorem uploaded_congr (env1 env : Env) (h : env1.unmarshal = env.unmarshal) (b : List Nat) :
    uploaded env1 b = uploaded env b := by
  unfold uploaded
  rw [h]

theorem ne_append_tmp (p : String) : p ≠ p ++ ".tmp" := by
  intro h
  have h1 : (p ++ ".tmp").data.length = p.data.length + 4 := by
    rw [String.data_append, List.length_append]
    rfl
  rw [← h] at h1
  omega

/-- The rewrite of a metadata file when nothing fails: the file gets the new
document, and no temporary file is left. -/
theorem rewrite_ok (env : Env) (now : Nat → time.Time) (r : Run) (path : String)
    (raw : GoMap json.Value) (key b : List Nat) (hf : env.faults = Faults.none)
    (hp : fs.Tree.lookup r.tree path = some (fs.Node.file b))
    (htmp : fs.Tree.lookup r.tree (path ++ ".tmp") ≠ some fs.Node.dir) :
    ∃ T, rewrite env now r path raw key =
        Step.next { scanned := r.scanned, uploaded := r.uploaded, puts := r.puts, tree := T } ∧
      ∀ x, fs.Tree.lookup T x =
        if x = path then
          some (fs.Node.file (env.marshalIndent
            (GoMap.set (GoMap.set raw "object_key" (json.Value.string key)) "uploaded_at"
              (json.Value.string (strings.bytes (now r.puts.length).UTC.formatRFC3339Nano))) ++ [10]))
        else if x = path ++ ".tmp" then none else fs.Tree.lookup r.tree x := by
  have hne := ne_append_tmp path
  generalize hout : env.marshalIndent
    (GoMap.set (GoMap.set raw "object_key" (json.Value.string key)) "uploaded_at"
      (json.Value.string (strings.bytes (now r.puts.length).UTC.formatRFC3339Nano))) ++ [10] = out
  have key1 : ∀ t1 : fs.Tree,
      (∀ x, fs.Tree.lookup t1 x =
        if x = path ++ ".tmp" then some (fs.Node.file out) else fs.Tree.lookup r.tree x) →
      ∃ T, fs.Tree.Rename t1 (path ++ ".tmp") path = some T ∧
        ∀ x, fs.Tree.lookup T x =
          if x = path then some (fs.Node.file out)
          else if x = path ++ ".tmp" then none else fs.Tree.lookup r.tree x := by
    intro t1 h1
    have a1 : fs.Tree.lookup t1 (path ++ ".tmp") = some (fs.Node.file out) := by
      rw [h1, if_pos rfl]
    have a2 : fs.Tree.lookup (fs.Tree.remove t1 (path ++ ".tmp")) path = some (fs.Node.file b) := by
      rw [fs.Tree.lookup_remove, if_neg hne, h1, if_neg hne, hp]
    refine ⟨fs.Tree.store (fs.Tree.remove t1 (path ++ ".tmp")) path (fs.Node.file out), ?_, ?_⟩
    · simp only [fs.Tree.Rename, a1, a2]
    · intro x
      rw [fs.Tree.lookup_store, a2, fs.Tree.lookup_remove, h1]
      by_cases hx : x = path
      · simp only [if_pos hx, Option.map_some']
      · simp only [if_neg hx]
        by_cases hx2 : x = path ++ ".tmp"
        · simp only [if_pos hx2]
        · simp only [if_neg hx2]
  have key2 : ∃ t1, fs.Tree.WriteFile r.tree (path ++ ".tmp") out = some t1 ∧
      ∀ x, fs.Tree.lookup t1 x =
        if x = path ++ ".tmp" then some (fs.Node.file out) else fs.Tree.lookup r.tree x := by
    cases hl : fs.Tree.lookup r.tree (path ++ ".tmp") with
    | none =>
      refine ⟨fs.Tree.insert r.tree (path ++ ".tmp", fs.Node.file out), ?_, ?_⟩
      · simp only [fs.Tree.WriteFile, hl]
      · intro x
        exact fs.Tree.lookup_insert r.tree (path ++ ".tmp", fs.Node.file out) x hl
    | some n =>
      cases n with
      | dir => exact absurd hl htmp
      | file c =>
        refine ⟨fs.Tree.store r.tree (path ++ ".tmp") (fs.Node.file out), ?_, ?_⟩
        · simp only [fs.Tree.WriteFile, hl]
        · intro x
          rw [fs.Tree.lookup_store, hl]
          rfl
  obtain ⟨t1, w1, w2⟩ := key2
  obtain ⟨T, w3, w4⟩ := key1 t1 w2
  refine ⟨T, ?_, w4⟩
  simp only [rewrite, hf, Faults.none, Bool.false_eq_true, if_false, hout, w1, w3]

/-- The callback on a metadata file that is not uploaded, when nothing fails: one
call of `Put`, and the file gets a document that counts as uploaded. -/
theorem visit_pending (env : Env) (now : Nat → time.Time) (r : Run) (p : String) (b : List Nat)
    (raw : GoMap json.Value) (n : fs.Node) (hf : env.faults = Faults.none) (hfaith : Faithful env)
    (hs : strings.HasSuffix p ".json" = true)
    (hp : fs.Tree.lookup r.tree p = some (fs.Node.file b))
    (hraw : env.unmarshal b = json.Doc.object raw) (hkey : hasObjectKey raw = false)
    (heml : fs.Tree.lookup r.tree (emlPath p) = some n)
    (htmp : fs.Tree.lookup r.tree (p ++ ".tmp") ≠ some fs.Node.dir) :
    ∃ T out, visit env now r p (fs.Node.file b) =
        Step.next { scanned := r.scanned + 1, uploaded := r.uploaded + 1,
                    puts := r.puts ++ [{ key := keyOf env b, path := emlPath p,
                                         size := n.Size env.dirSize }],
                    tree := T } ∧
      uploaded env out = true ∧
      ∀ x, fs.Tree.lookup T x =
        if x = p then some (fs.Node.file out)
        else if x = p ++ ".tmp" then none else fs.Tree.lookup r.tree x := by
  have hk : keyOf env b = objectKey (env.str (raw.get? "domain")) (env.str (raw.get? "mailbox"))
      (env.str (raw.get? "received_at")) (env.str (raw.get? "id")) := by
    simp only [keyOf, hraw]
  obtain ⟨T, w1, w2⟩ := rewrite_ok env now
    { scanned := r.scanned + 1, uploaded := r.uploaded + 1,
      puts := r.puts ++ [{ key := keyOf env b, path := emlPath p, size := n.Size env.dirSize }],
      tree := r.tree } p raw (keyOf env b) b hf hp htmp
  refine ⟨T, _, ?_, ?_, w2⟩
  · have heml1 : fs.Tree.lookup r.tree (strings.TrimSuffix p ".json" ++ ".eml") = some n := heml
    simp only [visit, hf, Faults.none, fs.Node.IsDir, hs, Bool.false_eq_true, if_false,
      Bool.not_true, fs.Tree.ReadFile, hp, hraw, hkey, upload, fs.Tree.Stat, heml1, ← hk]
    exact w1
  · apply hfaith
    apply hasObjectKey_rewritten
    rw [hk]
    exact objectKey_ne_nil _ _ _ _

/-- The callback on a metadata file that is uploaded: it is counted and skipped. -/
theorem visit_uploaded (env : Env) (now : Nat → time.Time) (r : Run) (p : String) (b : List Nat)
    (hf : env.faults = Faults.none) (hs : strings.HasSuffix p ".json" = true)
    (hp : fs.Tree.lookup r.tree p = some (fs.Node.file b)) (hu : uploaded env b = true) :
    visit env now r p (fs.Node.file b) =
      Step.next { scanned := r.scanned + 1, uploaded := r.uploaded, puts := r.puts,
                  tree := r.tree } := by
  unfold uploaded at hu
  cases hd : env.unmarshal b with
  | object raw =>
    rw [hd] at hu
    simp only at hu
    simp only [visit, hf, Faults.none, fs.Node.IsDir, hs, Bool.false_eq_true, if_false,
      Bool.not_true, fs.Tree.ReadFile, hp, hd, hu, if_true]
  | null =>
    rw [hd] at hu
    cases hu
  | invalid =>
    rw [hd] at hu
    cases hu

theorem visit_skip (env : Env) (now : Nat → time.Time) (r : Run) (p : String) (b : List Nat)
    (hf : env.faults = Faults.none) (hs : strings.HasSuffix p ".json" = false) :
    visit env now r p (fs.Node.file b) = Step.next r := by
  simp only [visit, hf, Faults.none, fs.Node.IsDir, hs, Bool.false_eq_true, if_false,
    Bool.not_false, if_true]

theorem visit_dir (env : Env) (now : Nat → time.Time) (r : Run) (p : String)
    (hf : env.faults = Faults.none) : visit env now r p fs.Node.dir = Step.next r := by
  simp only [visit, hf, Faults.none, fs.Node.IsDir, if_true]

end uploader

namespace uploader

theorem mem_pending (env : Env) (t : fs.Tree) (p : String) (b : List Nat)
    (h : (p, b) ∈ pending env t) :
    (p, fs.Node.file b) ∈ t ∧ strings.HasSuffix p ".json" = true ∧ uploaded env b = false := by
  induction t with
  | nil => cases h
  | cons e t ih =>
    obtain ⟨q, d⟩ := e
    cases d with
    | dir =>
      obtain ⟨a1, a2, a3⟩ := ih h
      exact ⟨List.mem_cons_of_mem _ a1, a2, a3⟩
    | file c =>
      simp only [pending] at h
      split at h
      · rename_i hc
        simp only [Bool.and_eq_true, Bool.not_eq_true'] at hc
        rcases List.mem_cons.1 h with h1 | h1
        · cases h1
          exact ⟨List.mem_cons_self _ _, hc.1, hc.2⟩
        · obtain ⟨a1, a2, a3⟩ := ih h1
          exact ⟨List.mem_cons_of_mem _ a1, a2, a3⟩
      · obtain ⟨a1, a2, a3⟩ := ih h
        exact ⟨List.mem_cons_of_mem _ a1, a2, a3⟩

theorem pending_of_mem (env : Env) (t : fs.Tree) (p : String) (b : List Nat)
    (h : (p, fs.Node.file b) ∈ t) (hs : strings.HasSuffix p ".json" = true)
    (hu : uploaded env b = false) : (p, b) ∈ pending env t := by
  induction t with
  | nil => cases h
  | cons e t ih =>
    obtain ⟨q, d⟩ := e
    rcases List.mem_cons.1 h with h1 | h1
    · cases h1
      simp only [pending, hs, hu, Bool.not_false, Bool.and_self, if_true]
      exact List.mem_cons_self _ _
    · have := ih h1
      cases d with
      | dir => exact this
      | file c =>
        simp only [pending]
        split
        · exact List.mem_cons_of_mem _ this
        · exact this

/-- The walk of the first run over a part of a well-formed spool, when nothing
fails: it returns nil, it has put the metadata of the part that were not uploaded,
once each and in the order of the walk, and each metadata file is as it was or holds
a document that counts as uploaded. -/
theorem walk_first (env : Env) (now : Nat → time.Time) (hf : env.faults = Faults.none)
    (hfaith : Faithful env) (t0 : fs.Tree) (hwf : WellFormed env t0) (rest : fs.Tree)
    (hsub : ∀ e ∈ rest, e ∈ t0) (hnd : (rest.map Prod.fst).Nodup) (r : Run)
    (R1 : ∀ x, strings.HasSuffix x ".eml" = true → fs.Tree.lookup r.tree x = fs.Tree.lookup t0 x)
    (R2 : ∀ e ∈ rest, strings.HasSuffix e.1 ".json" = true →
      fs.Tree.lookup r.tree e.1 = fs.Tree.lookup t0 e.1)
    (R3 : ∀ x, fs.Tree.lookup r.tree x = some fs.Node.dir → fs.Tree.lookup t0 x = some fs.Node.dir) :
    ∃ r1, walk env now rest r = Step.next r1 ∧
      r1.puts = r.puts ++ (pending env rest).map (putOf env t0) ∧
      r1.uploaded = r.uploaded + (pending env rest).length ∧
      ∀ x, strings.HasSuffix x ".json" = true →
        (x ∉ (pending env rest).map Prod.fst →
          fs.Tree.lookup r1.tree x = fs.Tree.lookup r.tree x) ∧
        (x ∈ (pending env rest).map Prod.fst →
          ∃ out, fs.Tree.lookup r1.tree x = some (fs.Node.file out) ∧ uploaded env out = true) := by
  induction rest generalizing r with
  | nil =>
    refine ⟨r, rfl, ?_, ?_, fun x _ => ⟨fun _ => rfl, fun h => ?_⟩⟩
    · simp only [pending, List.map_nil, List.append_nil]
    · simp only [pending, List.length_nil, Nat.cast_zero, add_zero]
    · simp only [pending, List.map_nil, List.not_mem_nil] at h
  | cons e rest ih =>
    obtain ⟨p, d⟩ := e
    have hsub1 : ∀ e ∈ rest, e ∈ t0 := fun e he => hsub e (List.mem_cons_of_mem _ he)
    simp only [List.map_cons, List.nodup_cons] at hnd
    have R2a : ∀ e ∈ rest, strings.HasSuffix e.1 ".json" = true →
        fs.Tree.lookup r.tree e.1 = fs.Tree.lookup t0 e.1 :=
      fun e he => R2 e (List.mem_cons_of_mem _ he)
    cases d with
    | dir =>
      simp only [walk, visit_dir env now r p hf, pending]
      exact ih hsub1 hnd.2 r R1 R2a R3
    | file b =>
      cases hs : strings.HasSuffix p ".json" with
      | false =>
        simp only [walk, visit_skip env now r p b hf hs, pending, hs, Bool.false_and,
          Bool.false_eq_true, if_false]
        exact ih hsub1 hnd.2 r R1 R2a R3
      | true =>
        have hmem : (p, fs.Node.file b) ∈ t0 := hsub _ (List.mem_cons_self _ _)
        have hp : fs.Tree.lookup r.tree p = some (fs.Node.file b) := by
          rw [R2 (p, fs.Node.file b) (List.mem_cons_self _ _) hs]
          exact fs.Tree.lookup_of_mem t0 hwf.1 p _ hmem
        obtain ⟨⟨raw, hraw⟩, hpend⟩ := hwf.2 p b hmem hs
        cases hu : uploaded env b with
        | true =>
          simp only [walk, visit_uploaded env now r p b hf hs hp hu, pending, hs, hu,
            Bool.not_true, Bool.and_false, Bool.false_eq_true, if_false]
          exact ih hsub1 hnd.2 ⟨r.scanned + 1, r.uploaded, r.puts, r.tree⟩ R1 R2a R3
        | false =>
          obtain ⟨⟨body, hbody⟩, htmp0⟩ := hpend hu
          have hkey : hasObjectKey raw = false := by
            unfold uploaded at hu
            rw [hraw] at hu
            exact hu
          have heml : fs.Tree.lookup r.tree (emlPath p) = some (fs.Node.file body) := by
            rw [R1 _ (emlPath_suffix p)]
            exact hbody
          have htmp : fs.Tree.lookup r.tree (p ++ ".tmp") ≠ some fs.Node.dir :=
            fun h => htmp0 (R3 _ h)
          obtain ⟨T, out, hv, hout, hT⟩ :=
            visit_pending env now r p b raw _ hf hfaith hs hp hraw hkey heml htmp
          have ne_json : ∀ x, strings.HasSuffix x ".json" = true → x ≠ p ++ ".tmp" := by
            intro x hx e
            rw [e, strings.json_not_tmp] at hx
            cases hx
          have ne_eml : ∀ x, strings.HasSuffix x ".eml" = true → x ≠ p ++ ".tmp" ∧ x ≠ p := by
            intro x hx
            constructor
            · intro e
              rw [e, strings.eml_not_tmp] at hx
              cases hx
            · intro e
              rw [e, strings.eml_not_json p hs] at hx
              cases hx
          obtain ⟨r1, w1, w2, w3, w4⟩ := ih hsub1 hnd.2
            { scanned := r.scanned + 1, uploaded := r.uploaded + 1,
              puts := r.puts ++ [{ key := keyOf env b, path := emlPath p,
                                   size := (fs.Node.file body).Size env.dirSize }],
              tree := T }
            (by
              intro x hx
              show fs.Tree.lookup T x = _
              rw [hT, if_neg (ne_eml x hx).2, if_neg (ne_eml x hx).1]
              exact R1 x hx)
            (by
              intro e he hx
              show fs.Tree.lookup T e.1 = _
              have hne : e.1 ≠ p := by
                intro h
                apply hnd.1
                rw [← h]
                exact List.mem_map_of_mem Prod.fst he
              rw [hT, if_neg hne, if_neg (ne_json _ hx)]
              exact R2a e he hx)
            (by
              intro x hx
              have hx1 : fs.Tree.lookup T x = some fs.Node.dir := hx
              rw [hT] at hx1
              by_cases h1 : x = p
              · rw [if_pos h1] at hx1
                cases hx1
              · rw [if_neg h1] at hx1
                by_cases h2 : x = p ++ ".tmp"
                · rw [if_pos h2] at hx1
                  cases hx1
                · rw [if_neg h2] at hx1
                  exact R3 x hx1)
          have hpd : pending env ((p, fs.Node.file b) :: rest) = (p, b) :: pending env rest := by
            simp only [pending, hs, hu, Bool.not_false, Bool.and_self, if_true]
          have hput : putOf env t0 (p, b) =
              { key := keyOf env b, path := emlPath p,
                size := (fs.Node.file body).Size env.dirSize } := by
            simp only [putOf, hbody]
          refine ⟨r1, ?_, ?_, ?_, ?_⟩
          · simp only [walk, hv]
            exact w1
          · rw [w2, hpd, List.map_cons, hput]
            simp only [List.append_assoc, List.singleton_append]
          · rw [w3, hpd]
            simp only [List.length_cons, Nat.cast_add, Nat.cast_one]
            omega
          · intro x hx
            rw [hpd, List.map_cons]
            obtain ⟨g1, g2⟩ := w4 x hx
            constructor
            · intro hnot
              have hxp : x ≠ p := fun e => hnot (by rw [e]; exact List.mem_cons_self _ _)
              have h1a : fs.Tree.lookup r1.tree x = fs.Tree.lookup T x :=
                g1 (fun h => hnot (List.mem_cons_of_mem _ h))
              rw [h1a, hT, if_neg hxp, if_neg (ne_json x hx)]
            · intro hin
              by_cases hrest : x ∈ (pending env rest).map Prod.fst
              · exact g2 hrest
              · have hxp : x = p := by
                  rcases List.mem_cons.1 hin with h | h
                  · exact h
                  · exact absurd h hrest
                have h1a : fs.Tree.lookup r1.tree x = fs.Tree.lookup T x := g1 hrest
                exact ⟨out, by rw [h1a, hT, if_pos hxp], hout⟩

/-- The callback over a spool in which every metadata file is uploaded, whatever
fails: it returns nil or an error and leaves the uploads and the tree as they
were. -/
theorem visit_quiet (env : Env) (now : Nat → time.Time) (r : Run) (p : String) (d : fs.Node)
    (hinv : ∀ x b, strings.HasSuffix x ".json" = true →
      fs.Tree.lookup r.tree x = some (fs.Node.file b) → uploaded env b = true) :
    (∃ r1, visit env now r p d = Step.next r1 ∧ r1.tree = r.tree ∧ r1.puts = r.puts ∧
        r1.uploaded = r.uploaded) ∨
      (∃ r1 e, visit env now r p d = Step.fail r1 e ∧ r1.tree = r.tree ∧ r1.puts = r.puts ∧
        r1.uploaded = r.uploaded) := by
  cases hw : env.faults.walk p with
  | some ne =>
    right
    exact ⟨r, Error.walk ne, by simp only [visit, hw], rfl, rfl, rfl⟩
  | none =>
    cases hd : d.IsDir with
    | true =>
      left
      exact ⟨r, by simp only [visit, hw, hd, if_true], rfl, rfl, rfl⟩
    | false =>
      cases hs : strings.HasSuffix p ".json" with
      | false =>
        left
        exact ⟨r, by simp only [visit, hw, hd, hs, Bool.false_eq_true, if_false, Bool.not_false,
          if_true], rfl, rfl, rfl⟩
      | true =>
        cases hrf : env.faults.readFile p with
        | true =>
          right
          exact ⟨⟨r.scanned + 1, r.uploaded, r.puts, r.tree⟩, Error.readMeta p, by
              simp only [visit, hw, hd, hs, Bool.false_eq_true, if_false, Bool.not_true, hrf,
                if_true], rfl, rfl, rfl⟩
        | false =>
          cases hl : fs.Tree.ReadFile r.tree p with
          | none =>
            right
            exact ⟨⟨r.scanned + 1, r.uploaded, r.puts, r.tree⟩, Error.readMeta p, by
                simp only [visit, hw, hd, hs, Bool.false_eq_true, if_false, Bool.not_true, hrf,
                  hl], rfl, rfl, rfl⟩
          | some b =>
            have hlk : fs.Tree.lookup r.tree p = some (fs.Node.file b) := by
              unfold fs.Tree.ReadFile at hl
              split at hl
              · rename_i c hc
                cases hl
                exact hc
              · cases hl
            have hu := hinv p b hs hlk
            unfold uploaded at hu
            cases hdoc : env.unmarshal b with
            | object raw =>
              rw [hdoc] at hu
              simp only at hu
              left
              exact ⟨⟨r.scanned + 1, r.uploaded, r.puts, r.tree⟩, by
                  simp only [visit, hw, hd, hs, Bool.false_eq_true, if_false, Bool.not_true, hrf,
                    hl, hdoc, hu, if_true], rfl, rfl, rfl⟩
            | null =>
              rw [hdoc] at hu
              cases hu
            | invalid =>
              rw [hdoc] at hu
              cases hu

theorem walk_quiet (env : Env) (now : Nat → time.Time) (rest : fs.Tree) (r : Run)
    (hinv : ∀ x b, strings.HasSuffix x ".json" = true →
      fs.Tree.lookup r.tree x = some (fs.Node.file b) → uploaded env b = true) :
    (∃ r1, walk env now rest r = Step.next r1 ∧ r1.tree = r.tree ∧ r1.puts = r.puts ∧
        r1.uploaded = r.uploaded) ∨
      (∃ r1 e, walk env now rest r = Step.fail r1 e ∧ r1.tree = r.tree ∧ r1.puts = r.puts ∧
        r1.uploaded = r.uploaded) := by
  induction rest generalizing r with
  | nil => exact Or.inl ⟨r, rfl, rfl, rfl, rfl⟩
  | cons e rest ih =>
    obtain ⟨p, d⟩ := e
    rcases visit_quiet env now r p d hinv with ⟨r1, h1, h2, h3, h4⟩ | ⟨r1, e, h1, h2, h3, h4⟩
    · have hinv1 : ∀ x b, strings.HasSuffix x ".json" = true →
          fs.Tree.lookup r1.tree x = some (fs.Node.file b) → uploaded env b = true := by
        rw [h2]
        exact hinv
      rcases ih r1 hinv1 with ⟨r2, g1, g2, g3, g4⟩ | ⟨r2, e, g1, g2, g3, g4⟩
      · left
        exact ⟨r2, by simp only [walk, h1, g1], g2.trans h2, g3.trans h3, g4.trans h4⟩
      · right
        exact ⟨r2, e, by simp only [walk, h1, g1], g2.trans h2, g3.trans h3, g4.trans h4⟩
    · right
      exact ⟨r1, e, by simp only [walk, h1], h2, h3, h4⟩

/-- A run over a spool in which every metadata file is uploaded, whatever fails: no
call of `Put`, no upload reported, no panic, and the tree is left as it was. -/
theorem RunOnce_quiet (u : Uploader) (env : Env) (t : fs.Tree)
    (hinv : ∀ x b, strings.HasSuffix x ".json" = true →
      fs.Tree.lookup t x = some (fs.Node.file b) → uploaded env b = true) :
    (u.RunOnce env (some t)).puts = [] ∧ (u.RunOnce env (some t)).uploaded = 0 ∧
      (u.RunOnce env (some t)).panicked = false ∧ (u.RunOnce env (some t)).incoming = some t := by
  generalize hnow : (match u.Conf.Now with
    | some f => f
    | none => env.timeNow) = now
  have hrun : u.RunOnce env (some t) =
      match walk env now ((filepath.Join [u.Conf.SpoolDir, "incoming"], fs.Node.dir) :: t)
        { scanned := 0, uploaded := 0, puts := [], tree := t } with
      | Step.next r =>
        { scanned := r.scanned, uploaded := r.uploaded, err := none, panicked := false,
          puts := r.puts, incoming := some r.tree, calls := deferred u env r.scanned r.uploaded none }
      | Step.fail r (Error.walk true) =>
        { scanned := 0, uploaded := 0, err := none, panicked := false,
          puts := r.puts, incoming := some r.tree, calls := deferred u env 0 0 none }
      | Step.fail r e =>
        { scanned := r.scanned, uploaded := r.uploaded, err := some e, panicked := false,
          puts := r.puts, incoming := some r.tree,
          calls := deferred u env r.scanned r.uploaded (some e) }
      | Step.panic r =>
        { scanned := r.scanned, uploaded := r.uploaded, err := none, panicked := true,
          puts := r.puts, incoming := some r.tree,
          calls := deferred u env r.scanned r.uploaded none } := by
    rw [← hnow]
    rfl
  rw [hrun]
  rcases walk_quiet env now ((filepath.Join [u.Conf.SpoolDir, "incoming"], fs.Node.dir) :: t)
    { scanned := 0, uploaded := 0, puts := [], tree := t } hinv with
    ⟨r1, h1, h2, h3, h4⟩ | ⟨r1, e, h1, h2, h3, h4⟩
  · rw [h1]
    exact ⟨h3, h4, rfl, congrArg some h2⟩
  · rw [h1]
    cases e with
    | walk ne =>
      cases ne with
      | true => exact ⟨h3, rfl, rfl, congrArg some h2⟩
      | false => exact ⟨h3, h4, rfl, congrArg some h2⟩
    | readMeta _ => exact ⟨h3, h4, rfl, congrArg some h2⟩
    | parseMeta _ => exact ⟨h3, h4, rfl, congrArg some h2⟩
    | statEml _ => exact ⟨h3, h4, rfl, congrArg some h2⟩
    | openEml _ => exact ⟨h3, h4, rfl, congrArg some h2⟩
    | putObject _ => exact ⟨h3, h4, rfl, congrArg some h2⟩
    | writeMetaTmp _ => exact ⟨h3, h4, rfl, congrArg some h2⟩
    | renameMeta _ => exact ⟨h3, h4, rfl, congrArg some h2⟩

theorem RunMany_quiet (u : Uploader) (um : List Nat → json.Doc) (envs : List Env) (t : fs.Tree)
    (henv : ∀ e ∈ envs, e.unmarshal = um)
    (hinv : ∀ x b, strings.HasSuffix x ".json" = true →
      fs.Tree.lookup t x = some (fs.Node.file b) →
      (match um b with
        | json.Doc.object raw => hasObjectKey raw
        | _ => false) = true) :
    ∀ o ∈ u.RunMany envs (some t),
      o.puts = [] ∧ o.uploaded = 0 ∧ o.panicked = false ∧ o.incoming = some t := by
  induction envs with
  | nil =>
    intro o ho
    cases ho
  | cons env envs ih =>
    have hq := RunOnce_quiet u env t (by
      intro x b hx hl
      unfold uploaded
      rw [henv env (List.mem_cons_self _ _)]
      exact hinv x b hx hl)
    intro o ho
    simp only [Uploader.RunMany, List.mem_cons] at ho
    rcases ho with rfl | ho
    · exact hq
    · rw [hq.2.2.2] at ho
      exact ih (fun e he => henv e (List.mem_cons_of_mem _ he)) o ho

end uploader

namespace uploader

theorem pending_sublist (env : Env) (t : fs.Tree) :
    ((pending env t).map Prod.fst).Sublist (t.map Prod.fst) := by
  induction t with
  | nil => exact List.Sublist.slnil
  | cons e t ih =>
    obtain ⟨q, d⟩ := e
    cases d with
    | dir => exact List.Sublist.cons _ ih
    | file c =>
      simp only [pending]
      split
      · exact List.Sublist.cons₂ _ ih
      · exact List.Sublist.cons _ ih

/-- What `RunOnce` returns when the walk returns nil. -/
theorem RunOnce_next (u : Uploader) (env : Env) (t : fs.Tree) (now : Nat → time.Time) (r1 : Run)
    (hnow : (match u.Conf.Now with
      | some f => f
      | none => env.timeNow) = now)
    (h : walk env now ((filepath.Join [u.Conf.SpoolDir, "incoming"], fs.Node.dir) :: t)
        ⟨0, 0, [], t⟩ = Step.next r1) :
    (u.RunOnce env (some t)).err = none ∧ (u.RunOnce env (some t)).panicked = false ∧
      (u.RunOnce env (some t)).puts = r1.puts ∧ (u.RunOnce env (some t)).uploaded = r1.uploaded ∧
      (u.RunOnce env (some t)).incoming = some r1.tree := by
  have hrun : u.RunOnce env (some t) =
      match walk env now ((filepath.Join [u.Conf.SpoolDir, "incoming"], fs.Node.dir) :: t)
        ⟨0, 0, [], t⟩ with
      | Step.next r =>
        { scanned := r.scanned, uploaded := r.uploaded, err := none, panicked := false,
          puts := r.puts, incoming := some r.tree, calls := deferred u env r.scanned r.uploaded none }
      | Step.fail r (Error.walk true) =>
        { scanned := 0, uploaded := 0, err := none, panicked := false,
          puts := r.puts, incoming := some r.tree, calls := deferred u env 0 0 none }
      | Step.fail r e =>
        { scanned := r.scanned, uploaded := r.uploaded, err := some e, panicked := false,
          puts := r.puts, incoming := some r.tree,
          calls := deferred u env r.scanned r.uploaded (some e) }
      | Step.panic r =>
        { scanned := r.scanned, uploaded := r.uploaded, err := none, panicked := true,
          puts := r.puts, incoming := some r.tree,
          calls := deferred u env r.scanned r.uploaded none } := by
    rw [← hnow]
    rfl
  rw [hrun, h]
  exact ⟨rfl, rfl, rfl, rfl, rfl⟩

theorem sampleEnv_faithful : Faithful sampleEnv := by
  intro raw h
  unfold hasObjectKey at h
  cases hg : GoMap.get? raw "object_key" with
  | none =>
    rw [hg] at h
    cases h
  | some v =>
    cases v with
    | other text =>
      rw [hg] at h
      cases h
    | string s =>
      rw [hg] at h
      simp only [decide_eq_true_eq] at h
      simp only [uploaded, sampleEnv, sampleMarshal, hg, List.cons_append, sampleUnmarshal,
        List.dropLast_concat, hasObjectKey, GoMap.get?, if_true, decide_eq_true_eq]
      exact h

theorem sampleEnvs_unmarshal : ∀ e ∈ [brokenEnv, sampleEnv], e.unmarshal = sampleEnv.unmarshal := by
  intro e he
  simp only [List.mem_cons, List.mem_singleton, List.not_mem_nil, or_false] at he
  rcases he with rfl | rfl <;> rfl

theorem sampleTree_wellFormed : WellFormed sampleEnv sampleTree := by
  refine ⟨by decide, ?_⟩
  intro p b hmem hs
  simp only [sampleTree, List.mem_cons, Prod.mk.injEq, List.mem_singleton, List.not_mem_nil,
    or_false] at hmem
  rcases hmem with ⟨rfl, h⟩ | ⟨rfl, h⟩ | ⟨rfl, h⟩ | ⟨rfl, h⟩ | ⟨rfl, h⟩
  · cases h
  · exact absurd hs (by decide)
  · cases h
    exact ⟨⟨_, rfl⟩, fun _ => ⟨⟨_, rfl⟩, by decide⟩⟩
  · exact absurd hs (by decide)
  · cases h
    exact ⟨⟨_, rfl⟩, fun hu => absurd hu (by decide)⟩

/-- C21, amended: uploading is idempotent when the first run completes. Over a
well-formed spool (each path listed once, each metadata file a JSON object, each
metadata file without a non-empty `object_key` with its body), when no operation of
the first run fails, the rewrite of the metadata included, and `encoding/json` gives
back a non-empty `object_key` that it wrote: the first `RunOnce` returns no error,
its calls of `Put` are those for the metadata files without a non-empty
`object_key`, one each in the order of the walk, for pairwise distinct paths, and it
reports their number; a metadata file with a non-empty `object_key` is not among
them and keeps its bytes; and every later `RunOnce` on the tree that the run before
it left, whatever fails in it, calls `Put` for nothing, reports `uploaded = 0`, does
not panic and leaves the tree as it was. -/
theorem RunOnce_uploads_once (u : Uploader) (env : Env) (t : fs.Tree) (envs : List Env)
    (hf : env.faults = Faults.none) (hfaith : Faithful env) (hwf : WellFormed env t)
    (henvs : ∀ e ∈ envs, e.unmarshal = env.unmarshal) :
    (u.RunOnce env (some t)).err = none ∧ (u.RunOnce env (some t)).panicked = false ∧
      (u.RunOnce env (some t)).puts = (pending env t).map (putOf env t) ∧
      (u.RunOnce env (some t)).uploaded = (pending env t).length ∧
      ((pending env t).map Prod.fst).Nodup ∧
      (∀ p b, (p, fs.Node.file b) ∈ t → strings.HasSuffix p ".json" = true →
        ((p, b) ∈ pending env t ↔ uploaded env b = false)) ∧
      (∀ p b, (p, fs.Node.file b) ∈ t → strings.HasSuffix p ".json" = true →
        uploaded env b = true →
        p ∉ (pending env t).map Prod.fst ∧
        ∃ t1, (u.RunOnce env (some t)).incoming = some t1 ∧
          fs.Tree.lookup t1 p = some (fs.Node.file b)) ∧
      (∀ o ∈ u.RunMany envs (u.RunOnce env (some t)).incoming,
        o.puts = [] ∧ o.uploaded = 0 ∧ o.panicked = false ∧
        o.incoming = (u.RunOnce env (some t)).incoming) := by
  generalize hnow : (match u.Conf.Now with
    | some f => f
    | none => env.timeNow) = now
  obtain ⟨r1, w1, w2, w3, w4⟩ := walk_first env now hf hfaith t hwf t (fun e he => he) hwf.1
    ⟨0, 0, [], t⟩ (fun _ _ => rfl) (fun _ _ _ => rfl) (fun _ h => h)
  have hwalk : walk env now ((filepath.Join [u.Conf.SpoolDir, "incoming"], fs.Node.dir) :: t)
      ⟨0, 0, [], t⟩ = Step.next r1 := by
    simp only [walk, visit_dir env now _ _ hf]
    exact w1
  obtain ⟨o1, o2, o3, o4, o5⟩ := RunOnce_next u env t now r1 hnow hwalk
  have hpaths : ∀ p b, (p, fs.Node.file b) ∈ t → p ∈ (pending env t).map Prod.fst →
      uploaded env b = false := by
    intro p b hmem hin
    obtain ⟨⟨q, c⟩, hq, hqp⟩ := List.mem_map.1 hin
    simp only at hqp
    subst hqp
    obtain ⟨a1, -, a3⟩ := mem_pending env t q c hq
    have e1 := fs.Tree.lookup_of_mem t hwf.1 q _ a1
    have e2 := fs.Tree.lookup_of_mem t hwf.1 q _ hmem
    rw [e1] at e2
    cases e2
    exact a3
  have hinv : ∀ x b, strings.HasSuffix x ".json" = true →
      fs.Tree.lookup r1.tree x = some (fs.Node.file b) → uploaded env b = true := by
    intro x b hx hl
    by_cases hin : x ∈ (pending env t).map Prod.fst
    · obtain ⟨out, g1, g2⟩ := (w4 x hx).2 hin
      rw [g1] at hl
      cases hl
      exact g2
    · have g1 : fs.Tree.lookup r1.tree x = fs.Tree.lookup t x := (w4 x hx).1 hin
      rw [g1] at hl
      have hmem := fs.Tree.mem_of_lookup t x _ hl
      cases hu : uploaded env b with
      | true => rfl
      | false =>
        exact absurd (List.mem_map_of_mem Prod.fst (pending_of_mem env t x b hmem hx hu)) hin
  refine ⟨o1, o2, ?_, ?_, (hwf.1).sublist (pending_sublist env t), ?_, ?_, ?_⟩
  · rw [o3, w2]
    rfl
  · rw [o4, w3]
    simp only [zero_add]
  · intro p b hmem hs
    exact ⟨fun h => (mem_pending env t p b h).2.2, fun h => pending_of_mem env t p b hmem hs h⟩
  · intro p b hmem hs hu
    have hnot : p ∉ (pending env t).map Prod.fst := by
      intro hin
      rw [hpaths p b hmem hin] at hu
      cases hu
    refine ⟨hnot, r1.tree, o5, ?_⟩
    have g1 : fs.Tree.lookup r1.tree p = fs.Tree.lookup t p := (w4 p hs).1 hnot
    rw [g1]
    exact fs.Tree.lookup_of_mem t hwf.1 p _ hmem
  · rw [o5]
    exact RunMany_quiet u env.unmarshal envs r1.tree henvs hinv

/-- The sample spool: the first run puts the body of the message `01A` under its
dated key, and nothing is put in two later runs, of which the first fails. -/
theorem RunOnce_uploads_once_witness :
    (sampleUploader.RunOnce sampleEnv (some sampleTree)).puts =
        [{ key := strings.bytes "example.com/inbound/2026/02/14/01A.eml",
           path := "/s/incoming/d/01A.eml", size := 6 }] ∧
      ∀ o ∈ sampleUploader.RunMany [brokenEnv, sampleEnv]
          (sampleUploader.RunOnce sampleEnv (some sampleTree)).incoming,
        o.puts = [] ∧ o.uploaded = 0 ∧ o.panicked = false ∧
        o.incoming = (sampleUploader.RunOnce sampleEnv (some sampleTree)).incoming :=
  ⟨(RunOnce_uploads_once sampleUploader sampleEnv sampleTree [brokenEnv, sampleEnv] rfl
      sampleEnv_faithful sampleTree_wellFormed sampleEnvs_unmarshal).2.2.1.trans (by decide),
    (RunOnce_uploads_once sampleUploader sampleEnv sampleTree [brokenEnv, sampleEnv] rfl
      sampleEnv_faithful sampleTree_wellFormed sampleEnvs_unmarshal).2.2.2.2.2.2.2⟩

/-- The claim C21 fails when `Put` succeeds and the rewrite of the metadata does
not: with `os.Rename` failing, the first run puts the body of the message `01A` and
returns the error of the rename, the metadata keeps no `object_key`, and the next
run, in which nothing fails, puts the same body again. It also fails over a spool
in which the body of `01A` is missing: the run stops at `os.Stat` and the message
`01B`, which is not uploaded and has its body, is not put. -/
theorem RunOnce_puts_again :
    renameFailsEnv.faults.put (strings.bytes "example.com/inbound/2026/02/14/01A.eml") = false ∧
      sampleEnv.faults.put (strings.bytes "example.com/inbound/2026/02/14/01A.eml") = false ∧
      (sampleUploader.RunOnce renameFailsEnv (some sampleTree)).puts =
        [{ key := strings.bytes "example.com/inbound/2026/02/14/01A.eml",
           path := "/s/incoming/d/01A.eml", size := 6 }] ∧
      (sampleUploader.RunOnce renameFailsEnv (some sampleTree)).err =
        some (Error.renameMeta "/s/incoming/d/01A.json") ∧
      (sampleUploader.RunOnce sampleEnv
          (sampleUploader.RunOnce renameFailsEnv (some sampleTree)).incoming).puts =
        [{ key := strings.bytes "example.com/inbound/2026/02/14/01A.eml",
           path := "/s/incoming/d/01A.eml", size := 6 }] ∧
      (sampleUploader.RunOnce sampleEnv
          (sampleUploader.RunOnce renameFailsEnv (some sampleTree)).incoming).uploaded = 1 ∧
      (sampleUploader.RunOnce sampleEnv
          (sampleUploader.RunOnce renameFailsEnv (some sampleTree)).incoming).err = none ∧
      pending sampleEnv brokenTree =
        [("/s/incoming/d/01A.json", [48, 49, 65]), ("/s/incoming/d/01B.json", [48, 49, 66])] ∧
      (sampleUploader.RunOnce sampleEnv (some brokenTree)).puts = [] ∧
      (sampleUploader.RunOnce sampleEnv (some brokenTree)).err =
        some (Error.statEml "/s/incoming/d/01A.eml") := by
  decide

end uploader
